import Mathlib

/-!
# The open-addressing hash table of `hashmap.c` and the context of `main.c`

A shallow embedding of `src/hashmap.c` and the properties of its
`put` / `get` / `delete` operations, followed by embeddings of
`dyibicc_update`, `dyibicc_set_environment` and `dyibicc_free` of `src/main.c`,
of `align_to_u`, `align_to_s`, `format` and `dirname` of `src/src/util.c`, and of
`gsi_hash_builder_finish` of `src/src/dyn_basic_pdb.h` (the conventions of each
are given where it starts).

Modelling conventions.

* A key is the byte string that a `(char* key, int keylen)` pair designates, so
  the length of a key is its `keylen`. Callers pass pointers to bytes, never one
  of the two reserved pointer values.
* The `key` field of a bucket is `NULL`, `TOMBSTONE` or a pointer to key bytes;
  the bucket keeps the `keylen` it was written with in a field of its own.
* A value (`void*`) is a natural number, `NULL` being `0`.
* A pointer to a bucket is the bucket's index in the bucket array.
* The `int` fields `capacity`, `used`, `keylen` and the loop counters are
  natural numbers and their arithmetic is exact (no 32-bit overflow);
  `fnv_hash` is computed modulo `2^64` as in the source.
* The bucket index is `(hash + i) % capacity` as written in the source. For a
  capacity that divides `2^64`, as every power of two an `int` holds does, the
  wrap-around of the `uint64_t` sum `hash + i` does not change it
  (`probe_index_wrap`).
* `assert`, `unreachable()` and reads outside the bucket array end the run
  with a `Fault`. The recursion `hashmap_put2 → get_or_insert_entry → rehash →
  hashmap_put2` and the doubling loop of `rehash` carry a bound; on the maps a
  client can reach the bounds are never met (`put_total_or_assertion`).
* Allocation and freeing (`bumpcalloc`, `alloc_free`) do not change a map and
  are not part of the state.
-/

deriving instance DecidableEq for Except

namespace Chibicc

/-- One byte of key memory (`unsigned char`). -/
abbrev Byte := Fin 256

/-- The ways a run of the code can stop without returning. -/
inductive Fault where
  | unreachable
  | assertion
  | out_of_bounds
  | recursion_depth
  | loop_bound
  | null_pointer
  | division_by_zero
  | signed_overflow
  deriving DecidableEq, Repr

/-- The lifetime tag passed to every allocation. -/
inductive AllocLifetime where
  | AL_Temp
  | AL_Compile
  | AL_Link
  | AL_Manual
  deriving DecidableEq, Repr

/-- The `key` field of a bucket: `NULL`, `TOMBSTONE` or a pointer to key bytes. -/
inductive KeyPtr where
  | null
  | tombstone
  | ptr (bytes : List Byte)
  deriving DecidableEq, Repr

/-- A bucket of the table (`HashEntry`). -/
structure HashEntry where
  key : KeyPtr
  keylen : Nat
  val : Nat
  deriving DecidableEq, Repr

/-- The table (`HashMap`); `buckets = none` is the null bucket array. -/
structure HashMap where
  buckets : Option (List HashEntry)
  capacity : Nat
  used : Nat
  alloc_lifetime : AllocLifetime
  deriving DecidableEq, Repr

def INIT_SIZE : Nat := 16

def HIGH_WATERMARK : Nat := 70

def LOW_WATERMARK : Nat := 50

/-- A bucket as `bumpcalloc` returns it: all fields zero. -/
def HashEntry.zero : HashEntry := ⟨KeyPtr.null, 0, 0⟩

/-- A zero-initialised map with the given lifetime tag. -/
def HashMap.zero (al : AllocLifetime) : HashMap := ⟨none, 0, 0, al⟩

/-- The hash of `hashmap.c`: for each byte, multiply, then xor the byte in. -/
def fnv_hash (s : List Byte) : Nat :=
  s.foldl (fun hash c => ((hash * 0x100000001b3) % 2 ^ 64) ^^^ c.val) 0xcbf29ce484222325

/-- The condition `ent->key && ent->key != TOMBSTONE`. -/
def HashEntry.live (ent : HashEntry) : Bool :=
  match ent.key with
  | KeyPtr.ptr _ => true
  | _ => false

/-- The function `match` of the source. -/
def entry_match (ent : HashEntry) (key : List Byte) : Bool :=
  match ent.key with
  | KeyPtr.ptr bytes => ent.keylen == key.length && bytes == key
  | _ => false

/-- The probe loop of `get_entry`: `n` iterations remain, the counter is `i`. -/
def get_entry_loop (bs : List HashEntry) (capacity hash : Nat) (key : List Byte) :
    Nat → Nat → Except Fault (Option (Nat × HashEntry))
  | 0, _ => Except.error Fault.unreachable
  | n + 1, i =>
    match bs[(hash + i) % capacity]? with
    | none => Except.error Fault.out_of_bounds
    | some ent =>
      if entry_match ent key then Except.ok (some ((hash + i) % capacity, ent))
      else if ent.key = KeyPtr.null then Except.ok none
      else get_entry_loop bs capacity hash key n (i + 1)

/-- The function `get_entry`: the bucket found, with its index, or `none` for `NULL`. -/
def get_entry (map : HashMap) (key : List Byte) : Except Fault (Option (Nat × HashEntry)) :=
  match map.buckets with
  | none => Except.ok none
  | some bs => get_entry_loop bs map.capacity (fnv_hash key) key map.capacity 0

/-- The function `hashmap_get2`. -/
def hashmap_get2 (map : HashMap) (key : List Byte) : Except Fault Nat :=
  match get_entry map key with
  | Except.error e => Except.error e
  | Except.ok none => Except.ok 0
  | Except.ok (some (_, ent)) => Except.ok ent.val

/-- The function `hashmap_delete2`. -/
def hashmap_delete2 (map : HashMap) (key : List Byte) : Except Fault HashMap :=
  match get_entry map key with
  | Except.error e => Except.error e
  | Except.ok none => Except.ok map
  | Except.ok (some (i, ent)) =>
    match map.buckets with
    | none => Except.ok map
    | some bs => Except.ok { map with buckets := some (bs.set i { ent with key := KeyPtr.tombstone }) }

/-- The probe loop of `get_or_insert_entry` on the bucket array `bs` of `map`. -/
def get_or_insert_entry_loop (map : HashMap) (bs : List HashEntry) (hash : Nat)
    (key : List Byte) : Nat → Nat → Except Fault (HashMap × Nat × HashEntry)
  | 0, _ => Except.error Fault.unreachable
  | n + 1, i =>
    match bs[(hash + i) % map.capacity]? with
    | none => Except.error Fault.out_of_bounds
    | some ent =>
      if entry_match ent key then Except.ok (map, (hash + i) % map.capacity, ent)
      else if ent.key = KeyPtr.tombstone then
        Except.ok
          ({ map with buckets := some (bs.set ((hash + i) % map.capacity)
                { ent with key := KeyPtr.ptr key, keylen := key.length }) },
            (hash + i) % map.capacity,
            { ent with key := KeyPtr.ptr key, keylen := key.length })
      else if ent.key = KeyPtr.null then
        Except.ok
          ({ map with
              buckets := some (bs.set ((hash + i) % map.capacity)
                { ent with key := KeyPtr.ptr key, keylen := key.length }),
              used := map.used + 1 },
            (hash + i) % map.capacity,
            { ent with key := KeyPtr.ptr key, keylen := key.length })
      else get_or_insert_entry_loop map bs hash key n (i + 1)

/-- The doubling loop of `rehash`; the first argument bounds the iterations. -/
def rehash_capacity (nkeys : Nat) : Nat → Nat → Except Fault Nat
  | 0, _ => Except.error Fault.loop_bound
  | fuel + 1, cap =>
    if nkeys * 100 / cap ≥ LOW_WATERMARK then rehash_capacity nkeys fuel (cap * 2)
    else Except.ok cap

/-- The copy loop of `rehash`: every live bucket is put into `map2`, under the key
bytes its `key` points to (`keylen` is their length in every bucket a put wrote,
`InvCore.keylen_eq`). -/
def rehash_copy (put2 : HashMap → List Byte → Nat → Except Fault HashMap) :
    List HashEntry → HashMap → Except Fault HashMap
  | [], map2 => Except.ok map2
  | ent :: rest, map2 =>
    match ent.key with
    | KeyPtr.ptr bytes =>
      match put2 map2 bytes ent.val with
      | Except.error e => Except.error e
      | Except.ok map2 => rehash_copy put2 rest map2
    | _ => rehash_copy put2 rest map2

/-- The buckets the two `for` loops of `rehash` visit: the first `capacity` ones. -/
def rehash_visited (map : HashMap) : List HashEntry :=
  match map.buckets with
  | none => []
  | some bs => bs.take map.capacity

/-- The number `nkeys` that `rehash` counts. -/
def rehash_nkeys (map : HashMap) : Nat := (rehash_visited map).countP HashEntry.live

/-- The function `rehash`, given the `hashmap_put2` it calls. -/
def rehash_with (put2 : HashMap → List Byte → Nat → Except Fault HashMap)
    (map : HashMap) : Except Fault HashMap :=
  match rehash_capacity (rehash_nkeys map) (rehash_nkeys map + 2) map.capacity with
  | Except.error e => Except.error e
  | Except.ok cap =>
    if cap = 0 then Except.error Fault.assertion
    else
      match rehash_copy put2 (rehash_visited map)
          ⟨some (List.replicate cap HashEntry.zero), cap, 0, map.alloc_lifetime⟩ with
      | Except.error e => Except.error e
      | Except.ok map2 =>
        if map2.used = rehash_nkeys map then Except.ok map2 else Except.error Fault.assertion

/-- The function `get_or_insert_entry`, given the `rehash` it calls. -/
def get_or_insert_entry_with (rehash : HashMap → Except Fault HashMap)
    (map : HashMap) (key : List Byte) : Except Fault (HashMap × Nat × HashEntry) :=
  match map.buckets with
  | none =>
    get_or_insert_entry_loop
      { map with buckets := some (List.replicate INIT_SIZE HashEntry.zero), capacity := INIT_SIZE }
      (List.replicate INIT_SIZE HashEntry.zero) (fnv_hash key) key INIT_SIZE 0
  | some bs =>
    if map.used * 100 / map.capacity ≥ HIGH_WATERMARK then
      match rehash map with
      | Except.error e => Except.error e
      | Except.ok map1 =>
        match map1.buckets with
        | none => Except.error Fault.out_of_bounds
        | some bs1 => get_or_insert_entry_loop map1 bs1 (fnv_hash key) key map1.capacity 0
    else get_or_insert_entry_loop map bs (fnv_hash key) key map.capacity 0

/-- The function `hashmap_put2` with a bound on the depth of the recursion
`hashmap_put2 → get_or_insert_entry → rehash → hashmap_put2`. -/
def hashmap_put2_depth : Nat → HashMap → List Byte → Nat → Except Fault HashMap
  | 0, _, _, _ => Except.error Fault.recursion_depth
  | d + 1, map, key, val =>
    match get_or_insert_entry_with (rehash_with (hashmap_put2_depth d)) map key with
    | Except.error e => Except.error e
    | Except.ok (map1, i, ent) =>
      match map1.buckets with
      | none => Except.error Fault.out_of_bounds
      | some bs => Except.ok { map1 with buckets := some (bs.set i { ent with val := val }) }

/-- The function `rehash`. -/
def rehash (map : HashMap) : Except Fault HashMap :=
  rehash_with (hashmap_put2_depth 1) map

/-- The function `get_or_insert_entry`. -/
def get_or_insert_entry (map : HashMap) (key : List Byte) :
    Except Fault (HashMap × Nat × HashEntry) :=
  get_or_insert_entry_with rehash map key

/-- The function `hashmap_put2`. -/
def hashmap_put2 (map : HashMap) (key : List Byte) (val : Nat) : Except Fault HashMap :=
  hashmap_put2_depth 2 map key val

/-- A call made by a client of the table. -/
inductive Op where
  | put (key : List Byte) (val : Nat)
  | delete (key : List Byte)
  deriving DecidableEq, Repr

/-- One call applied to a map. -/
def Op.apply (map : HashMap) : Op → Except Fault HashMap
  | Op.put key val => hashmap_put2 map key val
  | Op.delete key => hashmap_delete2 map key

/-- A sequence of calls applied in order; the run stops at the first fault. -/
def run : List Op → HashMap → Except Fault HashMap
  | [], map => Except.ok map
  | op :: rest, map =>
    match op.apply map with
    | Except.error e => Except.error e
    | Except.ok map1 => run rest map1

/-- The maps a client can obtain from a zero-initialised one. -/
inductive Reachable : HashMap → Prop where
  | zero (al : AllocLifetime) : Reachable (HashMap.zero al)
  | put {map map1 : HashMap} (key : List Byte) (val : Nat) :
      Reachable map → hashmap_put2 map key val = Except.ok map1 → Reachable map1
  | delete {map map1 : HashMap} (key : List Byte) :
      Reachable map → hashmap_delete2 map key = Except.ok map1 → Reachable map1

/-- The number of live (neither empty nor tombstone) buckets. -/
def live_count (map : HashMap) : Nat :=
  match map.buckets with
  | none => 0
  | some bs => bs.countP HashEntry.live

/-- The condition `ent->key != NULL`. -/
def HashEntry.nonempty (ent : HashEntry) : Bool :=
  match ent.key with
  | KeyPtr.null => false
  | _ => true

/-- The number of non-empty buckets: live ones and tombstones. -/
def nonempty_count (map : HashMap) : Nat :=
  match map.buckets with
  | none => 0
  | some bs => bs.countP HashEntry.nonempty

/-! ## Definitions used by the proofs -/

/-- The bucket `hashmap_put2` leaves where its probe stopped at the bucket `e0`. -/
def put_entry (e0 : HashEntry) (key : List Byte) (val : Nat) : HashEntry :=
  if entry_match e0 key = true then { e0 with val := val }
  else ⟨KeyPtr.ptr key, key.length, val⟩

/-- The map `hashmap_put2` leaves when its probe of the bucket array `bs` stopped at
index `idx`, which held `e0`. -/
def put_at (map : HashMap) (bs : List HashEntry) (key : List Byte) (val : Nat) (idx : Nat)
    (e0 : HashEntry) : HashMap :=
  { map with
    buckets := some (bs.set idx (put_entry e0 key val)),
    used := if e0.key = KeyPtr.null then map.used + 1 else map.used }

/-- The part of `hashmap_put2` that follows the allocation or rehash: the probe
loop and the store of the value. -/
def put_probe (map : HashMap) (bs : List HashEntry) (key : List Byte) (val : Nat) :
    Except Fault HashMap :=
  match get_or_insert_entry_loop map bs (fnv_hash key) key map.capacity 0 with
  | Except.error e => Except.error e
  | Except.ok (map1, i, ent) =>
    match map1.buckets with
    | none => Except.error Fault.out_of_bounds
    | some bs1 => Except.ok { map1 with buckets := some (bs1.set i { ent with val := val }) }

/-- The probe positions `i ≤ j < d` of `key` all hold buckets satisfying `P`. -/
def Passed (bs : List HashEntry) (cap h : Nat) (P : HashEntry → Prop) (i d : Nat) : Prop :=
  ∀ j, i ≤ j → j < d → ∃ ej, bs[(h + j) % cap]? = some ej ∧ P ej

/-- How `hashmap_put2` obtains the map `m0` it probes: by allocating the first
bucket array, by leaving the map as it is, or by a rehash. -/
def Prepared (put2 : HashMap → List Byte → Nat → Except Fault HashMap) (map m0 : HashMap) :
    Prop :=
  (map.buckets = none ∧
      m0 = { map with
        buckets := some (List.replicate INIT_SIZE HashEntry.zero), capacity := INIT_SIZE }) ∨
    (map.buckets ≠ none ∧ map.used * 100 / map.capacity < HIGH_WATERMARK ∧ m0 = map) ∨
    (map.buckets ≠ none ∧ HIGH_WATERMARK ≤ map.used * 100 / map.capacity ∧
      rehash_with put2 map = Except.ok m0)

/-- The shape of a map and its probe chains: the bucket array has `capacity`
buckets, `used` counts the non-empty ones, and every live bucket is reached from
the hash of its key through non-empty buckets only; the `keylen` of a live bucket is
the length of its key. -/
structure InvCore (m : HashMap) : Prop where
  null_map : m.buckets = none → m.capacity = 0 ∧ m.used = 0
  length_eq : ∀ bs, m.buckets = some bs → bs.length = m.capacity
  used_eq : ∀ bs, m.buckets = some bs → m.used = bs.countP HashEntry.nonempty
  cap_ge : ∀ bs, m.buckets = some bs → INIT_SIZE ≤ m.capacity
  chain : ∀ bs j e b, m.buckets = some bs → bs[j]? = some e → e.key = KeyPtr.ptr b →
    ∃ d, d < m.capacity ∧ (fnv_hash b + d) % m.capacity = j ∧
      Passed bs m.capacity (fnv_hash b) (fun ej => ej.nonempty = true) 0 d
  keylen_eq : ∀ (bs : List HashEntry) (j : Nat) (e : HashEntry) (b : List Byte),
    m.buckets = some bs → bs[j]? = some e → e.key = KeyPtr.ptr b → e.keylen = b.length

/-- The invariant of reachable maps: `InvCore` and the high-watermark bound that a
completed put leaves. -/
structure Inv (m : HashMap) extends InvCore m : Prop where
  watermark : ∀ bs, m.buckets = some bs → m.used * 100 < HIGH_WATERMARK * m.capacity + 100

/-- The reference finite map of the specification after one call: `put` is
insert-or-replace, `delete` is removal. -/
def ref_apply (f : List Byte → Option Nat) : Op → List Byte → Option Nat
  | Op.put key val => fun k => if k = key then some val else f k
  | Op.delete key => fun k => if k = key then none else f k

/-- The reference finite map after a sequence of calls, starting from the empty map. -/
def ref_run (ops : List Op) : List Byte → Option Nat :=
  ops.foldl ref_apply (fun _ => none)

/-- What a lookup in the reference map returns as a pointer: the value, or `NULL`. -/
def ref_get (f : List Byte → Option Nat) (key : List Byte) : Nat := (f key).getD 0

/-- The keys of the puts of a sequence of calls, in order. -/
def put_keys : List Op → List (List Byte)
  | [] => []
  | Op.put key _ :: rest => key :: put_keys rest
  | Op.delete _ :: rest => put_keys rest

/-- The map a sequence of calls leaves, started from a zero-initialised map
(the zero-initialised map itself if the run faults). -/
def map_after (ops : List Op) (al : AllocLifetime) : HashMap :=
  match run ops (HashMap.zero al) with
  | Except.ok m => m
  | Except.error _ => HashMap.zero al

/-- The scenario of the specification: `"a"→1`, `"b"→2`, delete `"a"`, `"c"→3`. -/
def scenario_ops : List Op := [Op.put [97] 1, Op.put [98] 2, Op.delete [97], Op.put [99] 3]

/-- Calls on two keys with the same first probe position, `"a"` and `"q"`: the
second put of `"q"` finds the tombstone of `"a"` before the live bucket of `"q"`. -/
def shadow_ops : List Op := [Op.put [97] 1, Op.put [113] 2, Op.delete [97], Op.put [113] 3]

/-- Some bucket of the map matches `key` and holds `val`. -/
def Holds (m : HashMap) (key : List Byte) (val : Nat) : Prop :=
  ∃ (bs : List HashEntry) (j : Nat) (e : HashEntry),
    m.buckets = some bs ∧ bs[j]? = some e ∧ entry_match e key = true ∧ e.val = val

/-- No two buckets of the map match the same key. -/
def NoDup (m : HashMap) : Prop :=
  ∀ (bs : List HashEntry) (i j : Nat) (ei ej : HashEntry) (key : List Byte),
    m.buckets = some bs → bs[i]? = some ei → bs[j]? = some ej →
    entry_match ei key = true → entry_match ej key = true → i = j

/-- No bucket of the map is a tombstone. -/
def NoTomb (m : HashMap) : Prop :=
  ∀ (bs : List HashEntry) (j : Nat) (e : HashEntry),
    m.buckets = some bs → bs[j]? = some e → e.key ≠ KeyPtr.tombstone

/-- The map holds exactly the entries of the reference map `f`, each in one bucket. -/
def Sim (m : HashMap) (f : List Byte → Option Nat) : Prop :=
  NoDup m ∧ ∀ key val, Holds m key val ↔ f key = some val

/-- Twelve puts of different one-byte keys: the map they leave is at the high
watermark, so that the next put rehashes it. -/
def fill_ops : List Op :=
  [Op.put [97] 1, Op.put [98] 2, Op.put [99] 3, Op.put [100] 4, Op.put [101] 5, Op.put [102] 6,
    Op.put [103] 7, Op.put [104] 8, Op.put [105] 9, Op.put [106] 10, Op.put [107] 11,
    Op.put [108] 12]

/-- Ten more puts of different one-byte keys, which bring a map with two used
buckets to the high watermark. -/
def fill_tail_ops : List Op :=
  [Op.put [98] 2, Op.put [99] 3, Op.put [100] 4, Op.put [101] 5, Op.put [102] 6,
    Op.put [103] 7, Op.put [104] 8, Op.put [105] 9, Op.put [106] 10, Op.put [107] 11]

/-- The hash the specification describes, 64-bit FNV-1a: starting from
`0xcbf29ce484222325`, each byte in order is XORed into the hash and the result is
then multiplied by `0x100000001b3` modulo `2^64`. -/
def fnv1a_hash (s : List Byte) : Nat :=
  s.foldl (fun hash c => ((hash ^^^ c.val) * 0x100000001b3) % 2 ^ 64) 0xcbf29ce484222325

/-! ## The update orchestrator of `main.c`

The collaborators `tokenize_file`, `preprocess`, `parse`, `codegen`, `link_dyos`
and the C library's `fopen` are parameters. A collaborator reports an error through
`error`, `error_at` or `error_tok` of `util.c`, which end in
`longjmp(toplevel_update_jmpbuf, 1)`: control then leaves `dyibicc_update` and does
not come back. `init_macros`, `codegen_init` and `fclose` are taken to return. The
run of `dyibicc_update` is recorded as the list of the calls it makes. A pointer is
a natural number, the null pointer being `0`; a read through the null pointer ends
the run with `Fault.null_pointer`. -/

/-- A tracked file (`DyoLinkData`): the path of its source and of its object blob. -/
structure DyoLinkData where
  source_name : List Byte
  output_dyo_name : List Byte
  deriving DecidableEq, Repr

/-- How a call of a collaborator ends: it returns a value, or it reports an error
and jumps to `toplevel_update_jmpbuf`. -/
inductive Call (α : Type) where
  | returns (a : α)
  | jumps
  deriving DecidableEq, Repr

/-- The collaborators of one update. The number is the index of the tracked file
the call is made for. `tokenize_file` returns whether its result is a token list
(not `NULL`), `fopen` whether it opened the file, `link_dyos` its boolean. -/
structure Collaborators where
  tokenize_file : Nat → List Byte → Call Bool
  preprocess : Nat → Call Unit
  parse : Nat → Call Unit
  fopen : Nat → List Byte → Bool
  codegen : Nat → Call Unit
  link_dyos : Call Bool

/-- The steps of the compilation of one file that can end it with an error. -/
inductive Stage where
  | tokenize
  | preprocess
  | parse
  | open_file
  | codegen
  deriving DecidableEq, Repr

/-- The calls `dyibicc_update` makes, with the index of the file they are made for. -/
inductive Event where
  | alloc_init (al : AllocLifetime)
  | alloc_reset (al : AllocLifetime)
  | init_macros (i : Nat)
  | tokenize_file (i : Nat) (path : List Byte)
  | error (i : Nat)
  | preprocess (i : Nat)
  | codegen_init (i : Nat)
  | parse (i : Nat)
  | fopen (i : Nat) (path : List Byte)
  | codegen (i : Nat)
  | fclose (i : Nat)
  | link_dyos
  deriving DecidableEq, Repr

/-- The file an event belongs to; the arena calls and the link belong to none. -/
def Event.file : Event → Option Nat
  | Event.alloc_init _ => none
  | Event.alloc_reset _ => none
  | Event.init_macros i => some i
  | Event.tokenize_file i _ => some i
  | Event.error i => some i
  | Event.preprocess i => some i
  | Event.codegen_init i => some i
  | Event.parse i => some i
  | Event.fopen i _ => some i
  | Event.codegen i => some i
  | Event.fclose i => some i
  | Event.link_dyos => none

/-- How a call of `dyibicc_update` ends: it returns its boolean, it is left through
the `longjmp` of an error, its entry assertion fails, or it stops at another
fault. -/
inductive Outcome where
  | returned (result : Bool)
  | jumped
  | assertion_failed
  | faulted (f : Fault)
  deriving DecidableEq, Repr

/-- The function `must_tokenize_file`: `error` when `tokenize_file` returns `NULL`. -/
def must_tokenize_file (c : Collaborators) (i : Nat) (path : List Byte) :
    List Event × Call Unit :=
  match c.tokenize_file i path with
  | Call.returns true => ([Event.tokenize_file i path], Call.returns ())
  | Call.returns false => ([Event.tokenize_file i path, Event.error i], Call.jumps)
  | Call.jumps => ([Event.tokenize_file i path], Call.jumps)

/-- The function `open_file`: `stdout` for the path `"-"`, otherwise
`fopen(path, "wb")`, and `error` when that fails. -/
def open_file (c : Collaborators) (i : Nat) (path : List Byte) : List Event × Call Unit :=
  if path = [45] then ([], Call.returns ())
  else if c.fopen i path = true then ([Event.fopen i path], Call.returns ())
  else ([Event.fopen i path, Event.error i], Call.jumps)

/-- The body of the loop of `dyibicc_update` for the file of index `i`: the calls
made, and the stage at which an error ended it, if any. -/
def compile_one (c : Collaborators) (i : Nat) (dld : DyoLinkData) : List Event × Option Stage :=
  match must_tokenize_file c i dld.source_name with
  | (e1, Call.jumps) =>
    ([Event.alloc_init AllocLifetime.AL_Compile, Event.init_macros i] ++ e1, some Stage.tokenize)
  | (e1, Call.returns _) =>
    match c.preprocess i with
    | Call.jumps =>
      ([Event.alloc_init AllocLifetime.AL_Compile, Event.init_macros i] ++ e1 ++
        [Event.preprocess i], some Stage.preprocess)
    | Call.returns _ =>
      match c.parse i with
      | Call.jumps =>
        ([Event.alloc_init AllocLifetime.AL_Compile, Event.init_macros i] ++ e1 ++
          [Event.preprocess i, Event.codegen_init i, Event.parse i], some Stage.parse)
      | Call.returns _ =>
        match open_file c i dld.output_dyo_name with
        | (e2, Call.jumps) =>
          ([Event.alloc_init AllocLifetime.AL_Compile, Event.init_macros i] ++ e1 ++
            [Event.preprocess i, Event.codegen_init i, Event.parse i] ++ e2,
            some Stage.open_file)
        | (e2, Call.returns _) =>
          match c.codegen i with
          | Call.jumps =>
            ([Event.alloc_init AllocLifetime.AL_Compile, Event.init_macros i] ++ e1 ++
              [Event.preprocess i, Event.codegen_init i, Event.parse i] ++ e2 ++
              [Event.codegen i], some Stage.codegen)
          | Call.returns _ =>
            ([Event.alloc_init AllocLifetime.AL_Compile, Event.init_macros i] ++ e1 ++
              [Event.preprocess i, Event.codegen_init i, Event.parse i] ++ e2 ++
              [Event.codegen i, Event.fclose i, Event.alloc_reset AllocLifetime.AL_Compile],
              none)

/-- The loop of `dyibicc_update` over the tracked files from index `i` on: the
calls made, and the index and stage of the file whose error ended it, if any. -/
def compile_files (c : Collaborators) : Nat → List DyoLinkData → List Event × Option (Nat × Stage)
  | _, [] => ([], none)
  | i, dld :: rest =>
    match compile_one c i dld with
    | (t, some s) => (t, some (i, s))
    | (t, none) => (t ++ (compile_files c (i + 1) rest).1, (compile_files c (i + 1) rest).2)

/-- The function `dyibicc_update`, called with the pointer `context` while the
global `user_context` holds the pointer given; for a `context` that is not null,
`files` is `ctx->files`, of `ctx->num_files` entries. When the assertion has passed
for a null `context`, the loop condition reads `ctx->num_files` through the null
pointer, before any call is made. The result is the list of calls made and how the
call ended. -/
def dyibicc_update (user_context context : Nat) (files : List DyoLinkData)
    (c : Collaborators) : List Event × Outcome :=
  if context ≠ user_context then ([], Outcome.assertion_failed)
  else if context = 0 then ([], Outcome.faulted Fault.null_pointer)
  else
    match compile_files c 0 files with
    | (t, some _) => (t, Outcome.jumped)
    | (t, none) =>
      match c.link_dyos with
      | Call.jumps =>
        (t ++ [Event.alloc_init AllocLifetime.AL_Link, Event.link_dyos], Outcome.jumped)
      | Call.returns b =>
        (t ++ [Event.alloc_init AllocLifetime.AL_Link, Event.link_dyos,
            Event.alloc_reset AllocLifetime.AL_Link], Outcome.returned b)

/-- Collaborators that all succeed, except that the code generation of the files
whose index is in `bad` reports an error; the link returns `link`. -/
def sample_collaborators (bad : List Nat) (link : Bool) : Collaborators where
  tokenize_file := fun _ _ => Call.returns true
  preprocess := fun _ => Call.returns ()
  parse := fun _ => Call.returns ()
  fopen := fun _ _ => true
  codegen := fun i => if i ∈ bad then Call.jumps else Call.returns ()
  link_dyos := Call.returns link

/-- Collaborators that all succeed, except that the parse of the files whose index
is in `bad` reports an error. -/
def sample_collaborators_parse (bad : List Nat) : Collaborators where
  tokenize_file := fun _ _ => Call.returns true
  preprocess := fun _ => Call.returns ()
  parse := fun i => if i ∈ bad then Call.jumps else Call.returns ()
  fopen := fun _ _ => true
  codegen := fun _ => Call.returns ()
  link_dyos := Call.returns true

/-- Three tracked files `a.c`, `b.c`, `c.c` with the blobs `a`, `b`, `c`. -/
def sample_files : List DyoLinkData :=
  [⟨[97, 46, 99], [97]⟩, ⟨[98, 46, 99], [98]⟩, ⟨[99, 46, 99], [99]⟩]

/-! ## The rounding functions of `util.c`

`align_to_u` computes on `uint64_t`: each operation wraps modulo `2^64`.
`align_to_s` computes on `int64_t`: a result outside the range of the type is
undefined behaviour and ends the run, as does a division by zero. The division of
C truncates towards zero (`Int.tdiv`). -/

/-- The function `align_to_u`, `(n + align - 1) / align * align` on `uint64_t`. -/
def align_to_u (n align : Nat) : Except Fault Nat :=
  if align = 0 then Except.error Fault.division_by_zero
  else
    Except.ok
      ((((n + align) % 2 ^ 64 + (2 ^ 64 - 1)) % 2 ^ 64) / align * align % 2 ^ 64)

/-- The values of an `int64_t`. -/
def int64_range (x : Int) : Prop := -2 ^ 63 ≤ x ∧ x < 2 ^ 63

instance (x : Int) : Decidable (int64_range x) := by
  unfold int64_range
  exact inferInstance

/-- The function `align_to_s`, `(n + align - 1) / align * align` on `int64_t`. -/
def align_to_s (n align : Int) : Except Fault Int :=
  if ¬ int64_range (n + align) then Except.error Fault.signed_overflow
  else if ¬ int64_range (n + align - 1) then Except.error Fault.signed_overflow
  else if align = 0 then Except.error Fault.division_by_zero
  else if ¬ int64_range ((n + align - 1).tdiv align) then Except.error Fault.signed_overflow
  else if ¬ int64_range ((n + align - 1).tdiv align * align) then
    Except.error Fault.signed_overflow
  else Except.ok ((n + align - 1).tdiv align * align)

/-- Two puts and the delete of the first key: the map they leave has a tombstone
at the first probe position of `"a"` and of `"q"`. -/
def tombstone_ops : List Op := [Op.put [97] 1, Op.put [98] 2, Op.delete [97]]

/-- Whether an event is a call of `alloc_init` or `alloc_reset`. -/
def Event.arena : Event → Bool
  | Event.alloc_init _ => true
  | Event.alloc_reset _ => true
  | _ => false

/-- Collaborators that all succeed, except that `link_dyos` reports an error
through `error`. -/
def sample_collaborators_link_error : Collaborators where
  tokenize_file := fun _ _ => Call.returns true
  preprocess := fun _ => Call.returns ()
  parse := fun _ => Call.returns ()
  fopen := fun _ _ => true
  codegen := fun _ => Call.returns ()
  link_dyos := Call.jumps

/-! ## The context of `main.c`

Conventions of the embedding of `dyibicc_set_environment` and `dyibicc_free`.

* A string (`char*`) is the list of its bytes before the terminating NUL, so that
  `strlen` is the length of the list; a string pointer that the code tests
  against `NULL`, or that may be `NULL` where it is used, is an `Option`.
* A pointer to a block of memory is a natural number, `NULL` being `0`. The
  allocations succeed; the pointer `calloc` returns is a parameter.
* The `sizeof` of the types declared in `dyibicc.h`, which is not part of the
  sources at hand, are parameters, as is the lifetime whose enumerator is `0`.
* The system include paths are those of the branch taken when `X64WIN` is not set.
* `isalnum` is that of the `"C"` locale; no byte above `0x7f` is alphanumeric.
* `mkdir` acts on the file system only and is left out, as are the host callbacks
  copied into the context.
* `format` prints into `char buf[4096]`: a result of 4096 bytes or more writes
  outside the buffer, and a null pointer given to `%s` is read through. -/

/-- The bytes of the characters of a string literal of the source. -/
def bytes (s : String) : List Byte := s.toList.map (fun ch => Fin.ofNat ch.toNat)

/-- The argument `DyibiccEnviromentData* env_data`, without the host callbacks. -/
structure DyibiccEnviromentData where
  include_paths : List (List Byte)
  files : List (List Byte)
  dyibicc_include_dir : Option (List Byte)
  entry_point_name : Option (List Byte)
  cache_dir : Option (List Byte)
  deriving DecidableEq, Repr

/-- The block `UserContext` that `dyibicc_set_environment` builds: the counts and
the arrays and strings its pointers designate. -/
structure UserContext where
  num_include_paths : Nat
  include_paths : List (List Byte)
  num_files : Nat
  files : List DyoLinkData
  global_data : List HashMap
  entry_point_name : Option (List Byte)
  cache_dir : Option (List Byte)
  deriving DecidableEq, Repr

/-- The sizes of the types of `dyibicc.h` and the lifetime of enumerator `0`. -/
structure Abi where
  sizeof_UserContext : Nat
  sizeof_ptr : Nat
  sizeof_DyoLinkData : Nat
  sizeof_HashMap : Nat
  al_zero : AllocLifetime
  deriving DecidableEq, Repr

/-- A piece of a format string: literal text, or a `%s` with its argument. -/
inductive FmtItem where
  | text (s : List Byte)
  | str (arg : Option (List Byte))
  deriving DecidableEq, Repr

/-- The bytes `vsprintf` prints for a format string of text and `%s` pieces. -/
def vsprintf : List FmtItem → Except Fault (List Byte)
  | [] => Except.ok []
  | FmtItem.text s :: rest =>
    match vsprintf rest with
    | Except.error e => Except.error e
    | Except.ok r => Except.ok (s ++ r)
  | FmtItem.str none :: _ => Except.error Fault.null_pointer
  | FmtItem.str (some s) :: rest =>
    match vsprintf rest with
    | Except.error e => Except.error e
    | Except.ok r => Except.ok (s ++ r)

/-- The function `format` of `util.c`: `vsprintf` into `char buf[4096]`, then a copy
of the string. -/
def format (items : List FmtItem) : Except Fault (List Byte) :=
  match vsprintf items with
  | Except.error e => Except.error e
  | Except.ok s => if s.length < 4096 then Except.ok s else Except.error Fault.out_of_bounds

/-- The function `isalnum` in the `"C"` locale. -/
def isalnum (ch : Byte) : Bool :=
  (48 ≤ ch.val && ch.val ≤ 57) || (65 ≤ ch.val && ch.val ≤ 90) || (97 ≤ ch.val && ch.val ≤ 122)

/-- One step of the loop over `source_name_copy`: a character that is neither
alphanumeric nor `'-'` nor `'_'` becomes `'@'`. -/
def sanitize_char (q : Byte) : Byte :=
  if !isalnum q && q != 45 && q != 95 then 64 else q

/-- The string `output_name` computed for one source file:
`format(AL_Temp, "%s/%s.dyo", env_data->cache_dir, source_name_copy)`. -/
def dyo_output_name (cache_dir : Option (List Byte)) (file : List Byte) :
    Except Fault (List Byte) :=
  format [FmtItem.str cache_dir, FmtItem.text (bytes "/"),
    FmtItem.str (some (file.map sanitize_char)), FmtItem.text (bytes ".dyo")]

/-- The array `dyo_output_paths` that the loop over `env_data->files` fills. -/
def dyo_output_paths (cache_dir : Option (List Byte)) :
    List (List Byte) → Except Fault (List (List Byte))
  | [] => Except.ok []
  | file :: rest =>
    match dyo_output_name cache_dir file with
    | Except.error e => Except.error e
    | Except.ok name =>
      match dyo_output_paths cache_dir rest with
      | Except.error e => Except.error e
      | Except.ok names => Except.ok (name :: names)

/-- The array `sys_inc_paths`. -/
def sys_inc_paths (dyibicc_include_dir : Option (List Byte)) : Except Fault (List (List Byte)) :=
  match format [FmtItem.str dyibicc_include_dir, FmtItem.text (bytes "/linux")] with
  | Except.error e => Except.error e
  | Except.ok linux =>
    match format [FmtItem.str dyibicc_include_dir, FmtItem.text (bytes "/all")] with
    | Except.error e => Except.error e
    | Except.ok all =>
      Except.ok [linux, all, bytes "/usr/local/include", bytes "/usr/include/x86_64-linux-gnu",
        bytes "/usr/include"]

/-- The sum of `strlen(s) + 1` over the strings of an array. -/
def strings_len : List (List Byte) → Nat
  | [] => 0
  | s :: rest => (s.length + 1) + strings_len rest

/-- The value of `env_data->cache_dir` after `if (!env_data->cache_dir)
env_data->cache_dir = "."`. -/
def cache_dir_or_dot (cache_dir : Option (List Byte)) : List Byte :=
  match cache_dir with
  | some dir => dir
  | none => bytes "."

/-- The first pass: `total_size`, from the strings of the environment, the system
include paths `sys` and the output names `outs`. -/
def total_size (abi : Abi) (env : DyibiccEnviromentData) (sys outs : List (List Byte)) : Nat :=
  abi.sizeof_UserContext +
    ((env.include_paths.length + sys.length) * abi.sizeof_ptr) +
    (env.files.length * abi.sizeof_DyoLinkData) +
    ((strings_len env.include_paths + strings_len sys) * 1) +
    (strings_len env.files * 1) +
    (strings_len outs * 1) +
    (match env.entry_point_name with
      | some name => name.length + 1
      | none => 0) +
    ((cache_dir_or_dot env.cache_dir).length + 1) +
    ((env.files.length + 1) * abi.sizeof_HashMap)

/-- What the second pass lays out behind the `UserContext` structure. -/
inductive Part where
  | include_paths_array
  | files_array
  | global_data_array
  | entry_point_name
  | cache_dir
  | include_path (i : Nat)
  | source_name (i : Nat)
  | output_dyo_name (i : Nat)
  deriving DecidableEq, Repr

/-- A part laid out: its offset from `data` and its size in bytes. -/
structure Placed where
  part : Part
  offset : Nat
  size : Nat
  deriving DecidableEq, Repr

/-- The state of the second pass: the parts laid out so far and `d - (char*)data`. -/
structure Fill where
  placed : List Placed
  d : Nat
  deriving DecidableEq, Repr

/-- One step `... = d; d += size` of the second pass. -/
def Fill.put (f : Fill) (part : Part) (size : Nat) : Fill :=
  ⟨f.placed ++ [⟨part, f.d, size⟩], f.d + size⟩

/-- A loop of the second pass over an array of strings: `strcpy(d, s);
d += strlen(s) + 1` for each string, the index `i` counting on. -/
def Fill.put_strings (mk : Nat → Part) : List (List Byte) → Nat → Fill → Fill
  | [], _, f => f
  | s :: rest, i, f => Fill.put_strings mk rest (i + 1) (f.put (mk i) (s.length + 1))

/-- The second pass of `dyibicc_set_environment`. -/
def fill (abi : Abi) (env : DyibiccEnviromentData) (sys outs : List (List Byte)) : Fill :=
  let f0 : Fill := ⟨[], abi.sizeof_UserContext⟩
  let f1 := f0.put Part.include_paths_array (abi.sizeof_ptr * (env.include_paths.length + sys.length))
  let f2 := f1.put Part.files_array (abi.sizeof_DyoLinkData * env.files.length)
  let f3 := f2.put Part.global_data_array (abi.sizeof_HashMap * (env.files.length + 1))
  let f4 :=
    match env.entry_point_name with
    | some name => f3.put Part.entry_point_name (name.length + 1)
    | none => f3
  let f5 := f4.put Part.cache_dir ((cache_dir_or_dot env.cache_dir).length + 1)
  let f6 := Fill.put_strings Part.include_path env.include_paths 0 f5
  let f7 := Fill.put_strings Part.include_path sys env.include_paths.length f6
  let f8 := Fill.put_strings Part.source_name env.files 0 f7
  Fill.put_strings Part.output_dyo_name outs 0 f8

/-- The loop `for (j = 0; j < num_files + 1; ++j) data->global_data[j].alloc_lifetime
= AL_Manual`, with `n` iterations left. -/
def tag_manual : Nat → Nat → List HashMap → List HashMap
  | 0, _, maps => maps
  | n + 1, j, maps =>
    match maps[j]? with
    | none => tag_manual n (j + 1) maps
    | some map =>
      tag_manual n (j + 1) (maps.set j { map with alloc_lifetime := AllocLifetime.AL_Manual })

/-- What a call of `dyibicc_set_environment` leaves: the pointer it returns, the
global `user_context`, the block built, the size allocated and the layout. -/
structure SetEnvironment where
  context : Nat
  user_context : Nat
  ctx : UserContext
  allocated : Nat
  layout : Fill
  deriving DecidableEq, Repr

/-- The function `dyibicc_set_environment`; `data` is the pointer `calloc` returns. -/
def dyibicc_set_environment (abi : Abi) (data : Nat) (env : DyibiccEnviromentData) :
    Except Fault SetEnvironment :=
  match sys_inc_paths env.dyibicc_include_dir with
  | Except.error e => Except.error e
  | Except.ok sys =>
    match dyo_output_paths env.cache_dir env.files with
    | Except.error e => Except.error e
    | Except.ok outs =>
      if data = 0 then Except.error Fault.null_pointer
      else if (fill abi env sys outs).d ≠ total_size abi env sys outs then
        Except.error Fault.assertion
      else
        Except.ok
          { context := data
            user_context := data
            ctx :=
              { num_include_paths := env.include_paths.length + sys.length
                include_paths := env.include_paths ++ sys
                num_files := env.files.length
                files := List.zipWith DyoLinkData.mk env.files outs
                global_data :=
                  tag_manual (env.files.length + 1) 0
                    (List.replicate (env.files.length + 1) (HashMap.zero abi.al_zero))
                entry_point_name := env.entry_point_name
                cache_dir := some (cache_dir_or_dot env.cache_dir) }
            allocated := total_size abi env sys outs
            layout := fill abi env sys outs }

/-- The parts of a layout follow one another without gap from offset `a` to
offset `b`. -/
def Consecutive : Nat → List Placed → Nat → Prop
  | a, [], b => a = b
  | a, p :: rest, b => p.offset = a ∧ Consecutive (a + p.size) rest b

/-- The environments on which every `format` of `dyibicc_set_environment` is given
strings and stays within its buffer: an include directory of less than 4090
bytes and, if there are source files, a cache directory that with each source
path and the six bytes `/`, `.dyo` and NUL fits into 4096 bytes. -/
def FormatsFit (env : DyibiccEnviromentData) : Prop :=
  (∃ idir, env.dyibicc_include_dir = some idir ∧ idir.length + 6 < 4096) ∧
    (env.files = [] ∨
      ∃ dir, env.cache_dir = some dir ∧ ∀ file ∈ env.files, dir.length + file.length + 5 < 4096)

/-- An ABI of a 64-bit target, with sizes chosen for the three structures. -/
def sample_abi : Abi := ⟨96, 8, 48, 24, AllocLifetime.AL_Temp⟩

/-- An environment with one include path, the sources `a.c` and `src/b-1.c`, the
entry point `main` and the cache directory `cache`. -/
def sample_env : DyibiccEnviromentData where
  include_paths := [bytes "inc"]
  files := [bytes "a.c", bytes "src/b-1.c"]
  dyibicc_include_dir := some (bytes "/opt/dyibicc/include")
  entry_point_name := some (bytes "main")
  cache_dir := some (bytes "cache")

/-! ## The teardown of `main.c`

The embedding of the table keeps the bytes that a key pointer designates and a
bucket array as a list; the pointers themselves, which teardown hands to
`alloc_free`, are given by a `MapPointers` for each map. The run of `dyibicc_free`
is recorded as the list of the calls of `alloc_free`, `aligned_free` and `free` it
makes, each with the pointer passed. -/

/-- A call of a deallocation function, with its arguments. -/
inductive FreeCall where
  | alloc_free (p : Nat) (al : AllocLifetime)
  | aligned_free (p : Nat)
  | free (p : Nat)
  deriving DecidableEq, Repr

/-- The pointer passed to a deallocation function. -/
def FreeCall.pointer : FreeCall → Nat
  | FreeCall.alloc_free p _ => p
  | FreeCall.aligned_free p => p
  | FreeCall.free p => p

/-- The pointers of one map: the pointer held in the `key` field of bucket `i`,
for a live bucket, and the pointer `buckets` of a map that has a bucket array. -/
structure MapPointers where
  key : Nat → Nat
  buckets : Nat

/-- The loop of `hashmap_custom_free` over the buckets, with `n` iterations left
at index `i`: the calls made, and whether the loop ended. -/
def hashmap_custom_free_loop (ptrs : MapPointers) (al : AllocLifetime) (bs : List HashEntry) :
    Nat → Nat → List FreeCall × Except Fault Unit
  | 0, _ => ([], Except.ok ())
  | n + 1, i =>
    match bs[i]? with
    | none => ([], Except.error Fault.out_of_bounds)
    | some ent =>
      if ent.live then
        (FreeCall.alloc_free (ptrs.key i) al :: FreeCall.aligned_free ent.val ::
            (hashmap_custom_free_loop ptrs al bs n (i + 1)).1,
          (hashmap_custom_free_loop ptrs al bs n (i + 1)).2)
      else hashmap_custom_free_loop ptrs al bs n (i + 1)

/-- The function `hashmap_custom_free`. -/
def hashmap_custom_free (ptrs : MapPointers) (map : HashMap) :
    List FreeCall × Except Fault Unit :=
  if map.alloc_lifetime ≠ AllocLifetime.AL_Manual then ([], Except.error Fault.assertion)
  else
    match map.buckets with
    | none =>
      if map.capacity = 0 then ([FreeCall.alloc_free 0 map.alloc_lifetime], Except.ok ())
      else ([], Except.error Fault.null_pointer)
    | some bs =>
      match hashmap_custom_free_loop ptrs map.alloc_lifetime bs map.capacity 0 with
      | (t, Except.error e) => (t, Except.error e)
      | (t, Except.ok _) =>
        (t ++ [FreeCall.alloc_free ptrs.buckets map.alloc_lifetime], Except.ok ())

/-- The loop of `dyibicc_free` over `ctx->global_data`, with `n` iterations left at
index `i`. -/
def free_maps (ptrs : Nat → MapPointers) (maps : List HashMap) :
    Nat → Nat → List FreeCall × Except Fault Unit
  | 0, _ => ([], Except.ok ())
  | n + 1, i =>
    match maps[i]? with
    | none => ([], Except.error Fault.out_of_bounds)
    | some map =>
      match hashmap_custom_free (ptrs i) map with
      | (t, Except.error e) => (t, Except.error e)
      | (t, Except.ok _) =>
        (t ++ (free_maps ptrs maps n (i + 1)).1, (free_maps ptrs maps n (i + 1)).2)

/-- How a call of `dyibicc_free` ends: it returns, leaving the given value in the
global `user_context`; its entry assertion fails; or it stops at another fault. -/
inductive Teardown where
  | returned (user_context : Nat)
  | assertion_failed
  | faulted (f : Fault)
  deriving DecidableEq, Repr

/-- The function `dyibicc_free`, called with the pointer `context` while the global
`user_context` holds the pointer given; `ctx` is the block that `context` points
to, if it points to one. The result is the list of calls made and how the call
ended. -/
def dyibicc_free (user_context context : Nat) (ctx : Option UserContext)
    (ptrs : Nat → MapPointers) : List FreeCall × Teardown :=
  if context ≠ user_context then ([], Teardown.assertion_failed)
  else if context = 0 then ([], Teardown.faulted Fault.null_pointer)
  else
    match ctx with
    | none => ([], Teardown.faulted Fault.null_pointer)
    | some ctx =>
      match free_maps ptrs ctx.global_data (ctx.num_files + 1) 0 with
      | (t, Except.error e) => (t, Teardown.faulted e)
      | (t, Except.ok _) => (t ++ [FreeCall.free context], Teardown.returned 0)

/-- What a context owns: the key and the value of a bucket `i` of a map `m`, the
bucket array of a map `m`, and the block of the context. -/
inductive Owned where
  | key (m i : Nat)
  | val (m i : Nat)
  | buckets (m : Nat)
  | context
  deriving DecidableEq, Repr

/-- The map an owned pointer belongs to. -/
def Owned.map : Owned → Option Nat
  | Owned.key m _ => some m
  | Owned.val m _ => some m
  | Owned.buckets m => some m
  | Owned.context => none

/-- The key and the value of bucket `i` of map `m` if the bucket is live, nothing
if it is empty or a tombstone. -/
def bucket_owned (m : Nat) (bs : List HashEntry) (i : Nat) : List Owned :=
  match bs[i]? with
  | some ent => if ent.live then [Owned.key m i, Owned.val m i] else []
  | none => []

/-- What is owned through map `m`: key and value of every live bucket, in the
order of the buckets, then the bucket array. -/
def map_owned (m : Nat) (map : HashMap) : List Owned :=
  (match map.buckets with
    | none => []
    | some bs => (List.range map.capacity).flatMap (bucket_owned m bs)) ++ [Owned.buckets m]

/-- What is owned through the maps from index `m0` on. -/
def maps_owned : Nat → List HashMap → List Owned
  | _, [] => []
  | m0, map :: rest => map_owned m0 map ++ maps_owned (m0 + 1) rest

/-- Everything a context with the given maps owns: what is owned through each
map, in the order of the maps, then the block of the context. -/
def context_owned (maps : List HashMap) : List Owned :=
  maps_owned 0 maps ++ [Owned.context]

/-- The bucket `i` of map `m`, if there is one. -/
def bucket_at (maps : List HashMap) (m i : Nat) : Option HashEntry :=
  match maps[m]? with
  | none => none
  | some map =>
    match map.buckets with
    | none => none
    | some bs => bs[i]?

/-- The pointer `buckets` of map `m`: null for a map without bucket array. -/
def buckets_pointer (ptrs : Nat → MapPointers) (maps : List HashMap) (m : Nat) : Nat :=
  match maps[m]? with
  | none => 0
  | some map =>
    match map.buckets with
    | none => 0
    | some _ => (ptrs m).buckets

/-- The call that frees something owned. -/
def Owned.call (ptrs : Nat → MapPointers) (maps : List HashMap) (context : Nat) :
    Owned → FreeCall
  | Owned.key m i => FreeCall.alloc_free ((ptrs m).key i) AllocLifetime.AL_Manual
  | Owned.val m i =>
    FreeCall.aligned_free
      (match bucket_at maps m i with
        | some ent => ent.val
        | none => 0)
  | Owned.buckets m => FreeCall.alloc_free (buckets_pointer ptrs maps m) AllocLifetime.AL_Manual
  | Owned.context => FreeCall.free context

/-- The live buckets of a context hold pairwise distinct key and value pointers,
and these, the bucket arrays and the block of the context are different blocks:
two different owned things never hold the same pointer, the null pointer apart. -/
def DistinctPointers (ptrs : Nat → MapPointers) (maps : List HashMap) (context : Nat) : Prop :=
  ∀ a ∈ context_owned maps, ∀ b ∈ context_owned maps,
    (a.call ptrs maps context).pointer = (b.call ptrs maps context).pointer →
    (a.call ptrs maps context).pointer ≠ 0 → a = b

/-- Pointers for the sample contexts: the key of bucket `i` of map `m` at
`1000 * (m + 1) + i`, the bucket array of map `m` at `100 * (m + 1)`. -/
def sample_pointers (m : Nat) : MapPointers := ⟨fun i => 1000 * (m + 1) + i, 100 * (m + 1)⟩

/-- A context with one tracked file: its first map was left by the calls of
`scenario_ops` with the values `7001`, `7002` and `7003`, its second map was never
used. -/
def sample_context : UserContext where
  num_include_paths := 0
  include_paths := []
  num_files := 1
  files := [⟨[97, 46, 99], [97]⟩]
  global_data :=
    [map_after [Op.put [97] 7001, Op.put [98] 7002, Op.delete [97], Op.put [99] 7003]
        AllocLifetime.AL_Manual,
      HashMap.zero AllocLifetime.AL_Manual]
  entry_point_name := none
  cache_dir := some [46]

/-! ## The life of a context

The global `user_context` through a sequence of calls of the three entry points.
What a context pointer designates is given with each call. -/

/-- A call of an entry point of `main.c` by the host. -/
inductive LifeCall where
  | set_environment (data : Nat) (env : DyibiccEnviromentData)
  | update (context : Nat) (files : List DyoLinkData) (c : Collaborators)
  | free (context : Nat) (ctx : Option UserContext) (ptrs : Nat → MapPointers)

/-- The global `user_context` after one call made while it holds `user_context`,
or the fault that stops the run: a failed assertion, or the read through a null
`ctx` that follows the assertion. An update that is left through the `longjmp` of
an error leaves `user_context` as it was. -/
def LifeCall.apply (abi : Abi) (user_context : Nat) : LifeCall → Except Fault Nat
  | LifeCall.set_environment data env =>
    match dyibicc_set_environment abi data env with
    | Except.error e => Except.error e
    | Except.ok r => Except.ok r.user_context
  | LifeCall.update context files c =>
    match (dyibicc_update user_context context files c).2 with
    | Outcome.assertion_failed => Except.error Fault.assertion
    | Outcome.faulted f => Except.error f
    | Outcome.returned _ => Except.ok user_context
    | Outcome.jumped => Except.ok user_context
  | LifeCall.free context ctx ptrs =>
    match (dyibicc_free user_context context ctx ptrs).2 with
    | Teardown.returned u => Except.ok u
    | Teardown.assertion_failed => Except.error Fault.assertion
    | Teardown.faulted f => Except.error f

/-- The global `user_context` after a sequence of calls, none of which stopped. -/
def life_run (abi : Abi) : List LifeCall → Nat → Except Fault Nat
  | [], u => Except.ok u
  | call :: rest, u =>
    match call.apply abi u with
    | Except.error e => Except.error e
    | Except.ok u1 => life_run abi rest u1

/-- The active context in the words of the specification: the context returned by
the latest `dyibicc_set_environment` and not yet freed, if there is one. -/
def active_context : List LifeCall → Option Nat → Option Nat
  | [], a => a
  | LifeCall.set_environment data _ :: rest, _ => active_context rest (some data)
  | LifeCall.update _ _ _ :: rest, a => active_context rest a
  | LifeCall.free _ _ _ :: rest, _ => active_context rest none

/-- The block that `dyibicc_set_environment` builds for `sample_env`. -/
def sample_block : Option UserContext :=
  match dyibicc_set_environment sample_abi 4096 sample_env with
  | Except.ok r => some r.ctx
  | Except.error _ => none

/-- The map `rehash` leaves on the map a sequence of calls leaves (the
zero-initialised map if `rehash` stops). -/
def rehash_after (ops : List Op) (al : AllocLifetime) : HashMap :=
  match rehash (map_after ops al) with
  | Except.ok m => m
  | Except.error _ => HashMap.zero al

/-! ## The allocator calls of a put

`hashmap_put2` does not call the allocator itself; `get_or_insert_entry` calls
`bumpcalloc` for the first bucket array and `rehash` when the high watermark is
reached; `rehash` calls `bumpcalloc` for the new array, `hashmap_put2` for each
live bucket and, for a map of lifetime `AL_Manual`, `alloc_free` for the old
array. -/

/-- A call of the allocator by the table. -/
inductive MemCall where
  | bumpcalloc (n : Nat) (al : AllocLifetime)
  | alloc_free_buckets (al : AllocLifetime)
  deriving DecidableEq, Repr

/-- The allocator calls of the copy loop of `rehash`, given the `hashmap_put2` it
calls and the allocator calls of that. -/
def rehash_copy_calls (put2 : HashMap → List Byte → Nat → Except Fault HashMap)
    (calls : HashMap → List Byte → List MemCall) : List HashEntry → HashMap → List MemCall
  | [], _ => []
  | ent :: rest, map2 =>
    match ent.key with
    | KeyPtr.ptr bytes =>
      calls map2 bytes ++
        (match put2 map2 bytes ent.val with
          | Except.error _ => []
          | Except.ok map2 => rehash_copy_calls put2 calls rest map2)
    | _ => rehash_copy_calls put2 calls rest map2

/-- The allocator calls of `rehash`. -/
def rehash_calls (put2 : HashMap → List Byte → Nat → Except Fault HashMap)
    (calls : HashMap → List Byte → List MemCall) (map : HashMap) : List MemCall :=
  match rehash_capacity (rehash_nkeys map) (rehash_nkeys map + 2) map.capacity with
  | Except.error _ => []
  | Except.ok cap =>
    if cap = 0 then []
    else
      MemCall.bumpcalloc cap map.alloc_lifetime ::
        (rehash_copy_calls put2 calls (rehash_visited map)
            ⟨some (List.replicate cap HashEntry.zero), cap, 0, map.alloc_lifetime⟩ ++
          (match rehash_with put2 map with
            | Except.error _ => []
            | Except.ok _ =>
              if map.alloc_lifetime = AllocLifetime.AL_Manual then
                [MemCall.alloc_free_buckets map.alloc_lifetime]
              else []))

/-- The allocator calls of `hashmap_put2`, with the bound on the depth of the
recursion of `hashmap_put2_depth`. -/
def hashmap_put2_calls : Nat → HashMap → List Byte → List MemCall
  | 0, _, _ => []
  | d + 1, map, _ =>
    match map.buckets with
    | none => [MemCall.bumpcalloc INIT_SIZE map.alloc_lifetime]
    | some _ =>
      if map.used * 100 / map.capacity ≥ HIGH_WATERMARK then
        rehash_calls (hashmap_put2_depth d) (hashmap_put2_calls d) map
      else []

/-- The condition `ent->key == TOMBSTONE`. -/
def HashEntry.tombstone (ent : HashEntry) : Bool :=
  match ent.key with
  | KeyPtr.tombstone => true
  | _ => false

/-- The number of tombstones of a map. -/
def tombstone_count (map : HashMap) : Nat :=
  match map.buckets with
  | none => 0
  | some bs => bs.countP HashEntry.tombstone

/-- The largest value of an `int`. -/
def INT_MAX : Nat := 2 ^ 31 - 1

/-- The growth check `(map->used * 100) / map->capacity >= HIGH_WATERMARK` of
`get_or_insert_entry` in `int` arithmetic: a product above `INT_MAX` is an
overflow. -/
def high_watermark_int (map : HashMap) : Except Fault Bool :=
  if map.used * 100 > INT_MAX then Except.error Fault.signed_overflow
  else Except.ok (decide (map.used * 100 / map.capacity ≥ HIGH_WATERMARK))

/-- The doubling loop of `rehash` in `int` arithmetic: the product `nkeys * 100` and
the doubled capacity overflow above `INT_MAX`. -/
def rehash_capacity_int (nkeys : Nat) : Nat → Nat → Except Fault Nat
  | 0, _ => Except.error Fault.loop_bound
  | fuel + 1, cap =>
    if nkeys * 100 > INT_MAX then Except.error Fault.signed_overflow
    else if nkeys * 100 / cap ≥ LOW_WATERMARK then
      if cap * 2 > INT_MAX then Except.error Fault.signed_overflow
      else rehash_capacity_int nkeys fuel (cap * 2)
    else Except.ok cap

/-- An environment with the two source paths `a/b.c` and `a.b/c`. -/
def clash_env : DyibiccEnviromentData where
  include_paths := []
  files := [bytes "a/b.c", bytes "a.b/c"]
  dyibicc_include_dir := some (bytes "inc")
  entry_point_name := none
  cache_dir := some (bytes "cache")

/-! ## The hash records of `dyn_basic_pdb.h`

The part of `gsi_hash_builder_finish` that fills `hb->hash_records`. The `u32`
values wrap modulo `2^32`. `qsort` is a parameter: it is given the records of one
bucket and returns them in some order. -/

/-- The number of hash buckets. -/
def IPHR_HASH : Nat := 4096

/-- A symbol of the builder (`HashSym`). -/
structure HashSym where
  name : List Byte
  offset : Nat
  hash_bucket : Nat
  deriving DecidableEq, Repr

/-- A hash record (`HRFile`). -/
structure HRFile where
  off : Nat
  cref : Nat
  deriving DecidableEq, Repr

/-- The loop `++num_mapped_to_bucket[hb->sym[i].hash_bucket]` over the symbols. -/
def count_buckets : List HashSym → List Nat → Except Fault (List Nat)
  | [], num => Except.ok num
  | s :: rest, num =>
    match num[s.hash_bucket]? with
    | none => Except.error Fault.out_of_bounds
    | some n => count_buckets rest (num.set s.hash_bucket ((n + 1) % 2 ^ 32))

/-- The loop `bucket_starts[i] = total; total += num_mapped_to_bucket[i]`. -/
def bucket_starts_from : List Nat → Nat → List Nat
  | [], _ => []
  | n :: rest, total => total :: bucket_starts_from rest ((total + n) % 2 ^ 32)

/-- The loop that puts the symbol of index `i` into the record
`bucket_cursors[hb->sym[i].hash_bucket]++`, with `off = i` and `cref = 1`. -/
def place_records : List HashSym → Nat → List Nat → List HRFile →
    Except Fault (List Nat × List HRFile)
  | [], _, cursors, records => Except.ok (cursors, records)
  | s :: rest, i, cursors, records =>
    match cursors[s.hash_bucket]? with
    | none => Except.error Fault.out_of_bounds
    | some hash_idx =>
      if hash_idx < records.length then
        place_records rest (i + 1) (cursors.set s.hash_bucket ((hash_idx + 1) % 2 ^ 32))
          (records.set hash_idx ⟨i % 2 ^ 32, 1⟩)
      else Except.error Fault.out_of_bounds

/-- The loop `begin[j].off = hb->sym[j].offset + 1` over the `count` records of a
bucket that starts at `start`, with `n` iterations left at index `j`. -/
def replace_offsets (sym : List HashSym) (start : Nat) :
    Nat → Nat → List HRFile → Except Fault (List HRFile)
  | 0, _, records => Except.ok records
  | n + 1, j, records =>
    match sym[j]?, records[start + j]? with
    | some s, some r =>
      replace_offsets sym start n (j + 1)
        (records.set (start + j) { r with off := (s.offset + 1) % 2 ^ 32 })
    | _, _ => Except.error Fault.out_of_bounds

/-- The loop over the buckets: the records of a bucket that has some are sorted
and their `off` fields replaced. The buckets left are given by their
`bucket_starts` and `bucket_cursors`. -/
def sort_buckets (qsort : List HRFile → List HRFile) (sym : List HashSym) :
    List Nat → List Nat → List HRFile → Except Fault (List HRFile)
  | start :: starts, cursor :: cursors, records =>
    if cursor - start > 0 then
      match replace_offsets sym start (cursor - start) 0
          (records.take start ++ qsort ((records.drop start).take (cursor - start)) ++
            records.drop (start + (cursor - start))) with
      | Except.error e => Except.error e
      | Except.ok records1 => sort_buckets qsort sym starts cursors records1
    else sort_buckets qsort sym starts cursors records
  | _, _, records => Except.ok records

/-- The function `gsi_hash_builder_finish` up to the hash bitmap: `bucket_starts`
and `hb->hash_records`. -/
def gsi_hash_builder_finish (qsort : List HRFile → List HRFile) (sym : List HashSym) :
    Except Fault (List Nat × List HRFile) :=
  match count_buckets sym (List.replicate IPHR_HASH 0) with
  | Except.error e => Except.error e
  | Except.ok num =>
    match place_records sym 0 (bucket_starts_from num 0)
        (List.replicate sym.length ⟨0, 0⟩) with
    | Except.error e => Except.error e
    | Except.ok (cursors, records) =>
      match sort_buckets qsort sym (bucket_starts_from num 0) cursors records with
      | Except.error e => Except.error e
      | Except.ok records1 => Except.ok (bucket_starts_from num 0, records1)

/-- Two symbols: the first in bucket 5 at offset 100, the second in bucket 3 at
offset 200. -/
def sample_syms : List HashSym := [⟨[98], 100, 5⟩, ⟨[97], 200, 3⟩]

/-! ## The function `dirname` of `util.c`

The argument is a string or the null pointer; the result is the string returned:
one of the literals `"."` and `"/"`, or the argument cut after index `i`
(`s[i + 1] = 0`). -/

/-- The byte `s[i]`; the byte after the last one is the terminating NUL. -/
def char_at (s : List Byte) (i : Nat) : Byte := s.getD i 0

/-- The loops `for (; s[i] == '/' || s[i] == '\\'; i--) if (!i) return "/";` of
`dirname`, started at index `i`: the index at which the loop ends, or `none` when
it returns `"/"`. -/
def dirname_skip_separators (s : List Byte) : Nat → Option Nat
  | 0 => if char_at s 0 = 47 ∨ char_at s 0 = 92 then none else some 0
  | i + 1 =>
    if char_at s (i + 1) = 47 ∨ char_at s (i + 1) = 92 then dirname_skip_separators s i
    else some (i + 1)

/-- The loop `for (; s[i] != '/' || s[i] == '\\'; i--) if (!i) return ".";` of
`dirname`, started at index `i`: the index at which the loop ends, or `none` when
it returns `"."`. -/
def dirname_skip_name (s : List Byte) : Nat → Option Nat
  | 0 => if char_at s 0 ≠ 47 ∨ char_at s 0 = 92 then none else some 0
  | i + 1 =>
    if char_at s (i + 1) ≠ 47 ∨ char_at s (i + 1) = 92 then dirname_skip_name s i
    else some (i + 1)

/-- The function `dirname`. -/
def dirname (s : Option (List Byte)) : List Byte :=
  match s with
  | none => bytes "."
  | some [] => bytes "."
  | some (c :: rest) =>
    match dirname_skip_separators (c :: rest) ((c :: rest).length - 1) with
    | none => bytes "/"
    | some i =>
      match dirname_skip_name (c :: rest) i with
      | none => bytes "."
      | some i =>
        match dirname_skip_separators (c :: rest) i with
        | none => bytes "/"
        | some i => (c :: rest).take (i + 1)

/-! ## Theorems -/

/-! ## The probe loops -/

theorem live_of_key_ne {ent : HashEntry} (h1 : ent.key ≠ KeyPtr.null)
    (h2 : ent.key ≠ KeyPtr.tombstone) : ent.live = true := by
  cases ent with
  | mk k l v => cases k <;> simp_all [HashEntry.live]

theorem entry_match_live {ent : HashEntry} {key : List Byte} (h : entry_match ent key = true) :
    ent.live = true := by
  cases ent with
  | mk k l v => cases k <;> simp_all [HashEntry.live, entry_match]

theorem live_nonempty {ent : HashEntry} (h : ent.live = true) : ent.nonempty = true := by
  cases ent with
  | mk k l v => cases k <;> simp_all [HashEntry.live, HashEntry.nonempty]

theorem nonempty_iff {ent : HashEntry} : ent.nonempty = true ↔ ent.key ≠ KeyPtr.null := by
  cases ent with
  | mk k l v => cases k <;> simp [HashEntry.nonempty]

theorem live_key {ent : HashEntry} (h : ent.live = true) :
    ent.key ≠ KeyPtr.null ∧ ent.key ≠ KeyPtr.tombstone := by
  cases ent with
  | mk k l v => cases k <;> simp_all [HashEntry.live]

/-- What `get_entry_loop` returns, read off the bucket array: it stops at the
first probe position holding a matching or an empty bucket. -/
theorem get_entry_loop_sound {bs : List HashEntry} {cap h : Nat} {key : List Byte} :
    ∀ (n i : Nat) (r : Option (Nat × HashEntry)),
      get_entry_loop bs cap h key n i = Except.ok r →
      ∃ d e0, i ≤ d ∧ d < i + n ∧ bs[(h + d) % cap]? = some e0 ∧
        (∀ j, i ≤ j → j < d → ∃ ej, bs[(h + j) % cap]? = some ej ∧
          entry_match ej key = false ∧ ej.key ≠ KeyPtr.null) ∧
        ((entry_match e0 key = true ∧ r = some ((h + d) % cap, e0)) ∨
          (entry_match e0 key = false ∧ e0.key = KeyPtr.null ∧ r = none)) := by
  intro n
  induction n with
  | zero => intro i r hr; simp [get_entry_loop] at hr
  | succ n ih =>
    intro i r hr
    rw [get_entry_loop] at hr
    cases hbs : bs[(h + i) % cap]? with
    | none => simp [hbs] at hr
    | some ent =>
      simp only [hbs] at hr
      by_cases hm : entry_match ent key = true
      · simp only [hm, if_true, Except.ok.injEq] at hr
        exact ⟨i, ent, le_refl _, by omega, hbs, fun j h1 h2 => absurd h1 (by omega),
          Or.inl ⟨hm, hr.symm⟩⟩
      · have hm' : entry_match ent key = false := by simpa using hm
        by_cases hk : ent.key = KeyPtr.null
        · simp only [hm', hk, if_true, Bool.false_eq_true, if_false, Except.ok.injEq] at hr
          exact ⟨i, ent, le_refl _, by omega, hbs, fun j h1 h2 => absurd h1 (by omega),
            Or.inr ⟨hm', hk, hr.symm⟩⟩
        · simp only [hm', hk, Bool.false_eq_true, if_false] at hr
          obtain ⟨d, e0, h1, h2, h3, h4, h5⟩ := ih (i + 1) r (by simpa using hr)
          refine ⟨d, e0, by omega, by omega, h3, ?_, h5⟩
          intro j hj1 hj2
          by_cases hji : j = i
          · subst hji; exact ⟨ent, hbs, hm', hk⟩
          · exact h4 j (by omega) hj2

/-- The loop of `get_entry` returns as soon as a matching or an empty bucket lies
within the remaining probe positions. -/
theorem get_entry_loop_complete {bs : List HashEntry} {cap h : Nat} {key : List Byte} :
    ∀ (n i d : Nat) (e0 : HashEntry), i ≤ d → d < i + n → bs[(h + d) % cap]? = some e0 →
      (∀ j, i ≤ j → j < d → ∃ ej, bs[(h + j) % cap]? = some ej ∧
        entry_match ej key = false ∧ ej.key ≠ KeyPtr.null) →
      (entry_match e0 key = true ∨ e0.key = KeyPtr.null) →
      get_entry_loop bs cap h key n i =
        Except.ok (if entry_match e0 key = true then some ((h + d) % cap, e0) else none) := by
  intro n
  induction n with
  | zero => intro i d e0 h1 h2; omega
  | succ n ih =>
    intro i d e0 h1 h2 h3 h4 h5
    rw [get_entry_loop]
    by_cases hdi : d = i
    · subst hdi
      simp only [h3]
      by_cases hm : entry_match e0 key = true
      · simp [hm]
      · have hm' : entry_match e0 key = false := by simpa using hm
        have hk : e0.key = KeyPtr.null := by
          rcases h5 with h5 | h5
          · exact absurd h5 hm
          · exact h5
        simp [hm', hk]
    · obtain ⟨ej, hj1, hj2, hj3⟩ := h4 i (le_refl _) (by omega)
      simp only [hj1, hj2, hj3, if_false]
      simpa using ih (i + 1) d e0 (by omega) (by omega) h3
        (fun j a b => h4 j (by omega) b) h5

/-- What the loop of `get_or_insert_entry` returns and what it passed over. -/
theorem put_loop_sound {map : HashMap} {bs : List HashEntry} {key : List Byte} {val : Nat}
    (hb : map.buckets = some bs) :
    ∀ (n i : Nat) (m1 : HashMap),
      (match get_or_insert_entry_loop map bs (fnv_hash key) key n i with
        | Except.error e => Except.error e
        | Except.ok (map1, i, ent) =>
          match map1.buckets with
          | none => Except.error Fault.out_of_bounds
          | some bs1 =>
            Except.ok { map1 with buckets := some (bs1.set i { ent with val := val }) })
        = Except.ok m1 →
      ∃ d e0, i ≤ d ∧ d < i + n ∧ bs[(fnv_hash key + d) % map.capacity]? = some e0 ∧
        Passed bs map.capacity (fnv_hash key)
          (fun ej => ej.live = true ∧ entry_match ej key = false) i d ∧
        (entry_match e0 key = true ∨ e0.key = KeyPtr.tombstone ∨ e0.key = KeyPtr.null) ∧
        m1 = put_at map bs key val ((fnv_hash key + d) % map.capacity) e0 := by
  intro n
  induction n with
  | zero => intro i m1 hr; simp [get_or_insert_entry_loop] at hr
  | succ n ih =>
    intro i m1 hr
    rw [get_or_insert_entry_loop] at hr
    cases hbs : bs[(fnv_hash key + i) % map.capacity]? with
    | none => simp [hbs] at hr
    | some ent =>
      simp only [hbs] at hr
      by_cases hm : entry_match ent key = true
      · simp only [hm, if_true, hb, Except.ok.injEq] at hr
        refine ⟨i, ent, le_refl _, by omega, hbs, fun j h1 h2 => absurd h1 (by omega),
          Or.inl hm, ?_⟩
        have hk : ent.key ≠ KeyPtr.null := (live_key (entry_match_live hm)).1
        rw [← hr]
        simp [put_at, put_entry, hm, hk]
      · have hm' : entry_match ent key = false := by simpa using hm
        by_cases ht : ent.key = KeyPtr.tombstone
        · simp only [hm', ht, if_true, Bool.false_eq_true, if_false, Except.ok.injEq] at hr
          refine ⟨i, ent, le_refl _, by omega, hbs, fun j h1 h2 => absurd h1 (by omega),
            Or.inr (Or.inl ht), ?_⟩
          rw [← hr]
          simp [put_at, put_entry, hm', ht]
        · by_cases hk : ent.key = KeyPtr.null
          · simp only [hm', hk, if_true, Bool.false_eq_true, if_false, Except.ok.injEq,
              reduceCtorEq] at hr
            refine ⟨i, ent, le_refl _, by omega, hbs, fun j h1 h2 => absurd h1 (by omega),
              Or.inr (Or.inr hk), ?_⟩
            rw [← hr]
            simp [put_at, put_entry, hm', hk]
          · simp only [hm', hk, ht, Bool.false_eq_true, if_false] at hr
            obtain ⟨d, e0, h1, h2, h3, h4, h5⟩ := ih (i + 1) m1 hr
            refine ⟨d, e0, by omega, by omega, h3, ?_, h5⟩
            intro j hj1 hj2
            by_cases hji : j = i
            · subst hji; exact ⟨ent, hbs, live_of_key_ne hk ht, hm'⟩
            · exact h4 j (by omega) hj2

/-- The loop of `get_or_insert_entry` returns as soon as a matching, deleted or
empty bucket lies within the remaining probe positions. -/
theorem put_loop_complete {map : HashMap} {bs : List HashEntry} {key : List Byte} {val : Nat}
    (hb : map.buckets = some bs) :
    ∀ (n i d : Nat) (e0 : HashEntry), i ≤ d → d < i + n →
      bs[(fnv_hash key + d) % map.capacity]? = some e0 →
      Passed bs map.capacity (fnv_hash key)
        (fun ej => ej.live = true ∧ entry_match ej key = false) i d →
      (entry_match e0 key = true ∨ e0.key = KeyPtr.tombstone ∨ e0.key = KeyPtr.null) →
      (match get_or_insert_entry_loop map bs (fnv_hash key) key n i with
        | Except.error e => Except.error e
        | Except.ok (map1, i, ent) =>
          match map1.buckets with
          | none => Except.error Fault.out_of_bounds
          | some bs1 =>
            Except.ok { map1 with buckets := some (bs1.set i { ent with val := val }) })
        = Except.ok (put_at map bs key val ((fnv_hash key + d) % map.capacity) e0) := by
  intro n
  induction n with
  | zero => intro i d e0 h1 h2; omega
  | succ n ih =>
    intro i d e0 h1 h2 h3 h4 h5
    rw [get_or_insert_entry_loop]
    by_cases hdi : d = i
    · subst hdi
      simp only [h3]
      by_cases hm : entry_match e0 key = true
      · have hk : e0.key ≠ KeyPtr.null := (live_key (entry_match_live hm)).1
        simp [hm, hb, put_at, put_entry, hk]
      · have hm' : entry_match e0 key = false := by simpa using hm
        by_cases ht : e0.key = KeyPtr.tombstone
        · simp [hm', ht, put_at, put_entry]
        · have hk : e0.key = KeyPtr.null := by
            rcases h5 with h5 | h5 | h5
            · exact absurd h5 hm
            · exact absurd h5 ht
            · exact h5
          simp [hm', hk, put_at, put_entry]
    · obtain ⟨ej, hj1, hj2, hj3⟩ := h4 i (le_refl _) (by omega)
      have hk := live_key hj2
      simp only [hj1, hj3, hk.1, hk.2, Bool.false_eq_true, if_false]
      exact ih (i + 1) d e0 (by omega) (by omega) h3 (fun j a b => h4 j (by omega) b) h5

theorem put_probe_sound {map : HashMap} {bs : List HashEntry} {key : List Byte} {val : Nat}
    {m1 : HashMap} (hb : map.buckets = some bs) (h : put_probe map bs key val = Except.ok m1) :
    ∃ d e0, d < map.capacity ∧ bs[(fnv_hash key + d) % map.capacity]? = some e0 ∧
      Passed bs map.capacity (fnv_hash key)
        (fun ej => ej.live = true ∧ entry_match ej key = false) 0 d ∧
      (entry_match e0 key = true ∨ e0.key = KeyPtr.tombstone ∨ e0.key = KeyPtr.null) ∧
      m1 = put_at map bs key val ((fnv_hash key + d) % map.capacity) e0 := by
  obtain ⟨d, e0, _, h2, h3, h4, h5, h6⟩ := put_loop_sound hb map.capacity 0 m1 h
  exact ⟨d, e0, by omega, h3, h4, h5, h6⟩

theorem put_probe_complete {map : HashMap} {bs : List HashEntry} {key : List Byte} {val : Nat}
    {d : Nat} {e0 : HashEntry} (hb : map.buckets = some bs) (hd : d < map.capacity)
    (he : bs[(fnv_hash key + d) % map.capacity]? = some e0)
    (hp : Passed bs map.capacity (fnv_hash key)
      (fun ej => ej.live = true ∧ entry_match ej key = false) 0 d)
    (hs : entry_match e0 key = true ∨ e0.key = KeyPtr.tombstone ∨ e0.key = KeyPtr.null) :
    put_probe map bs key val =
      Except.ok (put_at map bs key val ((fnv_hash key + d) % map.capacity) e0) :=
  put_loop_complete hb map.capacity 0 d e0 (Nat.zero_le _) (by omega) he hp hs

/-- The function `hashmap_put2_depth`, one level unfolded. -/
theorem hashmap_put2_depth_succ (n : Nat) (map : HashMap) (key : List Byte) (val : Nat) :
    hashmap_put2_depth (n + 1) map key val =
      match map.buckets with
      | none =>
        put_probe
          { map with
            buckets := some (List.replicate INIT_SIZE HashEntry.zero), capacity := INIT_SIZE }
          (List.replicate INIT_SIZE HashEntry.zero) key val
      | some bs =>
        if map.used * 100 / map.capacity ≥ HIGH_WATERMARK then
          match rehash_with (hashmap_put2_depth n) map with
          | Except.error e => Except.error e
          | Except.ok map1 =>
            match map1.buckets with
            | none => Except.error Fault.out_of_bounds
            | some bs1 => put_probe map1 bs1 key val
        else put_probe map bs key val := by
  rw [hashmap_put2_depth, get_or_insert_entry_with]
  cases hb : map.buckets with
  | none => simp [put_probe, INIT_SIZE]
  | some bs =>
    simp only []
    by_cases hw : map.used * 100 / map.capacity ≥ HIGH_WATERMARK
    · simp only [hw, if_true]
      cases hr : rehash_with (hashmap_put2_depth n) map with
      | error e => simp
      | ok map1 =>
        simp only []
        cases hb1 : map1.buckets with
        | none => simp
        | some bs1 => simp [put_probe]
    · simp only [hw, if_false, put_probe]

/-- The wrap-around of the 64-bit sum `hash + i` does not change the bucket index
when the capacity divides `2^64`. -/
theorem probe_index_wrap (hash i capacity : Nat) (h : capacity ∣ 2 ^ 64) :
    ((hash + i) % 2 ^ 64) % capacity = (hash + i) % capacity :=
  Nat.mod_mod_of_dvd _ h

/-- Distinct probe positions below the capacity are distinct buckets. -/
theorem probe_inj {cap h j d : Nat} (hj : j < d) (hd : d < cap) :
    (h + j) % cap ≠ (h + d) % cap := by
  intro he
  have h1 : (h + j) ≡ (h + d) [MOD cap] := he
  have h2 : j ≡ d [MOD cap] := Nat.ModEq.add_left_cancel' h h1
  have h3 : j % cap = d % cap := h2
  rw [Nat.mod_eq_of_lt (by omega), Nat.mod_eq_of_lt hd] at h3
  omega

/-! ## A put followed by a get of the same key -/

theorem entry_match_put_entry (e0 : HashEntry) (key : List Byte) (val : Nat) :
    entry_match (put_entry e0 key val) key = true := by
  unfold put_entry
  split
  · rename_i h
    cases e0 with
    | mk k l v => cases k <;> simp_all [entry_match]
  · simp [entry_match]

theorem put_entry_val (e0 : HashEntry) (key : List Byte) (val : Nat) :
    (put_entry e0 key val).val = val := by
  unfold put_entry
  split <;> rfl

theorem get_entry_put_at {map : HashMap} {bs : List HashEntry} {key : List Byte} {val d : Nat}
    {e0 : HashEntry} (hd : d < map.capacity)
    (he : bs[(fnv_hash key + d) % map.capacity]? = some e0)
    (hp : Passed bs map.capacity (fnv_hash key)
      (fun ej => ej.live = true ∧ entry_match ej key = false) 0 d) :
    get_entry (put_at map bs key val ((fnv_hash key + d) % map.capacity) e0) key =
      Except.ok (some ((fnv_hash key + d) % map.capacity, put_entry e0 key val)) := by
  have hlt : (fnv_hash key + d) % map.capacity < bs.length := by
    obtain ⟨hlt, _⟩ := List.getElem?_eq_some.mp he
    exact hlt
  have hc := @get_entry_loop_complete
    (bs.set ((fnv_hash key + d) % map.capacity) (put_entry e0 key val))
    map.capacity (fnv_hash key) key map.capacity 0 d
    (put_entry e0 key val) (Nat.zero_le _) (by omega)
    (List.getElem?_set_self hlt)
    (by
      intro j _ hj
      obtain ⟨ej, hj1, hj2, hj3⟩ := hp j (Nat.zero_le _) hj
      refine ⟨ej, ?_, hj3, (live_key hj2).1⟩
      rw [List.getElem?_set_ne (Ne.symm (probe_inj hj hd))]
      exact hj1)
    (Or.inl (entry_match_put_entry e0 key val))
  simp only [get_entry, put_at]
  rw [hc]
  simp [entry_match_put_entry]

theorem hashmap_get2_put_probe {map : HashMap} {bs : List HashEntry} {key : List Byte}
    {val : Nat} {m1 : HashMap} (hb : map.buckets = some bs)
    (h : put_probe map bs key val = Except.ok m1) : hashmap_get2 m1 key = Except.ok val := by
  obtain ⟨d, e0, hd, he, hp, _, rfl⟩ := put_probe_sound hb h
  simp [hashmap_get2, get_entry_put_at hd he hp, put_entry_val]

theorem hashmap_get2_put_depth {n : Nat} {map m1 : HashMap} {key : List Byte} {val : Nat}
    (h : hashmap_put2_depth n map key val = Except.ok m1) :
    hashmap_get2 m1 key = Except.ok val := by
  cases n with
  | zero => simp [hashmap_put2_depth] at h
  | succ n =>
    rw [hashmap_put2_depth_succ] at h
    cases hb : map.buckets with
    | none =>
      simp only [hb] at h
      exact hashmap_get2_put_probe rfl h
    | some bs =>
      simp only [hb] at h
      by_cases hw : map.used * 100 / map.capacity ≥ HIGH_WATERMARK
      · simp only [hw, if_true] at h
        cases hr : rehash_with (hashmap_put2_depth n) map with
        | error e => simp [hr] at h
        | ok map1 =>
          simp only [hr] at h
          cases hb1 : map1.buckets with
          | none => simp [hb1] at h
          | some bs1 =>
            simp only [hb1] at h
            exact hashmap_get2_put_probe hb1 h
      · simp only [hw, if_false] at h
        exact hashmap_get2_put_probe hb h

/-! ## Invariants of reachable maps -/

theorem put_depth_cases {n : Nat} {map m1 : HashMap} {key : List Byte} {val : Nat}
    (h : hashmap_put2_depth (n + 1) map key val = Except.ok m1) :
    ∃ m0 bs0, Prepared (hashmap_put2_depth n) map m0 ∧ m0.buckets = some bs0 ∧
      put_probe m0 bs0 key val = Except.ok m1 := by
  rw [hashmap_put2_depth_succ] at h
  cases hb : map.buckets with
  | none =>
    simp only [hb] at h
    exact ⟨_, _, Or.inl ⟨hb, rfl⟩, rfl, h⟩
  | some bs =>
    simp only [hb] at h
    by_cases hw : map.used * 100 / map.capacity ≥ HIGH_WATERMARK
    · simp only [hw, if_true] at h
      cases hr : rehash_with (hashmap_put2_depth n) map with
      | error e => simp [hr] at h
      | ok map1 =>
        simp only [hr] at h
        cases hb1 : map1.buckets with
        | none => simp [hb1] at h
        | some bs1 =>
          simp only [hb1] at h
          exact ⟨map1, bs1, Or.inr (Or.inr ⟨by simp [hb], hw, hr⟩), hb1, h⟩
    · simp only [hw, if_false] at h
      exact ⟨map, bs, Or.inr (Or.inl ⟨by simp [hb], by omega, rfl⟩), hb, h⟩

theorem countP_set_add {α : Type} (p : α → Bool) :
    ∀ (l : List α) (i : Nat) (a e : α), l[i]? = some e →
      (l.set i a).countP p + (if p e = true then 1 else 0) =
        l.countP p + (if p a = true then 1 else 0) := by
  intro l
  induction l with
  | nil => intro i a e h; simp at h
  | cons x xs ih =>
    intro i a e h
    cases i with
    | zero =>
      simp only [List.getElem?_cons_zero, Option.some.injEq] at h
      subst h
      simp only [List.set_cons_zero, List.countP_cons]
      omega
    | succ i =>
      simp only [List.getElem?_cons_succ] at h
      have := ih i a e h
      simp only [List.set_cons_succ, List.countP_cons]
      omega

theorem Passed_set {bs : List HashEntry} {cap h i d idx : Nat} {e : HashEntry}
    (hp : Passed bs cap h (fun ej => ej.nonempty = true) i d) (he : e.nonempty = true) :
    Passed (bs.set idx e) cap h (fun ej => ej.nonempty = true) i d := by
  intro j hj1 hj2
  obtain ⟨ej, h1, h2⟩ := hp j hj1 hj2
  by_cases hij : idx = (h + j) % cap
  · refine ⟨e, ?_, he⟩
    rw [hij]
    exact List.getElem?_set_self (List.getElem?_eq_some.mp h1).1
  · exact ⟨ej, by rw [List.getElem?_set_ne hij]; exact h1, h2⟩

theorem Passed_mono {bs : List HashEntry} {cap h i d : Nat} {P Q : HashEntry → Prop}
    (hp : Passed bs cap h P i d) (hpq : ∀ e, P e → Q e) : Passed bs cap h Q i d := by
  intro j hj1 hj2
  obtain ⟨ej, h1, h2⟩ := hp j hj1 hj2
  exact ⟨ej, h1, hpq ej h2⟩

theorem put_entry_key (e0 : HashEntry) (key : List Byte) (val : Nat) :
    (put_entry e0 key val).key = KeyPtr.ptr key := by
  unfold put_entry
  split
  · rename_i h
    cases e0 with
    | mk k l v => cases k <;> simp_all [entry_match]
  · rfl

theorem put_entry_keylen (e0 : HashEntry) (key : List Byte) (val : Nat) :
    (put_entry e0 key val).keylen = key.length := by
  unfold put_entry
  split
  · rename_i h
    cases e0 with
    | mk k l v => cases k <;> simp_all [entry_match]
  · rfl

theorem put_entry_nonempty (e0 : HashEntry) (key : List Byte) (val : Nat) :
    (put_entry e0 key val).nonempty = true := by
  simp [HashEntry.nonempty, put_entry_key]

theorem InvCore_put_at {map : HashMap} {bs : List HashEntry} {key : List Byte} {val d : Nat}
    {e0 : HashEntry} (hi : InvCore map) (hb : map.buckets = some bs) (hd : d < map.capacity)
    (he : bs[(fnv_hash key + d) % map.capacity]? = some e0)
    (hp : Passed bs map.capacity (fnv_hash key)
      (fun ej => ej.live = true ∧ entry_match ej key = false) 0 d) :
    InvCore (put_at map bs key val ((fnv_hash key + d) % map.capacity) e0) := by
  constructor
  · intro h; simp [put_at] at h
  · intro bs1 h
    simp only [put_at, Option.some.injEq] at h
    subst h
    simpa [put_at] using hi.length_eq bs hb
  · intro bs1 h
    simp only [put_at, Option.some.injEq] at h
    subst h
    have hc := countP_set_add HashEntry.nonempty bs _ (put_entry e0 key val) e0 he
    have hu := hi.used_eq bs hb
    simp only [put_entry_nonempty, if_true] at hc
    by_cases hk : e0.key = KeyPtr.null
    · have : e0.nonempty = false := by simp [HashEntry.nonempty, hk]
      simp only [this, Bool.false_eq_true, if_false] at hc
      simp only [put_at, hk, if_true]
      omega
    · have : e0.nonempty = true := nonempty_iff.mpr hk
      simp only [this, if_true] at hc
      simp only [put_at, hk, if_false]
      omega
  · intro bs1 _
    simpa [put_at] using hi.cap_ge bs hb
  · intro bs1 j e b h hj hk
    simp only [put_at, Option.some.injEq] at h
    subst h
    simp only [put_at]
    by_cases hij : (fnv_hash key + d) % map.capacity = j
    · rw [← hij, List.getElem?_set_self (List.getElem?_eq_some.mp he).1] at hj
      simp only [Option.some.injEq] at hj
      subst hj
      rw [put_entry_key] at hk
      simp only [KeyPtr.ptr.injEq] at hk
      subst hk
      exact ⟨d, hd, hij, Passed_set (Passed_mono hp (fun e h => live_nonempty h.1))
        (put_entry_nonempty _ _ _)⟩
    · rw [List.getElem?_set_ne hij] at hj
      obtain ⟨d1, h1, h2, h3⟩ := hi.chain bs j e b hb hj hk
      exact ⟨d1, h1, h2, Passed_set h3 (put_entry_nonempty _ _ _)⟩
  · intro bs1 j e b h hj hk
    simp only [put_at, Option.some.injEq] at h
    subst h
    by_cases hij : (fnv_hash key + d) % map.capacity = j
    · rw [← hij, List.getElem?_set_self (List.getElem?_eq_some.mp he).1] at hj
      simp only [Option.some.injEq] at hj
      subst hj
      rw [put_entry_key] at hk
      simp only [KeyPtr.ptr.injEq] at hk
      subst hk
      exact put_entry_keylen _ _ _
    · rw [List.getElem?_set_ne hij] at hj
      exact hi.keylen_eq bs j e b hb hj hk

theorem put_at_capacity (map : HashMap) (bs : List HashEntry) (key : List Byte) (val idx : Nat)
    (e0 : HashEntry) : (put_at map bs key val idx e0).capacity = map.capacity := rfl

theorem put_at_used_le (map : HashMap) (bs : List HashEntry) (key : List Byte) (val idx : Nat)
    (e0 : HashEntry) : (put_at map bs key val idx e0).used ≤ map.used + 1 := by
  simp only [put_at]
  split <;> omega

theorem InvCore_fresh {cap : Nat} (used : Nat) (al : AllocLifetime) (hc : INIT_SIZE ≤ cap)
    (hu : used = 0) : InvCore ⟨some (List.replicate cap HashEntry.zero), cap, used, al⟩ := by
  constructor
  · intro h; simp at h
  · intro bs h
    simp only [Option.some.injEq] at h
    subst h
    simp
  · intro bs h
    simp only [Option.some.injEq] at h
    subst h
    simp [List.countP_replicate, HashEntry.nonempty, HashEntry.zero, hu]
  · intro bs _; exact hc
  · intro bs j e b h hj hk
    simp only [Option.some.injEq] at h
    subst h
    rw [List.getElem?_replicate] at hj
    split at hj
    · simp only [Option.some.injEq] at hj
      subst hj
      simp [HashEntry.zero] at hk
    · simp at hj
  · intro bs j e b h hj hk
    simp only [Option.some.injEq] at h
    subst h
    rw [List.getElem?_replicate] at hj
    split at hj
    · simp only [Option.some.injEq] at hj
      subst hj
      simp [HashEntry.zero] at hk
    · simp at hj

/-- What a completed `hashmap_delete2` did: nothing, or it found a matching bucket
at the end of a run of non-matching non-empty ones and made it a tombstone. -/
theorem delete_cases {map m1 : HashMap} {key : List Byte}
    (h : hashmap_delete2 map key = Except.ok m1) :
    (get_entry map key = Except.ok none ∧ m1 = map) ∨
      ∃ bs d ent, map.buckets = some bs ∧ d < map.capacity ∧
        bs[(fnv_hash key + d) % map.capacity]? = some ent ∧ entry_match ent key = true ∧
        Passed bs map.capacity (fnv_hash key)
          (fun ej => entry_match ej key = false ∧ ej.key ≠ KeyPtr.null) 0 d ∧
        get_entry map key = Except.ok (some ((fnv_hash key + d) % map.capacity, ent)) ∧
        m1 = { map with
          buckets := some (bs.set ((fnv_hash key + d) % map.capacity)
            { ent with key := KeyPtr.tombstone }) } := by
  unfold hashmap_delete2 at h
  cases hg : get_entry map key with
  | error e => simp [hg] at h
  | ok r =>
    cases r with
    | none =>
      simp only [hg, Except.ok.injEq] at h
      exact Or.inl ⟨rfl, h.symm⟩
    | some p =>
      obtain ⟨i, ent⟩ := p
      simp only [hg] at h
      cases hb : map.buckets with
      | none => simp [get_entry, hb] at hg
      | some bs =>
        simp only [hb, Except.ok.injEq] at h
        have hg1 := hg
        simp only [get_entry, hb] at hg1
        obtain ⟨d, e0, _, h2, h3, h4, h5⟩ := get_entry_loop_sound _ _ _ hg1
        rcases h5 with ⟨h5, h6⟩ | ⟨_, _, h6⟩
        · simp only [Option.some.injEq, Prod.mk.injEq] at h6
          obtain ⟨rfl, rfl⟩ := h6
          exact Or.inr ⟨bs, d, ent, rfl, by omega, h3, h5, h4, rfl, h.symm⟩
        · simp at h6

theorem InvCore_delete {map m1 : HashMap} {key : List Byte} (hi : InvCore map)
    (h : hashmap_delete2 map key = Except.ok m1) :
    InvCore m1 ∧ m1.capacity = map.capacity ∧ m1.used = map.used := by
  rcases delete_cases h with ⟨_, rfl⟩ | ⟨bs, d, ent, hb, hd, he, hm, hp, _, rfl⟩
  · exact ⟨hi, rfl, rfl⟩
  · refine ⟨?_, rfl, rfl⟩
    have hne : ({ ent with key := KeyPtr.tombstone } : HashEntry).nonempty = true := rfl
    constructor
    · intro h; simp at h
    · intro bs1 h
      simp only [Option.some.injEq] at h
      subst h
      simpa using hi.length_eq bs hb
    · intro bs1 h
      simp only [Option.some.injEq] at h
      subst h
      have hc := countP_set_add HashEntry.nonempty bs _
        ({ ent with key := KeyPtr.tombstone } : HashEntry) ent he
      have hu := hi.used_eq bs hb
      simp only [hne, live_nonempty (entry_match_live hm), if_true] at hc
      simp only
      omega
    · intro bs1 _
      exact hi.cap_ge bs hb
    · intro bs1 j e b h hj hk
      simp only [Option.some.injEq] at h
      subst h
      by_cases hij : (fnv_hash key + d) % map.capacity = j
      · rw [← hij, List.getElem?_set_self (List.getElem?_eq_some.mp he).1] at hj
        simp only [Option.some.injEq] at hj
        subst hj
        simp at hk
      · rw [List.getElem?_set_ne hij] at hj
        obtain ⟨d1, h1, h2, h3⟩ := hi.chain bs j e b hb hj hk
        exact ⟨d1, h1, h2, Passed_set h3 hne⟩
    · intro bs1 j e b h hj hk
      simp only [Option.some.injEq] at h
      subst h
      by_cases hij : (fnv_hash key + d) % map.capacity = j
      · rw [← hij, List.getElem?_set_self (List.getElem?_eq_some.mp he).1] at hj
        simp only [Option.some.injEq] at hj
        subst hj
        simp at hk
      · rw [List.getElem?_set_ne hij] at hj
        exact hi.keylen_eq bs j e b hb hj hk

theorem rehash_capacity_sound {nkeys : Nat} :
    ∀ (fuel cap c : Nat), rehash_capacity nkeys fuel cap = Except.ok c →
      cap ≤ c ∧ nkeys * 100 / c < LOW_WATERMARK := by
  intro fuel
  induction fuel with
  | zero => intro cap c h; simp [rehash_capacity] at h
  | succ fuel ih =>
    intro cap c h
    rw [rehash_capacity] at h
    split at h
    · obtain ⟨h1, h2⟩ := ih _ _ h
      exact ⟨by omega, h2⟩
    · simp only [Except.ok.injEq] at h
      subst h
      exact ⟨le_refl _, by omega⟩

theorem rehash_copy_induct (P : HashMap → Prop)
    (put2 : HashMap → List Byte → Nat → Except Fault HashMap)
    (hput : ∀ m k v m1, P m → put2 m k v = Except.ok m1 → P m1) :
    ∀ (l : List HashEntry) (m m1 : HashMap), P m → rehash_copy put2 l m = Except.ok m1 →
      P m1 := by
  intro l
  induction l with
  | nil =>
    intro m m1 hp h
    simp only [rehash_copy, Except.ok.injEq] at h
    exact h ▸ hp
  | cons ent rest ih =>
    intro m m1 hp h
    rw [rehash_copy] at h
    split at h
    · split at h
      · simp at h
      · rename_i m2 hm2
        exact ih m2 m1 (hput _ _ _ _ hp hm2) h
    · exact ih m m1 hp h

/-- What a completed `rehash` returns. -/
theorem rehash_with_sound {put2 : HashMap → List Byte → Nat → Except Fault HashMap}
    {map m0 : HashMap} (h : rehash_with put2 map = Except.ok m0) :
    ∃ cap, map.capacity ≤ cap ∧ cap ≠ 0 ∧ rehash_nkeys map * 100 / cap < LOW_WATERMARK ∧
      rehash_copy put2 (rehash_visited map)
        ⟨some (List.replicate cap HashEntry.zero), cap, 0, map.alloc_lifetime⟩ = Except.ok m0 ∧
      m0.used = rehash_nkeys map := by
  unfold rehash_with at h
  split at h
  · simp at h
  · rename_i cap hcap
    obtain ⟨h1, h2⟩ := rehash_capacity_sound _ _ _ hcap
    split at h
    · simp at h
    · rename_i hc0
      split at h
      · simp at h
      · rename_i map2 hcopy
        split at h
        · rename_i hu
          simp only [Except.ok.injEq] at h
          subst h
          exact ⟨cap, h1, hc0, h2, hcopy, hu⟩
        · simp at h

theorem InvCore_put_probe {map m1 : HashMap} {bs : List HashEntry} {key : List Byte}
    {val : Nat} (hi : InvCore map) (hb : map.buckets = some bs)
    (h : put_probe map bs key val = Except.ok m1) :
    InvCore m1 ∧ m1.capacity = map.capacity ∧ m1.used ≤ map.used + 1 := by
  obtain ⟨d, e0, hd, he, hp, _, rfl⟩ := put_probe_sound hb h
  exact ⟨InvCore_put_at hi hb hd he hp, rfl, put_at_used_le _ _ _ _ _ _⟩

theorem InvCore_alloc {map : HashMap} (hi : InvCore map) (hb : map.buckets = none) :
    InvCore { map with
      buckets := some (List.replicate INIT_SIZE HashEntry.zero), capacity := INIT_SIZE } :=
  InvCore_fresh map.used map.alloc_lifetime (le_refl _) (hi.null_map hb).2

/-- The map a put probes satisfies `InvCore`, is strictly below the high watermark
and is no smaller than the map the put was called on, provided the puts that
`rehash` makes preserve `InvCore` and never shrink the map. -/
theorem Prepared_inv {put2 : HashMap → List Byte → Nat → Except Fault HashMap}
    (hput : ∀ m k v m1, InvCore m → put2 m k v = Except.ok m1 →
      InvCore m1 ∧ m.capacity ≤ m1.capacity)
    {map m0 : HashMap} (hi : InvCore map) (hp : Prepared put2 map m0) :
    InvCore m0 ∧ map.capacity ≤ m0.capacity ∧ m0.used * 100 < HIGH_WATERMARK * m0.capacity := by
  rcases hp with ⟨hb, rfl⟩ | ⟨hb, hw, rfl⟩ | ⟨hb, hw, hr⟩
  · refine ⟨InvCore_alloc hi hb, ?_, ?_⟩
    · simp [(hi.null_map hb).1]
    · simp [(hi.null_map hb).2, HIGH_WATERMARK, INIT_SIZE]
  · refine ⟨hi, le_refl _, ?_⟩
    obtain ⟨bs, hbs⟩ := Option.ne_none_iff_exists'.mp hb
    have hc := hi.cap_ge bs hbs
    simp only [INIT_SIZE] at hc
    exact (Nat.div_lt_iff_lt_mul (by omega)).mp hw
  · obtain ⟨bs, hbs⟩ := Option.ne_none_iff_exists'.mp hb
    have hc := hi.cap_ge bs hbs
    obtain ⟨cap, h1, _, h3, h4, h5⟩ := rehash_with_sound hr
    have hP := rehash_copy_induct (fun m => InvCore m ∧ cap ≤ m.capacity) put2
      (fun m k v m1 hm hk => by
        obtain ⟨a, b⟩ := hput m k v m1 hm.1 hk
        exact ⟨a, le_trans hm.2 b⟩)
      _ _ m0 ⟨InvCore_fresh 0 map.alloc_lifetime (le_trans hc h1) rfl, le_refl _⟩ h4
    refine ⟨hP.1, le_trans h1 hP.2, ?_⟩
    have hpos : 0 < cap := by simp only [INIT_SIZE] at hc; omega
    have h6 : rehash_nkeys map * 100 < LOW_WATERMARK * cap :=
      (Nat.div_lt_iff_lt_mul hpos).mp h3
    rw [h5]
    simp only [LOW_WATERMARK, HIGH_WATERMARK] at *
    nlinarith [hP.2]

theorem InvCore_put_depth :
    ∀ (n : Nat) (map : HashMap) (key : List Byte) (val : Nat) (m1 : HashMap), InvCore map →
      hashmap_put2_depth n map key val = Except.ok m1 →
      InvCore m1 ∧ map.capacity ≤ m1.capacity := by
  intro n
  induction n with
  | zero => intro map key val m1 _ h; simp [hashmap_put2_depth] at h
  | succ n ih =>
    intro map key val m1 hi h
    obtain ⟨m0, bs0, hp, hb0, hprobe⟩ := put_depth_cases h
    obtain ⟨h1, h2, _⟩ := Prepared_inv ih hi hp
    obtain ⟨h4, h5, _⟩ := InvCore_put_probe h1 hb0 hprobe
    exact ⟨h4, by omega⟩

theorem Inv_put_depth {n : Nat} {map m1 : HashMap} {key : List Byte} {val : Nat}
    (hi : InvCore map) (h : hashmap_put2_depth n map key val = Except.ok m1) : Inv m1 := by
  cases n with
  | zero => simp [hashmap_put2_depth] at h
  | succ n =>
    obtain ⟨m0, bs0, hp, hb0, hprobe⟩ := put_depth_cases h
    obtain ⟨h1, _, h3⟩ := Prepared_inv (InvCore_put_depth n) hi hp
    obtain ⟨h4, h5, h6⟩ := InvCore_put_probe h1 hb0 hprobe
    refine ⟨h4, ?_⟩
    intro bs _
    rw [h5]
    simp only [HIGH_WATERMARK] at *
    omega

theorem Inv_zero (al : AllocLifetime) : Inv (HashMap.zero al) := by
  refine ⟨⟨?_, ?_, ?_, ?_, ?_, ?_⟩, ?_⟩ <;> simp [HashMap.zero]

theorem Inv_delete {map m1 : HashMap} {key : List Byte} (hi : Inv map)
    (h : hashmap_delete2 map key = Except.ok m1) : Inv m1 := by
  obtain ⟨h1, h2, h3⟩ := InvCore_delete hi.toInvCore h
  refine ⟨h1, ?_⟩
  intro bs hb
  rw [h2, h3]
  rcases delete_cases h with ⟨_, rfl⟩ | ⟨bs0, _, _, hb0, _⟩
  · exact hi.watermark bs hb
  · exact hi.watermark bs0 hb0

/-- Every reachable map satisfies the invariant. -/
theorem Reachable.inv {m : HashMap} (h : Reachable m) : Inv m := by
  induction h with
  | zero al => exact Inv_zero al
  | put key val _ hp ih => exact Inv_put_depth ih.toInvCore hp
  | delete key _ hd ih => exact Inv_delete ih hd

/-! ## Runs and reachability -/

theorem Reachable.run {ops : List Op} :
    ∀ {m m1 : HashMap}, Reachable m → run ops m = Except.ok m1 → Reachable m1 := by
  induction ops with
  | nil =>
    intro m m1 hm h
    simp only [Chibicc.run, Except.ok.injEq] at h
    exact h ▸ hm
  | cons op rest ih =>
    intro m m1 hm h
    rw [Chibicc.run] at h
    split at h
    · simp at h
    · rename_i m2 h2
      cases op with
      | put key val => exact ih (Reachable.put key val hm h2) h
      | delete key => exact ih (Reachable.delete key hm h2) h

theorem Reachable.map_after (ops : List Op) (al : AllocLifetime) :
    Reachable (map_after ops al) := by
  unfold Chibicc.map_after
  split
  · rename_i m h
    exact Reachable.run (Reachable.zero al) h
  · exact Reachable.zero al

/-! ## The claims -/

/-- C1, evaluated at the failing input: after `put a 1; put q 2; delete a; put q 3;
delete q` the code still returns the value `2` for `q`, where the reference map
has no entry for `q`. -/
theorem C1_stale_value_after_delete :
    ∃ m, run (shadow_ops ++ [Op.delete [113]]) (HashMap.zero AllocLifetime.AL_Manual) =
        Except.ok m ∧
      hashmap_get2 m [113] = Except.ok 2 ∧
      ref_run (shadow_ops ++ [Op.delete [113]]) [113] = none :=
  ⟨_, rfl, by decide, by decide⟩

/-- C2: in a reachable map, when `hashmap_put2 m k v` returns (with or without a
rehash), the `hashmap_get2 m k` that follows returns `v`. -/
theorem C2_get_after_put (m m1 : HashMap) (k : List Byte) (v : Nat) (_hm : Reachable m)
    (hput : hashmap_put2 m k v = Except.ok m1) : hashmap_get2 m1 k = Except.ok v :=
  hashmap_get2_put_depth hput

/-- C2 at a put that rehashes a map of 16 buckets holding 12 keys. -/
theorem C2_get_after_put_witness :
    Reachable (map_after fill_ops AllocLifetime.AL_Link) ∧
      (map_after fill_ops AllocLifetime.AL_Link).capacity = 16 ∧
      (map_after (fill_ops ++ [Op.put [109] 13]) AllocLifetime.AL_Link).capacity = 32 ∧
      hashmap_put2 (map_after fill_ops AllocLifetime.AL_Link) [109] 13 =
        Except.ok (map_after (fill_ops ++ [Op.put [109] 13]) AllocLifetime.AL_Link) ∧
      hashmap_get2 (map_after (fill_ops ++ [Op.put [109] 13]) AllocLifetime.AL_Link) [109] =
        Except.ok 13 :=
  ⟨Reachable.map_after _ _, by decide, by decide, by decide,
    C2_get_after_put (map_after fill_ops AllocLifetime.AL_Link)
      (map_after (fill_ops ++ [Op.put [109] 13]) AllocLifetime.AL_Link) [109] 13
      (Reachable.map_after _ _) (by decide)⟩

/-- C4, evaluated at the failing input: after `put a 1; put q 2; delete a; put q 3`
the buckets 14 and 15 are both live and both hold the key `q`. -/
theorem C4_two_live_buckets_same_key :
    ∃ m bs e1 e2, run shadow_ops (HashMap.zero AllocLifetime.AL_Manual) = Except.ok m ∧
      m.buckets = some bs ∧ bs[14]? = some e1 ∧ bs[15]? = some e2 ∧
      e1.live = true ∧ e2.live = true ∧ e1.key = e2.key ∧ e1.keylen = e2.keylen ∧
      e1.val = 3 ∧ e2.val = 2 :=
  ⟨_, _, _, _, rfl, rfl, rfl, rfl, by decide, by decide, by decide, by decide, by decide,
    by decide⟩

/-- C7 as stated fails: after the scenario the `used` field is not 2. -/
theorem C7_used_is_not_two :
    ¬ ∃ m, run scenario_ops (HashMap.zero AllocLifetime.AL_Manual) = Except.ok m ∧
      hashmap_get2 m [97] = Except.ok 0 ∧ hashmap_get2 m [98] = Except.ok 2 ∧
      hashmap_get2 m [99] = Except.ok 3 ∧ m.used = 2 := by
  rintro ⟨m, h1, _, _, _, h5⟩
  have h : run scenario_ops (HashMap.zero AllocLifetime.AL_Manual) =
      Except.ok (map_after scenario_ops AllocLifetime.AL_Manual) := by decide
  rw [h] at h1
  simp only [Except.ok.injEq] at h1
  subst h1
  revert h5
  decide

/-- C7, amended: after `put a 1; put b 2; delete a; put c 3` on a zero-initialised
map, `get a` is absent, `get b` is 2, `get c` is 3 and `used` is 3 (the tombstone
of `a` is still counted). -/
theorem C7_scenario (al : AllocLifetime) :
    ∃ m, run scenario_ops (HashMap.zero al) = Except.ok m ∧
      hashmap_get2 m [97] = Except.ok 0 ∧ hashmap_get2 m [98] = Except.ok 2 ∧
      hashmap_get2 m [99] = Except.ok 3 ∧ m.used = 3 := by
  cases al <;> exact ⟨_, rfl, by decide, by decide, by decide, by decide⟩

/-- C8 as stated fails: after `put a 1; delete a` the map has `used = 1` and no
live bucket. -/
theorem C8_used_counts_tombstones :
    ¬ ∀ m, Reachable m → m.used = live_count m := by
  intro h
  have h1 := h (map_after [Op.put [97] 1, Op.delete [97]] AllocLifetime.AL_Manual)
    (Reachable.map_after _ _)
  revert h1
  decide

/-- C8, amended: in every reachable map `used` is the number of buckets that are
not empty, tombstones included, so it is at least the number of live buckets. -/
theorem C8_used_eq_nonempty_count (m : HashMap) (h : Reachable m) :
    m.used = nonempty_count m ∧ live_count m ≤ m.used := by
  have hi := h.inv
  cases hb : m.buckets with
  | none => simp [nonempty_count, live_count, hb, (hi.null_map hb).2]
  | some bs =>
    have hu := hi.used_eq bs hb
    refine ⟨by simp [nonempty_count, hb, hu], ?_⟩
    simp only [live_count, hb, hu]
    exact List.countP_mono_left (fun e _ he => live_nonempty he)

/-- C8, amended, at the map left by `put a 1; delete a`. -/
theorem C8_used_eq_nonempty_count_witness :
    Reachable (map_after [Op.put [97] 1, Op.delete [97]] AllocLifetime.AL_Manual) ∧
      (map_after [Op.put [97] 1, Op.delete [97]] AllocLifetime.AL_Manual).used = 1 ∧
      (map_after [Op.put [97] 1, Op.delete [97]] AllocLifetime.AL_Manual).used =
        nonempty_count (map_after [Op.put [97] 1, Op.delete [97]] AllocLifetime.AL_Manual) ∧
      live_count (map_after [Op.put [97] 1, Op.delete [97]] AllocLifetime.AL_Manual) ≤
        (map_after [Op.put [97] 1, Op.delete [97]] AllocLifetime.AL_Manual).used :=
  ⟨Reachable.map_after _ _, by decide,
    C8_used_eq_nonempty_count _ (Reachable.map_after _ _)⟩

/-- C10: in every map reachable from the zero-initialised map by put and delete
calls, `used ≤ capacity`. -/
theorem C10_used_le_capacity (m : HashMap) (h : Reachable m) : m.used ≤ m.capacity := by
  have hi := h.inv
  cases hb : m.buckets with
  | none => simp [(hi.null_map hb).2]
  | some bs =>
    rw [hi.used_eq bs hb, ← hi.length_eq bs hb]
    exact List.countP_le_length _

/-- C10 at the map left by the scenario. -/
theorem C10_used_le_capacity_witness :
    Reachable (map_after scenario_ops AllocLifetime.AL_Temp) ∧
      (map_after scenario_ops AllocLifetime.AL_Temp).used = 3 ∧
      (map_after scenario_ops AllocLifetime.AL_Temp).capacity = 16 ∧
      (map_after scenario_ops AllocLifetime.AL_Temp).used ≤
        (map_after scenario_ops AllocLifetime.AL_Temp).capacity :=
  ⟨Reachable.map_after _ _, by decide, by decide,
    C10_used_le_capacity _ (Reachable.map_after _ _)⟩

/-! ## Lookups always return on reachable maps -/

/-- Every bucket index is a probe position of every hash. -/
theorem probe_surj {cap j : Nat} (h : Nat) (hj : j < cap) :
    ∃ d, d < cap ∧ (h + d) % cap = j := by
  have ha : h % cap < cap := Nat.mod_lt _ (by omega)
  by_cases hle : h % cap ≤ j
  · refine ⟨j - h % cap, by omega, ?_⟩
    rw [Nat.add_mod, Nat.mod_eq_of_lt (show j - h % cap < cap by omega)]
    rw [show h % cap + (j - h % cap) = j by omega]
    exact Nat.mod_eq_of_lt hj
  · refine ⟨j + cap - h % cap, by omega, ?_⟩
    rw [Nat.add_mod, Nat.mod_eq_of_lt (show j + cap - h % cap < cap by omega)]
    rw [show h % cap + (j + cap - h % cap) = j + cap by omega]
    rw [Nat.add_mod_right]
    exact Nat.mod_eq_of_lt hj

theorem probe_lt {cap : Nat} (h d : Nat) (hc : 0 < cap) : (h + d) % cap < cap :=
  Nat.mod_lt _ hc

/-- A map that satisfies the invariant and has a bucket array has an empty bucket. -/
theorem Inv.exists_empty {m : HashMap} {bs : List HashEntry} (hi : Inv m)
    (hb : m.buckets = some bs) :
    ∃ (j : Nat) (e : HashEntry), bs[j]? = some e ∧ e.key = KeyPtr.null := by
  have hc := hi.cap_ge bs hb
  have hw := hi.watermark bs hb
  have hl := hi.length_eq bs hb
  have hu := hi.used_eq bs hb
  simp only [INIT_SIZE, HIGH_WATERMARK] at hc hw
  have hlt : bs.countP HashEntry.nonempty < bs.length := by omega
  have hne : ¬ ∀ a ∈ bs, HashEntry.nonempty a = true := by
    intro hall
    have := List.countP_eq_length.mpr hall
    omega
  push_neg at hne
  obtain ⟨e, he, hn⟩ := hne
  obtain ⟨j, hj, hje⟩ := List.getElem_of_mem he
  refine ⟨j, e, ?_, ?_⟩
  · rw [List.getElem?_eq_getElem hj, hje]
  · by_contra hk
    exact hn (nonempty_iff.mpr hk)

/-- The loop of `get_entry` returns when a matching or empty bucket lies within the
remaining probe positions and the positions before it are inside the array. -/
theorem get_entry_loop_total {bs : List HashEntry} {cap h : Nat} {key : List Byte} :
    ∀ (n i d : Nat) (e0 : HashEntry), i ≤ d → d < i + n → bs[(h + d) % cap]? = some e0 →
      (entry_match e0 key = true ∨ e0.key = KeyPtr.null) →
      (∀ j, i ≤ j → j < d → ∃ ej, bs[(h + j) % cap]? = some ej) →
      ∃ r, get_entry_loop bs cap h key n i = Except.ok r := by
  intro n
  induction n with
  | zero => intro i d e0 h1 h2; omega
  | succ n ih =>
    intro i d e0 h1 h2 h3 h4 h5
    rw [get_entry_loop]
    by_cases hdi : d = i
    · subst hdi
      simp only [h3]
      by_cases hm : entry_match e0 key = true
      · exact ⟨some ((h + d) % cap, e0), by simp [hm]⟩
      · have hm' : entry_match e0 key = false := by simpa using hm
        have hk : e0.key = KeyPtr.null := by
          rcases h4 with h4 | h4
          · exact absurd h4 hm
          · exact h4
        exact ⟨none, by simp [hm', hk]⟩
    · obtain ⟨ej, hj1⟩ := h5 i (le_refl _) (by omega)
      simp only [hj1]
      by_cases hm : entry_match ej key = true
      · exact ⟨some ((h + i) % cap, ej), by simp [hm]⟩
      · have hm' : entry_match ej key = false := by simpa using hm
        by_cases hk : ej.key = KeyPtr.null
        · exact ⟨none, by simp [hm', hk]⟩
        · simp only [hm', hk, Bool.false_eq_true, if_false]
          exact ih (i + 1) d e0 (by omega) (by omega) h3 h4 (fun j a b => h5 j (by omega) b)

/-- On a map that satisfies the invariant `get_entry` returns: its probe meets an
empty bucket at the latest. -/
theorem Inv.get_entry_total {m : HashMap} (hi : Inv m) (key : List Byte) :
    ∃ r, get_entry m key = Except.ok r := by
  unfold get_entry
  cases hb : m.buckets with
  | none => exact ⟨none, rfl⟩
  | some bs =>
    simp only []
    obtain ⟨j, e, hj, hk⟩ := hi.exists_empty hb
    have hl := hi.length_eq bs hb
    have hc := hi.cap_ge bs hb
    simp only [INIT_SIZE] at hc
    have hjl : j < m.capacity := hl ▸ (List.getElem?_eq_some.mp hj).1
    obtain ⟨d, hd, hdj⟩ := probe_surj (fnv_hash key) hjl
    refine get_entry_loop_total m.capacity 0 d e (Nat.zero_le _) (by omega)
      (by rw [hdj]; exact hj) (Or.inr hk) ?_
    intro i _ _
    have : (fnv_hash key + i) % m.capacity < bs.length := hl ▸ probe_lt _ _ (by omega)
    exact ⟨bs[(fnv_hash key + i) % m.capacity], List.getElem?_eq_getElem this⟩

theorem Inv.delete_total {m : HashMap} (hi : Inv m) (key : List Byte) :
    ∃ m1, hashmap_delete2 m key = Except.ok m1 := by
  obtain ⟨r, hr⟩ := hi.get_entry_total key
  unfold hashmap_delete2
  rw [hr]
  cases r with
  | none => exact ⟨_, rfl⟩
  | some p =>
    obtain ⟨i, ent⟩ := p
    cases hb : m.buckets with
    | none => exact ⟨_, rfl⟩
    | some bs => exact ⟨_, rfl⟩

theorem Inv.get_total {m : HashMap} (hi : Inv m) (key : List Byte) :
    ∃ v, hashmap_get2 m key = Except.ok v := by
  obtain ⟨r, hr⟩ := hi.get_entry_total key
  unfold hashmap_get2
  rw [hr]
  cases r with
  | none => exact ⟨_, rfl⟩
  | some p => exact ⟨_, rfl⟩

/-! ## A delete and the lookups of other keys -/

theorem entry_match_unique {e : HashEntry} {k1 k2 : List Byte}
    (h1 : entry_match e k1 = true) (h2 : entry_match e k2 = true) : k1 = k2 := by
  cases e with
  | mk k l v =>
    cases k with
    | null => simp [entry_match] at h1
    | tombstone => simp [entry_match] at h1
    | ptr b =>
      simp only [entry_match, Bool.and_eq_true, beq_iff_eq] at h1 h2
      rw [← h1.2, ← h2.2]

/-- Replacing a bucket that does not match `key` by another that does not match
it, empty or not as the first, leaves the probe of `key` as it was. -/
theorem get_entry_loop_set {bs : List HashEntry} {cap h idx : Nat} {key : List Byte}
    {e e1 : HashEntry} (he : bs[idx]? = some e) (hm : entry_match e key = false)
    (hm1 : entry_match e1 key = false) (hk : e.key = KeyPtr.null ↔ e1.key = KeyPtr.null) :
    ∀ (n i : Nat),
      get_entry_loop (bs.set idx e1) cap h key n i = get_entry_loop bs cap h key n i := by
  intro n
  induction n with
  | zero => intro i; rfl
  | succ n ih =>
    intro i
    rw [get_entry_loop, get_entry_loop]
    by_cases hij : idx = (h + i) % cap
    · rw [← hij, List.getElem?_set_self (List.getElem?_eq_some.mp he).1, he]
      simp only [hm, hm1, Bool.false_eq_true, if_false, hk, ih]
    · rw [List.getElem?_set_ne hij]
      cases bs[(h + i) % cap]? with
      | none => rfl
      | some ent => simp only [ih]

/-- After `hashmap_delete2 m k1` the lookup of any other key does exactly what it
did before, on every map. -/
theorem get_entry_delete_ne {m m1 : HashMap} {k1 k2 : List Byte} (hne : k1 ≠ k2)
    (h : hashmap_delete2 m k1 = Except.ok m1) :
    (match get_entry m1 k2 with
      | Except.error e => Except.error e
      | Except.ok none => Except.ok 0
      | Except.ok (some (_, ent)) => Except.ok ent.val) = hashmap_get2 m k2 := by
  rcases delete_cases h with ⟨_, rfl⟩ | ⟨bs, d, ent, hb, hd, he, hm, hp, _, rfl⟩
  · rfl
  · have hm2 : entry_match ent k2 = false := by
      by_contra hc
      exact hne (entry_match_unique hm (by simpa using hc))
    have hset := @get_entry_loop_set bs m.capacity (fnv_hash k2)
      ((fnv_hash k1 + d) % m.capacity) k2 ent { ent with key := KeyPtr.tombstone } he hm2
      (by simp [entry_match])
      (by
        have := (live_key (entry_match_live hm)).1
        simp [this])
      m.capacity 0
    simp only [hashmap_get2, get_entry, hb, hset]

/-! ## Present and absent keys -/

theorem entry_match_key {e : HashEntry} {k : List Byte} (h : entry_match e k = true) :
    e.key = KeyPtr.ptr k ∧ e.keylen = k.length := by
  cases e with
  | mk key l v =>
    cases key with
    | null => simp [entry_match] at h
    | tombstone => simp [entry_match] at h
    | ptr b =>
      simp only [entry_match, Bool.and_eq_true, beq_iff_eq] at h
      simp [h.1, h.2]

/-- On a map that satisfies the invariant, the lookup of a key that some bucket
matches returns a bucket that matches it. -/
theorem Inv.get_entry_finds {m : HashMap} {bs : List HashEntry} {key : List Byte} {j : Nat}
    {e : HashEntry} (hi : Inv m) (hb : m.buckets = some bs) (hj : bs[j]? = some e)
    (hm : entry_match e key = true) :
    ∃ d e1, d < m.capacity ∧ bs[(fnv_hash key + d) % m.capacity]? = some e1 ∧
      entry_match e1 key = true ∧
      get_entry m key = Except.ok (some ((fnv_hash key + d) % m.capacity, e1)) := by
  obtain ⟨d0, hd0, hdj, hp0⟩ := hi.chain bs j e key hb hj (entry_match_key hm).1
  obtain ⟨r, hr⟩ := @get_entry_loop_total bs m.capacity (fnv_hash key) key m.capacity 0 d0 e
    (Nat.zero_le _) (by omega) (by rw [hdj]; exact hj) (Or.inl hm)
    (fun i a b => by
      obtain ⟨ej, h1, _⟩ := hp0 i a b
      exact ⟨ej, h1⟩)
  obtain ⟨d, e1, _, h2, h3, h4, h5⟩ := get_entry_loop_sound _ _ _ hr
  rcases h5 with ⟨h5, h6⟩ | ⟨h5, h6, _⟩
  · refine ⟨d, e1, by omega, h3, h5, ?_⟩
    simp only [get_entry, hb, hr, h6]
  · exfalso
    rcases Nat.lt_trichotomy d d0 with hlt | heq | hgt
    · obtain ⟨ej, h7, h8⟩ := hp0 d (Nat.zero_le _) hlt
      rw [h3] at h7
      simp only [Option.some.injEq] at h7
      subst h7
      exact (nonempty_iff.mp h8) h6
    · subst heq
      rw [hdj, hj] at h3
      simp only [Option.some.injEq] at h3
      subst h3
      simp [hm] at h5
    · obtain ⟨ej, h7, h8, _⟩ := h4 d0 (Nat.zero_le _) hgt
      rw [hdj, hj] at h7
      simp only [Option.some.injEq] at h7
      subst h7
      simp [hm] at h8

/-- On a map that satisfies the invariant, the lookup of a key that no bucket
matches returns `NULL`. -/
theorem Inv.get_entry_absent {m : HashMap} {key : List Byte} (hi : Inv m)
    (hn : ∀ (bs : List HashEntry) (j : Nat) (e : HashEntry), m.buckets = some bs →
      bs[j]? = some e → entry_match e key = false) :
    get_entry m key = Except.ok none := by
  obtain ⟨r, hr⟩ := hi.get_entry_total key
  cases r with
  | none => exact hr
  | some p =>
    exfalso
    cases hb : m.buckets with
    | none => simp [get_entry, hb] at hr
    | some bs =>
      simp only [get_entry, hb] at hr
      obtain ⟨d, e1, _, _, h3, _, h5⟩ := get_entry_loop_sound _ _ _ hr
      rcases h5 with ⟨h5, _⟩ | ⟨_, _, h6⟩
      · have := hn bs _ e1 hb h3
        simp [h5] at this
      · simp at h6

/-- C6: in a reachable map, for two distinct keys `k1` and `k2`, the delete of `k1`
returns and `hashmap_get2` of `k2` returns the same result after it as before it. -/
theorem C6_delete_keeps_other_lookups (m : HashMap) (k1 k2 : List Byte) (hm : Reachable m)
    (hne : k1 ≠ k2) :
    ∃ m1 v, hashmap_delete2 m k1 = Except.ok m1 ∧ hashmap_get2 m k2 = Except.ok v ∧
      hashmap_get2 m1 k2 = Except.ok v := by
  obtain ⟨m1, h1⟩ := hm.inv.delete_total k1
  obtain ⟨v, hv⟩ := hm.inv.get_total k2
  refine ⟨m1, v, h1, hv, ?_⟩
  rw [← hv, ← get_entry_delete_ne hne h1]
  rfl

/-- C6 at `k1 = a`, `k2 = q`: the key `q` was stored past the bucket of `a`. -/
theorem C6_delete_keeps_other_lookups_witness :
    Reachable (map_after [Op.put [97] 1, Op.put [113] 2] AllocLifetime.AL_Manual) ∧
      ([97] : List Byte) ≠ [113] ∧
      fnv_hash [97] % 16 = fnv_hash [113] % 16 ∧
      hashmap_get2 (map_after [Op.put [97] 1, Op.put [113] 2] AllocLifetime.AL_Manual) [113] =
        Except.ok 2 ∧
      ∃ m1 v,
        hashmap_delete2 (map_after [Op.put [97] 1, Op.put [113] 2] AllocLifetime.AL_Manual)
          [97] = Except.ok m1 ∧
        hashmap_get2 (map_after [Op.put [97] 1, Op.put [113] 2] AllocLifetime.AL_Manual)
          [113] = Except.ok v ∧
        hashmap_get2 m1 [113] = Except.ok v :=
  ⟨Reachable.map_after _ _, by decide, by decide, by decide,
    C6_delete_keeps_other_lookups
      (map_after [Op.put [97] 1, Op.put [113] 2] AllocLifetime.AL_Manual) [97] [113]
      (Reachable.map_after _ _) (by decide)⟩

/-- C9: in a reachable map, `hashmap_delete2` of a key that a bucket matches turns
the `key` field of one bucket matching it into the tombstone and changes nothing
else (`used`, `capacity`, the lifetime tag, the bucket's `keylen` and `val` and all
other buckets stay); `hashmap_delete2` of a key that no bucket matches, or on a map
without bucket array, returns the map unchanged. -/
theorem C9_delete_frame (m : HashMap) (k : List Byte) (hm : Reachable m) :
    (m.buckets = none → hashmap_delete2 m k = Except.ok m) ∧
      ∀ bs, m.buckets = some bs →
        ((∀ (j : Nat) (e : HashEntry), bs[j]? = some e → entry_match e k = false) →
          hashmap_delete2 m k = Except.ok m) ∧
        ((∃ (j : Nat) (e : HashEntry), bs[j]? = some e ∧ entry_match e k = true) →
          ∃ (i : Nat) (e : HashEntry), bs[i]? = some e ∧ entry_match e k = true ∧
            hashmap_delete2 m k =
              Except.ok ⟨some (bs.set i ⟨KeyPtr.tombstone, e.keylen, e.val⟩), m.capacity,
                m.used, m.alloc_lifetime⟩) := by
  refine ⟨?_, ?_⟩
  · intro hb
    simp [hashmap_delete2, get_entry, hb]
  · intro bs hb
    refine ⟨?_, ?_⟩
    · intro hn
      have := @Inv.get_entry_absent m k hm.inv (fun bs1 j e hb1 hj => by
        rw [hb] at hb1
        simp only [Option.some.injEq] at hb1
        subst hb1
        exact hn j e hj)
      simp [hashmap_delete2, this]
    · rintro ⟨j, e, hj, he⟩
      obtain ⟨d, e1, _, h2, h3, h4⟩ := hm.inv.get_entry_finds hb hj he
      refine ⟨_, e1, h2, h3, ?_⟩
      simp [hashmap_delete2, h4, hb]

/-- C9 at the delete of `b` from the map left by the scenario. -/
theorem C9_delete_frame_witness :
    Reachable (map_after scenario_ops AllocLifetime.AL_Manual) ∧
      hashmap_delete2 (map_after scenario_ops AllocLifetime.AL_Manual) [98] =
        Except.ok (map_after (scenario_ops ++ [Op.delete [98]]) AllocLifetime.AL_Manual) ∧
      ((map_after scenario_ops AllocLifetime.AL_Manual).buckets = none →
          hashmap_delete2 (map_after scenario_ops AllocLifetime.AL_Manual) [98] =
            Except.ok (map_after scenario_ops AllocLifetime.AL_Manual)) ∧
        ∀ bs, (map_after scenario_ops AllocLifetime.AL_Manual).buckets = some bs →
          ((∀ (j : Nat) (e : HashEntry), bs[j]? = some e → entry_match e [98] = false) →
            hashmap_delete2 (map_after scenario_ops AllocLifetime.AL_Manual) [98] =
              Except.ok (map_after scenario_ops AllocLifetime.AL_Manual)) ∧
          ((∃ (j : Nat) (e : HashEntry), bs[j]? = some e ∧ entry_match e [98] = true) →
            ∃ (i : Nat) (e : HashEntry), bs[i]? = some e ∧ entry_match e [98] = true ∧
              hashmap_delete2 (map_after scenario_ops AllocLifetime.AL_Manual) [98] =
                Except.ok ⟨some (bs.set i ⟨KeyPtr.tombstone, e.keylen, e.val⟩),
                  (map_after scenario_ops AllocLifetime.AL_Manual).capacity,
                  (map_after scenario_ops AllocLifetime.AL_Manual).used,
                  (map_after scenario_ops AllocLifetime.AL_Manual).alloc_lifetime⟩) :=
  ⟨Reachable.map_after _ _, by decide,
    C9_delete_frame (map_after scenario_ops AllocLifetime.AL_Manual) [98]
      (Reachable.map_after _ _)⟩

/-! ## Delete and re-insert -/

/-- The loop of `get_or_insert_entry` returns when a matching, deleted or empty
bucket lies within the remaining probe positions and the positions before it are
inside the array. -/
theorem put_loop_total {map : HashMap} {bs : List HashEntry} {key : List Byte} {val : Nat}
    (hb : map.buckets = some bs) :
    ∀ (n i d : Nat) (e0 : HashEntry), i ≤ d → d < i + n →
      bs[(fnv_hash key + d) % map.capacity]? = some e0 →
      (entry_match e0 key = true ∨ e0.key = KeyPtr.tombstone ∨ e0.key = KeyPtr.null) →
      (∀ j, i ≤ j → j < d → ∃ ej, bs[(fnv_hash key + j) % map.capacity]? = some ej) →
      ∃ d1 e1, i ≤ d1 ∧ d1 ≤ d ∧ bs[(fnv_hash key + d1) % map.capacity]? = some e1 ∧
        Passed bs map.capacity (fnv_hash key)
          (fun ej => ej.live = true ∧ entry_match ej key = false) i d1 ∧
        (entry_match e1 key = true ∨ e1.key = KeyPtr.tombstone ∨ e1.key = KeyPtr.null) ∧
        (match get_or_insert_entry_loop map bs (fnv_hash key) key n i with
          | Except.error e => Except.error e
          | Except.ok (map1, i, ent) =>
            match map1.buckets with
            | none => Except.error Fault.out_of_bounds
            | some bs1 =>
              Except.ok { map1 with buckets := some (bs1.set i { ent with val := val }) })
          = Except.ok (put_at map bs key val ((fnv_hash key + d1) % map.capacity) e1) := by
  intro n
  induction n with
  | zero => intro i d e0 h1 h2; omega
  | succ n ih =>
    intro i d e0 h1 h2 h3 h4 h5
    have hex : ∃ ei, bs[(fnv_hash key + i) % map.capacity]? = some ei := by
      by_cases hdi : d = i
      · subst hdi; exact ⟨e0, h3⟩
      · exact h5 i (le_refl _) (by omega)
    obtain ⟨ei, hei⟩ := hex
    by_cases hs : entry_match ei key = true ∨ ei.key = KeyPtr.tombstone ∨ ei.key = KeyPtr.null
    · exact ⟨i, ei, le_refl _, h1, hei, fun j a b => absurd a (by omega), hs,
        put_loop_complete hb (n + 1) i i ei (le_refl _) (by omega) hei
          (fun j a b => absurd a (by omega)) hs⟩
    · have hdi : d ≠ i := by
        intro hdi
        subst hdi
        rw [h3] at hei
        simp only [Option.some.injEq] at hei
        subst hei
        exact hs h4
      push_neg at hs
      have hm' : entry_match ei key = false := by simpa using hs.1
      obtain ⟨d1, e1, a1, a2, a3, a4, a5, a6⟩ :=
        ih (i + 1) d e0 (by omega) (by omega) h3 h4 (fun j a b => h5 j (by omega) b)
      refine ⟨d1, e1, by omega, a2, a3, ?_, a5, ?_⟩
      · intro j hj1 hj2
        by_cases hji : j = i
        · subst hji; exact ⟨ei, hei, live_of_key_ne hs.2.2 hs.2.1, hm'⟩
        · exact a4 j (by omega) hj2
      · rw [get_or_insert_entry_loop]
        simp only [hei, hm', hs.2.1, hs.2.2, Bool.false_eq_true, if_false]
        exact a6

/-- The probe of a put returns on a map that satisfies the invariant core and has
an empty bucket. -/
theorem put_probe_total {m : HashMap} {bs : List HashEntry} (hi : InvCore m)
    (hb : m.buckets = some bs)
    (hempty : ∃ (j : Nat) (e : HashEntry), bs[j]? = some e ∧ e.key = KeyPtr.null)
    (key : List Byte) (val : Nat) :
    ∃ d e0, d < m.capacity ∧ bs[(fnv_hash key + d) % m.capacity]? = some e0 ∧
      Passed bs m.capacity (fnv_hash key)
        (fun ej => ej.live = true ∧ entry_match ej key = false) 0 d ∧
      (entry_match e0 key = true ∨ e0.key = KeyPtr.tombstone ∨ e0.key = KeyPtr.null) ∧
      put_probe m bs key val =
        Except.ok (put_at m bs key val ((fnv_hash key + d) % m.capacity) e0) := by
  obtain ⟨j, e, hj, hk⟩ := hempty
  have hl := hi.length_eq bs hb
  have hc := hi.cap_ge bs hb
  simp only [INIT_SIZE] at hc
  have hjl : j < m.capacity := hl ▸ (List.getElem?_eq_some.mp hj).1
  obtain ⟨d, hd, hdj⟩ := probe_surj (fnv_hash key) hjl
  obtain ⟨d1, e1, _, a2, a3, a4, a5, a6⟩ :=
    @put_loop_total m bs key val hb m.capacity 0 d e (Nat.zero_le _) (by omega)
      (by rw [hdj]; exact hj) (Or.inr (Or.inr hk))
      (fun i _ _ => by
        have : (fnv_hash key + i) % m.capacity < bs.length := hl ▸ probe_lt _ _ (by omega)
        exact ⟨bs[(fnv_hash key + i) % m.capacity], List.getElem?_eq_getElem this⟩)
  exact ⟨d1, e1, by omega, a3, a4, a5, a6⟩

/-- The bucket array a completed put leaves: the probe of the key passes live
buckets that do not match it and then meets the bucket holding the key and value. -/
theorem put_depth_shape {n : Nat} {map m1 : HashMap} {key : List Byte} {val : Nat}
    (h : hashmap_put2_depth n map key val = Except.ok m1) :
    ∃ bs1 d e1, m1.buckets = some bs1 ∧ d < m1.capacity ∧
      bs1[(fnv_hash key + d) % m1.capacity]? = some e1 ∧ entry_match e1 key = true ∧
      e1.val = val ∧
      Passed bs1 m1.capacity (fnv_hash key)
        (fun ej => ej.live = true ∧ entry_match ej key = false) 0 d := by
  cases n with
  | zero => simp [hashmap_put2_depth] at h
  | succ n =>
    obtain ⟨m0, bs0, _, hb0, hprobe⟩ := put_depth_cases h
    obtain ⟨d, e0, hd, he, hp, _, rfl⟩ := put_probe_sound hb0 hprobe
    refine ⟨_, d, put_entry e0 key val, rfl, hd, ?_, entry_match_put_entry _ _ _,
      put_entry_val _ _ _, ?_⟩
    · exact List.getElem?_set_self (List.getElem?_eq_some.mp he).1
    · intro j hj1 hj2
      obtain ⟨ej, a1, a2⟩ := hp j hj1 hj2
      refine ⟨ej, ?_, a2⟩
      simp only [put_at]
      rw [List.getElem?_set_ne (Ne.symm (probe_inj hj2 hd))]
      exact a1

theorem countP_live_le_nonempty (bs : List HashEntry) :
    bs.countP HashEntry.live ≤ bs.countP HashEntry.nonempty :=
  List.countP_mono_left (fun _ _ he => live_nonempty he)

theorem rehash_nkeys_eq {m : HashMap} {bs : List HashEntry} (hb : m.buckets = some bs)
    (hl : bs.length = m.capacity) : rehash_nkeys m = bs.countP HashEntry.live := by
  simp [rehash_nkeys, rehash_visited, hb, ← hl]

/-- C5: in a reachable map, after `put k v1` the `delete k` returns, and when the
`put k v2` that follows returns, `get k` returns `v2` and `used` is not greater
than it was after the first put; this second put does return whenever the map is
below the high watermark, and then leaves `used` as it was. -/
theorem C5_delete_then_put_reuses (m m1 : HashMap) (k : List Byte) (v1 v2 : Nat)
    (hm : Reachable m) (h1 : hashmap_put2 m k v1 = Except.ok m1) :
    ∃ m2, hashmap_delete2 m1 k = Except.ok m2 ∧
      (∀ m3, hashmap_put2 m2 k v2 = Except.ok m3 →
        hashmap_get2 m3 k = Except.ok v2 ∧ m3.used ≤ m1.used) ∧
      (m2.used * 100 / m2.capacity < HIGH_WATERMARK →
        ∃ m3, hashmap_put2 m2 k v2 = Except.ok m3 ∧ m3.used = m1.used) := by
  have hr1 : Reachable m1 := Reachable.put k v1 hm h1
  have hi1 := hr1.inv
  obtain ⟨m2, h2⟩ := hi1.delete_total k
  have hi2 : Inv m2 := (Reachable.delete k hr1 h2).inv
  obtain ⟨bs1, d, e1, hb1, hd, he1, hm1, _, hp1⟩ := put_depth_shape h1
  have hg : get_entry m1 k = Except.ok (some ((fnv_hash k + d) % m1.capacity, e1)) := by
    have := @get_entry_loop_complete bs1 m1.capacity (fnv_hash k) k m1.capacity 0 d e1
      (Nat.zero_le _) (by omega) he1
      (Passed_mono hp1 (fun e a => ⟨a.2, (live_key a.1).1⟩)) (Or.inl hm1)
    simp only [get_entry, hb1, this, hm1, if_true]
  have hm2 : m2 = { m1 with
      buckets := some (bs1.set ((fnv_hash k + d) % m1.capacity)
        { e1 with key := KeyPtr.tombstone }) } := by
    simp only [hashmap_delete2, hg, hb1, Except.ok.injEq] at h2
    exact h2.symm
  have hlen := hi1.length_eq bs1 hb1
  have hidx : (fnv_hash k + d) % m1.capacity < bs1.length := (List.getElem?_eq_some.mp he1).1
  -- the probe of `k` in the map after the delete stops at a bucket that is not empty
  have hstop : ∀ d3 e3, d3 < m2.capacity →
      (bs1.set ((fnv_hash k + d) % m1.capacity)
        { e1 with key := KeyPtr.tombstone })[(fnv_hash k + d3) % m2.capacity]? = some e3 →
      Passed (bs1.set ((fnv_hash k + d) % m1.capacity) { e1 with key := KeyPtr.tombstone })
        m2.capacity (fnv_hash k) (fun ej => ej.live = true ∧ entry_match ej k = false) 0 d3 →
      e3.key ≠ KeyPtr.null := by
    intro d3 e3 hd3 he3 hp3
    have hcap : m2.capacity = m1.capacity := by rw [hm2]
    rw [hcap] at he3 hp3 hd3
    rcases Nat.lt_trichotomy d3 d with hlt | heq | hgt
    · rw [List.getElem?_set_ne (Ne.symm (probe_inj hlt hd))] at he3
      obtain ⟨ej, a1, a2, _⟩ := hp1 d3 (Nat.zero_le _) hlt
      rw [he3] at a1
      simp only [Option.some.injEq] at a1
      subst a1
      exact (live_key a2).1
    · subst heq
      rw [List.getElem?_set_self hidx] at he3
      simp only [Option.some.injEq] at he3
      subst he3
      simp
    · obtain ⟨ej, a1, a2, _⟩ := hp3 d (Nat.zero_le _) hgt
      rw [List.getElem?_set_self hidx] at a1
      simp only [Option.some.injEq] at a1
      subst a1
      simp [HashEntry.live] at a2
  have hb2 : m2.buckets = some (bs1.set ((fnv_hash k + d) % m1.capacity)
      { e1 with key := KeyPtr.tombstone }) := by rw [hm2]
  have hu2 : m2.used = m1.used := by rw [hm2]
  refine ⟨m2, h2, ?_, ?_⟩
  · intro m3 h3
    refine ⟨hashmap_get2_put_depth h3, ?_⟩
    obtain ⟨m0, bs0, hprep, hb0, hprobe⟩ := put_depth_cases h3
    obtain ⟨d3, e3, hd3, he3, hp3, _, rfl⟩ := put_probe_sound hb0 hprobe
    rcases hprep with ⟨hnone, _⟩ | ⟨_, _, rfl⟩ | ⟨_, _, hre⟩
    · rw [hb2] at hnone
      simp at hnone
    · rw [hb2] at hb0
      simp only [Option.some.injEq] at hb0
      subst hb0
      have := hstop d3 e3 hd3 he3 hp3
      simp only [put_at, this, if_false]
      omega
    · obtain ⟨cap, _, _, _, _, hused⟩ := rehash_with_sound hre
      have hnk := rehash_nkeys_eq hb2 (by simpa using (hi2.length_eq _ hb2))
      have hc := countP_set_add HashEntry.live bs1 ((fnv_hash k + d) % m1.capacity)
        ({ e1 with key := KeyPtr.tombstone } : HashEntry) e1 he1
      have hl1 : e1.live = true := entry_match_live hm1
      have hl2 : ({ e1 with key := KeyPtr.tombstone } : HashEntry).live = false := rfl
      simp only [hl1, hl2, if_true, Bool.false_eq_true, if_false] at hc
      have hle := countP_live_le_nonempty bs1
      have hu1 := hi1.used_eq bs1 hb1
      have := put_at_used_le m0 bs0 k v2 ((fnv_hash k + d3) % m0.capacity) e3
      omega
  · intro hw
    obtain ⟨d3, e3, hd3, he3, hp3, _, hput⟩ :=
      put_probe_total hi2.toInvCore hb2 (hi2.exists_empty hb2) k v2
    have hput2 : hashmap_put2_depth 2 m2 k v2 = put_probe m2
        (bs1.set ((fnv_hash k + d) % m1.capacity) { e1 with key := KeyPtr.tombstone }) k v2 := by
      rw [hashmap_put2_depth_succ]
      simp only [hb2]
      rw [if_neg (by omega)]
    have hnull := hstop d3 e3 hd3 he3 hp3
    exact ⟨_, hput2.trans hput, by simp only [put_at, hnull, if_false]; exact hu2⟩

/-! ## Runs that put every key at most once -/

theorem Holds_put_at {m0 : HashMap} {bs0 : List HashEntry} {key : List Byte} {val idx : Nat}
    {e0 : HashEntry} (hb : m0.buckets = some bs0) (he : bs0[idx]? = some e0)
    (hl : e0.live = false) (k : List Byte) (v : Nat) :
    Holds (put_at m0 bs0 key val idx e0) k v ↔ (k = key ∧ v = val) ∨ Holds m0 k v := by
  have hlt : idx < bs0.length := (List.getElem?_eq_some.mp he).1
  have hnm : ∀ k1, entry_match e0 k1 = false := by
    intro k1
    by_contra hc
    have := entry_match_live (by simpa using hc : entry_match e0 k1 = true)
    simp [hl] at this
  constructor
  · rintro ⟨bs, j, e, h1, h2, h3, h4⟩
    simp only [put_at, Option.some.injEq] at h1
    subst h1
    by_cases hij : idx = j
    · subst hij
      rw [List.getElem?_set_self hlt] at h2
      simp only [Option.some.injEq] at h2
      subst h2
      left
      exact ⟨entry_match_unique h3 (entry_match_put_entry _ _ _), by
        rw [← h4, put_entry_val]⟩
    · rw [List.getElem?_set_ne hij] at h2
      exact Or.inr ⟨bs0, j, e, hb, h2, h3, h4⟩
  · rintro (⟨rfl, rfl⟩ | ⟨bs, j, e, h1, h2, h3, h4⟩)
    · exact ⟨_, idx, put_entry e0 k v, rfl, List.getElem?_set_self hlt,
        entry_match_put_entry _ _ _, put_entry_val _ _ _⟩
    · rw [hb] at h1
      simp only [Option.some.injEq] at h1
      subst h1
      have hij : idx ≠ j := by
        rintro rfl
        rw [he] at h2
        simp only [Option.some.injEq] at h2
        subst h2
        simp [hnm k] at h3
      exact ⟨_, j, e, rfl, by rw [List.getElem?_set_ne hij]; exact h2, h3, h4⟩

theorem NoDup_put_at {m0 : HashMap} {bs0 : List HashEntry} {key : List Byte} {val idx : Nat}
    {e0 : HashEntry} (hb : m0.buckets = some bs0) (he : bs0[idx]? = some e0)
    (hn : NoDup m0)
    (hfresh : ∀ (j : Nat) (e : HashEntry), bs0[j]? = some e → entry_match e key = false) :
    NoDup (put_at m0 bs0 key val idx e0) := by
  have hlt : idx < bs0.length := (List.getElem?_eq_some.mp he).1
  intro bs i j ei ej k h1 h2 h3 h4 h5
  simp only [put_at, Option.some.injEq] at h1
  subst h1
  by_cases hi : idx = i
  · subst hi
    rw [List.getElem?_set_self hlt] at h2
    simp only [Option.some.injEq] at h2
    subst h2
    have hk : k = key := entry_match_unique h4 (entry_match_put_entry _ _ _)
    subst hk
    by_contra hij
    rw [List.getElem?_set_ne hij] at h3
    have := hfresh j ej h3
    simp [h5] at this
  · rw [List.getElem?_set_ne hi] at h2
    by_cases hj : idx = j
    · subst hj
      rw [List.getElem?_set_self hlt] at h3
      simp only [Option.some.injEq] at h3
      subst h3
      have hk : k = key := entry_match_unique h5 (entry_match_put_entry _ _ _)
      subst hk
      have := hfresh i ei h2
      simp [h4] at this
    · rw [List.getElem?_set_ne hj] at h3
      exact hn bs0 i j ei ej k hb h2 h3 h4 h5

theorem NoTomb_put_at {m0 : HashMap} {bs0 : List HashEntry} {key : List Byte} {val idx : Nat}
    {e0 : HashEntry} (hb : m0.buckets = some bs0) (hn : NoTomb m0) :
    NoTomb (put_at m0 bs0 key val idx e0) := by
  intro bs j e h1 h2
  simp only [put_at, Option.some.injEq] at h1
  subst h1
  by_cases hij : idx = j
  · subst hij
    by_cases hlt : idx < bs0.length
    · rw [List.getElem?_set_self hlt] at h2
      simp only [Option.some.injEq] at h2
      subst h2
      simp [put_entry_key]
    · rw [List.getElem?_eq_none (by simpa using hlt)] at h2
      simp at h2
  · rw [List.getElem?_set_ne hij] at h2
    exact hn bs0 j e hb h2

/-- The probe of a put of a key that no bucket matches returns, having filled a
tombstone or an empty bucket with the key and the value. -/
theorem put_probe_fresh {m0 : HashMap} {bs0 : List HashEntry} (hi : InvCore m0)
    (hb : m0.buckets = some bs0)
    (hempty : ∃ (j : Nat) (e : HashEntry), bs0[j]? = some e ∧ e.key = KeyPtr.null)
    (key : List Byte) (val : Nat)
    (hfresh : ∀ (j : Nat) (e : HashEntry), bs0[j]? = some e → entry_match e key = false) :
    ∃ idx e0, bs0[idx]? = some e0 ∧ e0.live = false ∧
      (e0.key = KeyPtr.tombstone ∨ e0.key = KeyPtr.null) ∧
      put_probe m0 bs0 key val = Except.ok (put_at m0 bs0 key val idx e0) ∧
      InvCore (put_at m0 bs0 key val idx e0) := by
  obtain ⟨d, e0, hd, he, hp, hs, hput⟩ := put_probe_total hi hb hempty key val
  have hnm := hfresh _ e0 he
  have hs' : e0.key = KeyPtr.tombstone ∨ e0.key = KeyPtr.null := by
    rcases hs with hs | hs
    · simp [hnm] at hs
    · exact hs
  refine ⟨_, e0, he, ?_, hs', hput, InvCore_put_at hi hb hd he hp⟩
  rcases hs' with hs' | hs' <;> simp [HashEntry.live, hs']

theorem entry_match_of_key {e : HashEntry} {b : List Byte} (hk : e.key = KeyPtr.ptr b)
    (hl : e.keylen = b.length) : entry_match e b = true := by
  cases e with
  | mk key l v =>
    simp only at hk hl
    subst hk
    simp [entry_match, hl]

/-- A put, at any positive depth, of a key that no bucket matches into a map
strictly below the high watermark returns without a rehash. -/
theorem put_depth_fresh {m2 : HashMap} {bs2 : List HashEntry} (n : Nat) (hi : InvCore m2)
    (hb : m2.buckets = some bs2) (hw : m2.used * 100 < HIGH_WATERMARK * m2.capacity)
    (key : List Byte) (val : Nat)
    (hfresh : ∀ (j : Nat) (e : HashEntry), bs2[j]? = some e → entry_match e key = false) :
    ∃ idx e0, bs2[idx]? = some e0 ∧ e0.live = false ∧
      (e0.key = KeyPtr.tombstone ∨ e0.key = KeyPtr.null) ∧
      hashmap_put2_depth (n + 1) m2 key val = Except.ok (put_at m2 bs2 key val idx e0) ∧
      InvCore (put_at m2 bs2 key val idx e0) := by
  have hc := hi.cap_ge bs2 hb
  simp only [INIT_SIZE] at hc
  have hinv : Inv m2 := ⟨hi, fun bs _ => by omega⟩
  obtain ⟨idx, e0, h1, h2, h3, h4, h5⟩ :=
    put_probe_fresh hi hb (hinv.exists_empty hb) key val hfresh
  refine ⟨idx, e0, h1, h2, h3, ?_, h5⟩
  rw [hashmap_put2_depth_succ]
  simp only [hb]
  have : m2.used * 100 / m2.capacity < HIGH_WATERMARK :=
    (Nat.div_lt_iff_lt_mul (by omega)).mpr hw
  rw [if_neg (by omega)]
  exact h4

/-- The copy loop of `rehash` on buckets with pairwise different keys, none of which
is in the new map yet: it returns, every put went to an empty bucket, and the new
map holds what it held plus the live buckets copied. -/
theorem rehash_copy_sim :
    ∀ (l : List HashEntry) (m2 : HashMap), InvCore m2 → m2.buckets ≠ none → NoTomb m2 →
      NoDup m2 →
      (∀ e ∈ l, ∀ b, e.key = KeyPtr.ptr b → e.keylen = b.length) →
      l.Pairwise (fun e1 e2 => ∀ k, entry_match e1 k = true → entry_match e2 k = false) →
      (∀ e ∈ l, ∀ k, entry_match e k = true → ∀ v, ¬ Holds m2 k v) →
      (m2.used + l.countP HashEntry.live) * 100 < LOW_WATERMARK * m2.capacity →
      ∃ m3, rehash_copy (hashmap_put2_depth 1) l m2 = Except.ok m3 ∧ InvCore m3 ∧
        m3.buckets ≠ none ∧ NoTomb m3 ∧ NoDup m3 ∧ m3.capacity = m2.capacity ∧
        m3.used = m2.used + l.countP HashEntry.live ∧
        ∀ k v, Holds m3 k v ↔
          Holds m2 k v ∨ ∃ e ∈ l, entry_match e k = true ∧ e.val = v := by
  intro l
  induction l with
  | nil =>
    intro m2 hi hb hnt hnd _ _ _ _
    exact ⟨m2, rfl, hi, hb, hnt, hnd, rfl, by simp, by simp⟩
  | cons e rest ih =>
    intro m2 hi hb hnt hnd hkl hpw hdis hw
    obtain ⟨hpw1, hpw2⟩ := List.pairwise_cons.mp hpw
    cases hk : e.key with
    | ptr b =>
      have hlive : e.live = true := by simp [HashEntry.live, hk]
      have hme : entry_match e b = true :=
        entry_match_of_key hk (hkl e (List.mem_cons_self _ _) b hk)
      obtain ⟨bs2, hbs2⟩ := Option.ne_none_iff_exists'.mp hb
      have hfresh : ∀ (j : Nat) (e1 : HashEntry), bs2[j]? = some e1 →
          entry_match e1 b = false := by
        intro j e1 hj
        by_contra hc
        exact hdis e (List.mem_cons_self _ _) b hme e1.val
          ⟨bs2, j, e1, hbs2, hj, by simpa using hc, rfl⟩
      have hcnt : (e :: rest).countP HashEntry.live = rest.countP HashEntry.live + 1 := by
        simp [List.countP_cons, hlive]
      rw [hcnt] at hw
      simp only [LOW_WATERMARK] at hw
      obtain ⟨idx, e0, h1, h2, h3, h4, h5⟩ := put_depth_fresh 0 hi hbs2
        (by simp only [HIGH_WATERMARK]; omega) b e.val hfresh
      have hnull : e0.key = KeyPtr.null := by
        rcases h3 with h3 | h3
        · exact absurd h3 (hnt bs2 idx e0 hbs2 h1)
        · exact h3
      have hused : (put_at m2 bs2 b e.val idx e0).used = m2.used + 1 := by
        simp [put_at, hnull]
      obtain ⟨m3, a1, a2, a3, a4, a5, a6, a7, a8⟩ := ih (put_at m2 bs2 b e.val idx e0) h5
        (by simp [put_at]) (NoTomb_put_at hbs2 hnt) (NoDup_put_at hbs2 h1 hnd hfresh)
        (fun e1 he1 => hkl e1 (List.mem_cons_of_mem _ he1)) hpw2
        (by
          intro e1 he1 k hk1 v hv
          rcases (Holds_put_at hbs2 h1 h2 k v).mp hv with ⟨rfl, _⟩ | hv
          · have := hpw1 e1 he1 k hme
            simp [hk1] at this
          · exact hdis e1 (List.mem_cons_of_mem _ he1) k hk1 v hv)
        (by
          rw [hused, put_at_capacity]
          simp only [LOW_WATERMARK]
          omega)
      refine ⟨m3, ?_, a2, a3, a4, a5, by rw [a6, put_at_capacity], by rw [a7, hused, hcnt]; omega,
        ?_⟩
      · rw [rehash_copy]
        simp only [hk, h4]
        exact a1
      · intro k v
        rw [a8, Holds_put_at hbs2 h1 h2]
        constructor
        · rintro ((⟨rfl, rfl⟩ | h) | ⟨e1, he1, h⟩)
          · exact Or.inr ⟨e, List.mem_cons_self _ _, hme, rfl⟩
          · exact Or.inl h
          · exact Or.inr ⟨e1, List.mem_cons_of_mem _ he1, h⟩
        · rintro (h | ⟨e1, he1, h⟩)
          · exact Or.inl (Or.inr h)
          · rcases List.mem_cons.mp he1 with rfl | he1
            · exact Or.inl (Or.inl ⟨entry_match_unique h.1 hme, h.2.symm⟩)
            · exact Or.inr ⟨e1, he1, h⟩
    | null =>
      have hlive : e.live = false := by simp [HashEntry.live, hk]
      have hcnt : (e :: rest).countP HashEntry.live = rest.countP HashEntry.live := by
        simp [List.countP_cons, hlive]
      rw [hcnt] at hw
      obtain ⟨m3, a1, a2, a3, a4, a5, a6, a7, a8⟩ := ih m2 hi hb hnt hnd
        (fun e1 he1 => hkl e1 (List.mem_cons_of_mem _ he1)) hpw2
        (fun e1 he1 => hdis e1 (List.mem_cons_of_mem _ he1)) hw
      refine ⟨m3, ?_, a2, a3, a4, a5, a6, by rw [a7, hcnt], ?_⟩
      · rw [rehash_copy]
        simp only [hk]
        exact a1
      · intro k v
        rw [a8]
        constructor
        · rintro (h | ⟨e1, he1, h⟩)
          · exact Or.inl h
          · exact Or.inr ⟨e1, List.mem_cons_of_mem _ he1, h⟩
        · rintro (h | ⟨e1, he1, h⟩)
          · exact Or.inl h
          · rcases List.mem_cons.mp he1 with rfl | he1
            · have := entry_match_live h.1
              simp [hlive] at this
            · exact Or.inr ⟨e1, he1, h⟩
    | tombstone =>
      have hlive : e.live = false := by simp [HashEntry.live, hk]
      have hcnt : (e :: rest).countP HashEntry.live = rest.countP HashEntry.live := by
        simp [List.countP_cons, hlive]
      rw [hcnt] at hw
      obtain ⟨m3, a1, a2, a3, a4, a5, a6, a7, a8⟩ := ih m2 hi hb hnt hnd
        (fun e1 he1 => hkl e1 (List.mem_cons_of_mem _ he1)) hpw2
        (fun e1 he1 => hdis e1 (List.mem_cons_of_mem _ he1)) hw
      refine ⟨m3, ?_, a2, a3, a4, a5, a6, by rw [a7, hcnt], ?_⟩
      · rw [rehash_copy]
        simp only [hk]
        exact a1
      · intro k v
        rw [a8]
        constructor
        · rintro (h | ⟨e1, he1, h⟩)
          · exact Or.inl h
          · exact Or.inr ⟨e1, List.mem_cons_of_mem _ he1, h⟩
        · rintro (h | ⟨e1, he1, h⟩)
          · exact Or.inl h
          · rcases List.mem_cons.mp he1 with rfl | he1
            · have := entry_match_live h.1
              simp [hlive] at this
            · exact Or.inr ⟨e1, he1, h⟩

theorem rehash_capacity_fuel {nkeys : Nat} :
    ∀ (fuel cap : Nat), 0 < cap → 2 * nkeys < cap * 2 ^ fuel →
      ∃ c, rehash_capacity nkeys (fuel + 1) cap = Except.ok c := by
  intro fuel
  induction fuel with
  | zero =>
    intro cap hc h
    rw [rehash_capacity]
    have : nkeys * 100 / cap < LOW_WATERMARK := by
      rw [Nat.div_lt_iff_lt_mul hc]
      simp only [LOW_WATERMARK]
      omega
    rw [if_neg (by omega)]
    exact ⟨cap, rfl⟩
  | succ fuel ih =>
    intro cap hc h
    rw [rehash_capacity]
    by_cases hw : nkeys * 100 / cap ≥ LOW_WATERMARK
    · rw [if_pos hw]
      exact ih (cap * 2) (by omega) (by rw [Nat.pow_succ] at h; nlinarith)
    · rw [if_neg hw]
      exact ⟨cap, rfl⟩

/-- The doubling loop of `rehash` ends within the bound given to it. -/
theorem rehash_capacity_total (nkeys : Nat) {cap : Nat} (hc : 0 < cap) :
    ∃ c, rehash_capacity nkeys (nkeys + 2) cap = Except.ok c := by
  apply rehash_capacity_fuel (nkeys + 1) cap hc
  have h0 : nkeys < 2 ^ nkeys := Nat.lt_two_pow _
  have h1 : 2 ^ (nkeys + 1) = 2 * 2 ^ nkeys := by rw [Nat.pow_succ, Nat.mul_comm]
  have h2 : 2 ^ (nkeys + 1) ≤ cap * 2 ^ (nkeys + 1) := Nat.le_mul_of_pos_left _ hc
  omega

theorem not_Holds_fresh (cap used : Nat) (al : AllocLifetime) (k : List Byte) (v : Nat) :
    ¬ Holds ⟨some (List.replicate cap HashEntry.zero), cap, used, al⟩ k v := by
  rintro ⟨bs, j, e, h1, h2, h3, _⟩
  simp only [Option.some.injEq] at h1
  subst h1
  rw [List.getElem?_replicate] at h2
  split at h2
  · simp only [Option.some.injEq] at h2
    subst h2
    simp [entry_match, HashEntry.zero] at h3
  · simp at h2

theorem NoDup_of_not_Holds {m : HashMap} (h : ∀ k v, ¬ Holds m k v) : NoDup m := by
  intro bs i j ei ej k h1 h2 _ h4 _
  exact absurd ⟨bs, i, ei, h1, h2, h4, rfl⟩ (h k ei.val)

theorem NoTomb_fresh (cap used : Nat) (al : AllocLifetime) :
    NoTomb ⟨some (List.replicate cap HashEntry.zero), cap, used, al⟩ := by
  intro bs j e h1 h2
  simp only [Option.some.injEq] at h1
  subst h1
  rw [List.getElem?_replicate] at h2
  split at h2
  · simp only [Option.some.injEq] at h2
    subst h2
    simp [HashEntry.zero]
  · simp at h2

/-- On a map that satisfies the invariant and holds every key in one bucket only,
`rehash` returns, and the map it returns holds the same entries, below the low
watermark. -/
theorem rehash_sim {m : HashMap} {bs : List HashEntry} {f : List Byte → Option Nat}
    (hi : Inv m) (hb : m.buckets = some bs) (hs : Sim m f) :
    ∃ m0, rehash_with (hashmap_put2_depth 1) m = Except.ok m0 ∧ InvCore m0 ∧ Sim m0 f ∧
      m0.buckets ≠ none ∧ m0.used * 100 < LOW_WATERMARK * m0.capacity := by
  have hl := hi.length_eq bs hb
  have hc := hi.cap_ge bs hb
  simp only [INIT_SIZE] at hc
  have hvis : rehash_visited m = bs := by simp [rehash_visited, hb, ← hl]
  obtain ⟨cap, hcap⟩ := rehash_capacity_total (rehash_nkeys m) (show 0 < m.capacity by omega)
  obtain ⟨hle, hlow⟩ := rehash_capacity_sound _ _ _ hcap
  have hpos : 0 < cap := by omega
  have hlow' : rehash_nkeys m * 100 < LOW_WATERMARK * cap :=
    (Nat.div_lt_iff_lt_mul hpos).mp hlow
  have hnk : rehash_nkeys m = bs.countP HashEntry.live := rehash_nkeys_eq hb hl
  obtain ⟨m3, a1, a2, a3, _, a5, a6, a7, a8⟩ := rehash_copy_sim bs
    ⟨some (List.replicate cap HashEntry.zero), cap, 0, m.alloc_lifetime⟩
    (InvCore_fresh 0 m.alloc_lifetime (by simp only [INIT_SIZE]; omega) rfl) (by simp)
    (NoTomb_fresh _ _ _) (NoDup_of_not_Holds (not_Holds_fresh _ _ _))
    (by
      intro e he b hk
      obtain ⟨j, hj⟩ := List.getElem?_of_mem he
      exact hi.keylen_eq bs j e b hb hj hk)
    (by
      rw [List.pairwise_iff_getElem]
      intro i j hi1 hj1 hij k hk
      by_contra hc
      have := hs.1 bs i j bs[i] bs[j] k hb (List.getElem?_eq_getElem hi1)
        (List.getElem?_eq_getElem hj1) hk (by simpa using hc)
      omega)
    (fun e _ k _ v => not_Holds_fresh _ _ _ k v)
    (by simpa [← hnk] using hlow')
  refine ⟨m3, ?_, a2, ⟨a5, ?_⟩, a3, ?_⟩
  · unfold rehash_with
    simp only [hcap, hvis]
    rw [if_neg (by omega)]
    simp only [a1]
    rw [if_pos (by rw [a7, hnk]; simp)]
  · intro k v
    rw [a8, ← hs.2]
    constructor
    · rintro (h | ⟨e, he, h1, h2⟩)
      · exact absurd h (not_Holds_fresh _ _ _ k v)
      · obtain ⟨j, hj⟩ := List.getElem?_of_mem he
        exact ⟨bs, j, e, hb, hj, h1, h2⟩
    · rintro ⟨bs1, j, e, h1, h2, h3, h4⟩
      rw [hb] at h1
      simp only [Option.some.injEq] at h1
      subst h1
      exact Or.inr ⟨e, List.getElem?_mem h2, h3, h4⟩
  · rw [a7, a6, ← hnk]
    simpa using hlow'

/-- The probe of a put of a key the reference map does not hold yet: it returns
and the map then holds the entries of the reference map after the put. -/
theorem put_probe_sim {m0 : HashMap} {bs0 : List HashEntry} {f : List Byte → Option Nat}
    (hi : InvCore m0) (hb : m0.buckets = some bs0)
    (hw : m0.used * 100 < HIGH_WATERMARK * m0.capacity) (hs : Sim m0 f) (k : List Byte)
    (v : Nat) (hk : f k = none) :
    ∃ m1, put_probe m0 bs0 k v = Except.ok m1 ∧ Sim m1 (ref_apply f (Op.put k v)) := by
  have hinv : Inv m0 := ⟨hi, fun bs _ => by omega⟩
  have hfresh : ∀ (j : Nat) (e : HashEntry), bs0[j]? = some e → entry_match e k = false := by
    intro j e hj
    by_contra hc
    have := (hs.2 k e.val).mp ⟨bs0, j, e, hb, hj, by simpa using hc, rfl⟩
    simp [hk] at this
  obtain ⟨idx, e0, h1, h2, _, h4, _⟩ :=
    put_probe_fresh hi hb (hinv.exists_empty hb) k v hfresh
  refine ⟨_, h4, NoDup_put_at hb h1 hs.1 hfresh, ?_⟩
  intro k1 v1
  rw [Holds_put_at hb h1 h2, hs.2]
  simp only [ref_apply]
  by_cases hk1 : k1 = k
  · subst hk1
    simp [hk, eq_comm]
  · simp [hk1]

/-- A put of a key the reference map does not hold yet returns on a map that
satisfies the invariant and simulates the reference map, and the map it returns
simulates the reference map after the put. -/
theorem put_sim {m : HashMap} {f : List Byte → Option Nat} (hi : Inv m) (hs : Sim m f)
    (k : List Byte) (v : Nat) (hk : f k = none) :
    ∃ m1, hashmap_put2 m k v = Except.ok m1 ∧ Sim m1 (ref_apply f (Op.put k v)) := by
  unfold hashmap_put2
  rw [hashmap_put2_depth_succ]
  cases hb : m.buckets with
  | none =>
    simp only []
    refine put_probe_sim (InvCore_alloc hi.toInvCore hb) rfl ?_ ?_ k v hk
    · simp [(hi.null_map hb).2, HIGH_WATERMARK, INIT_SIZE]
    · refine ⟨NoDup_of_not_Holds (not_Holds_fresh _ _ _), ?_⟩
      intro k1 v1
      constructor
      · intro h
        exact absurd h (not_Holds_fresh _ _ _ k1 v1)
      · intro h
        obtain ⟨bs, _, _, h1, _⟩ := (hs.2 k1 v1).mpr h
        rw [hb] at h1
        simp at h1
  | some bs =>
    simp only []
    have hc := hi.cap_ge bs hb
    simp only [INIT_SIZE] at hc
    by_cases hw : m.used * 100 / m.capacity ≥ HIGH_WATERMARK
    · rw [if_pos hw]
      obtain ⟨m0, h1, h2, h3, h4, h5⟩ := rehash_sim hi hb hs
      obtain ⟨bs0, hb0⟩ := Option.ne_none_iff_exists'.mp h4
      simp only [h1, hb0]
      exact put_probe_sim h2 hb0 (by simp only [LOW_WATERMARK, HIGH_WATERMARK] at *; omega)
        h3 k v hk
    · rw [if_neg hw]
      exact put_probe_sim hi.toInvCore hb
        ((Nat.div_lt_iff_lt_mul (by omega)).mp (by omega)) hs k v hk

/-- A delete on a map that satisfies the invariant and simulates the reference
map leaves a map that simulates the reference map after the delete. -/
theorem delete_sim {m m1 : HashMap} {f : List Byte → Option Nat} (hi : Inv m) (hs : Sim m f)
    (k : List Byte) (h : hashmap_delete2 m k = Except.ok m1) :
    Sim m1 (ref_apply f (Op.delete k)) := by
  rcases delete_cases h with ⟨hg, rfl⟩ | ⟨bs, d, ent, hb, hd, he, hm, hp, _, rfl⟩
  · refine ⟨hs.1, ?_⟩
    intro k1 v1
    simp only [ref_apply]
    by_cases hk1 : k1 = k
    · subst hk1
      simp only [if_true]
      constructor
      · rintro ⟨bs, j, e, h1, h2, h3, _⟩
        obtain ⟨_, _, _, _, _, h6⟩ := hi.get_entry_finds h1 h2 h3
        rw [hg] at h6
        simp at h6
      · intro h
        simp at h
    · simp only [if_neg hk1]
      exact hs.2 k1 v1
  · have hlt : (fnv_hash k + d) % m.capacity < bs.length := (List.getElem?_eq_some.mp he).1
    have hnm : ∀ k1, entry_match ({ ent with key := KeyPtr.tombstone } : HashEntry) k1 = false :=
      fun k1 => by simp [entry_match]
    have hback : ∀ (j : Nat) (e : HashEntry) (k1 : List Byte),
        (bs.set ((fnv_hash k + d) % m.capacity) { ent with key := KeyPtr.tombstone })[j]? =
          some e → entry_match e k1 = true →
        (fnv_hash k + d) % m.capacity ≠ j ∧ bs[j]? = some e := by
      intro j e k1 hj hk1
      by_cases hij : (fnv_hash k + d) % m.capacity = j
      · subst hij
        rw [List.getElem?_set_self hlt] at hj
        simp only [Option.some.injEq] at hj
        subst hj
        simp [hnm k1] at hk1
      · rw [List.getElem?_set_ne hij] at hj
        exact ⟨hij, hj⟩
    refine ⟨?_, ?_⟩
    · intro bs1 i j ei ej k1 h1 h2 h3 h4 h5
      simp only [Option.some.injEq] at h1
      subst h1
      exact hs.1 bs i j ei ej k1 hb (hback i ei k1 h2 h4).2 (hback j ej k1 h3 h5).2 h4 h5
    · intro k1 v1
      simp only [ref_apply]
      by_cases hk1 : k1 = k
      · subst hk1
        simp only [if_true]
        constructor
        · rintro ⟨bs1, j, e, h1, h2, h3, _⟩
          simp only [Option.some.injEq] at h1
          subst h1
          obtain ⟨hne, hj⟩ := hback j e k1 h2 h3
          exact absurd (hs.1 bs _ j ent e k1 hb he hj hm h3) hne
        · intro h
          simp at h
      · simp only [if_neg hk1]
        rw [← hs.2]
        constructor
        · rintro ⟨bs1, j, e, h1, h2, h3, h4⟩
          simp only [Option.some.injEq] at h1
          subst h1
          exact ⟨bs, j, e, hb, (hback j e k1 h2 h3).2, h3, h4⟩
        · rintro ⟨bs1, j, e, h1, h2, h3, h4⟩
          rw [hb] at h1
          simp only [Option.some.injEq] at h1
          subst h1
          have hij : (fnv_hash k + d) % m.capacity ≠ j := by
            rintro rfl
            rw [he] at h2
            simp only [Option.some.injEq] at h2
            subst h2
            exact hk1 (entry_match_unique h3 hm)
          exact ⟨_, j, e, rfl, by rw [List.getElem?_set_ne hij]; exact h2, h3, h4⟩

/-- On a map that satisfies the invariant and simulates a reference map,
`hashmap_get2` returns what the reference map holds, `NULL` for an absent key. -/
theorem get_of_sim {m : HashMap} {f : List Byte → Option Nat} (hi : Inv m) (hs : Sim m f)
    (k : List Byte) : hashmap_get2 m k = Except.ok (ref_get f k) := by
  cases hf : f k with
  | none =>
    have := @Inv.get_entry_absent m k hi (fun bs j e hb hj => by
      by_contra hc
      have := (hs.2 k e.val).mp ⟨bs, j, e, hb, hj, by simpa using hc, rfl⟩
      simp [hf] at this)
    simp [hashmap_get2, this, ref_get, hf]
  | some v =>
    obtain ⟨bs, j, e, h1, h2, h3, _⟩ := (hs.2 k v).mpr hf
    obtain ⟨d, e1, _, a2, a3, a4⟩ := hi.get_entry_finds h1 h2 h3
    have := (hs.2 k e1.val).mp ⟨bs, _, e1, h1, a2, a3, rfl⟩
    rw [hf] at this
    simp only [Option.some.injEq] at this
    simp [hashmap_get2, a4, ref_get, hf, this]

theorem Sim_zero (al : AllocLifetime) : Sim (HashMap.zero al) (fun _ => none) := by
  have h : ∀ k v, ¬ Holds (HashMap.zero al) k v := by
    rintro k v ⟨bs, _, _, h1, _⟩
    simp [HashMap.zero] at h1
  exact ⟨NoDup_of_not_Holds h, fun k v => ⟨fun hh => absurd hh (h k v), fun hh => by simp at hh⟩⟩

/-- A run whose puts have pairwise different keys, none of them in the reference
map at the start, returns, and the map it leaves simulates the reference map. -/
theorem run_sim :
    ∀ (ops : List Op) (m : HashMap) (f : List Byte → Option Nat), Inv m → Sim m f →
      (put_keys ops).Nodup → (∀ k ∈ put_keys ops, f k = none) →
      ∃ m1, run ops m = Except.ok m1 ∧ Inv m1 ∧ Sim m1 (ops.foldl ref_apply f) := by
  intro ops
  induction ops with
  | nil =>
    intro m f hi hs _ _
    exact ⟨m, rfl, hi, hs⟩
  | cons op rest ih =>
    intro m f hi hs hnd hnone
    cases op with
    | put k v =>
      simp only [put_keys, List.nodup_cons] at hnd
      obtain ⟨m1, h1, h2⟩ := put_sim hi hs k v (hnone k (by simp [put_keys]))
      obtain ⟨m2, a1, a2, a3⟩ := ih m1 (ref_apply f (Op.put k v))
        (Inv_put_depth hi.toInvCore h1) h2 hnd.2
        (by
          intro k1 hk1
          have hne : k1 ≠ k := fun h => hnd.1 (h ▸ hk1)
          simp only [ref_apply, if_neg hne]
          exact hnone k1 (by simp [put_keys, hk1]))
      refine ⟨m2, ?_, a2, a3⟩
      rw [run]
      simp only [Op.apply, h1]
      exact a1
    | delete k =>
      simp only [put_keys] at hnd hnone
      obtain ⟨m1, h1⟩ := hi.delete_total k
      obtain ⟨m2, a1, a2, a3⟩ := ih m1 (ref_apply f (Op.delete k)) (Inv_delete hi h1)
        (delete_sim hi hs k h1) hnd
        (by
          intro k1 hk1
          simp only [ref_apply]
          split
          · rfl
          · exact hnone k1 hk1)
      refine ⟨m2, ?_, a2, a3⟩
      rw [run]
      simp only [Op.apply, h1]
      exact a1

theorem put_keys_append (l1 l2 : List Op) : put_keys (l1 ++ l2) = put_keys l1 ++ put_keys l2 := by
  induction l1 with
  | nil => rfl
  | cons op rest ih =>
    cases op with
    | put k v => simp [put_keys, ih]
    | delete k => simp [put_keys, ih]

/-- In the reference map a key stays absent while it is not put. -/
theorem foldl_ref_apply_none :
    ∀ (post : List Op) (g : List Byte → Option Nat) (k : List Byte), k ∉ put_keys post →
      g k = none → post.foldl ref_apply g k = none := by
  intro post
  induction post with
  | nil => intro g k _ h; exact h
  | cons op rest ih =>
    intro g k hk hg
    cases op with
    | put k1 v1 =>
      simp only [put_keys, List.mem_cons, not_or] at hk
      exact ih _ k hk.2 (by simp [ref_apply, hk.1, hg])
    | delete k1 =>
      simp only [put_keys] at hk
      exact ih _ k hk (by simp only [ref_apply]; split <;> simp [hg])

/-- In the reference map a key keeps its entry while it is neither put nor deleted. -/
theorem foldl_ref_apply_keep :
    ∀ (post : List Op) (g : List Byte → Option Nat) (k : List Byte), k ∉ put_keys post →
      Op.delete k ∉ post → post.foldl ref_apply g k = g k := by
  intro post
  induction post with
  | nil => intro g k _ _; rfl
  | cons op rest ih =>
    intro g k hk hd
    simp only [List.mem_cons, not_or] at hd
    cases op with
    | put k1 v1 =>
      simp only [put_keys, List.mem_cons, not_or] at hk
      rw [List.foldl_cons, ih _ k hk.2 hd.2]
      simp [ref_apply, hk.1]
    | delete k1 =>
      simp only [put_keys] at hk
      have hne : k ≠ k1 := fun h => hd.1 (by rw [h])
      rw [List.foldl_cons, ih _ k hk hd.2]
      simp [ref_apply, hne]

/-- C3: a sequence of calls on a zero-initialised map in which every key is put at
most once runs to its end; a key deleted and not put after that delete is then
reported absent (`NULL`), and a key put and not deleted after its put is reported
with its value. -/
theorem C3_unique_keys (al : AllocLifetime) (ops : List Op) (hu : (put_keys ops).Nodup) :
    ∃ m, run ops (HashMap.zero al) = Except.ok m ∧
      (∀ pre post k, ops = pre ++ Op.delete k :: post → k ∉ put_keys post →
        hashmap_get2 m k = Except.ok 0) ∧
      (∀ pre post k v, ops = pre ++ Op.put k v :: post → Op.delete k ∉ post →
        hashmap_get2 m k = Except.ok v) := by
  obtain ⟨m, h1, h2, h3⟩ := run_sim ops (HashMap.zero al) (fun _ => none) (Inv_zero al)
    (Sim_zero al) hu (fun _ _ => rfl)
  refine ⟨m, h1, ?_, ?_⟩
  · intro pre post k hops hk
    rw [get_of_sim h2 h3 k]
    subst hops
    simp only [ref_get]
    rw [List.foldl_append, List.foldl_cons,
      foldl_ref_apply_none post _ k hk (by simp [ref_apply])]
    rfl
  · intro pre post k v hops hd
    rw [get_of_sim h2 h3 k]
    subst hops
    have hk : k ∉ put_keys post := by
      rw [put_keys_append] at hu
      simp only [put_keys] at hu
      have := (List.nodup_append.mp hu).2.1
      exact (List.nodup_cons.mp this).1
    simp only [ref_get]
    rw [List.foldl_append, List.foldl_cons, foldl_ref_apply_keep post _ k hk hd]
    simp [ref_apply]

/-- C3 at a run with two colliding keys, one of them deleted. -/
theorem C3_unique_keys_witness :
    (put_keys [Op.put [97] 1, Op.put [113] 2, Op.delete [97], Op.put [98] 5]).Nodup ∧
      ∃ m, run [Op.put [97] 1, Op.put [113] 2, Op.delete [97], Op.put [98] 5]
          (HashMap.zero AllocLifetime.AL_Manual) = Except.ok m ∧
        (∀ pre post k,
          [Op.put [97] 1, Op.put [113] 2, Op.delete [97], Op.put [98] 5] =
            pre ++ Op.delete k :: post →
          k ∉ put_keys post → hashmap_get2 m k = Except.ok 0) ∧
        (∀ pre post k v,
          [Op.put [97] 1, Op.put [113] 2, Op.delete [97], Op.put [98] 5] =
            pre ++ Op.put k v :: post →
          Op.delete k ∉ post → hashmap_get2 m k = Except.ok v) :=
  ⟨by decide,
    C3_unique_keys AllocLifetime.AL_Manual
      [Op.put [97] 1, Op.put [113] 2, Op.delete [97], Op.put [98] 5] (by decide)⟩

/-- C5 at the key `q`, stored one bucket after its first probe position. -/
theorem C5_delete_then_put_reuses_witness :
    Reachable (map_after [Op.put [97] 1] AllocLifetime.AL_Manual) ∧
      hashmap_put2 (map_after [Op.put [97] 1] AllocLifetime.AL_Manual) [113] 2 =
        Except.ok (map_after [Op.put [97] 1, Op.put [113] 2] AllocLifetime.AL_Manual) ∧
      ∃ m2,
        hashmap_delete2 (map_after [Op.put [97] 1, Op.put [113] 2] AllocLifetime.AL_Manual)
          [113] = Except.ok m2 ∧
        (∀ m3, hashmap_put2 m2 [113] 3 = Except.ok m3 →
          hashmap_get2 m3 [113] = Except.ok 3 ∧
            m3.used ≤ (map_after [Op.put [97] 1, Op.put [113] 2] AllocLifetime.AL_Manual).used) ∧
        (m2.used * 100 / m2.capacity < HIGH_WATERMARK →
          ∃ m3, hashmap_put2 m2 [113] 3 = Except.ok m3 ∧
            m3.used = (map_after [Op.put [97] 1, Op.put [113] 2] AllocLifetime.AL_Manual).used) :=
  ⟨Reachable.map_after _ _, by decide,
    C5_delete_then_put_reuses (map_after [Op.put [97] 1] AllocLifetime.AL_Manual)
      (map_after [Op.put [97] 1, Op.put [113] 2] AllocLifetime.AL_Manual) [113] 2 3
      (Reachable.map_after _ _) (by decide)⟩

/-! ## The only fault of a put on a reachable map is the assertion of `rehash` -/

/-- A put, at any positive depth, into a map strictly below the high watermark
returns without a rehash. -/
theorem put_depth_total {m2 : HashMap} {bs2 : List HashEntry} (n : Nat) (hi : InvCore m2)
    (hb : m2.buckets = some bs2) (hw : m2.used * 100 < HIGH_WATERMARK * m2.capacity)
    (key : List Byte) (val : Nat) :
    ∃ m3, hashmap_put2_depth (n + 1) m2 key val = Except.ok m3 ∧ InvCore m3 ∧
      m3.buckets ≠ none ∧ m3.capacity = m2.capacity ∧ m3.used ≤ m2.used + 1 := by
  have hc := hi.cap_ge bs2 hb
  simp only [INIT_SIZE] at hc
  have hinv : Inv m2 := ⟨hi, fun bs _ => by omega⟩
  obtain ⟨d, e0, hd, he, hp, _, hput⟩ := put_probe_total hi hb (hinv.exists_empty hb) key val
  refine ⟨put_at m2 bs2 key val ((fnv_hash key + d) % m2.capacity) e0, ?_,
    InvCore_put_at hi hb hd he hp, by simp [put_at], rfl, put_at_used_le _ _ _ _ _ _⟩
  rw [hashmap_put2_depth_succ]
  simp only [hb]
  have : m2.used * 100 / m2.capacity < HIGH_WATERMARK :=
    (Nat.div_lt_iff_lt_mul (by omega)).mpr hw
  rw [if_neg (by omega)]
  exact hput

/-- The copy loop of `rehash` returns: none of its puts rehashes or runs out of
buckets, because the new map stays below the low watermark. -/
theorem rehash_copy_total :
    ∀ (l : List HashEntry) (m2 : HashMap), InvCore m2 → m2.buckets ≠ none →
      (m2.used + l.countP HashEntry.live) * 100 < LOW_WATERMARK * m2.capacity →
      ∃ m3, rehash_copy (hashmap_put2_depth 1) l m2 = Except.ok m3 ∧ InvCore m3 ∧
        m3.buckets ≠ none ∧ m3.capacity = m2.capacity ∧
        m3.used ≤ m2.used + l.countP HashEntry.live := by
  intro l
  induction l with
  | nil =>
    intro m2 hi hb _
    exact ⟨m2, rfl, hi, hb, rfl, by simp⟩
  | cons e rest ih =>
    intro m2 hi hb hw
    cases hk : e.key with
    | ptr b =>
      have hcnt : (e :: rest).countP HashEntry.live = rest.countP HashEntry.live + 1 := by
        simp [List.countP_cons, HashEntry.live, hk]
      rw [hcnt] at hw
      simp only [LOW_WATERMARK] at hw
      obtain ⟨bs2, hbs2⟩ := Option.ne_none_iff_exists'.mp hb
      obtain ⟨m2a, h1, h2, h3, h4, h5⟩ := put_depth_total 0 hi hbs2
        (by simp only [HIGH_WATERMARK]; omega) b e.val
      obtain ⟨m3, a1, a2, a3, a4, a5⟩ := ih m2a h2 h3
        (by rw [h4]; simp only [LOW_WATERMARK]; omega)
      refine ⟨m3, ?_, a2, a3, by rw [a4, h4], by rw [hcnt]; omega⟩
      rw [rehash_copy]
      simp only [hk, h1]
      exact a1
    | null =>
      have hcnt : (e :: rest).countP HashEntry.live = rest.countP HashEntry.live := by
        simp [List.countP_cons, HashEntry.live, hk]
      rw [hcnt] at hw
      obtain ⟨m3, a1, a2, a3, a4, a5⟩ := ih m2 hi hb hw
      refine ⟨m3, ?_, a2, a3, a4, by rw [hcnt]; exact a5⟩
      rw [rehash_copy]
      simp only [hk]
      exact a1
    | tombstone =>
      have hcnt : (e :: rest).countP HashEntry.live = rest.countP HashEntry.live := by
        simp [List.countP_cons, HashEntry.live, hk]
      rw [hcnt] at hw
      obtain ⟨m3, a1, a2, a3, a4, a5⟩ := ih m2 hi hb hw
      refine ⟨m3, ?_, a2, a3, a4, by rw [hcnt]; exact a5⟩
      rw [rehash_copy]
      simp only [hk]
      exact a1

theorem rehash_with_buckets {n : Nat} {m m0 : HashMap}
    (h : rehash_with (hashmap_put2_depth n) m = Except.ok m0) : m0.buckets ≠ none := by
  obtain ⟨cap, _, _, _, hcopy, _⟩ := rehash_with_sound h
  exact rehash_copy_induct (fun mm => mm.buckets ≠ none) (hashmap_put2_depth n)
    (fun mm kk vv mm1 _ hk => by
      obtain ⟨bs1, _, _, hb1, _⟩ := put_depth_shape hk
      simp [hb1])
    _ _ m0 (by simp) hcopy

/-- On a map that satisfies the invariant, `rehash` returns or stops at its
assertion `map2.used == nkeys`; the bounds on the loop and on the depth of the
recursion are never met. -/
theorem rehash_total_or_assertion {m : HashMap} {bs : List HashEntry} (hi : Inv m)
    (hb : m.buckets = some bs) :
    (∃ m0, rehash m = Except.ok m0) ∨ rehash m = Except.error Fault.assertion := by
  have hl := hi.length_eq bs hb
  have hc := hi.cap_ge bs hb
  simp only [INIT_SIZE] at hc
  obtain ⟨cap, hcap⟩ := rehash_capacity_total (rehash_nkeys m) (show 0 < m.capacity by omega)
  obtain ⟨hle, hlow⟩ := rehash_capacity_sound _ _ _ hcap
  have hpos : 0 < cap := by omega
  have hlow' : rehash_nkeys m * 100 < LOW_WATERMARK * cap :=
    (Nat.div_lt_iff_lt_mul hpos).mp hlow
  obtain ⟨m3, a1, _⟩ := rehash_copy_total (rehash_visited m)
    ⟨some (List.replicate cap HashEntry.zero), cap, 0, m.alloc_lifetime⟩
    (InvCore_fresh 0 m.alloc_lifetime (by simp only [INIT_SIZE]; omega) rfl) (by simp)
    (by simpa [rehash_nkeys] using hlow')
  unfold rehash rehash_with
  simp only [hcap]
  rw [if_neg (by omega)]
  simp only [a1]
  by_cases hu : m3.used = rehash_nkeys m
  · exact Or.inl ⟨m3, by rw [if_pos hu]⟩
  · exact Or.inr (by rw [if_neg hu])

/-- On a map that satisfies the invariant, `hashmap_put2` returns or stops at the
assertion of `rehash`. -/
theorem put_total_or_assertion {m : HashMap} (hi : Inv m) (k : List Byte) (v : Nat) :
    (∃ m1, hashmap_put2 m k v = Except.ok m1) ∨
      hashmap_put2 m k v = Except.error Fault.assertion := by
  unfold hashmap_put2
  rw [hashmap_put2_depth_succ]
  cases hb : m.buckets with
  | none =>
    simp only []
    have hic := InvCore_alloc hi.toInvCore hb
    have hinv : Inv { m with
        buckets := some (List.replicate INIT_SIZE HashEntry.zero), capacity := INIT_SIZE } :=
      ⟨hic, fun bs _ => by simp [(hi.null_map hb).2, HIGH_WATERMARK, INIT_SIZE]⟩
    obtain ⟨d, e0, _, _, _, _, hput⟩ :=
      put_probe_total hic rfl (hinv.exists_empty rfl) k v
    exact Or.inl ⟨_, hput⟩
  | some bs =>
    simp only []
    by_cases hw : m.used * 100 / m.capacity ≥ HIGH_WATERMARK
    · rw [if_pos hw]
      rcases rehash_total_or_assertion hi hb with ⟨m0, h0⟩ | h0
      · have h0' : rehash_with (hashmap_put2_depth 1) m = Except.ok m0 := h0
        obtain ⟨h1, _, h3⟩ := Prepared_inv (InvCore_put_depth 1) hi.toInvCore
          (Or.inr (Or.inr ⟨by simp [hb], hw, h0'⟩))
        simp only [h0']
        cases hb0 : m0.buckets with
        | none => exact absurd hb0 (rehash_with_buckets h0')
        | some bs0 =>
          simp only []
          have hinv0 : Inv m0 := ⟨h1, fun bs _ => by omega⟩
          obtain ⟨d, e0, _, _, _, _, hput⟩ :=
            put_probe_total h1 hb0 (hinv0.exists_empty hb0) k v
          exact Or.inl ⟨_, hput⟩
      · have h0' : rehash_with (hashmap_put2_depth 1) m = Except.error Fault.assertion := h0
        rw [h0']
        exact Or.inr rfl
    · rw [if_neg hw]
      obtain ⟨d, e0, _, _, _, _, hput⟩ :=
        put_probe_total hi.toInvCore hb (hi.exists_empty hb) k v
      exact Or.inl ⟨_, hput⟩

/-- With two live buckets for `q` in the map, the put that reaches the high
watermark stops at the assertion `map2.used == nkeys` of `rehash`: the copy merges
the two buckets. -/
theorem rehash_assertion_fails_example :
    (map_after (shadow_ops ++ fill_tail_ops) AllocLifetime.AL_Manual).used = 12 ∧
      live_count (map_after (shadow_ops ++ fill_tail_ops) AllocLifetime.AL_Manual) = 12 ∧
      hashmap_put2 (map_after (shadow_ops ++ fill_tail_ops) AllocLifetime.AL_Manual) [109] 13 =
        Except.error Fault.assertion := by
  decide

/-! ## Probes, rehash and the watermarks -/

/-- The function `hashmap_put2` is `get_or_insert_entry` followed by the store of
the value. -/
theorem hashmap_put2_eq (m : HashMap) (key : List Byte) (val : Nat) :
    hashmap_put2 m key val =
      match get_or_insert_entry m key with
      | Except.error e => Except.error e
      | Except.ok (map1, i, ent) =>
        match map1.buckets with
        | none => Except.error Fault.out_of_bounds
        | some bs => Except.ok { map1 with buckets := some (bs.set i { ent with val := val }) } :=
  rfl

/-- On a map that satisfies the invariant, `get_or_insert_entry` returns or stops
at the assertion of `rehash`. -/
theorem get_or_insert_entry_total_or_assertion {m : HashMap} (hi : Inv m) (key : List Byte) :
    (∃ r, get_or_insert_entry m key = Except.ok r) ∨
      get_or_insert_entry m key = Except.error Fault.assertion := by
  have h := put_total_or_assertion hi key 0
  rw [hashmap_put2_eq] at h
  cases hg : get_or_insert_entry m key with
  | ok r => exact Or.inl ⟨r, rfl⟩
  | error e =>
    rw [hg] at h
    rcases h with ⟨m1, h⟩ | h
    · simp at h
    · simp only [Except.error.injEq] at h
      exact Or.inr (by rw [h])

theorem rehash_capacity_pow {nkeys : Nat} :
    ∀ (fuel cap c : Nat), rehash_capacity nkeys fuel cap = Except.ok c →
      ∃ j, c = cap * 2 ^ j := by
  intro fuel
  induction fuel with
  | zero => intro cap c h; simp [rehash_capacity] at h
  | succ fuel ih =>
    intro cap c h
    rw [rehash_capacity] at h
    split at h
    · obtain ⟨j, hj⟩ := ih _ _ h
      exact ⟨j + 1, by rw [hj, Nat.pow_succ]; ring⟩
    · simp only [Except.ok.injEq] at h
      exact ⟨0, by simp [h]⟩

/-- What a completed `rehash` of a map that satisfies the invariant returns: the
capacity is the old one doubled some number of times, `used` is the number of live
buckets counted, and the load is strictly below the low watermark. -/
theorem Inv.rehash_result {m m0 : HashMap} {bs : List HashEntry} (hi : Inv m)
    (hb : m.buckets = some bs) (h : rehash m = Except.ok m0) :
    (∃ j, m0.capacity = m.capacity * 2 ^ j) ∧ m0.used = live_count m ∧
      m0.used * 100 < LOW_WATERMARK * m0.capacity ∧ InvCore m0 ∧ m0.buckets ≠ none := by
  have hl := hi.length_eq bs hb
  have hc := hi.cap_ge bs hb
  simp only [INIT_SIZE] at hc
  have hnk : rehash_nkeys m = live_count m := by
    rw [rehash_nkeys_eq hb hl]
    simp [live_count, hb]
  have h' : rehash_with (hashmap_put2_depth 1) m = Except.ok m0 := h
  have hwith := h'
  unfold rehash_with at hwith
  cases hcap : rehash_capacity (rehash_nkeys m) (rehash_nkeys m + 2) m.capacity with
  | error e => simp [hcap] at hwith
  | ok cap =>
    obtain ⟨j, hj⟩ := rehash_capacity_pow _ _ _ hcap
    obtain ⟨hle, hlow⟩ := rehash_capacity_sound _ _ _ hcap
    have hpos : 0 < cap := by omega
    have hlow' : rehash_nkeys m * 100 < LOW_WATERMARK * cap :=
      (Nat.div_lt_iff_lt_mul hpos).mp hlow
    obtain ⟨m3, a1, a2, a3, a4, _⟩ := rehash_copy_total (rehash_visited m)
      ⟨some (List.replicate cap HashEntry.zero), cap, 0, m.alloc_lifetime⟩
      (InvCore_fresh 0 m.alloc_lifetime (by simp only [INIT_SIZE]; omega) rfl) (by simp)
      (by simpa [rehash_nkeys] using hlow')
    simp only [hcap, a1] at hwith
    rw [if_neg (by omega)] at hwith
    split at hwith
    · rename_i hu
      simp only [Except.ok.injEq] at hwith
      subst hwith
      refine ⟨⟨j, by rw [a4, hj]⟩, by rw [hu, hnk], ?_, a2, a3⟩
      rw [hu, a4]
      exact hlow'
    · simp at hwith

/-- C11: a reachable map with a bucket array has an empty bucket and every bucket
index `(hash + i) % capacity` lies inside the array; `get_entry` returns for every
key, and `get_or_insert_entry` returns for every key unless the assertion of
`rehash` stops it: neither runs through all its probe positions, so that
`unreachable()` is never executed. -/
theorem C11_probe_never_exhausted (m : HashMap) (hm : Reachable m) :
    (∀ bs, m.buckets = some bs →
        (∃ (j : Nat) (e : HashEntry), bs[j]? = some e ∧ e.key = KeyPtr.null) ∧
          ∀ hash i : Nat, (hash + i) % m.capacity < bs.length) ∧
      (∀ key, ∃ r, get_entry m key = Except.ok r) ∧
      (∀ key, (∃ r, get_or_insert_entry m key = Except.ok r) ∨
        get_or_insert_entry m key = Except.error Fault.assertion) := by
  have hi := hm.inv
  refine ⟨?_, hi.get_entry_total, get_or_insert_entry_total_or_assertion hi⟩
  intro bs hb
  refine ⟨hi.exists_empty hb, ?_⟩
  intro hash i
  have hc := hi.cap_ge bs hb
  simp only [INIT_SIZE] at hc
  rw [hi.length_eq bs hb]
  exact Nat.mod_lt _ (by omega)

/-- C11 at the map left by twelve puts, which is at the high watermark. -/
theorem C11_probe_never_exhausted_witness :
    Reachable (map_after fill_ops AllocLifetime.AL_Manual) ∧
      (map_after fill_ops AllocLifetime.AL_Manual).used = 12 ∧
      ((∀ bs, (map_after fill_ops AllocLifetime.AL_Manual).buckets = some bs →
          (∃ (j : Nat) (e : HashEntry), bs[j]? = some e ∧ e.key = KeyPtr.null) ∧
            ∀ hash i : Nat,
              (hash + i) % (map_after fill_ops AllocLifetime.AL_Manual).capacity < bs.length) ∧
        (∀ key, ∃ r, get_entry (map_after fill_ops AllocLifetime.AL_Manual) key = Except.ok r) ∧
        (∀ key,
          (∃ r, get_or_insert_entry (map_after fill_ops AllocLifetime.AL_Manual) key =
            Except.ok r) ∨
          get_or_insert_entry (map_after fill_ops AllocLifetime.AL_Manual) key =
            Except.error Fault.assertion)) :=
  ⟨Reachable.map_after _ _, by decide,
    C11_probe_never_exhausted (map_after fill_ops AllocLifetime.AL_Manual)
      (Reachable.map_after _ _)⟩

/-- C12, evaluated at the failing input: the map left by `put a 1; put q 2;
delete a; put q 3` and ten more puts is reachable, holds 12 live buckets and is
at the high watermark; the `rehash` that the next put starts copies them into 11
buckets and stops at its assertion `map2.used == nkeys`. -/
theorem C12_rehash_assertion_fails :
    Reachable (map_after (shadow_ops ++ fill_tail_ops) AllocLifetime.AL_Manual) ∧
      live_count (map_after (shadow_ops ++ fill_tail_ops) AllocLifetime.AL_Manual) = 12 ∧
      HIGH_WATERMARK ≤
        (map_after (shadow_ops ++ fill_tail_ops) AllocLifetime.AL_Manual).used * 100 /
          (map_after (shadow_ops ++ fill_tail_ops) AllocLifetime.AL_Manual).capacity ∧
      (∃ map2,
        rehash_copy (hashmap_put2_depth 1)
            (rehash_visited (map_after (shadow_ops ++ fill_tail_ops) AllocLifetime.AL_Manual))
            ⟨some (List.replicate 32 HashEntry.zero), 32, 0, AllocLifetime.AL_Manual⟩ =
          Except.ok map2 ∧ map2.used = 11) ∧
      rehash (map_after (shadow_ops ++ fill_tail_ops) AllocLifetime.AL_Manual) =
        Except.error Fault.assertion :=
  ⟨Reachable.map_after _ _, by decide, by decide, ⟨_, rfl, by decide⟩, by decide⟩

/-- C13: when the `rehash` of a reachable map returns, the map it returns has
`used * 100 < 50 * capacity`. -/
theorem C13_rehash_below_low_watermark (m m0 : HashMap) (hm : Reachable m)
    (hb : m.buckets ≠ none) (h : rehash m = Except.ok m0) :
    m0.used * 100 < 50 * m0.capacity := by
  obtain ⟨bs, hbs⟩ := Option.ne_none_iff_exists'.mp hb
  exact (hm.inv.rehash_result hbs h).2.2.1

/-- C13 at the map left by twelve puts: its rehash has 12 used of 32 buckets. -/
theorem C13_rehash_below_low_watermark_witness :
    Reachable (map_after fill_ops AllocLifetime.AL_Manual) ∧
      (map_after fill_ops AllocLifetime.AL_Manual).buckets ≠ none ∧
      (∃ m0, rehash (map_after fill_ops AllocLifetime.AL_Manual) = Except.ok m0 ∧
        m0.used = 12 ∧ m0.capacity = 32 ∧ m0.used * 100 < 50 * m0.capacity) :=
  ⟨Reachable.map_after _ _, by decide,
    ⟨_, rfl, by decide, by decide,
      C13_rehash_below_low_watermark (map_after fill_ops AllocLifetime.AL_Manual) _
        (Reachable.map_after _ _) (by decide) rfl⟩⟩

/-- C14: when a `hashmap_put2` on a reachable map finds the map at the high
watermark, so that it calls `rehash`, and returns, the map it leaves has
`used * 100 < 70 * capacity`. -/
theorem C14_put_after_rehash_below_high_watermark (m m1 : HashMap) (k : List Byte) (v : Nat)
    (hm : Reachable m) (hb : m.buckets ≠ none)
    (hw : HIGH_WATERMARK ≤ m.used * 100 / m.capacity)
    (hput : hashmap_put2 m k v = Except.ok m1) : m1.used * 100 < 70 * m1.capacity := by
  obtain ⟨bs, hbs⟩ := Option.ne_none_iff_exists'.mp hb
  obtain ⟨m0, bs0, hprep, hb0, hprobe⟩ := put_depth_cases hput
  rcases hprep with ⟨hnone, _⟩ | ⟨_, hlt, _⟩ | ⟨_, _, hre⟩
  · exact absurd hnone hb
  · omega
  · obtain ⟨_, _, h3, h4, _⟩ := hm.inv.rehash_result hbs hre
    obtain ⟨h5, h6, h7⟩ := InvCore_put_probe h4 hb0 hprobe
    obtain ⟨bs1, _, _, hb1, _⟩ := put_depth_shape hput
    have hc := h5.cap_ge bs1 hb1
    simp only [INIT_SIZE, LOW_WATERMARK] at *
    omega

/-- C14 at the thirteenth put, which rehashes: 13 used of 32 buckets. -/
theorem C14_put_after_rehash_below_high_watermark_witness :
    Reachable (map_after fill_ops AllocLifetime.AL_Manual) ∧
      (map_after fill_ops AllocLifetime.AL_Manual).buckets ≠ none ∧
      HIGH_WATERMARK ≤ (map_after fill_ops AllocLifetime.AL_Manual).used * 100 /
        (map_after fill_ops AllocLifetime.AL_Manual).capacity ∧
      hashmap_put2 (map_after fill_ops AllocLifetime.AL_Manual) [109] 13 =
        Except.ok (map_after (fill_ops ++ [Op.put [109] 13]) AllocLifetime.AL_Manual) ∧
      (map_after (fill_ops ++ [Op.put [109] 13]) AllocLifetime.AL_Manual).used = 13 ∧
      (map_after (fill_ops ++ [Op.put [109] 13]) AllocLifetime.AL_Manual).used * 100 <
        70 * (map_after (fill_ops ++ [Op.put [109] 13]) AllocLifetime.AL_Manual).capacity :=
  ⟨Reachable.map_after _ _, by decide, by decide, by decide, by decide,
    C14_put_after_rehash_below_high_watermark (map_after fill_ops AllocLifetime.AL_Manual)
      (map_after (fill_ops ++ [Op.put [109] 13]) AllocLifetime.AL_Manual) [109] 13
      (Reachable.map_after _ _) (by decide) (by decide) (by decide)⟩

/-! ## The hash function -/

/-- C15 as stated fails: on the one-byte key `a` the hash of the source is the
FNV-1 value `af63bd4c8601b7be`, not the FNV-1a value `af63dc4c8601ec8c`. -/
theorem C15_not_fnv1a :
    fnv_hash [97] = 0xaf63bd4c8601b7be ∧ fnv1a_hash [97] = 0xaf63dc4c8601ec8c ∧
      fnv_hash [97] ≠ fnv1a_hash [97] := by
  decide

theorem fnv_hash_foldl_lt (s : List Byte) :
    ∀ h0 : Nat, h0 < 2 ^ 64 →
      s.foldl (fun hash c => ((hash * 0x100000001b3) % 2 ^ 64) ^^^ c.val) h0 < 2 ^ 64 := by
  induction s with
  | nil => intro h0 h; exact h
  | cons c rest ih =>
    intro h0 _
    rw [List.foldl_cons]
    apply ih
    apply Nat.xor_lt_two_pow
    · exact Nat.mod_lt _ (by norm_num)
    · exact lt_of_lt_of_le c.isLt (by norm_num)

/-- C15, amended: the hash of the empty key is `0xcbf29ce484222325`; each further
byte first multiplies the hash by `0x100000001b3` modulo `2^64` and is then XORed
in (the FNV-1 order); the hash is a 64-bit value. -/
theorem C15_fnv_hash_is_fnv1 :
    fnv_hash [] = 0xcbf29ce484222325 ∧
      (∀ (s : List Byte) (c : Byte),
        fnv_hash (s ++ [c]) = ((fnv_hash s * 0x100000001b3) % 2 ^ 64) ^^^ c.val) ∧
      ∀ s : List Byte, fnv_hash s < 2 ^ 64 := by
  refine ⟨rfl, ?_, ?_⟩
  · intro s c
    simp [fnv_hash, List.foldl_append]
  · intro s
    exact fnv_hash_foldl_lt s _ (by norm_num)

/-! ## The map without bucket array -/

/-- C16: on a zero-initialised map (null bucket array, capacity 0, used 0) every
`hashmap_get2` reports `NULL`, and `hashmap_delete2` returns the map as it was,
still without bucket array; the same holds of any map whose bucket array is null. -/
theorem C16_zero_map_lookups (al : AllocLifetime) (key : List Byte) :
    (HashMap.zero al).buckets = none ∧ (HashMap.zero al).capacity = 0 ∧
      (HashMap.zero al).used = 0 ∧
      hashmap_get2 (HashMap.zero al) key = Except.ok 0 ∧
      get_entry (HashMap.zero al) key = Except.ok none ∧
      hashmap_delete2 (HashMap.zero al) key = Except.ok (HashMap.zero al) ∧
      ∀ m : HashMap, m.buckets = none →
        hashmap_get2 m key = Except.ok 0 ∧ hashmap_delete2 m key = Except.ok m := by
  refine ⟨rfl, rfl, rfl, rfl, rfl, rfl, ?_⟩
  intro m hb
  simp [hashmap_get2, hashmap_delete2, get_entry, hb]

/-! ## The capacity -/

theorem capacity_pow_put_depth :
    ∀ (n : Nat) (m : HashMap) (k : List Byte) (v : Nat) (m1 : HashMap),
      (m.buckets ≠ none → ∃ j, m.capacity = INIT_SIZE * 2 ^ j) →
      hashmap_put2_depth n m k v = Except.ok m1 → ∃ j, m1.capacity = INIT_SIZE * 2 ^ j := by
  intro n
  induction n with
  | zero => intro m k v m1 _ h; simp [hashmap_put2_depth] at h
  | succ n ih =>
    intro m k v m1 hcap h
    obtain ⟨m0, bs0, hprep, hb0, hprobe⟩ := put_depth_cases h
    obtain ⟨d, e0, _, _, _, _, rfl⟩ := put_probe_sound hb0 hprobe
    rw [put_at_capacity]
    rcases hprep with ⟨_, rfl⟩ | ⟨hb, _, rfl⟩ | ⟨hb, _, hre⟩
    · exact ⟨0, by simp⟩
    · exact hcap hb
    · obtain ⟨j, hj⟩ := hcap hb
      have hwith := hre
      unfold rehash_with at hwith
      cases hc : rehash_capacity (rehash_nkeys m) (rehash_nkeys m + 2) m.capacity with
      | error e => simp [hc] at hwith
      | ok cap =>
        obtain ⟨j1, hj1⟩ := rehash_capacity_pow _ _ _ hc
        obtain ⟨_, _, _, _, hcopy, _⟩ := rehash_with_sound hre
        simp only [hc] at hwith
        split at hwith
        · simp at hwith
        · split at hwith
          · simp at hwith
          · rename_i map2 hcopy2
            have hP := rehash_copy_induct
              (fun mm => mm.buckets ≠ none ∧ ∃ j, mm.capacity = INIT_SIZE * 2 ^ j)
              (hashmap_put2_depth n)
              (fun mm kk vv mm1 hmm hk => by
                obtain ⟨bs1, _, _, hb1, _⟩ := put_depth_shape hk
                exact ⟨by simp [hb1], ih mm kk vv mm1 (fun _ => hmm.2) hk⟩)
              _ _ map2 ⟨by simp, ⟨j + j1, by
                simp only []
                rw [hj1, hj, Nat.pow_add]
                ring⟩⟩ hcopy2
            split at hwith
            · simp only [Except.ok.injEq] at hwith
              subst hwith
              exact hP.2
            · simp at hwith

/-- In a reachable map with a bucket array the capacity is 16 doubled some number
of times. -/
theorem Reachable.capacity_pow {m : HashMap} (h : Reachable m) :
    m.buckets ≠ none → ∃ j, m.capacity = INIT_SIZE * 2 ^ j := by
  induction h with
  | zero al => intro hb; simp [HashMap.zero] at hb
  | put key val _ hp ih => intro _; exact capacity_pow_put_depth 2 _ _ _ _ ih hp
  | delete key hr hd ih =>
    intro hb
    obtain ⟨_, h2, _⟩ := InvCore_delete hr.inv.toInvCore hd
    rw [h2]
    apply ih
    rcases delete_cases hd with ⟨_, rfl⟩ | ⟨bs, _, _, hb0, _⟩
    · exact hb
    · simp [hb0]

theorem run_no_put :
    ∀ (ops : List Op) (m m1 : HashMap), put_keys ops = [] → m.buckets = none →
      run ops m = Except.ok m1 → m1 = m := by
  intro ops
  induction ops with
  | nil =>
    intro m m1 _ _ h
    simp only [run, Except.ok.injEq] at h
    exact h.symm
  | cons op rest ih =>
    intro m m1 hk hb h
    cases op with
    | put k v => simp [put_keys] at hk
    | delete k =>
      simp only [put_keys] at hk
      rw [run] at h
      have hd : hashmap_delete2 m k = Except.ok m := by
        simp [hashmap_delete2, get_entry, hb]
      simp only [Op.apply, hd] at h
      exact ih m m1 hk hb h

theorem run_buckets :
    ∀ (ops : List Op) (m m1 : HashMap), m.buckets ≠ none → run ops m = Except.ok m1 →
      m1.buckets ≠ none := by
  intro ops
  induction ops with
  | nil =>
    intro m m1 hb h
    simp only [run, Except.ok.injEq] at h
    exact h ▸ hb
  | cons op rest ih =>
    intro m m1 hb h
    rw [run] at h
    split at h
    · simp at h
    · rename_i m2 h2
      refine ih m2 m1 ?_ h
      cases op with
      | put k v =>
        obtain ⟨bs1, _, _, hb1, _⟩ := put_depth_shape h2
        simp [hb1]
      | delete k =>
        rcases delete_cases h2 with ⟨_, rfl⟩ | ⟨bs, _, _, _, _, _, _, _, _, rfl⟩
        · exact hb
        · simp

theorem run_has_put :
    ∀ (ops : List Op) (m m1 : HashMap), put_keys ops ≠ [] → run ops m = Except.ok m1 →
      m1.buckets ≠ none := by
  intro ops
  induction ops with
  | nil => intro m m1 hk _; simp [put_keys] at hk
  | cons op rest ih =>
    intro m m1 hk h
    rw [run] at h
    split at h
    · simp at h
    · rename_i m2 h2
      cases op with
      | put k v =>
        obtain ⟨bs1, _, _, hb1, _⟩ := put_depth_shape h2
        exact run_buckets rest m2 m1 (by simp [hb1]) h
      | delete k =>
        simp only [put_keys] at hk
        exact ih m2 m1 hk h

/-- C17: the map a sequence of calls leaves, started from a zero-initialised map,
has capacity 0 or `16 * 2^k`, and capacity 0 exactly when the sequence holds no
put; a put on it never decreases the capacity and sets it to 16 when it is the
first put; a delete leaves the capacity as it is. -/
theorem C17_capacity (al : AllocLifetime) (ops : List Op) (m : HashMap)
    (h : run ops (HashMap.zero al) = Except.ok m) :
    (m.capacity = 0 ∨ ∃ k, m.capacity = 16 * 2 ^ k) ∧
      (m.capacity = 0 ↔ put_keys ops = []) ∧
      (∀ key val m1, hashmap_put2 m key val = Except.ok m1 →
        m.capacity ≤ m1.capacity ∧ (put_keys ops = [] → m1.capacity = 16)) ∧
      (∀ key m1, hashmap_delete2 m key = Except.ok m1 → m1.capacity = m.capacity) := by
  have hr : Reachable m := Reachable.run (Reachable.zero al) h
  have hi := hr.inv
  have hiff : m.capacity = 0 ↔ put_keys ops = [] := by
    constructor
    · intro h0
      by_contra hk
      obtain ⟨bs, hbs⟩ := Option.ne_none_iff_exists'.mp (run_has_put ops _ m hk h)
      have := hi.cap_ge bs hbs
      simp only [INIT_SIZE] at this
      omega
    · intro hk
      rw [run_no_put ops _ m hk rfl h]
      rfl
  refine ⟨?_, hiff, ?_, ?_⟩
  · cases hb : m.buckets with
    | none => exact Or.inl (hi.null_map hb).1
    | some bs => exact Or.inr (hr.capacity_pow (by simp [hb]))
  · intro key val m1 hput
    refine ⟨(InvCore_put_depth 2 m key val m1 hi.toInvCore hput).2, ?_⟩
    intro hk
    have hm : m = HashMap.zero al := run_no_put ops _ m hk rfl h
    subst hm
    obtain ⟨m0, bs0, hprep, hb0, hprobe⟩ := put_depth_cases hput
    obtain ⟨d, e0, _, _, _, _, hm1⟩ := put_probe_sound hb0 hprobe
    have hcap : m1.capacity = m0.capacity := by rw [hm1]; rfl
    rcases hprep with ⟨_, rfl⟩ | ⟨hb, _, _⟩ | ⟨hb, _, _⟩
    · exact hcap
    · simp [HashMap.zero] at hb
    · simp [HashMap.zero] at hb
  · intro key m1 hd
    exact (InvCore_delete hi.toInvCore hd).2.1

/-- C17 at the scenario (capacity 16) and at thirteen puts (capacity 32). -/
theorem C17_capacity_witness :
    run scenario_ops (HashMap.zero AllocLifetime.AL_Manual) =
        Except.ok (map_after scenario_ops AllocLifetime.AL_Manual) ∧
      (map_after scenario_ops AllocLifetime.AL_Manual).capacity = 16 ∧
      (map_after (fill_ops ++ [Op.put [109] 13]) AllocLifetime.AL_Manual).capacity = 32 ∧
      ((map_after scenario_ops AllocLifetime.AL_Manual).capacity = 0 ∨
          ∃ k, (map_after scenario_ops AllocLifetime.AL_Manual).capacity = 16 * 2 ^ k) ∧
        ((map_after scenario_ops AllocLifetime.AL_Manual).capacity = 0 ↔
          put_keys scenario_ops = []) ∧
        (∀ key val m1,
          hashmap_put2 (map_after scenario_ops AllocLifetime.AL_Manual) key val = Except.ok m1 →
          (map_after scenario_ops AllocLifetime.AL_Manual).capacity ≤ m1.capacity ∧
            (put_keys scenario_ops = [] → m1.capacity = 16)) ∧
        (∀ key m1,
          hashmap_delete2 (map_after scenario_ops AllocLifetime.AL_Manual) key = Except.ok m1 →
          m1.capacity = (map_after scenario_ops AllocLifetime.AL_Manual).capacity) :=
  ⟨by decide, by decide, by decide,
    C17_capacity AllocLifetime.AL_Manual scenario_ops
      (map_after scenario_ops AllocLifetime.AL_Manual) (by decide)⟩

/-! ## The update orchestrator -/

theorem must_tokenize_file_cases (c : Collaborators) (i : Nat) (path : List Byte) :
    must_tokenize_file c i path = ([Event.tokenize_file i path], Call.returns ()) ∨
      must_tokenize_file c i path = ([Event.tokenize_file i path, Event.error i], Call.jumps) ∨
      must_tokenize_file c i path = ([Event.tokenize_file i path], Call.jumps) := by
  unfold must_tokenize_file
  cases c.tokenize_file i path with
  | returns b => cases b <;> simp
  | jumps => simp

theorem open_file_cases (c : Collaborators) (i : Nat) (path : List Byte) :
    (path = [45] ∧ open_file c i path = ([], Call.returns ())) ∨
      (path ≠ [45] ∧ open_file c i path = ([Event.fopen i path], Call.returns ())) ∨
      (path ≠ [45] ∧ open_file c i path = ([Event.fopen i path, Event.error i], Call.jumps)) := by
  unfold open_file
  by_cases hp : path = [45]
  · simp [hp]
  · by_cases hf : c.fopen i path = true
    · simp [hp, hf]
    · simp [hp, hf]

/-- Every call made for the file of index `i` carries the index `i`, and none of
them is the link or touches the `Link` arena. -/
theorem compile_one_events (c : Collaborators) (i : Nat) (dld : DyoLinkData) :
    ∀ e ∈ (compile_one c i dld).1,
      (∀ j, e.file = some j → j = i) ∧ e ≠ Event.link_dyos ∧
        e ≠ Event.alloc_init AllocLifetime.AL_Link ∧
        e ≠ Event.alloc_reset AllocLifetime.AL_Link := by
  unfold compile_one must_tokenize_file open_file
  cases c.tokenize_file i dld.source_name with
  | jumps => simp [Event.file]
  | returns b =>
    cases b with
    | false => simp [Event.file]
    | true =>
      cases c.preprocess i with
      | jumps => simp [Event.file]
      | returns _ =>
        cases c.parse i with
        | jumps => simp [Event.file]
        | returns _ =>
          by_cases hp : dld.output_dyo_name = [45]
          · cases c.codegen i <;> simp [Event.file, hp]
          · by_cases hf : c.fopen i dld.output_dyo_name = true
            · cases c.codegen i <;> simp [Event.file, hp, hf]
            · simp [Event.file, hp, hf]

/-- The file whose compilation is started is handed to `tokenize_file`. -/
theorem compile_one_tokenizes (c : Collaborators) (i : Nat) (dld : DyoLinkData) :
    Event.tokenize_file i dld.source_name ∈ (compile_one c i dld).1 := by
  unfold compile_one must_tokenize_file open_file
  cases c.tokenize_file i dld.source_name with
  | jumps => simp
  | returns b =>
    cases b with
    | false => simp
    | true =>
      cases c.preprocess i with
      | jumps => simp
      | returns _ =>
        cases c.parse i with
        | jumps => simp
        | returns _ =>
          by_cases hp : dld.output_dyo_name = [45]
          · cases c.codegen i <;> simp [hp]
          · by_cases hf : c.fopen i dld.output_dyo_name = true
            · cases c.codegen i <;> simp [hp, hf]
            · simp [hp, hf]

/-- A compilation that ends without error opened the output, generated the code
and closed the output, in this order and without another call in between. -/
theorem compile_one_done (c : Collaborators) (i : Nat) (dld : DyoLinkData)
    (h : (compile_one c i dld).2 = none) (hp : dld.output_dyo_name ≠ [45]) :
    [Event.fopen i dld.output_dyo_name, Event.codegen i, Event.fclose i] <:+:
      (compile_one c i dld).1 := by
  unfold compile_one must_tokenize_file open_file at h ⊢
  cases htok : c.tokenize_file i dld.source_name with
  | jumps => simp [htok] at h
  | returns b =>
    cases b with
    | false => simp [htok] at h
    | true =>
      cases hpre : c.preprocess i with
      | jumps => simp [htok, hpre] at h
      | returns _ =>
        cases hpar : c.parse i with
        | jumps => simp [htok, hpre, hpar] at h
        | returns _ =>
          by_cases hf : c.fopen i dld.output_dyo_name = true
          · cases hcg : c.codegen i with
            | jumps => simp [htok, hpre, hpar, hp, hf, hcg] at h
            | returns _ =>
              simp only [hp, hf, if_true, if_false]
              exact ⟨[Event.alloc_init AllocLifetime.AL_Compile, Event.init_macros i,
                Event.tokenize_file i dld.source_name, Event.preprocess i,
                Event.codegen_init i, Event.parse i],
                [Event.alloc_reset AllocLifetime.AL_Compile], rfl⟩
          · simp [htok, hpre, hpar, hp, hf] at h

/-- A compilation ended by an error in `tokenize_file`, `preprocess` or `parse` has
not called `fopen`; one ended by an error in `codegen` has called it on the output
path of the file. -/
theorem compile_one_failed (c : Collaborators) (i : Nat) (dld : DyoLinkData) (s : Stage)
    (h : (compile_one c i dld).2 = some s) :
    ((s = Stage.tokenize ∨ s = Stage.preprocess ∨ s = Stage.parse) →
        ∀ j p, Event.fopen j p ∉ (compile_one c i dld).1) ∧
      (s = Stage.codegen → dld.output_dyo_name ≠ [45] →
        Event.fopen i dld.output_dyo_name ∈ (compile_one c i dld).1) := by
  unfold compile_one must_tokenize_file open_file at h ⊢
  cases htok : c.tokenize_file i dld.source_name with
  | jumps => simp_all; subst_vars; simp
  | returns b =>
    cases b with
    | false => simp_all; subst_vars; simp
    | true =>
      cases hpre : c.preprocess i with
      | jumps => simp_all; subst_vars; simp
      | returns _ =>
        cases hpar : c.parse i with
        | jumps => simp_all; subst_vars; simp
        | returns _ =>
          by_cases hp : dld.output_dyo_name = [45]
          · cases hcg : c.codegen i <;> simp_all
          · by_cases hf : c.fopen i dld.output_dyo_name = true
            · cases hcg : c.codegen i with
              | jumps => simp_all; subst_vars; simp
              | returns _ => simp_all
            · simp_all; subst_vars; simp

theorem compile_files_cons (c : Collaborators) (i : Nat) (dld : DyoLinkData)
    (rest : List DyoLinkData) :
    compile_files c i (dld :: rest) =
      match compile_one c i dld with
      | (t, some s) => (t, some (i, s))
      | (t, none) => (t ++ (compile_files c (i + 1) rest).1, (compile_files c (i + 1) rest).2) :=
  rfl

theorem compile_files_cons_failed {c : Collaborators} {i : Nat} {dld : DyoLinkData}
    {rest : List DyoLinkData} {s : Stage} (h : (compile_one c i dld).2 = some s) :
    compile_files c i (dld :: rest) = ((compile_one c i dld).1, some (i, s)) := by
  rw [compile_files_cons]
  cases hc : compile_one c i dld with
  | mk t o =>
    rw [hc] at h
    simp only at h
    subst h
    rfl

theorem compile_files_cons_done {c : Collaborators} {i : Nat} {dld : DyoLinkData}
    {rest : List DyoLinkData} (h : (compile_one c i dld).2 = none) :
    compile_files c i (dld :: rest) =
      ((compile_one c i dld).1 ++ (compile_files c (i + 1) rest).1,
        (compile_files c (i + 1) rest).2) := by
  rw [compile_files_cons]
  cases hc : compile_one c i dld with
  | mk t o =>
    rw [hc] at h
    simp only at h
    subst h
    rfl

/-- The calls of the compile loop belong to the files it was given, and none of
them is the link or touches the `Link` arena. -/
theorem compile_files_events (c : Collaborators) :
    ∀ (files : List DyoLinkData) (i0 : Nat), ∀ e ∈ (compile_files c i0 files).1,
      (∀ j, e.file = some j → i0 ≤ j ∧ j < i0 + files.length) ∧ e ≠ Event.link_dyos ∧
        e ≠ Event.alloc_init AllocLifetime.AL_Link ∧
        e ≠ Event.alloc_reset AllocLifetime.AL_Link := by
  intro files
  induction files with
  | nil => intro i0 e he; simp [compile_files] at he
  | cons dld rest ih =>
    intro i0 e he
    cases hs : (compile_one c i0 dld).2 with
    | some s =>
      rw [compile_files_cons_failed hs] at he
      obtain ⟨h1, h2⟩ := compile_one_events c i0 dld e he
      refine ⟨fun j hj => ?_, h2⟩
      have := h1 j hj
      simp only [List.length_cons]
      omega
    | none =>
      rw [compile_files_cons_done hs] at he
      rcases List.mem_append.mp he with he | he
      · obtain ⟨h1, h2⟩ := compile_one_events c i0 dld e he
        refine ⟨fun j hj => ?_, h2⟩
        have := h1 j hj
        simp only [List.length_cons]
        omega
      · obtain ⟨h1, h2⟩ := ih (i0 + 1) e he
        refine ⟨fun j hj => ?_, h2⟩
        have := h1 j hj
        simp only [List.length_cons]
        omega

/-- The compile loop ends without error exactly when every file compiles. -/
theorem compile_files_done_iff (c : Collaborators) :
    ∀ (files : List DyoLinkData) (i0 : Nat),
      (compile_files c i0 files).2 = none ↔
        ∀ (j : Nat) (d : DyoLinkData), files[j]? = some d → (compile_one c (i0 + j) d).2 = none := by
  intro files
  induction files with
  | nil => intro i0; simp [compile_files]
  | cons dld rest ih =>
    intro i0
    cases hs : (compile_one c i0 dld).2 with
    | some s =>
      rw [compile_files_cons_failed hs]
      simp only [reduceCtorEq, false_iff, not_forall]
      exact ⟨0, dld, by simp, by simp [hs]⟩
    | none =>
      rw [compile_files_cons_done hs]
      simp only []
      rw [ih (i0 + 1)]
      constructor
      · intro h j d hj
        cases j with
        | zero =>
          simp only [List.getElem?_cons_zero, Option.some.injEq] at hj
          subst hj
          exact hs
        | succ j =>
          simp only [List.getElem?_cons_succ] at hj
          have := h j d hj
          rwa [show i0 + 1 + j = i0 + (j + 1) by omega] at this
      · intro h j d hj
        have := h (j + 1) d (by simpa using hj)
        rwa [show i0 + (j + 1) = i0 + 1 + j by omega] at this

/-- The compile loop when the file of index `i` is the first whose compilation
ends with an error, at stage `s`: the loop ends there; the calls made belong to
the files up to `i`; each of these files was handed to `tokenize_file`; each file
before `i` had its output opened, generated and closed; the output of file `i`
was not opened if `s` is `tokenize`, `preprocess` or `parse`, and was opened if `s`
is `codegen`. -/
theorem compile_files_failed (c : Collaborators) :
    ∀ (files : List DyoLinkData) (i0 i : Nat) (dld : DyoLinkData) (s : Stage),
      files[i]? = some dld →
      (∀ (j : Nat) (d : DyoLinkData), files[j]? = some d → j < i →
        (compile_one c (i0 + j) d).2 = none) →
      (compile_one c (i0 + i) dld).2 = some s →
      (compile_files c i0 files).2 = some (i0 + i, s) ∧
        (∀ e ∈ (compile_files c i0 files).1, ∀ j, e.file = some j → j ≤ i0 + i) ∧
        (∀ (j : Nat) (d : DyoLinkData), files[j]? = some d → j ≤ i →
          Event.tokenize_file (i0 + j) d.source_name ∈ (compile_files c i0 files).1) ∧
        (∀ (j : Nat) (d : DyoLinkData), files[j]? = some d → j < i →
          d.output_dyo_name ≠ [45] →
          [Event.fopen (i0 + j) d.output_dyo_name, Event.codegen (i0 + j),
            Event.fclose (i0 + j)] <:+: (compile_files c i0 files).1) ∧
        ((s = Stage.tokenize ∨ s = Stage.preprocess ∨ s = Stage.parse) →
          ∀ p, Event.fopen (i0 + i) p ∉ (compile_files c i0 files).1) ∧
        (s = Stage.codegen → dld.output_dyo_name ≠ [45] →
          Event.fopen (i0 + i) dld.output_dyo_name ∈ (compile_files c i0 files).1) := by
  intro files
  induction files with
  | nil => intro i0 i dld s hi; simp at hi
  | cons d0 rest ih =>
    intro i0 i dld s hi hbefore hfail
    cases i with
    | zero =>
      simp only [List.getElem?_cons_zero, Option.some.injEq] at hi
      subst hi
      simp only [Nat.add_zero] at hfail ⊢
      rw [compile_files_cons_failed hfail]
      obtain ⟨h5, h6⟩ := compile_one_failed c i0 d0 s hfail
      refine ⟨rfl, ?_, ?_, ?_, ?_, h6⟩
      · intro e he j hj
        have := (compile_one_events c i0 d0 e he).1 j hj
        omega
      · intro j d hj hle
        have hj0 : j = 0 := by omega
        subst hj0
        simp only [List.getElem?_cons_zero, Option.some.injEq] at hj
        subst hj
        exact compile_one_tokenizes c i0 d0
      · intro j d _ hlt
        omega
      · intro hs p
        exact h5 hs i0 p
    | succ i =>
      simp only [List.getElem?_cons_succ] at hi
      have h0 : (compile_one c i0 d0).2 = none := by
        have := hbefore 0 d0 (by simp) (by omega)
        simpa using this
      rw [compile_files_cons_done h0]
      obtain ⟨a1, a2, a3, a4, a5, a6⟩ := ih (i0 + 1) i dld s hi
        (by
          intro j d hj hlt
          have := hbefore (j + 1) d (by simpa using hj) (by omega)
          rwa [show i0 + (j + 1) = i0 + 1 + j by omega] at this)
        (by rwa [show i0 + (i + 1) = i0 + 1 + i by omega] at hfail)
      have hidx : i0 + 1 + i = i0 + (i + 1) := by omega
      rw [hidx] at a1 a2 a5 a6
      refine ⟨a1, ?_, ?_, ?_, ?_, ?_⟩
      · intro e he j hj
        rcases List.mem_append.mp he with he | he
        · have := (compile_one_events c i0 d0 e he).1 j hj
          omega
        · exact a2 e he j hj
      · intro j d hj hle
        cases j with
        | zero =>
          simp only [List.getElem?_cons_zero, Option.some.injEq] at hj
          subst hj
          exact List.mem_append_left _ (compile_one_tokenizes c i0 d0)
        | succ j =>
          simp only [List.getElem?_cons_succ] at hj
          have := a3 j d hj (by omega)
          rw [show i0 + 1 + j = i0 + (j + 1) by omega] at this
          exact List.mem_append_right _ this
      · intro j d hj hlt hp
        cases j with
        | zero =>
          simp only [List.getElem?_cons_zero, Option.some.injEq] at hj
          subst hj
          obtain ⟨pre, post, hpp⟩ := compile_one_done c i0 d0 h0 hp
          exact ⟨pre, post ++ (compile_files c (i0 + 1) rest).1, by
            simp only [Nat.add_zero]
            rw [← hpp]
            simp⟩
        | succ j =>
          simp only [List.getElem?_cons_succ] at hj
          obtain ⟨pre, post, hpp⟩ := a4 j d hj (by omega) hp
          rw [show i0 + 1 + j = i0 + (j + 1) by omega] at hpp
          exact ⟨(compile_one c i0 d0).1 ++ pre, post, by
            rw [← hpp]
            simp⟩
      · intro hs p hmem
        rcases List.mem_append.mp hmem with he | he
        · have := (compile_one_events c i0 d0 _ he).1 (i0 + (i + 1)) rfl
          omega
        · exact a5 hs p he
      · intro hs hp
        exact List.mem_append_right _ (a6 hs hp)

/-- C18: when the context is the active one (the pointer in `user_context`, which
points to a block), `dyibicc_update` returns `true` only if every tracked file
compiled and `link_dyos` returned `true`; and when every file compiles and
`link_dyos` returns, `dyibicc_update` returns the value that `link_dyos`
returned. -/
theorem C18_update_result (user_context context : Nat) (files : List DyoLinkData)
    (c : Collaborators) (hctx : context = user_context) (hblock : context ≠ 0) :
    ((dyibicc_update user_context context files c).2 = Outcome.returned true →
        (∀ (j : Nat) (d : DyoLinkData), files[j]? = some d → (compile_one c j d).2 = none) ∧
          c.link_dyos = Call.returns true) ∧
      ((∀ (j : Nat) (d : DyoLinkData), files[j]? = some d → (compile_one c j d).2 = none) →
        ∀ b, c.link_dyos = Call.returns b →
          (dyibicc_update user_context context files c).2 = Outcome.returned b) := by
  have hiff := compile_files_done_iff c files 0
  simp only [Nat.zero_add] at hiff
  unfold dyibicc_update
  rw [if_neg (by simp [hctx]), if_neg hblock]
  cases hcf : compile_files c 0 files with
  | mk t o =>
    rw [hcf] at hiff
    simp only at hiff
    cases o with
    | some f =>
      refine ⟨by simp, ?_⟩
      intro hall
      have := hiff.mpr hall
      simp at this
    | none =>
      have hall := hiff.mp rfl
      cases hl : c.link_dyos with
      | jumps => simp
      | returns b =>
        simp
        exact fun hb => ⟨hall, hb⟩

/-- C18 at three files that compile and a link that returns `false`. -/
theorem C18_update_result_witness :
    (1 : Nat) = 1 ∧ (1 : Nat) ≠ 0 ∧
      (dyibicc_update 1 1 sample_files (sample_collaborators [] false)).2 =
        Outcome.returned false ∧
      (((dyibicc_update 1 1 sample_files (sample_collaborators [] false)).2 =
            Outcome.returned true →
          (∀ (j : Nat) (d : DyoLinkData), sample_files[j]? = some d →
              (compile_one (sample_collaborators [] false) j d).2 = none) ∧
            (sample_collaborators [] false).link_dyos = Call.returns true) ∧
        ((∀ (j : Nat) (d : DyoLinkData), sample_files[j]? = some d →
            (compile_one (sample_collaborators [] false) j d).2 = none) →
          ∀ b, (sample_collaborators [] false).link_dyos = Call.returns b →
            (dyibicc_update 1 1 sample_files (sample_collaborators [] false)).2 =
              Outcome.returned b)) :=
  ⟨rfl, by decide, by decide,
    C18_update_result 1 1 sample_files (sample_collaborators [] false) rfl (by decide)⟩

/-- C19: when the context is the active one (the pointer in `user_context`, which
points to a block) and file `i` is the first whose compilation ends with an error, control leaves `dyibicc_update` through the
`longjmp` of that error; the files `0..i` were handed to `tokenize_file`, no call
was made for a file after `i`, and `link_dyos` was not called nor the `Link` arena
opened. -/
theorem C19_abort_ordering (user_context context : Nat) (files : List DyoLinkData)
    (c : Collaborators) (i : Nat) (dld : DyoLinkData) (s : Stage)
    (hctx : context = user_context) (hblock : context ≠ 0) (hi : files[i]? = some dld)
    (hbefore : ∀ (j : Nat) (d : DyoLinkData), files[j]? = some d → j < i →
      (compile_one c j d).2 = none)
    (hfail : (compile_one c i dld).2 = some s) :
    (dyibicc_update user_context context files c).2 = Outcome.jumped ∧
      (∀ (j : Nat) (d : DyoLinkData), files[j]? = some d → j ≤ i →
        Event.tokenize_file j d.source_name ∈ (dyibicc_update user_context context files c).1) ∧
      (∀ e ∈ (dyibicc_update user_context context files c).1, ∀ j, e.file = some j → j ≤ i) ∧
      Event.link_dyos ∉ (dyibicc_update user_context context files c).1 ∧
      Event.alloc_init AllocLifetime.AL_Link ∉
        (dyibicc_update user_context context files c).1 := by
  obtain ⟨a1, a2, a3, _, _, _⟩ := compile_files_failed c files 0 i dld s hi
    (by simpa using hbefore) (by simpa using hfail)
  simp only [Nat.zero_add] at a1 a2 a3
  have hev := compile_files_events c files 0
  have hupd : dyibicc_update user_context context files c =
      ((compile_files c 0 files).1, Outcome.jumped) := by
    unfold dyibicc_update
    rw [if_neg (by simp [hctx]), if_neg hblock]
    cases hcf : compile_files c 0 files with
    | mk t o =>
      rw [hcf] at a1
      simp only at a1
      subst a1
      rfl
  rw [hupd]
  refine ⟨rfl, a3, a2, ?_, ?_⟩
  · intro hmem
    exact (hev _ hmem).2.1 rfl
  · intro hmem
    exact (hev _ hmem).2.2.1 rfl

/-- C19 at three files of which the second fails in `parse`. -/
theorem C19_abort_ordering_witness :
    (1 : Nat) = 1 ∧ (1 : Nat) ≠ 0 ∧ sample_files[1]? = some ⟨[98, 46, 99], [98]⟩ ∧
      (dyibicc_update 1 1 sample_files (sample_collaborators_parse [1])).1.length = 16 ∧
      ((dyibicc_update 1 1 sample_files (sample_collaborators_parse [1])).2 =
          Outcome.jumped ∧
        (∀ (j : Nat) (d : DyoLinkData), sample_files[j]? = some d → j ≤ 1 →
          Event.tokenize_file j d.source_name ∈
            (dyibicc_update 1 1 sample_files (sample_collaborators_parse [1])).1) ∧
        (∀ e ∈ (dyibicc_update 1 1 sample_files (sample_collaborators_parse [1])).1,
          ∀ j, e.file = some j → j ≤ 1) ∧
        Event.link_dyos ∉
          (dyibicc_update 1 1 sample_files (sample_collaborators_parse [1])).1 ∧
        Event.alloc_init AllocLifetime.AL_Link ∉
          (dyibicc_update 1 1 sample_files (sample_collaborators_parse [1])).1) :=
  ⟨rfl, by decide, by decide, by decide,
    C19_abort_ordering 1 1 sample_files (sample_collaborators_parse [1]) 1
      ⟨[98, 46, 99], [98]⟩ Stage.parse rfl (by decide) (by decide)
      (by
        intro j d hj hlt
        have hj0 : j = 0 := by omega
        subst hj0
        simp only [sample_files, List.getElem?_cons_zero, Option.some.injEq] at hj
        subst hj
        decide)
      (by decide)⟩

/-- C20 as stated fails: when the second of three files fails in code generation,
file 0 having compiled, the output path of the failing file has been opened for
writing, and `dyibicc_update` is left through the `longjmp` without returning. -/
theorem C20_failing_output_opened :
    (compile_one (sample_collaborators [1] true) 0 ⟨[97, 46, 99], [97]⟩).2 = none ∧
      (compile_one (sample_collaborators [1] true) 1 ⟨[98, 46, 99], [98]⟩).2 =
        some Stage.codegen ∧
      Event.fopen 1 [98] ∈ (dyibicc_update 1 1 sample_files (sample_collaborators [1] true)).1 ∧
      (dyibicc_update 1 1 sample_files (sample_collaborators [1] true)).2 = Outcome.jumped := by
  decide

/-- C20, amended: when the context is the active one (the pointer in
`user_context`, which points to a block) and file `i` is the first
whose compilation ends with an error, control leaves `dyibicc_update` through the
`longjmp` of that error, so that it returns no value; every file before `i` had
its output opened, generated and closed; no output of a later file was opened;
the output of file `i` was not opened if the error came from `tokenize_file`,
`preprocess` or `parse`, and had been opened if it came from `codegen`. -/
theorem C20_failed_update_blobs (user_context context : Nat) (files : List DyoLinkData)
    (c : Collaborators) (i : Nat) (dld : DyoLinkData) (s : Stage)
    (hctx : context = user_context) (hblock : context ≠ 0) (hi : files[i]? = some dld)
    (hbefore : ∀ (j : Nat) (d : DyoLinkData), files[j]? = some d → j < i →
      (compile_one c j d).2 = none)
    (hfail : (compile_one c i dld).2 = some s) :
    (dyibicc_update user_context context files c).2 = Outcome.jumped ∧
      (∀ (j : Nat) (d : DyoLinkData), files[j]? = some d → j < i →
        d.output_dyo_name ≠ [45] →
        [Event.fopen j d.output_dyo_name, Event.codegen j, Event.fclose j] <:+:
          (dyibicc_update user_context context files c).1) ∧
      (∀ j p, i < j → Event.fopen j p ∉ (dyibicc_update user_context context files c).1) ∧
      ((s = Stage.tokenize ∨ s = Stage.preprocess ∨ s = Stage.parse) →
        ∀ p, Event.fopen i p ∉ (dyibicc_update user_context context files c).1) ∧
      (s = Stage.codegen → dld.output_dyo_name ≠ [45] →
        Event.fopen i dld.output_dyo_name ∈
          (dyibicc_update user_context context files c).1) := by
  obtain ⟨a1, a2, _, a4, a5, a6⟩ := compile_files_failed c files 0 i dld s hi
    (by simpa using hbefore) (by simpa using hfail)
  simp only [Nat.zero_add] at a1 a2 a4 a5 a6
  have hupd : dyibicc_update user_context context files c =
      ((compile_files c 0 files).1, Outcome.jumped) := by
    unfold dyibicc_update
    rw [if_neg (by simp [hctx]), if_neg hblock]
    cases hcf : compile_files c 0 files with
    | mk t o =>
      rw [hcf] at a1
      simp only at a1
      subst a1
      rfl
  rw [hupd]
  refine ⟨rfl, a4, ?_, a5, a6⟩
  intro j p hlt hmem
  have := a2 _ hmem j rfl
  omega

/-- C20, amended, at three files of which the second fails in `codegen`. -/
theorem C20_failed_update_blobs_witness :
    (1 : Nat) = 1 ∧ (1 : Nat) ≠ 0 ∧ sample_files[1]? = some ⟨[98, 46, 99], [98]⟩ ∧
      ((dyibicc_update 1 1 sample_files (sample_collaborators [1] true)).2 = Outcome.jumped ∧
        (∀ (j : Nat) (d : DyoLinkData), sample_files[j]? = some d → j < 1 →
          d.output_dyo_name ≠ [45] →
          [Event.fopen j d.output_dyo_name, Event.codegen j, Event.fclose j] <:+:
            (dyibicc_update 1 1 sample_files (sample_collaborators [1] true)).1) ∧
        (∀ j p, 1 < j →
          Event.fopen j p ∉ (dyibicc_update 1 1 sample_files (sample_collaborators [1] true)).1) ∧
        ((Stage.codegen = Stage.tokenize ∨ Stage.codegen = Stage.preprocess ∨
            Stage.codegen = Stage.parse) →
          ∀ p, Event.fopen 1 p ∉
            (dyibicc_update 1 1 sample_files (sample_collaborators [1] true)).1) ∧
        (Stage.codegen = Stage.codegen →
          (⟨[98, 46, 99], [98]⟩ : DyoLinkData).output_dyo_name ≠ [45] →
          Event.fopen 1 (⟨[98, 46, 99], [98]⟩ : DyoLinkData).output_dyo_name ∈
            (dyibicc_update 1 1 sample_files (sample_collaborators [1] true)).1)) :=
  ⟨rfl, by decide, by decide,
    C20_failed_update_blobs 1 1 sample_files (sample_collaborators [1] true) 1
      ⟨[98, 46, 99], [98]⟩ Stage.codegen rfl (by decide) (by decide)
      (by
        intro j d hj hlt
        have hj0 : j = 0 := by omega
        subst hj0
        simp only [sample_files, List.getElem?_cons_zero, Option.some.injEq] at hj
        subst hj
        decide)
      (by decide)⟩

/-! ## The rounding functions -/

/-- Without wrap-around `align_to_u` is the exact quotient times `align`. -/
theorem align_to_u_exact (n align : Nat) (ha : 0 < align) (h : n + align - 1 < 2 ^ 64) :
    align_to_u n align = Except.ok ((n + align - 1) / align * align) := by
  have h1 : ((n + align) % 2 ^ 64 + (2 ^ 64 - 1)) % 2 ^ 64 = n + align - 1 := by
    omega
  have h2 : (n + align - 1) / align * align ≤ n + align - 1 := Nat.div_mul_le_self _ _
  have h3 : (n + align - 1) / align * align % 2 ^ 64 = (n + align - 1) / align * align :=
    Nat.mod_eq_of_lt (by omega)
  simp only [align_to_u, Nat.pos_iff_ne_zero.mp ha, if_false, h1, h3]

/-- The exact quotient times `align` is the least multiple of `align` above `n`. -/
theorem round_up_least (n align : Nat) (ha : 0 < align) :
    align ∣ (n + align - 1) / align * align ∧ n ≤ (n + align - 1) / align * align ∧
      ∀ m, align ∣ m → n ≤ m → (n + align - 1) / align * align ≤ m := by
  refine ⟨Dvd.intro_left _ rfl, ?_, ?_⟩
  · have h1 := Nat.div_add_mod (n + align - 1) align
    have h2 := Nat.mod_lt (n + align - 1) ha
    rw [Nat.mul_comm] at h1
    omega
  · rintro m ⟨k, rfl⟩ hk
    rw [Nat.mul_comm align k]
    apply Nat.mul_le_mul_right
    have h1 : n + align - 1 < (k + 1) * align := by
      have : (k + 1) * align = align * k + align := by ring
      omega
    have := (Nat.div_lt_iff_lt_mul ha).mpr h1
    omega

/-- A multiple of `align` is left unchanged by `align_to_u` when the sum does not
wrap. -/
theorem align_to_u_multiple (r align : Nat) (ha : 0 < align) (hd : align ∣ r)
    (h : r + align - 1 < 2 ^ 64) : align_to_u r align = Except.ok r := by
  rw [align_to_u_exact r align ha h]
  obtain ⟨h1, h2, h3⟩ := round_up_least r align ha
  have h4 := h3 r hd (le_refl _)
  congr 1
  omega

/-- A multiple of `align` below `2^64` leaves room for `align - 1` when `align`
divides `2^64`. -/
theorem multiple_room (r align : Nat) (hd : align ∣ r) (hp : align ∣ 2 ^ 64)
    (hr : r < 2 ^ 64) : r + align - 1 < 2 ^ 64 := by
  obtain ⟨k, rfl⟩ := hd
  obtain ⟨K, hK⟩ := hp
  rw [hK] at hr ⊢
  have hk : k < K := Nat.lt_of_mul_lt_mul_left hr
  have : align * (k + 1) ≤ align * K := Nat.mul_le_mul_left _ hk
  have h2 : align * (k + 1) = align * k + align := by ring
  omega

/-- C28 as stated fails: `align = 3 * 2^62` and `n = 1` satisfy the hypothesis
`n + align - 1 < 2^64`, and `align_to_u` is not idempotent there: the second
application wraps around and returns `0`. -/
theorem C28_not_idempotent :
    0 < 3 * 2 ^ 62 ∧ 1 + 3 * 2 ^ 62 - 1 < 2 ^ 64 ∧
      align_to_u 1 (3 * 2 ^ 62) = Except.ok (3 * 2 ^ 62) ∧
      align_to_u (3 * 2 ^ 62) (3 * 2 ^ 62) = Except.ok 0 := by
  decide

/-- C28, amended: for unsigned 64-bit `n` and `align` with `align > 0` and
`n + align - 1 < 2^64`, `align_to_u n align`
returns the smallest multiple of `align` that is at least `n`; applied to its own
result it returns that result again when `result + align - 1 < 2^64`, which is so
whenever `align` divides `2^64`. -/
theorem C28_align_to_u (n align : Nat) (_hn : n < 2 ^ 64) (_hal : align < 2 ^ 64)
    (ha : 0 < align) (h : n + align - 1 < 2 ^ 64) :
    ∃ r, align_to_u n align = Except.ok r ∧ align ∣ r ∧ n ≤ r ∧
      (∀ m, align ∣ m → n ≤ m → r ≤ m) ∧
      (r + align - 1 < 2 ^ 64 → align_to_u r align = Except.ok r) ∧
      (align ∣ 2 ^ 64 → align_to_u r align = Except.ok r) := by
  obtain ⟨h1, h2, h3⟩ := round_up_least n align ha
  have hle : (n + align - 1) / align * align ≤ n + align - 1 := Nat.div_mul_le_self _ _
  refine ⟨_, align_to_u_exact n align ha h, h1, h2, h3,
    fun hr => align_to_u_multiple _ align ha h1 hr, fun hp => ?_⟩
  exact align_to_u_multiple _ align ha h1 (multiple_room _ align h1 hp (by omega))

/-- C28, amended, at the examples of the source: `align_to_u(5, 8) = 8` and
`align_to_u(11, 8) = 16`. -/
theorem C28_align_to_u_witness :
    align_to_u 5 8 = Except.ok 8 ∧ align_to_u 11 8 = Except.ok 16 ∧
      ∃ r, align_to_u 11 8 = Except.ok r ∧ 8 ∣ r ∧ 11 ≤ r ∧
        (∀ m, 8 ∣ m → 11 ≤ m → r ≤ m) ∧
        (r + 8 - 1 < 2 ^ 64 → align_to_u r 8 = Except.ok r) ∧
        (8 ∣ 2 ^ 64 → align_to_u r 8 = Except.ok r) :=
  ⟨by decide, by decide, C28_align_to_u 11 8 (by decide) (by decide) (by decide) (by decide)⟩

theorem int64_range_iff (x : Int) : int64_range x ↔ -2 ^ 63 ≤ x ∧ x < 2 ^ 63 := Iff.rfl

/-- The quotient that truncates towards zero, times the divisor, lies between the
dividend and zero, less than one divisor from the dividend. -/
theorem tdiv_mul_bounds (m a : Int) (ha : 0 < a) :
    a ∣ m.tdiv a * a ∧
      (0 ≤ m → m - a < m.tdiv a * a ∧ m.tdiv a * a ≤ m) ∧
      (m < 0 → m ≤ m.tdiv a * a ∧ m.tdiv a * a < m + a) := by
  have hpos : ∀ x : Int, 0 ≤ x → x - a < x.tdiv a * a ∧ x.tdiv a * a ≤ x := by
    intro x h0
    have h1 := Int.tdiv_add_tmod' x a
    have h2 := Int.tmod_nonneg a h0
    have h3 := Int.tmod_lt_of_pos x ha
    omega
  refine ⟨Dvd.intro_left _ rfl, hpos m, fun h0 => ?_⟩
  have h1 := hpos (-m) (by omega)
  rw [Int.neg_tdiv, Int.neg_mul] at h1
  omega

/-- A multiple of `a` in a half-open interval of length `a` is the least multiple
above the lower end. -/
theorem least_multiple (a r x : Int) (ha : 0 < a) (hd : a ∣ r) (h1 : x ≤ r) (h2 : r < x + a) :
    ∀ m, a ∣ m → x ≤ m → r ≤ m := by
  rintro m ⟨k, rfl⟩ hk
  obtain ⟨q, rfl⟩ := hd
  by_contra hlt
  have hlt : a * k < a * q := by omega
  have hkq : k < q := lt_of_mul_lt_mul_left hlt (le_of_lt ha)
  have : a * (k + 1) ≤ a * q := Int.mul_le_mul_of_nonneg_left (by omega) (le_of_lt ha)
  have h3 : a * (k + 1) = a * k + a := by ring
  omega

/-- C29 as stated fails: `align_to_s(-9, 8)` is `0`, while `-8` is a smaller
multiple of `8` that is at least `-9`. -/
theorem C29_negative_not_least :
    int64_range (-9) ∧ int64_range 8 ∧ int64_range (-9 + 8 - 1) ∧
      align_to_s (-9) 8 = Except.ok 0 ∧ (8 : Int) ∣ -8 ∧ (-9 : Int) ≤ -8 ∧ (-8 : Int) < 0 := by
  decide

/-- C29, amended: for `align > 0` and no overflow in `n + align`, `align_to_s n align`
returns a multiple of `align` that is at least `n`; for `n > -align` it is the
smallest such multiple; for `n ≤ -align` it is the smallest multiple of `align`
that is at least `n + align - 1`. -/
theorem C29_align_to_s (n align : Int) (hn : int64_range n) (ha : 0 < align)
    (h : int64_range (n + align)) :
    ∃ r, align_to_s n align = Except.ok r ∧ align ∣ r ∧ n ≤ r ∧
      (-align < n → ∀ m, align ∣ m → n ≤ m → r ≤ m) ∧
      (n ≤ -align → ∀ m, align ∣ m → n + align - 1 ≤ m → r ≤ m) := by
  obtain ⟨hd, hpos, hneg⟩ := tdiv_mul_bounds (n + align - 1) align ha
  simp only [int64_range_iff] at hn h
  have hq : (0 ≤ n + align - 1 → 0 ≤ (n + align - 1).tdiv align ∧
        (n + align - 1).tdiv align ≤ n + align - 1) ∧
      (n + align - 1 < 0 → (n + align - 1).tdiv align ≤ 0 ∧
        n + align - 1 ≤ (n + align - 1).tdiv align) := by
    constructor
    · intro h0
      refine ⟨Int.tdiv_nonneg h0 (le_of_lt ha), ?_⟩
      rw [Int.tdiv_eq_ediv h0 (le_of_lt ha)]
      exact Int.ediv_le_self _ h0
    · intro h0
      have e : (n + align - 1).tdiv align = -((-(n + align - 1)).tdiv align) := by
        rw [Int.neg_tdiv, neg_neg]
      have h1 : 0 ≤ (-(n + align - 1)).tdiv align :=
        Int.tdiv_nonneg (by omega) (le_of_lt ha)
      have h2 : (-(n + align - 1)).tdiv align ≤ -(n + align - 1) := by
        rw [Int.tdiv_eq_ediv (by omega) (le_of_lt ha)]
        exact Int.ediv_le_self _ (by omega)
      omega
  have hr : align_to_s n align = Except.ok ((n + align - 1).tdiv align * align) := by
    have r1 : int64_range (n + align) := h
    have r2 : int64_range (n + align - 1) := ⟨by omega, by omega⟩
    have r3 : int64_range ((n + align - 1).tdiv align) := by
      rcases lt_or_le (n + align - 1) 0 with h0 | h0
      · have := hq.2 h0
        exact ⟨by omega, by omega⟩
      · have := hq.1 h0
        exact ⟨by omega, by omega⟩
    have r4 : int64_range ((n + align - 1).tdiv align * align) := by
      rcases lt_or_le (n + align - 1) 0 with h0 | h0
      · have := hneg h0
        exact ⟨by omega, by omega⟩
      · have := hpos h0
        exact ⟨by omega, by omega⟩
    simp [align_to_s, r1, r2, r3, r4, ne_of_gt ha]
  refine ⟨_, hr, hd, ?_, fun h1 => ?_, fun h1 => ?_⟩
  · rcases lt_or_le (n + align - 1) 0 with h0 | h0
    · have := hneg h0
      omega
    · have := hpos h0
      omega
  · have := hpos (by omega)
    exact least_multiple align _ n ha hd (by omega) (by omega)
  · rcases lt_or_le (n + align - 1) 0 with h0 | h0
    · have := hneg h0
      exact least_multiple align _ (n + align - 1) ha hd (by omega) (by omega)
    · omega

/-- C29, amended, at `n = -5` and `align = 8`, where the result is `0`. -/
theorem C29_align_to_s_witness :
    int64_range (-5) ∧ (0 : Int) < 8 ∧ int64_range (-5 + 8) ∧
      align_to_s (-5) 8 = Except.ok 0 ∧
      ∃ r, align_to_s (-5) 8 = Except.ok r ∧ (8 : Int) ∣ r ∧ -5 ≤ r ∧
        (-8 < (-5 : Int) → ∀ m, (8 : Int) ∣ m → -5 ≤ m → r ≤ m) ∧
        ((-5 : Int) ≤ -8 → ∀ m, (8 : Int) ∣ m → -5 + 8 - 1 ≤ m → r ≤ m) :=
  ⟨by decide, by decide, by decide, by decide,
    C29_align_to_s (-5) 8 (by decide) (by decide) (by decide)⟩

/-! ## The bucket a put of an absent key takes -/

/-- C30: on a reachable map in which no bucket matches `key`, a `hashmap_put2` that
does not rehash stores the key in the first bucket of its probe sequence
`(fnv_hash key + i) % capacity`, `i = 0, 1, ...`, that is a tombstone or empty;
`used` grows by one if that bucket was empty and is unchanged if it was a
tombstone, and no other bucket changes. On a map without bucket array the put
allocates `INIT_SIZE` empty buckets and takes the first bucket of the sequence. -/
theorem C30_insertion_slot (map : HashMap) (key : List Byte) (val : Nat) (hr : Reachable map)
    (hno : ∀ bs ∈ map.buckets, ∀ e ∈ bs, entry_match e key = false) :
    (map.buckets = none →
        hashmap_put2 map key val =
          Except.ok ⟨some ((List.replicate INIT_SIZE HashEntry.zero).set
            (fnv_hash key % INIT_SIZE) ⟨KeyPtr.ptr key, key.length, val⟩),
            INIT_SIZE, 1, map.alloc_lifetime⟩) ∧
      (∀ bs, map.buckets = some bs → map.used * 100 / map.capacity < HIGH_WATERMARK →
        ∃ (d : Nat) (e0 : HashEntry), d < map.capacity ∧
          bs[(fnv_hash key + d) % map.capacity]? = some e0 ∧
          (e0.key = KeyPtr.tombstone ∨ e0.key = KeyPtr.null) ∧
          (∀ j, j < d → ∃ ej, bs[(fnv_hash key + j) % map.capacity]? = some ej ∧
            ej.key ≠ KeyPtr.tombstone ∧ ej.key ≠ KeyPtr.null) ∧
          hashmap_put2 map key val =
            Except.ok { map with
              buckets := some (bs.set ((fnv_hash key + d) % map.capacity)
                ⟨KeyPtr.ptr key, key.length, val⟩),
              used := if e0.key = KeyPtr.null then map.used + 1 else map.used }) := by
  have hi := hr.inv
  constructor
  · intro hb
    have hu := (hi.null_map hb).2
    have hlt : fnv_hash key % INIT_SIZE < (List.replicate INIT_SIZE HashEntry.zero).length := by
      simp [INIT_SIZE]
      omega
    have he : (List.replicate INIT_SIZE HashEntry.zero)[(fnv_hash key + 0) % INIT_SIZE]? =
        some HashEntry.zero := by
      rw [Nat.add_zero, List.getElem?_eq_getElem hlt]
      simp
    have h := @put_probe_complete
      { map with
        buckets := some (List.replicate INIT_SIZE HashEntry.zero), capacity := INIT_SIZE }
      (List.replicate INIT_SIZE HashEntry.zero) key val 0 HashEntry.zero rfl
      (by simp [INIT_SIZE]) he (fun j _ h2 => absurd h2 (by omega)) (Or.inr (Or.inr rfl))
    show hashmap_put2_depth 2 map key val = _
    rw [hashmap_put2_depth_succ]
    simp only [hb]
    rw [h]
    simp [put_at, put_entry, entry_match, HashEntry.zero, hu]
  · intro bs hb hw
    obtain ⟨d, e0, hd, he, hp, hs, hput⟩ :=
      put_probe_total hi.toInvCore hb (hi.exists_empty hb) key val
    have hmem : e0 ∈ bs := by
      obtain ⟨hl, h2⟩ := List.getElem?_eq_some.mp he
      rw [← h2]
      exact List.getElem_mem _
    have hm : entry_match e0 key = false := hno bs hb e0 hmem
    have hs2 : e0.key = KeyPtr.tombstone ∨ e0.key = KeyPtr.null := by
      rcases hs with hs | hs
      · rw [hm] at hs
        exact absurd hs (by simp)
      · exact hs
    refine ⟨d, e0, hd, he, hs2, ?_, ?_⟩
    · intro j hj
      obtain ⟨ej, a1, a2, _⟩ := hp j (Nat.zero_le _) hj
      exact ⟨ej, a1, (live_key a2).2, (live_key a2).1⟩
    · show hashmap_put2_depth 2 map key val = _
      rw [hashmap_put2_depth_succ]
      have hw2 : ¬ (map.used * 100 / map.capacity ≥ HIGH_WATERMARK) := by omega
      simp only [hb, hw2, if_false]
      rw [hput]
      simp [put_at, put_entry, hm]

/-- C30 at the map left by `"a"→1`, `"b"→2`, delete `"a"` and the key `"q"`, whose
probe starts at the tombstone of `"a"` in bucket 14: the put takes that bucket and
`used` stays `2`. -/
theorem C30_insertion_slot_witness :
    (∀ bs ∈ (map_after tombstone_ops AllocLifetime.AL_Manual).buckets,
        ∀ e ∈ bs, entry_match e [113] = false) ∧
      (map_after tombstone_ops AllocLifetime.AL_Manual).used = 2 ∧
      fnv_hash [113] % 16 = 14 ∧
      (hashmap_put2 (map_after tombstone_ops AllocLifetime.AL_Manual) [113] 3).map
          HashMap.used = Except.ok 2 ∧
      ((map_after tombstone_ops AllocLifetime.AL_Manual).buckets = none →
        hashmap_put2 (map_after tombstone_ops AllocLifetime.AL_Manual) [113] 3 =
          Except.ok ⟨some ((List.replicate INIT_SIZE HashEntry.zero).set
            (fnv_hash [113] % INIT_SIZE) ⟨KeyPtr.ptr [113], ([113] : List Byte).length, 3⟩),
            INIT_SIZE, 1, (map_after tombstone_ops AllocLifetime.AL_Manual).alloc_lifetime⟩) ∧
      (∀ bs, (map_after tombstone_ops AllocLifetime.AL_Manual).buckets = some bs →
        (map_after tombstone_ops AllocLifetime.AL_Manual).used * 100 /
          (map_after tombstone_ops AllocLifetime.AL_Manual).capacity < HIGH_WATERMARK →
        ∃ (d : Nat) (e0 : HashEntry),
          d < (map_after tombstone_ops AllocLifetime.AL_Manual).capacity ∧
          bs[(fnv_hash [113] + d) %
            (map_after tombstone_ops AllocLifetime.AL_Manual).capacity]? = some e0 ∧
          (e0.key = KeyPtr.tombstone ∨ e0.key = KeyPtr.null) ∧
          (∀ j, j < d → ∃ ej, bs[(fnv_hash [113] + j) %
              (map_after tombstone_ops AllocLifetime.AL_Manual).capacity]? = some ej ∧
            ej.key ≠ KeyPtr.tombstone ∧ ej.key ≠ KeyPtr.null) ∧
          hashmap_put2 (map_after tombstone_ops AllocLifetime.AL_Manual) [113] 3 =
            Except.ok { map_after tombstone_ops AllocLifetime.AL_Manual with
              buckets := some (bs.set ((fnv_hash [113] + d) %
                  (map_after tombstone_ops AllocLifetime.AL_Manual).capacity)
                ⟨KeyPtr.ptr [113], ([113] : List Byte).length, 3⟩),
              used := if e0.key = KeyPtr.null
                then (map_after tombstone_ops AllocLifetime.AL_Manual).used + 1
                else (map_after tombstone_ops AllocLifetime.AL_Manual).used }) :=
  ⟨by decide, by decide, by decide, by decide,
    C30_insertion_slot (map_after tombstone_ops AllocLifetime.AL_Manual) [113] 3
      (Reachable.map_after _ _) (by decide)⟩

/-! ## The arenas of an update -/

/-- The calls made for one file: `alloc_init(AL_Compile)` first, then calls that
are no arena calls, and `alloc_reset(AL_Compile)` last exactly when the file
compiled without error. -/
theorem compile_one_arena (c : Collaborators) (i : Nat) (dld : DyoLinkData) :
    ∃ mid : List Event, (∀ e ∈ mid, e.arena = false) ∧
      (compile_one c i dld).1 =
        Event.alloc_init AllocLifetime.AL_Compile :: mid ++
          (if (compile_one c i dld).2 = none then [Event.alloc_reset AllocLifetime.AL_Compile]
            else []) := by
  unfold compile_one must_tokenize_file open_file
  cases c.tokenize_file i dld.source_name with
  | jumps => exact ⟨[Event.init_macros i, Event.tokenize_file i dld.source_name],
      by simp [Event.arena], by simp⟩
  | returns b =>
    cases b with
    | false => exact ⟨[Event.init_macros i, Event.tokenize_file i dld.source_name,
        Event.error i], by simp [Event.arena], by simp⟩
    | true =>
      cases c.preprocess i with
      | jumps => exact ⟨[Event.init_macros i, Event.tokenize_file i dld.source_name,
          Event.preprocess i], by simp [Event.arena], by simp⟩
      | returns _ =>
        cases c.parse i with
        | jumps => exact ⟨[Event.init_macros i, Event.tokenize_file i dld.source_name,
            Event.preprocess i, Event.codegen_init i, Event.parse i],
            by simp [Event.arena], by simp⟩
        | returns _ =>
          by_cases hp : dld.output_dyo_name = [45]
          · cases hc : c.codegen i with
            | jumps => exact ⟨[Event.init_macros i, Event.tokenize_file i dld.source_name,
                Event.preprocess i, Event.codegen_init i, Event.parse i, Event.codegen i],
                by simp [Event.arena], by simp [hp, hc]⟩
            | returns _ => exact ⟨[Event.init_macros i, Event.tokenize_file i dld.source_name,
                Event.preprocess i, Event.codegen_init i, Event.parse i, Event.codegen i,
                Event.fclose i], by simp [Event.arena], by simp [hp, hc]⟩
          · by_cases hf : c.fopen i dld.output_dyo_name = true
            · cases hc : c.codegen i with
              | jumps => exact ⟨[Event.init_macros i, Event.tokenize_file i dld.source_name,
                  Event.preprocess i, Event.codegen_init i, Event.parse i,
                  Event.fopen i dld.output_dyo_name, Event.codegen i],
                  by simp [Event.arena], by simp [hp, hf, hc]⟩
              | returns _ => exact ⟨[Event.init_macros i, Event.tokenize_file i dld.source_name,
                  Event.preprocess i, Event.codegen_init i, Event.parse i,
                  Event.fopen i dld.output_dyo_name, Event.codegen i, Event.fclose i],
                  by simp [Event.arena], by simp [hp, hf, hc]⟩
            · exact ⟨[Event.init_macros i, Event.tokenize_file i dld.source_name,
                Event.preprocess i, Event.codegen_init i, Event.parse i,
                Event.fopen i dld.output_dyo_name, Event.error i],
                by simp [Event.arena], by simp [hp, hf]⟩

/-- The calls made for a file the compile loop reaches are consecutive calls of
the loop, and its last calls when the file ends with an error. -/
theorem compile_files_infix (c : Collaborators) :
    ∀ (files : List DyoLinkData) (i0 j : Nat) (d : DyoLinkData),
      files[j]? = some d →
      (∀ (k : Nat) (dk : DyoLinkData), files[k]? = some dk → k < j →
        (compile_one c (i0 + k) dk).2 = none) →
      (compile_one c (i0 + j) d).1 <:+: (compile_files c i0 files).1 ∧
        ((compile_one c (i0 + j) d).2 ≠ none →
          (compile_one c (i0 + j) d).1 <:+ (compile_files c i0 files).1) := by
  intro files
  induction files with
  | nil => intro i0 j d hj; simp at hj
  | cons d0 rest ih =>
    intro i0 j d hj hbefore
    cases j with
    | zero =>
      simp only [List.getElem?_cons_zero, Option.some.injEq] at hj
      subst hj
      simp only [Nat.add_zero]
      cases h0 : (compile_one c i0 d0).2 with
      | none =>
        rw [compile_files_cons_done h0]
        exact ⟨(List.prefix_append _ _).isInfix, fun h => absurd rfl h⟩
      | some s =>
        rw [compile_files_cons_failed h0]
        exact ⟨List.infix_refl _, fun _ => List.suffix_refl _⟩
    | succ j =>
      simp only [List.getElem?_cons_succ] at hj
      have h0 : (compile_one c i0 d0).2 = none := by
        have := hbefore 0 d0 (by simp) (by omega)
        simpa using this
      rw [compile_files_cons_done h0]
      have hb : ∀ (k : Nat) (dk : DyoLinkData), rest[k]? = some dk → k < j →
          (compile_one c (i0 + 1 + k) dk).2 = none := by
        intro k dk hk hlt
        have := hbefore (k + 1) dk (by simpa using hk) (by omega)
        rw [show i0 + 1 + k = i0 + (k + 1) by omega]
        exact this
      obtain ⟨a1, a2⟩ := ih (i0 + 1) j d hj hb
      rw [show i0 + 1 + j = i0 + (j + 1) by omega] at a1 a2
      exact ⟨List.IsInfix.trans a1 (List.suffix_append _ _).isInfix,
        fun h => List.IsSuffix.trans (a2 h) (List.suffix_append _ _)⟩

/-- A call of the compile loop that is no arena call is made for a file. -/
theorem compile_one_mid_file (c : Collaborators) (i : Nat) (dld : DyoLinkData) (e : Event)
    (he : e ∈ (compile_one c i dld).1) (ha : e.arena = false) : e.file = some i := by
  have h := compile_one_events c i dld e he
  cases e <;> simp_all [Event.arena, Event.file]

/-- When the context is the active one, the calls of the compile loop are the first
calls of `dyibicc_update`, and all of them when a file ends with an error. -/
theorem dyibicc_update_compile_prefix (user_context context : Nat) (files : List DyoLinkData)
    (c : Collaborators) (hctx : context = user_context) (hblock : context ≠ 0) :
    (compile_files c 0 files).1 <+: (dyibicc_update user_context context files c).1 ∧
      ((compile_files c 0 files).2 ≠ none →
        dyibicc_update user_context context files c =
          ((compile_files c 0 files).1, Outcome.jumped)) := by
  unfold dyibicc_update
  rw [if_neg (by simp [hctx]), if_neg hblock]
  cases hcf : compile_files c 0 files with
  | mk t o =>
    cases o with
    | some s => exact ⟨List.prefix_refl _, fun _ => rfl⟩
    | none =>
      cases c.link_dyos with
      | jumps => exact ⟨List.prefix_append _ _, fun h => absurd rfl h⟩
      | returns b => exact ⟨List.prefix_append _ _, fun h => absurd rfl h⟩

/-- A link that reports an error through `error` leaves `dyibicc_update` before
`alloc_reset(AL_Link)`: the last calls are `alloc_init(AL_Link)` and `link_dyos`. -/
theorem link_error_leaves_arena_open :
    dyibicc_update 1 1 [⟨[97, 46, 99], [97]⟩] sample_collaborators_link_error =
      ([Event.alloc_init AllocLifetime.AL_Compile, Event.init_macros 0,
        Event.tokenize_file 0 [97, 46, 99], Event.preprocess 0, Event.codegen_init 0,
        Event.parse 0, Event.fopen 0 [97], Event.codegen 0, Event.fclose 0,
        Event.alloc_reset AllocLifetime.AL_Compile, Event.alloc_init AllocLifetime.AL_Link,
        Event.link_dyos], Outcome.jumped) := by
  decide

/-- C21 as stated fails: when the second of three files fails in `parse`, the
`Compile` arena opened for it is not reset: control leaves `dyibicc_update` through
the `longjmp` of the error right after the call of `parse`, and the calls made hold
two `alloc_init(AL_Compile)` and one `alloc_reset(AL_Compile)`. -/
theorem C21_failed_file_not_reset :
    (compile_one (sample_collaborators_parse [1]) 1 ⟨[98, 46, 99], [98]⟩).2 =
        some Stage.parse ∧
      dyibicc_update 1 1 sample_files (sample_collaborators_parse [1]) =
        ([Event.alloc_init AllocLifetime.AL_Compile, Event.init_macros 0,
          Event.tokenize_file 0 [97, 46, 99], Event.preprocess 0, Event.codegen_init 0,
          Event.parse 0, Event.fopen 0 [97], Event.codegen 0, Event.fclose 0,
          Event.alloc_reset AllocLifetime.AL_Compile,
          Event.alloc_init AllocLifetime.AL_Compile, Event.init_macros 1,
          Event.tokenize_file 1 [98, 46, 99], Event.preprocess 1, Event.codegen_init 1,
          Event.parse 1], Outcome.jumped) ∧
      (dyibicc_update 1 1 sample_files (sample_collaborators_parse [1])).1.count
        (Event.alloc_init AllocLifetime.AL_Compile) = 2 ∧
      (dyibicc_update 1 1 sample_files (sample_collaborators_parse [1])).1.count
        (Event.alloc_reset AllocLifetime.AL_Compile) = 1 := by
  decide

/-- C21, amended: when the context is the active one (the pointer in
`user_context`, which points to a block), for every file `j` that the
loop of `dyibicc_update` reaches, the calls made for it are consecutive calls of
the update that start with `alloc_init(AL_Compile)` and go on with calls for file
`j` that are no arena calls; when the file compiles without error they end with
`alloc_reset(AL_Compile)`; when the file ends with an error they are the last calls
of the update, which control leaves through the `longjmp` of the error without a
reset of the `Compile` arena. -/
theorem C21_compile_arena (user_context context : Nat) (files : List DyoLinkData)
    (c : Collaborators) (j : Nat) (d : DyoLinkData)
    (hctx : context = user_context) (hblock : context ≠ 0) (hj : files[j]? = some d)
    (hbefore : ∀ (k : Nat) (dk : DyoLinkData), files[k]? = some dk → k < j →
      (compile_one c k dk).2 = none) :
    ∃ mid : List Event, (∀ e ∈ mid, e.arena = false ∧ e.file = some j) ∧
      ((compile_one c j d).2 = none →
        (Event.alloc_init AllocLifetime.AL_Compile :: mid ++
            [Event.alloc_reset AllocLifetime.AL_Compile]) <:+:
          (dyibicc_update user_context context files c).1) ∧
      ((compile_one c j d).2 ≠ none →
        (Event.alloc_init AllocLifetime.AL_Compile :: mid) <:+
            (dyibicc_update user_context context files c).1 ∧
          (dyibicc_update user_context context files c).2 = Outcome.jumped) := by
  obtain ⟨mid, hmid, htrace⟩ := compile_one_arena c j d
  obtain ⟨hinf, hsuf⟩ := compile_files_infix c files 0 j d hj (by simpa using hbefore)
  simp only [Nat.zero_add] at hinf hsuf
  obtain ⟨hpre, hjump⟩ := dyibicc_update_compile_prefix user_context context files c hctx
    hblock
  refine ⟨mid, fun e he => ⟨hmid e he, ?_⟩, fun hnone => ?_, fun hsome => ?_⟩
  · apply compile_one_mid_file c j d e _ (hmid e he)
    rw [htrace]
    simp [he]
  · rw [if_pos hnone] at htrace
    rw [← htrace]
    exact List.IsInfix.trans hinf hpre.isInfix
  · rw [if_neg hsome, List.append_nil] at htrace
    obtain ⟨s, hs⟩ := Option.ne_none_iff_exists'.mp hsome
    have hfail := (compile_files_failed c files 0 j d s hj (by simpa using hbefore)
      (by simpa using hs)).1
    have hupd := hjump (by rw [hfail]; simp)
    rw [hupd, ← htrace]
    exact ⟨hsuf hsome, rfl⟩

/-- C21, amended, at three files of which the second fails in `parse`. -/
theorem C21_compile_arena_witness :
    (1 : Nat) = 1 ∧ (1 : Nat) ≠ 0 ∧ sample_files[1]? = some ⟨[98, 46, 99], [98]⟩ ∧
      (compile_one (sample_collaborators_parse [1]) 1 ⟨[98, 46, 99], [98]⟩).2 ≠ none ∧
      ∃ mid : List Event, (∀ e ∈ mid, e.arena = false ∧ e.file = some 1) ∧
        ((compile_one (sample_collaborators_parse [1]) 1 ⟨[98, 46, 99], [98]⟩).2 = none →
          (Event.alloc_init AllocLifetime.AL_Compile :: mid ++
              [Event.alloc_reset AllocLifetime.AL_Compile]) <:+:
            (dyibicc_update 1 1 sample_files (sample_collaborators_parse [1])).1) ∧
        ((compile_one (sample_collaborators_parse [1]) 1 ⟨[98, 46, 99], [98]⟩).2 ≠ none →
          (Event.alloc_init AllocLifetime.AL_Compile :: mid) <:+
              (dyibicc_update 1 1 sample_files (sample_collaborators_parse [1])).1 ∧
            (dyibicc_update 1 1 sample_files (sample_collaborators_parse [1])).2 =
              Outcome.jumped) :=
  ⟨rfl, by decide, by decide, by decide,
    C21_compile_arena 1 1 sample_files (sample_collaborators_parse [1]) 1
      ⟨[98, 46, 99], [98]⟩ rfl (by decide) (by decide)
      (by
        intro k dk hk hlt
        have hk0 : k = 0 := by omega
        subst hk0
        simp only [sample_files, List.getElem?_cons_zero, Option.some.injEq] at hk
        subst hk
        decide)⟩

/-- C22: when the context is the active one (the pointer in `user_context`, which
points to a block), every file compiles and `link_dyos`
returns `b` (`true` or `false`), the calls of `dyibicc_update` after those of the
compile loop are `alloc_init(AL_Link)`, `link_dyos`, `alloc_reset(AL_Link)`, in
this order, and then the update returns `b`; the compile loop makes none of these
three calls. -/
theorem C22_link_arena (user_context context : Nat) (files : List DyoLinkData)
    (c : Collaborators) (b : Bool) (hctx : context = user_context) (hblock : context ≠ 0)
    (hall : ∀ (j : Nat) (d : DyoLinkData), files[j]? = some d → (compile_one c j d).2 = none)
    (hl : c.link_dyos = Call.returns b) :
    dyibicc_update user_context context files c =
        ((compile_files c 0 files).1 ++
          [Event.alloc_init AllocLifetime.AL_Link, Event.link_dyos,
            Event.alloc_reset AllocLifetime.AL_Link], Outcome.returned b) ∧
      ∀ e ∈ (compile_files c 0 files).1,
        e ≠ Event.alloc_init AllocLifetime.AL_Link ∧ e ≠ Event.link_dyos ∧
          e ≠ Event.alloc_reset AllocLifetime.AL_Link := by
  have hdone : (compile_files c 0 files).2 = none :=
    (compile_files_done_iff c files 0).mpr (by simpa using hall)
  constructor
  · unfold dyibicc_update
    rw [if_neg (by simp [hctx]), if_neg hblock]
    cases hcf : compile_files c 0 files with
    | mk t o =>
      rw [hcf] at hdone
      simp only at hdone
      subst hdone
      simp [hl]
  · intro e he
    have h := compile_files_events c files 0 e he
    exact ⟨h.2.2.1, h.2.1, h.2.2.2⟩

/-- C22 at three files that compile and a link that returns `false`. -/
theorem C22_link_arena_witness :
    (1 : Nat) = 1 ∧ (1 : Nat) ≠ 0 ∧
      (sample_collaborators [] false).link_dyos = Call.returns false ∧
      (dyibicc_update 1 1 sample_files (sample_collaborators [] false) =
          ((compile_files (sample_collaborators [] false) 0 sample_files).1 ++
            [Event.alloc_init AllocLifetime.AL_Link, Event.link_dyos,
              Event.alloc_reset AllocLifetime.AL_Link], Outcome.returned false) ∧
        ∀ e ∈ (compile_files (sample_collaborators [] false) 0 sample_files).1,
          e ≠ Event.alloc_init AllocLifetime.AL_Link ∧ e ≠ Event.link_dyos ∧
            e ≠ Event.alloc_reset AllocLifetime.AL_Link) :=
  ⟨rfl, by decide, rfl,
    C22_link_arena 1 1 sample_files (sample_collaborators [] false) false rfl (by decide)
      (by
        intro j d hj
        have hlt : j < 3 := by
          have := (List.getElem?_eq_some.mp hj).1
          simpa [sample_files] using this
        interval_cases j <;>
          (simp only [sample_files, List.getElem?_cons_zero, List.getElem?_cons_succ,
            Option.some.injEq] at hj
           subst hj
           decide))
      rfl⟩

/-! ## The construction of the context -/

theorem vsprintf_text_str (a b c d : List Byte) :
    vsprintf [FmtItem.str (some a), FmtItem.text b, FmtItem.str (some c), FmtItem.text d] =
      Except.ok (a ++ b ++ c ++ d) := by
  simp [vsprintf]

theorem tag_manual_replicate (al : AllocLifetime) :
    ∀ (n j : Nat),
      tag_manual n j (List.replicate j (HashMap.zero AllocLifetime.AL_Manual) ++
          List.replicate n (HashMap.zero al)) =
        List.replicate (j + n) (HashMap.zero AllocLifetime.AL_Manual) := by
  intro n
  induction n with
  | zero => intro j; simp [tag_manual]
  | succ n ih =>
    intro j
    have hget : (List.replicate j (HashMap.zero AllocLifetime.AL_Manual) ++
        List.replicate (n + 1) (HashMap.zero al))[j]? = some (HashMap.zero al) := by
      rw [List.getElem?_append_right (by simp)]
      simp [List.replicate_succ]
    have hset : (List.replicate j (HashMap.zero AllocLifetime.AL_Manual) ++
        List.replicate (n + 1) (HashMap.zero al)).set j
          { HashMap.zero al with alloc_lifetime := AllocLifetime.AL_Manual } =
        List.replicate (j + 1) (HashMap.zero AllocLifetime.AL_Manual) ++
          List.replicate n (HashMap.zero al) := by
      rw [List.set_append_right _ _ (by simp), List.replicate_succ' j, List.append_assoc]
      simp [List.replicate_succ, HashMap.zero]
    rw [tag_manual, hget]
    simp only []
    rw [hset, ih (j + 1)]
    congr 1
    omega

theorem Consecutive.append {a b c : Nat} {l1 l2 : List Placed} (h1 : Consecutive a l1 b)
    (h2 : Consecutive b l2 c) : Consecutive a (l1 ++ l2) c := by
  induction l1 generalizing a with
  | nil =>
    simp only [Consecutive] at h1
    subst h1
    simpa using h2
  | cons p rest ih =>
    simp only [Consecutive, List.cons_append] at h1 ⊢
    exact ⟨h1.1, ih h1.2⟩

theorem Consecutive.bounds {a b : Nat} {l : List Placed} (h : Consecutive a l b) :
    a ≤ b ∧ ∀ p ∈ l, a ≤ p.offset ∧ p.offset + p.size ≤ b := by
  induction l generalizing a with
  | nil =>
    simp only [Consecutive] at h
    subst h
    simp
  | cons p rest ih =>
    simp only [Consecutive] at h
    obtain ⟨h1, h2⟩ := ih h.2
    refine ⟨by omega, ?_⟩
    intro q hq
    rcases List.mem_cons.mp hq with hq | hq
    · subst hq
      omega
    · have := h2 q hq
      omega

theorem Fill.put_consecutive {a : Nat} {f : Fill} (h : Consecutive a f.placed f.d)
    (part : Part) (size : Nat) :
    Consecutive a (f.put part size).placed (f.put part size).d ∧
      (f.put part size).d = f.d + size := by
  refine ⟨?_, rfl⟩
  simp only [Fill.put]
  exact h.append ⟨rfl, rfl⟩

theorem Fill.put_strings_consecutive (mk : Nat → Part) {a : Nat} :
    ∀ (l : List (List Byte)) (i : Nat) (f : Fill), Consecutive a f.placed f.d →
      Consecutive a (Fill.put_strings mk l i f).placed (Fill.put_strings mk l i f).d ∧
        (Fill.put_strings mk l i f).d = f.d + strings_len l := by
  intro l
  induction l with
  | nil => intro i f h; exact ⟨h, rfl⟩
  | cons s rest ih =>
    intro i f h
    obtain ⟨h1, h2⟩ := Fill.put_consecutive h (mk i) (s.length + 1)
    obtain ⟨h3, h4⟩ := ih (i + 1) _ h1
    refine ⟨h3, ?_⟩
    simp only [Fill.put_strings, strings_len]
    rw [h4, h2]
    omega

/-- The second pass lays its parts out one after the other, from the end of the
`UserContext` structure to exactly `total_size`. -/
theorem fill_exact (abi : Abi) (env : DyibiccEnviromentData) (sys outs : List (List Byte)) :
    Consecutive abi.sizeof_UserContext (fill abi env sys outs).placed
        (fill abi env sys outs).d ∧
      (fill abi env sys outs).d = total_size abi env sys outs := by
  have h0 : Consecutive abi.sizeof_UserContext
      (⟨[], abi.sizeof_UserContext⟩ : Fill).placed (⟨[], abi.sizeof_UserContext⟩ : Fill).d := rfl
  obtain ⟨c1, d1⟩ := Fill.put_consecutive h0 Part.include_paths_array
    (abi.sizeof_ptr * (env.include_paths.length + sys.length))
  obtain ⟨c2, d2⟩ := Fill.put_consecutive c1 Part.files_array
    (abi.sizeof_DyoLinkData * env.files.length)
  obtain ⟨c3, d3⟩ := Fill.put_consecutive c2 Part.global_data_array
    (abi.sizeof_HashMap * (env.files.length + 1))
  cases hep : env.entry_point_name with
  | none =>
    obtain ⟨c5, d5⟩ := Fill.put_consecutive c3 Part.cache_dir
      ((cache_dir_or_dot env.cache_dir).length + 1)
    obtain ⟨c6, d6⟩ := Fill.put_strings_consecutive Part.include_path env.include_paths 0 _ c5
    obtain ⟨c7, d7⟩ := Fill.put_strings_consecutive Part.include_path sys
      env.include_paths.length _ c6
    obtain ⟨c8, d8⟩ := Fill.put_strings_consecutive Part.source_name env.files 0 _ c7
    obtain ⟨c9, d9⟩ := Fill.put_strings_consecutive Part.output_dyo_name outs 0 _ c8
    simp only [fill, hep, total_size]
    refine ⟨c9, ?_⟩
    rw [d9, d8, d7, d6, d5, d3, d2, d1]
    simp only []
    ring
  | some name =>
    obtain ⟨c4, d4⟩ := Fill.put_consecutive c3 Part.entry_point_name (name.length + 1)
    obtain ⟨c5, d5⟩ := Fill.put_consecutive c4 Part.cache_dir
      ((cache_dir_or_dot env.cache_dir).length + 1)
    obtain ⟨c6, d6⟩ := Fill.put_strings_consecutive Part.include_path env.include_paths 0 _ c5
    obtain ⟨c7, d7⟩ := Fill.put_strings_consecutive Part.include_path sys
      env.include_paths.length _ c6
    obtain ⟨c8, d8⟩ := Fill.put_strings_consecutive Part.source_name env.files 0 _ c7
    obtain ⟨c9, d9⟩ := Fill.put_strings_consecutive Part.output_dyo_name outs 0 _ c8
    simp only [fill, hep, total_size]
    refine ⟨c9, ?_⟩
    rw [d9, d8, d7, d6, d5, d4, d3, d2, d1]
    simp only []
    ring

theorem bytes_slash_length : (bytes "/").length = 1 := by decide

theorem bytes_dyo_length : (bytes ".dyo").length = 4 := by decide

/-- The output name of one source file: defined exactly when the cache directory
is given and the name fits the buffer of `format`. -/
theorem dyo_output_name_ok_iff (cache_dir : Option (List Byte)) (file name : List Byte) :
    dyo_output_name cache_dir file = Except.ok name ↔
      ∃ dir, cache_dir = some dir ∧ dir.length + file.length + 5 < 4096 ∧
        name = dir ++ bytes "/" ++ file.map sanitize_char ++ bytes ".dyo" := by
  cases cache_dir with
  | none => simp [dyo_output_name, format, vsprintf]
  | some dir =>
    have hlen : (dir ++ bytes "/" ++ file.map sanitize_char ++ bytes ".dyo").length =
        dir.length + file.length + 5 := by
      simp only [List.length_append, List.length_map, bytes_slash_length, bytes_dyo_length]
      omega
    simp only [dyo_output_name, format, vsprintf_text_str, hlen, Option.some.injEq,
      exists_eq_left']
    by_cases hfit : dir.length + file.length + 5 < 4096
    · simp only [hfit, if_true, Except.ok.injEq, true_and]
      exact eq_comm
    · simp [hfit]

/-- The array of output names: defined exactly when every name is, and then it
holds the name of each source file at the index of the file. -/
theorem dyo_output_paths_ok_iff (cache_dir : Option (List Byte)) :
    ∀ (files : List (List Byte)) (outs : List (List Byte)),
      dyo_output_paths cache_dir files = Except.ok outs ↔
        outs.length = files.length ∧
          ∀ (j : Nat) (file : List Byte), files[j]? = some file →
            ∃ dir, cache_dir = some dir ∧ dir.length + file.length + 5 < 4096 ∧
              outs[j]? = some (dir ++ bytes "/" ++ file.map sanitize_char ++ bytes ".dyo") := by
  intro files
  induction files with
  | nil =>
    intro outs
    simp only [dyo_output_paths, Except.ok.injEq, List.length_nil]
    constructor
    · intro h
      subst h
      simp
    · intro h
      exact (List.length_eq_zero.mp h.1).symm
  | cons file rest ih =>
    intro outs
    rw [dyo_output_paths]
    constructor
    · intro h
      cases hn : dyo_output_name cache_dir file with
      | error e => simp [hn] at h
      | ok name =>
        simp only [hn] at h
        cases hr : dyo_output_paths cache_dir rest with
        | error e => simp [hr] at h
        | ok names =>
          simp only [hr, Except.ok.injEq] at h
          subst h
          obtain ⟨a1, a2⟩ := (ih names).mp hr
          obtain ⟨dir, b1, b2, b3⟩ := (dyo_output_name_ok_iff cache_dir file name).mp hn
          refine ⟨by simp [a1], ?_⟩
          intro j f hj
          cases j with
          | zero =>
            simp only [List.getElem?_cons_zero, Option.some.injEq] at hj
            subst hj
            exact ⟨dir, b1, b2, by simp [b3]⟩
          | succ j =>
            simp only [List.getElem?_cons_succ] at hj ⊢
            exact a2 j f hj
    · rintro ⟨h1, h2⟩
      cases outs with
      | nil => simp at h1
      | cons name names =>
        obtain ⟨dir, b1, b2, b3⟩ := h2 0 file (by simp)
        simp only [List.getElem?_cons_zero, Option.some.injEq] at b3
        have hn : dyo_output_name cache_dir file = Except.ok name :=
          (dyo_output_name_ok_iff cache_dir file name).mpr ⟨dir, b1, b2, b3⟩
        have hr : dyo_output_paths cache_dir rest = Except.ok names := by
          refine (ih names).mpr ⟨by simpa using h1, ?_⟩
          intro j f hj
          have := h2 (j + 1) f (by simpa using hj)
          simpa using this
        simp [hn, hr]

theorem bytes_linux_length : (bytes "/linux").length = 6 := by decide

theorem bytes_all_length : (bytes "/all").length = 4 := by decide

/-- The system include paths: defined exactly when the include directory is given
and `"%s/linux"` fits the buffer of `format`. -/
theorem sys_inc_paths_ok_iff (idir : Option (List Byte)) (sys : List (List Byte)) :
    sys_inc_paths idir = Except.ok sys ↔
      ∃ dir, idir = some dir ∧ dir.length + 6 < 4096 ∧
        sys = [dir ++ bytes "/linux", dir ++ bytes "/all", bytes "/usr/local/include",
          bytes "/usr/include/x86_64-linux-gnu", bytes "/usr/include"] := by
  cases idir with
  | none => simp [sys_inc_paths, format, vsprintf]
  | some dir =>
    simp only [sys_inc_paths, format, vsprintf, List.append_nil, List.length_append,
      bytes_linux_length, bytes_all_length, Option.some.injEq, exists_eq_left']
    by_cases hfit : dir.length + 6 < 4096
    · have h4 : dir.length + 4 < 4096 := by omega
      simp only [hfit, h4, if_true, Except.ok.injEq, true_and]
      exact eq_comm
    · simp [hfit]

/-- The two arrays of formatted strings are defined exactly on the environments
of `FormatsFit`. -/
theorem FormatsFit_iff (env : DyibiccEnviromentData) :
    FormatsFit env ↔
      ∃ sys outs, sys_inc_paths env.dyibicc_include_dir = Except.ok sys ∧
        dyo_output_paths env.cache_dir env.files = Except.ok outs := by
  constructor
  · rintro ⟨⟨idir, h1, h2⟩, h3⟩
    refine ⟨_, ?_, (sys_inc_paths_ok_iff _ _).mpr ⟨idir, h1, h2, rfl⟩, ?_⟩
    · exact match env.cache_dir with
        | some dir => env.files.map
            (fun file => dir ++ bytes "/" ++ file.map sanitize_char ++ bytes ".dyo")
        | none => []
    · rw [dyo_output_paths_ok_iff]
      rcases h3 with h3 | ⟨dir, h3, h4⟩
      · rw [h3]
        cases env.cache_dir <;> simp
      · rw [h3]
        refine ⟨by simp, ?_⟩
        intro j file hj
        refine ⟨dir, rfl, h4 file ?_, ?_⟩
        · obtain ⟨hl, h5⟩ := List.getElem?_eq_some.mp hj
          rw [← h5]
          exact List.getElem_mem _
        · simp [List.getElem?_map, hj]
  · rintro ⟨sys, outs, h1, h2⟩
    obtain ⟨idir, a1, a2, _⟩ := (sys_inc_paths_ok_iff _ _).mp h1
    obtain ⟨b1, b2⟩ := (dyo_output_paths_ok_iff _ _ _).mp h2
    refine ⟨⟨idir, a1, a2⟩, ?_⟩
    cases hf : env.files with
    | nil => exact Or.inl rfl
    | cons file rest =>
      right
      obtain ⟨dir, c1, _, _⟩ := b2 0 file (by simp [hf])
      refine ⟨dir, c1, ?_⟩
      intro f hmem
      rw [← hf] at hmem
      obtain ⟨j, hj, hjf⟩ := List.getElem_of_mem hmem
      obtain ⟨dir2, d1, d2, _⟩ := b2 j f (by rw [List.getElem?_eq_getElem hj, hjf])
      rw [c1] at d1
      cases d1
      exact d2

/-- What `dyibicc_set_environment` returns, in terms of the two arrays of
formatted strings; the assertion that closes the second pass never fails. -/
theorem dyibicc_set_environment_eq (abi : Abi) (data : Nat) (env : DyibiccEnviromentData)
    (sys outs : List (List Byte))
    (hsys : sys_inc_paths env.dyibicc_include_dir = Except.ok sys)
    (houts : dyo_output_paths env.cache_dir env.files = Except.ok outs) (hdata : data ≠ 0) :
    dyibicc_set_environment abi data env =
      Except.ok
        { context := data
          user_context := data
          ctx :=
            { num_include_paths := env.include_paths.length + sys.length
              include_paths := env.include_paths ++ sys
              num_files := env.files.length
              files := List.zipWith DyoLinkData.mk env.files outs
              global_data :=
                List.replicate (env.files.length + 1) (HashMap.zero AllocLifetime.AL_Manual)
              entry_point_name := env.entry_point_name
              cache_dir := some (cache_dir_or_dot env.cache_dir) }
          allocated := total_size abi env sys outs
          layout := fill abi env sys outs } := by
  have ht := tag_manual_replicate abi.al_zero (env.files.length + 1) 0
  simp only [List.replicate_zero, List.nil_append, Nat.zero_add] at ht
  simp only [dyibicc_set_environment, hsys, houts, hdata, if_false, (fill_exact abi env sys outs).2,
    ne_eq, not_true_eq_false, ht]

theorem vsprintf_error : ∀ (items : List FmtItem) (e : Fault),
    vsprintf items = Except.error e → e = Fault.null_pointer := by
  intro items
  induction items with
  | nil => intro e h; simp [vsprintf] at h
  | cons item rest ih =>
    intro e h
    cases item with
    | text s =>
      rw [vsprintf] at h
      cases hr : vsprintf rest with
      | error e1 =>
        simp only [hr, Except.error.injEq] at h
        exact h ▸ ih e1 hr
      | ok r => simp [hr] at h
    | str arg =>
      cases arg with
      | none =>
        simp only [vsprintf, Except.error.injEq] at h
        exact h.symm
      | some s =>
        rw [vsprintf] at h
        cases hr : vsprintf rest with
        | error e1 =>
          simp only [hr, Except.error.injEq] at h
          exact h ▸ ih e1 hr
        | ok r => simp [hr] at h

theorem format_error (items : List FmtItem) (e : Fault) (h : format items = Except.error e) :
    e = Fault.null_pointer ∨ e = Fault.out_of_bounds := by
  unfold format at h
  cases hv : vsprintf items with
  | error e1 =>
    simp only [hv, Except.error.injEq] at h
    exact Or.inl (h ▸ vsprintf_error items e1 hv)
  | ok r =>
    simp only [hv] at h
    split at h
    · cases h
    · simp only [Except.error.injEq] at h
      exact Or.inr h.symm

theorem sys_inc_paths_error (idir : Option (List Byte)) (e : Fault)
    (h : sys_inc_paths idir = Except.error e) :
    e = Fault.null_pointer ∨ e = Fault.out_of_bounds := by
  unfold sys_inc_paths at h
  cases h1 : format [FmtItem.str idir, FmtItem.text (bytes "/linux")] with
  | error e1 =>
    simp only [h1, Except.error.injEq] at h
    exact h ▸ format_error _ e1 h1
  | ok linux =>
    simp only [h1] at h
    cases h2 : format [FmtItem.str idir, FmtItem.text (bytes "/all")] with
    | error e2 =>
      simp only [h2, Except.error.injEq] at h
      exact h ▸ format_error _ e2 h2
    | ok all => simp [h2] at h

theorem dyo_output_paths_error (cache_dir : Option (List Byte)) :
    ∀ (files : List (List Byte)) (e : Fault),
      dyo_output_paths cache_dir files = Except.error e →
      e = Fault.null_pointer ∨ e = Fault.out_of_bounds := by
  intro files
  induction files with
  | nil => intro e h; simp [dyo_output_paths] at h
  | cons file rest ih =>
    intro e h
    rw [dyo_output_paths] at h
    cases hn : dyo_output_name cache_dir file with
    | error e1 =>
      simp only [hn, Except.error.injEq] at h
      exact h ▸ format_error _ e1 hn
    | ok name =>
      simp only [hn] at h
      cases hr : dyo_output_paths cache_dir rest with
      | error e2 =>
        simp only [hr, Except.error.injEq] at h
        exact h ▸ ih e2 hr
      | ok names => simp [hr] at h

/-- The ways `dyibicc_set_environment` ends: it returns, on the environments of
`FormatsFit` and for a pointer of `calloc` that is not null; otherwise a null
pointer is read through or `format` writes outside its buffer. The assertion that
closes the second pass never fails. -/
theorem dyibicc_set_environment_cases (abi : Abi) (data : Nat) (env : DyibiccEnviromentData) :
    (∃ r, dyibicc_set_environment abi data env = Except.ok r ∧ data ≠ 0 ∧ FormatsFit env) ∨
      ((data = 0 ∨ ¬ FormatsFit env) ∧
        (dyibicc_set_environment abi data env = Except.error Fault.null_pointer ∨
          dyibicc_set_environment abi data env = Except.error Fault.out_of_bounds)) := by
  cases hsys : sys_inc_paths env.dyibicc_include_dir with
  | error e =>
    right
    have hnf : ¬ FormatsFit env := by
      rw [FormatsFit_iff]
      rintro ⟨sys, outs, h1, _⟩
      rw [hsys] at h1
      cases h1
    refine ⟨Or.inr hnf, ?_⟩
    rcases sys_inc_paths_error _ e hsys with he | he <;>
      simp [dyibicc_set_environment, hsys, he]
  | ok sys =>
    cases houts : dyo_output_paths env.cache_dir env.files with
    | error e =>
      right
      have hnf : ¬ FormatsFit env := by
        rw [FormatsFit_iff]
        rintro ⟨sys, outs, _, h1⟩
        rw [houts] at h1
        cases h1
      refine ⟨Or.inr hnf, ?_⟩
      rcases dyo_output_paths_error _ env.files e houts with he | he <;>
        simp [dyibicc_set_environment, hsys, houts, he]
    | ok outs =>
      have hfit : FormatsFit env := (FormatsFit_iff env).mpr ⟨sys, outs, hsys, houts⟩
      by_cases hdata : data = 0
      · right
        exact ⟨Or.inl hdata, Or.inl (by simp [dyibicc_set_environment, hsys, houts, hdata])⟩
      · left
        exact ⟨_, dyibicc_set_environment_eq abi data env sys outs hsys houts hdata, hdata, hfit⟩

/-! ## The context that `dyibicc_set_environment` returns -/

/-- The loop over `source_name_copy` keeps the ASCII letters and digits, `'-'` and
`'_'`, and turns every other byte into `'@'`. -/
theorem sanitize_char_eq (q : Byte) :
    sanitize_char q =
      if (65 ≤ q.val ∧ q.val ≤ 90) ∨ (97 ≤ q.val ∧ q.val ≤ 122) ∨ (48 ≤ q.val ∧ q.val ≤ 57) ∨
          q = 45 ∨ q = 95 then q
      else 64 := by
  have h45 : q = 45 ↔ q.val = 45 := by
    constructor
    · intro h; rw [h]; rfl
    · intro h; exact Fin.ext h
  have h95 : q = 95 ↔ q.val = 95 := by
    constructor
    · intro h; rw [h]; rfl
    · intro h; exact Fin.ext h
  unfold sanitize_char isalnum
  by_cases hc : (65 ≤ q.val ∧ q.val ≤ 90) ∨ (97 ≤ q.val ∧ q.val ≤ 122) ∨
      (48 ≤ q.val ∧ q.val ≤ 57) ∨ q = 45 ∨ q = 95
  · rw [if_pos hc]
    rcases hc with h | h | h | h | h
    · simp [h.1, h.2]
    · simp [h.1, h.2]
    · simp [h.1, h.2]
    · simp [h]
    · simp [h]
  · rw [if_neg hc]
    simp only [not_or, not_and, not_le, h45, h95] at hc
    obtain ⟨c1, c2, c3, c4, c5⟩ := hc
    have e1 : (decide (48 ≤ q.val) && decide (q.val ≤ 57)) = false := by
      by_cases h : 48 ≤ q.val
      · have := c3 h
        simp [h]
        omega
      · simp [h]
    have e2 : (decide (65 ≤ q.val) && decide (q.val ≤ 90)) = false := by
      by_cases h : 65 ≤ q.val
      · have := c1 h
        simp [h]
        omega
      · simp [h]
    have e3 : (decide (97 ≤ q.val) && decide (q.val ≤ 122)) = false := by
      by_cases h : 97 ≤ q.val
      · have := c2 h
        simp [h]
        omega
      · simp [h]
    have n45 : q ≠ 45 := fun h => c4 (h45.mp h)
    have n95 : q ≠ 95 := fun h => c5 (h95.mp h)
    simp [e1, e2, e3, n45, n95]

/-- The environment `sample_env` is one on which every `format` is defined. -/
theorem sample_env_fits : FormatsFit sample_env :=
  ⟨⟨_, rfl, by decide⟩, Or.inr ⟨_, rfl, by decide⟩⟩

/-- C25: for every environment with `F` source files on which the call returns
(a pointer of `calloc` that is not null and formatted names that fit), the context
that `dyibicc_set_environment` returns holds exactly `F + 1` maps, each with a null
bucket array, capacity `0`, `used` `0` and the lifetime `AL_Manual`, and every
lookup in each of them returns `NULL`. -/
theorem C25_fresh_context (abi : Abi) (data : Nat) (env : DyibiccEnviromentData)
    (hdata : data ≠ 0) (hfit : FormatsFit env) :
    ∃ r, dyibicc_set_environment abi data env = Except.ok r ∧
      r.ctx.num_files = env.files.length ∧
      r.ctx.global_data.length = env.files.length + 1 ∧
      r.ctx.global_data =
        List.replicate (env.files.length + 1) (HashMap.zero AllocLifetime.AL_Manual) ∧
      ∀ map ∈ r.ctx.global_data,
        map.buckets = none ∧ map.capacity = 0 ∧ map.used = 0 ∧
          map.alloc_lifetime = AllocLifetime.AL_Manual ∧
          ∀ key, hashmap_get2 map key = Except.ok 0 := by
  obtain ⟨sys, outs, hsys, houts⟩ := (FormatsFit_iff env).mp hfit
  refine ⟨_, dyibicc_set_environment_eq abi data env sys outs hsys houts hdata, rfl,
    by simp, rfl, ?_⟩
  intro map hmem
  have hz : map = HashMap.zero AllocLifetime.AL_Manual := List.eq_of_mem_replicate hmem
  subst hz
  refine ⟨rfl, rfl, rfl, rfl, fun key => ?_⟩
  simp [hashmap_get2, get_entry, HashMap.zero]

/-- C25 at `sample_env`, which has two source files: three maps. -/
theorem C25_fresh_context_witness :
    (4096 : Nat) ≠ 0 ∧ FormatsFit sample_env ∧ sample_env.files.length = 2 ∧
      ∃ r, dyibicc_set_environment sample_abi 4096 sample_env = Except.ok r ∧
        r.ctx.num_files = sample_env.files.length ∧
        r.ctx.global_data.length = sample_env.files.length + 1 ∧
        r.ctx.global_data =
          List.replicate (sample_env.files.length + 1)
            (HashMap.zero AllocLifetime.AL_Manual) ∧
        ∀ map ∈ r.ctx.global_data,
          map.buckets = none ∧ map.capacity = 0 ∧ map.used = 0 ∧
            map.alloc_lifetime = AllocLifetime.AL_Manual ∧
            ∀ key, hashmap_get2 map key = Except.ok 0 :=
  ⟨by decide, sample_env_fits, rfl,
    C25_fresh_context sample_abi 4096 sample_env (by decide) sample_env_fits⟩

/-- C26: the assertion `d - data == total_size` of `dyibicc_set_environment` never
fails: for every environment and whatever the formatted strings are, the second
pass ends at exactly the size the first pass measured; in the context returned the
parts laid out follow one another without gap from the end of the `UserContext`
structure to the end of the allocation, so that none extends past it; and the call
returns on every environment whose formatted names fit the buffer of `format`. -/
theorem C26_two_pass_exact (abi : Abi) (data : Nat) (env : DyibiccEnviromentData) :
    dyibicc_set_environment abi data env ≠ Except.error Fault.assertion ∧
      (∀ sys outs, (fill abi env sys outs).d = total_size abi env sys outs) ∧
      (∀ r, dyibicc_set_environment abi data env = Except.ok r →
        r.layout.d = r.allocated ∧
          Consecutive abi.sizeof_UserContext r.layout.placed r.allocated ∧
          ∀ p ∈ r.layout.placed,
            abi.sizeof_UserContext ≤ p.offset ∧ p.offset + p.size ≤ r.allocated) ∧
      (data ≠ 0 → FormatsFit env → ∃ r, dyibicc_set_environment abi data env = Except.ok r) := by
  refine ⟨?_, fun sys outs => (fill_exact abi env sys outs).2, ?_, ?_⟩
  · rcases dyibicc_set_environment_cases abi data env with ⟨r, h, _, _⟩ | ⟨_, h | h⟩ <;>
      rw [h] <;> simp
  · intro r hr
    rcases dyibicc_set_environment_cases abi data env with ⟨r1, h, hdata, hfit⟩ | ⟨_, h | h⟩
    · obtain ⟨sys, outs, hsys, houts⟩ := (FormatsFit_iff env).mp hfit
      rw [dyibicc_set_environment_eq abi data env sys outs hsys houts hdata] at hr
      simp only [Except.ok.injEq] at hr
      subst hr
      obtain ⟨hc, hd⟩ := fill_exact abi env sys outs
      simp only []
      rw [hd] at hc
      exact ⟨hd, hc, hc.bounds.2⟩
    · rw [h] at hr
      cases hr
    · rw [h] at hr
      cases hr
  · intro hdata hfit
    obtain ⟨sys, outs, hsys, houts⟩ := (FormatsFit_iff env).mp hfit
    exact ⟨_, dyibicc_set_environment_eq abi data env sys outs hsys houts hdata⟩

/-- C26 at `sample_env`: the first pass measures 489 bytes and the second pass
lays out 489 bytes. -/
theorem C26_two_pass_exact_witness :
    (dyibicc_set_environment sample_abi 4096 sample_env).map
        (fun r => (r.allocated, r.layout.d)) = Except.ok (489, 489) ∧
      (dyibicc_set_environment sample_abi 4096 sample_env ≠ Except.error Fault.assertion ∧
        (∀ sys outs, (fill sample_abi sample_env sys outs).d =
          total_size sample_abi sample_env sys outs) ∧
        (∀ r, dyibicc_set_environment sample_abi 4096 sample_env = Except.ok r →
          r.layout.d = r.allocated ∧
            Consecutive sample_abi.sizeof_UserContext r.layout.placed r.allocated ∧
            ∀ p ∈ r.layout.placed,
              sample_abi.sizeof_UserContext ≤ p.offset ∧ p.offset + p.size ≤ r.allocated) ∧
        ((4096 : Nat) ≠ 0 → FormatsFit sample_env →
          ∃ r, dyibicc_set_environment sample_abi 4096 sample_env = Except.ok r)) :=
  ⟨by decide, C26_two_pass_exact sample_abi 4096 sample_env⟩

/-- C27: in the context that `dyibicc_set_environment` returns, the tracked files
are those of the environment, in order; for each one `source_name` is the given
path and `output_dyo_name` is the cache directory, `"/"`, the path with every byte
that is not an ASCII letter, a digit, `'-'` or `'_'` replaced by `'@'`, and `".dyo"`;
the replaced path has the length of the path. -/
theorem C27_tracked_files (abi : Abi) (data : Nat) (env : DyibiccEnviromentData)
    (hdata : data ≠ 0) (hfit : FormatsFit env) :
    ∃ r, dyibicc_set_environment abi data env = Except.ok r ∧
      r.ctx.num_files = env.files.length ∧ r.ctx.files.length = env.files.length ∧
      (∀ (j : Nat) (file : List Byte), env.files[j]? = some file →
        ∃ dir, env.cache_dir = some dir ∧
          r.ctx.files[j]? =
            some ⟨file, dir ++ bytes "/" ++ file.map sanitize_char ++ bytes ".dyo"⟩ ∧
          (file.map sanitize_char).length = file.length) ∧
      ∀ q : Byte, sanitize_char q =
        if (65 ≤ q.val ∧ q.val ≤ 90) ∨ (97 ≤ q.val ∧ q.val ≤ 122) ∨
            (48 ≤ q.val ∧ q.val ≤ 57) ∨ q = 45 ∨ q = 95 then q
        else 64 := by
  obtain ⟨sys, outs, hsys, houts⟩ := (FormatsFit_iff env).mp hfit
  obtain ⟨hlen, hnames⟩ := (dyo_output_paths_ok_iff _ _ _).mp houts
  refine ⟨_, dyibicc_set_environment_eq abi data env sys outs hsys houts hdata, rfl,
    by simp [hlen], ?_, sanitize_char_eq⟩
  intro j file hj
  obtain ⟨dir, h1, _, h3⟩ := hnames j file hj
  refine ⟨dir, h1, ?_, by simp⟩
  simp [List.getElem?_zipWith, hj, h3]

/-- C27 at `sample_env`: `a.c` is compiled to `cache/a@c.dyo` and `src/b-1.c` to
`cache/src@b-1@c.dyo`. -/
theorem C27_tracked_files_witness :
    (dyibicc_set_environment sample_abi 4096 sample_env).map (fun r => r.ctx.files) =
        Except.ok [⟨bytes "a.c", bytes "cache/a@c.dyo"⟩,
          ⟨bytes "src/b-1.c", bytes "cache/src@b-1@c.dyo"⟩] ∧
      ∃ r, dyibicc_set_environment sample_abi 4096 sample_env = Except.ok r ∧
        r.ctx.num_files = sample_env.files.length ∧
        r.ctx.files.length = sample_env.files.length ∧
        (∀ (j : Nat) (file : List Byte), sample_env.files[j]? = some file →
          ∃ dir, sample_env.cache_dir = some dir ∧
            r.ctx.files[j]? =
              some ⟨file, dir ++ bytes "/" ++ file.map sanitize_char ++ bytes ".dyo"⟩ ∧
            (file.map sanitize_char).length = file.length) ∧
        ∀ q : Byte, sanitize_char q =
          if (65 ≤ q.val ∧ q.val ≤ 90) ∨ (97 ≤ q.val ∧ q.val ≤ 122) ∨
              (48 ≤ q.val ∧ q.val ≤ 57) ∨ q = 45 ∨ q = 95 then q
          else 64 :=
  ⟨by decide, C27_tracked_files sample_abi 4096 sample_env (by decide) sample_env_fits⟩

/-! ## Teardown -/

/-- A completed put keeps the lifetime tag of the map. -/
theorem put_depth_alloc_lifetime :
    ∀ (n : Nat) (map m1 : HashMap) (key : List Byte) (val : Nat),
      hashmap_put2_depth n map key val = Except.ok m1 →
      m1.alloc_lifetime = map.alloc_lifetime := by
  intro n
  induction n with
  | zero => intro map m1 key val h; simp [hashmap_put2_depth] at h
  | succ n ih =>
    intro map m1 key val h
    obtain ⟨m0, bs0, hprep, hb0, hprobe⟩ := put_depth_cases h
    obtain ⟨d, e0, _, _, _, _, hm1⟩ := put_probe_sound hb0 hprobe
    have h1 : m1.alloc_lifetime = m0.alloc_lifetime := by rw [hm1]; rfl
    rw [h1]
    rcases hprep with ⟨_, hm0⟩ | ⟨_, _, hm0⟩ | ⟨_, _, hre⟩
    · rw [hm0]
    · rw [hm0]
    · obtain ⟨cap, _, _, _, hcopy, _⟩ := rehash_with_sound hre
      exact rehash_copy_induct (fun m => m.alloc_lifetime = map.alloc_lifetime)
        (hashmap_put2_depth n) (fun m k v m2 hp hput => (ih m m2 k v hput).trans hp)
        _ _ m0 (by rfl) hcopy

/-- A completed delete keeps the lifetime tag of the map. -/
theorem delete_alloc_lifetime {map m1 : HashMap} {key : List Byte}
    (h : hashmap_delete2 map key = Except.ok m1) : m1.alloc_lifetime = map.alloc_lifetime := by
  rcases delete_cases h with ⟨_, hm⟩ | ⟨bs, d, ent, _, _, _, _, _, _, hm⟩
  · rw [hm]
  · rw [hm]

/-- The maps of a context keep the lifetime `AL_Manual` they were created with
through every run of puts and deletes. -/
theorem run_alloc_lifetime :
    ∀ (ops : List Op) (m m1 : HashMap), run ops m = Except.ok m1 →
      m1.alloc_lifetime = m.alloc_lifetime := by
  intro ops
  induction ops with
  | nil =>
    intro m m1 h
    simp only [run, Except.ok.injEq] at h
    rw [h]
  | cons op rest ih =>
    intro m m1 h
    rw [run] at h
    cases hop : op.apply m with
    | error e => simp [hop] at h
    | ok m2 =>
      simp only [hop] at h
      rw [ih m2 m1 h]
      cases op with
      | put key val => exact put_depth_alloc_lifetime 2 m m2 key val hop
      | delete key => exact delete_alloc_lifetime hop

/-- The loop of `hashmap_custom_free` ends and frees the key and the value of each
live bucket it visits, in order. -/
theorem hashmap_custom_free_loop_eq (ptrs : Nat → MapPointers) (maps : List HashMap)
    (context m : Nat) (map : HashMap) (bs : List HashEntry) (hm : maps[m]? = some map)
    (hb : map.buckets = some bs) :
    ∀ (n i : Nat), i + n ≤ bs.length →
      hashmap_custom_free_loop (ptrs m) AllocLifetime.AL_Manual bs n i =
        (((List.range' i n).flatMap (bucket_owned m bs)).map (Owned.call ptrs maps context),
          Except.ok ()) := by
  intro n
  induction n with
  | zero => intro i _; simp [hashmap_custom_free_loop]
  | succ n ih =>
    intro i hi
    have hlt : i < bs.length := by omega
    have hget : bs[i]? = some bs[i] := List.getElem?_eq_getElem hlt
    have hat : bucket_at maps m i = some bs[i] := by simp [bucket_at, hm, hb, hget]
    rw [hashmap_custom_free_loop, hget, List.range'_succ, List.flatMap_cons, List.map_append]
    simp only [ih (i + 1) (by omega)]
    by_cases hl : bs[i].live = true
    · simp [bucket_owned, hget, hl, Owned.call, hat]
    · simp [bucket_owned, hget, hl]

/-- On a map of lifetime `AL_Manual` whose bucket array has `capacity` buckets,
`hashmap_custom_free` returns after freeing what is owned through the map. -/
theorem hashmap_custom_free_eq (ptrs : Nat → MapPointers) (maps : List HashMap)
    (context m : Nat) (map : HashMap) (hm : maps[m]? = some map)
    (hal : map.alloc_lifetime = AllocLifetime.AL_Manual) (hi : InvCore map) :
    hashmap_custom_free (ptrs m) map =
      ((map_owned m map).map (Owned.call ptrs maps context), Except.ok ()) := by
  unfold hashmap_custom_free
  rw [if_neg (by simp [hal])]
  cases hb : map.buckets with
  | none =>
    have hc := (hi.null_map hb).1
    simp [hc, map_owned, hb, Owned.call, buckets_pointer, hm, hal]
  | some bs =>
    have hl := hi.length_eq bs hb
    have hloop := hashmap_custom_free_loop_eq ptrs maps context m map bs hm hb map.capacity 0
      (by omega)
    rw [← List.range_eq_range'] at hloop
    simp only [hal, hloop]
    simp [map_owned, hb, Owned.call, buckets_pointer, hm]

/-- The loop of `dyibicc_free` over the maps ends and frees what is owned through
each map, in order. -/
theorem free_maps_eq (ptrs : Nat → MapPointers) (maps : List HashMap) (context : Nat)
    (hgood : ∀ map ∈ maps, map.alloc_lifetime = AllocLifetime.AL_Manual ∧ InvCore map) :
    ∀ (rest : List HashMap) (i : Nat), (∀ k, rest[k]? = maps[i + k]?) →
      free_maps ptrs maps rest.length i =
        ((maps_owned i rest).map (Owned.call ptrs maps context), Except.ok ()) := by
  intro rest
  induction rest with
  | nil => intro i _; simp [free_maps, maps_owned]
  | cons map rest ih =>
    intro i hrest
    have hm : maps[i]? = some map := by
      have := hrest 0
      simpa using this.symm
    have hmem : map ∈ maps := by
      obtain ⟨hl, h2⟩ := List.getElem?_eq_some.mp hm
      rw [← h2]
      exact List.getElem_mem _
    obtain ⟨hal, hinv⟩ := hgood map hmem
    have hnext := ih (i + 1) (by
      intro k
      have := hrest (k + 1)
      rw [show i + 1 + k = i + (k + 1) by omega]
      simpa using this)
    simp only [List.length_cons, free_maps, hm,
      hashmap_custom_free_eq ptrs maps context i map hm hal hinv, hnext, maps_owned,
      List.map_append]

/-- On a context whose maps have the lifetime `AL_Manual` and bucket arrays of
`capacity` buckets, `dyibicc_free` returns after freeing what the context owns. -/
theorem dyibicc_free_eq (user_context context : Nat) (ctx : UserContext)
    (ptrs : Nat → MapPointers) (hctx : context = user_context) (hnn : context ≠ 0)
    (hlen : ctx.global_data.length = ctx.num_files + 1)
    (hgood : ∀ map ∈ ctx.global_data,
      map.alloc_lifetime = AllocLifetime.AL_Manual ∧ InvCore map) :
    dyibicc_free user_context context (some ctx) ptrs =
      ((context_owned ctx.global_data).map (Owned.call ptrs ctx.global_data context),
        Teardown.returned 0) := by
  have h := free_maps_eq ptrs ctx.global_data context hgood ctx.global_data 0
    (by intro k; rw [Nat.zero_add])
  rw [hlen] at h
  unfold dyibicc_free
  rw [if_neg (by simp [hctx]), if_neg hnn]
  simp only [h, context_owned, List.map_append, List.map_cons, List.map_nil, Owned.call]

theorem bucket_owned_mem {m : Nat} {bs : List HashEntry} {i : Nat} {x : Owned}
    (h : x ∈ bucket_owned m bs i) : x = Owned.key m i ∨ x = Owned.val m i := by
  unfold bucket_owned at h
  cases hb : bs[i]? with
  | none => simp [hb] at h
  | some ent =>
    simp only [hb] at h
    by_cases hl : ent.live = true
    · simpa [hl] using h
    · simp [hl] at h

theorem bucket_owned_nodup (m : Nat) (bs : List HashEntry) (i : Nat) :
    (bucket_owned m bs i).Nodup := by
  unfold bucket_owned
  cases bs[i]? with
  | none => simp
  | some ent =>
    by_cases hl : ent.live = true
    · simp [hl]
    · simp [hl]

/-- Everything owned through map `m` belongs to map `m`. -/
theorem map_owned_map {m : Nat} {map : HashMap} {x : Owned} (h : x ∈ map_owned m map) :
    x.map = some m := by
  unfold map_owned at h
  rcases List.mem_append.mp h with h | h
  · cases hb : map.buckets with
    | none => simp [hb] at h
    | some bs =>
      simp only [hb, List.mem_flatMap] at h
      obtain ⟨i, _, hx⟩ := h
      rcases bucket_owned_mem hx with hx | hx <;> rw [hx] <;> rfl
  · simp only [List.mem_singleton] at h
    rw [h]
    rfl

/-- Nothing is owned twice through one map. -/
theorem map_owned_nodup (m : Nat) (map : HashMap) : (map_owned m map).Nodup := by
  unfold map_owned
  apply List.Nodup.append
  · cases map.buckets with
    | none => simp
    | some bs =>
      simp only []
      rw [List.nodup_flatMap]
      refine ⟨fun i _ => bucket_owned_nodup m bs i, ?_⟩
      apply (List.nodup_range map.capacity).pairwise_of_forall_ne
      intro i _ j _ hij
      simp only [Function.onFun]
      rw [List.disjoint_left]
      intro x hx hy
      rcases bucket_owned_mem hx with h1 | h1 <;> rcases bucket_owned_mem hy with h2 | h2 <;>
        rw [h1] at h2 <;> simp only [Owned.key.injEq, Owned.val.injEq, reduceCtorEq] at h2 <;>
        exact hij h2.2
  · simp
  · rw [List.disjoint_left]
    intro x hx hy
    simp only [List.mem_singleton] at hy
    subst hy
    cases hb : map.buckets with
    | none => simp [hb] at hx
    | some bs =>
      simp only [hb, List.mem_flatMap] at hx
      obtain ⟨i, _, hx⟩ := hx
      rcases bucket_owned_mem hx with hx | hx <;> cases hx

/-- What is owned through the maps from index `m0` on belongs to a map of index
`m0` or more. -/
theorem maps_owned_map :
    ∀ (maps : List HashMap) (m0 : Nat) (x : Owned), x ∈ maps_owned m0 maps →
      ∃ m, x.map = some m ∧ m0 ≤ m := by
  intro maps
  induction maps with
  | nil => intro m0 x h; simp [maps_owned] at h
  | cons map rest ih =>
    intro m0 x h
    simp only [maps_owned, List.mem_append] at h
    rcases h with h | h
    · exact ⟨m0, map_owned_map h, le_refl _⟩
    · obtain ⟨m, h1, h2⟩ := ih (m0 + 1) x h
      exact ⟨m, h1, by omega⟩

theorem maps_owned_nodup :
    ∀ (maps : List HashMap) (m0 : Nat), (maps_owned m0 maps).Nodup := by
  intro maps
  induction maps with
  | nil => intro m0; simp [maps_owned]
  | cons map rest ih =>
    intro m0
    simp only [maps_owned]
    apply List.Nodup.append (map_owned_nodup m0 map) (ih (m0 + 1))
    rw [List.disjoint_left]
    intro x hx hy
    have h1 := map_owned_map hx
    obtain ⟨m, h2, h3⟩ := maps_owned_map rest (m0 + 1) x hy
    rw [h1] at h2
    simp only [Option.some.injEq] at h2
    omega

/-- Nothing is owned twice by a context. -/
theorem context_owned_nodup (maps : List HashMap) : (context_owned maps).Nodup := by
  unfold context_owned
  apply List.Nodup.append (maps_owned_nodup maps 0) (by simp)
  rw [List.disjoint_left]
  intro x hx hy
  simp only [List.mem_singleton] at hy
  subst hy
  obtain ⟨m, h, _⟩ := maps_owned_map maps 0 _ hx
  simp [Owned.map] at h

/-- When the pointers owned are pairwise distinct, the calls that free what a
context owns pass pairwise distinct pointers, the null pointer apart. -/
theorem owned_calls_nodup (ptrs : Nat → MapPointers) (maps : List HashMap) (context : Nat)
    (hd : DistinctPointers ptrs maps context) :
    ((((context_owned maps).map (Owned.call ptrs maps context)).map FreeCall.pointer).filter
      (fun p => decide (p ≠ 0))).Nodup := by
  rw [List.map_map, List.filter_map]
  apply List.Nodup.map_on
  · intro a ha b hb hab
    simp only [List.mem_filter, Function.comp_apply, decide_eq_true_eq] at ha hb
    exact hd a ha.1 b hb.1 hab ha.2
  · exact (context_owned_nodup maps).filter _

/-- The number of things owned through the buckets is twice the number of live
buckets. -/
theorem bucket_owned_length (m : Nat) (bs : List HashEntry) :
    ∀ (tail pre : List HashEntry), bs = pre ++ tail →
      ((List.range' pre.length tail.length).flatMap (bucket_owned m bs)).length =
        2 * tail.countP HashEntry.live := by
  intro tail
  induction tail with
  | nil => intro pre _; simp
  | cons e tail ih =>
    intro pre hbs
    have hget : bs[pre.length]? = some e := by
      rw [hbs, List.getElem?_append_right (le_refl _)]
      simp
    have hnext := ih (pre ++ [e]) (by rw [hbs]; simp)
    simp only [List.length_append, List.length_singleton] at hnext
    rw [List.length_cons, List.range'_succ, List.flatMap_cons, List.length_append, hnext,
      List.countP_cons]
    by_cases hl : e.live = true
    · simp [bucket_owned, hget, hl]
      omega
    · simp [bucket_owned, hget, hl]

theorem map_owned_length (m : Nat) (map : HashMap) (hi : InvCore map) :
    (map_owned m map).length = 2 * live_count map + 1 := by
  unfold map_owned live_count
  cases hb : map.buckets with
  | none => simp
  | some bs =>
    have hl := hi.length_eq bs hb
    have h := bucket_owned_length m bs bs [] rfl
    simp only [List.length_nil] at h
    rw [hl, ← List.range_eq_range'] at h
    simp [h]

theorem maps_owned_length :
    ∀ (maps : List HashMap) (m0 : Nat), (∀ map ∈ maps, InvCore map) →
      (maps_owned m0 maps).length = 2 * (maps.map live_count).sum + maps.length := by
  intro maps
  induction maps with
  | nil => intro m0 _; simp [maps_owned]
  | cons map rest ih =>
    intro m0 h
    simp only [maps_owned, List.length_append, List.map_cons, List.sum_cons, List.length_cons]
    rw [map_owned_length m0 map (h map (by simp)),
      ih (m0 + 1) (fun x hx => h x (List.mem_cons_of_mem _ hx))]
    omega

/-- C24: on a context with `F` tracked files whose `F + 1` maps are reachable maps
of lifetime `AL_Manual`, `dyibicc_free` returns after exactly these calls: for each
map in order, for every live bucket in order `alloc_free` of its key and
`aligned_free` of its value and nothing for an empty bucket or a tombstone, then
`alloc_free` of the bucket array of the map; after all maps `free` of the block of
the context. Their number is twice the number of live buckets, plus `F + 1`, plus
one. When the pointers owned are pairwise distinct, no pointer other than the null
pointer (the bucket array of a map never used) is passed twice. -/
theorem C24_teardown_frees (user_context context : Nat) (ctx : UserContext)
    (ptrs : Nat → MapPointers) (hctx : context = user_context) (hnn : context ≠ 0)
    (hlen : ctx.global_data.length = ctx.num_files + 1)
    (hmaps : ∀ map ∈ ctx.global_data,
      map.alloc_lifetime = AllocLifetime.AL_Manual ∧ Reachable map) :
    dyibicc_free user_context context (some ctx) ptrs =
        ((context_owned ctx.global_data).map (Owned.call ptrs ctx.global_data context),
          Teardown.returned 0) ∧
      (dyibicc_free user_context context (some ctx) ptrs).1.length =
        2 * (ctx.global_data.map live_count).sum + (ctx.num_files + 1) + 1 ∧
      (DistinctPointers ptrs ctx.global_data context →
        (((dyibicc_free user_context context (some ctx) ptrs).1.map FreeCall.pointer).filter
          (fun p => decide (p ≠ 0))).Nodup) := by
  have hgood : ∀ map ∈ ctx.global_data,
      map.alloc_lifetime = AllocLifetime.AL_Manual ∧ InvCore map :=
    fun map hm => ⟨(hmaps map hm).1, (hmaps map hm).2.inv.toInvCore⟩
  have heq := dyibicc_free_eq user_context context ctx ptrs hctx hnn hlen hgood
  refine ⟨heq, ?_, fun hd => ?_⟩
  · rw [heq]
    simp only [List.length_map, context_owned, List.length_append, List.length_singleton]
    rw [maps_owned_length ctx.global_data 0 (fun map hm => (hgood map hm).2), hlen]
  · rw [heq]
    exact owned_calls_nodup ptrs ctx.global_data context hd

/-- C24 at a context with one tracked file, whose first map holds two live buckets
and a tombstone and whose second map was never used: seven calls. -/
theorem C24_teardown_frees_witness :
    (5000 : Nat) = 5000 ∧ (5000 : Nat) ≠ 0 ∧
      sample_context.global_data.length = sample_context.num_files + 1 ∧
      DistinctPointers sample_pointers sample_context.global_data 5000 ∧
      dyibicc_free 5000 5000 (some sample_context) sample_pointers =
        ([FreeCall.alloc_free 1012 AllocLifetime.AL_Manual, FreeCall.aligned_free 7003,
          FreeCall.alloc_free 1013 AllocLifetime.AL_Manual, FreeCall.aligned_free 7002,
          FreeCall.alloc_free 100 AllocLifetime.AL_Manual,
          FreeCall.alloc_free 0 AllocLifetime.AL_Manual, FreeCall.free 5000],
          Teardown.returned 0) ∧
      (dyibicc_free 5000 5000 (some sample_context) sample_pointers =
          ((context_owned sample_context.global_data).map
            (Owned.call sample_pointers sample_context.global_data 5000),
            Teardown.returned 0) ∧
        (dyibicc_free 5000 5000 (some sample_context) sample_pointers).1.length =
          2 * (sample_context.global_data.map live_count).sum +
            (sample_context.num_files + 1) + 1 ∧
        (DistinctPointers sample_pointers sample_context.global_data 5000 →
          (((dyibicc_free 5000 5000 (some sample_context) sample_pointers).1.map
            FreeCall.pointer).filter (fun p => decide (p ≠ 0))).Nodup)) :=
  ⟨rfl, by decide, by decide, by unfold DistinctPointers; decide, by decide,
    C24_teardown_frees 5000 5000 sample_context sample_pointers rfl (by decide) (by decide)
      (by
        intro map hm
        simp only [sample_context, List.mem_cons, List.mem_singleton, List.not_mem_nil,
          or_false] at hm
        rcases hm with hm | hm
        · rw [hm]
          exact ⟨by decide, Reachable.map_after _ _⟩
        · rw [hm]
          exact ⟨rfl, Reachable.zero _⟩)⟩

/-! ## The active context -/

theorem dyibicc_update_assertion (user_context context : Nat) (files : List DyoLinkData)
    (c : Collaborators) :
    (dyibicc_update user_context context files c).2 = Outcome.assertion_failed ↔
      context ≠ user_context := by
  unfold dyibicc_update
  by_cases h : context = user_context
  · simp only [h, ne_eq, not_true_eq_false, if_false, iff_false]
    by_cases h0 : user_context = 0
    · simp [h0]
    · simp only [h0, if_false]
      cases compile_files c 0 files with
      | mk t o =>
        cases o with
        | some s => simp
        | none =>
          cases c.link_dyos with
          | jumps => simp
          | returns b => simp
  · simp [h]

/-- With the null pointer in `user_context`, `dyibicc_update` of the null pointer
passes the assertion and stops at the read of `ctx->num_files`, before any call. -/
theorem dyibicc_update_null (files : List DyoLinkData) (c : Collaborators) :
    dyibicc_update 0 0 files c = ([], Outcome.faulted Fault.null_pointer) := by
  simp [dyibicc_update]

/-- With the null pointer in `user_context`, `dyibicc_free` of the null pointer
passes the assertion and stops at the read of `ctx->num_files`, before any call. -/
theorem dyibicc_free_null (ctx : Option UserContext) (ptrs : Nat → MapPointers) :
    dyibicc_free 0 0 ctx ptrs = ([], Teardown.faulted Fault.null_pointer) := by
  simp [dyibicc_free]

theorem dyibicc_free_assertion (user_context context : Nat) (ctx : Option UserContext)
    (ptrs : Nat → MapPointers) :
    (dyibicc_free user_context context ctx ptrs).2 = Teardown.assertion_failed ↔
      context ≠ user_context := by
  unfold dyibicc_free
  by_cases h : context = user_context
  · simp only [h, ne_eq, not_true_eq_false, if_false, iff_false]
    by_cases h0 : user_context = 0
    · simp [h0]
    · simp only [h0, if_false]
      cases ctx with
      | none => simp
      | some ctx =>
        simp only []
        cases free_maps ptrs ctx.global_data (ctx.num_files + 1) 0 with
        | mk t r => cases r <;> simp
  · simp [h]

/-- A call of `dyibicc_free` that returns was given the pointer in `user_context`,
which is not null, and leaves `user_context` null. -/
theorem dyibicc_free_returned {user_context context u1 : Nat} {ctx : Option UserContext}
    {ptrs : Nat → MapPointers}
    (h : (dyibicc_free user_context context ctx ptrs).2 = Teardown.returned u1) :
    u1 = 0 ∧ context = user_context ∧ context ≠ 0 := by
  unfold dyibicc_free at h
  by_cases hc : context = user_context
  · rw [if_neg (by simp [hc])] at h
    by_cases h0 : context = 0
    · simp [h0] at h
    · rw [if_neg h0] at h
      cases ctx with
      | none => simp at h
      | some ctx =>
        simp only [] at h
        cases hf : free_maps ptrs ctx.global_data (ctx.num_files + 1) 0 with
        | mk t r =>
          rw [hf] at h
          cases r with
          | error e => simp at h
          | ok _ =>
            simp only [Teardown.returned.injEq] at h
            exact ⟨h.symm, hc, h0⟩
  · simp [hc] at h

/-- A call of `dyibicc_set_environment` that returns leaves in `user_context` the
pointer of `calloc`, which is not null. -/
theorem dyibicc_set_environment_user_context {abi : Abi} {data : Nat}
    {env : DyibiccEnviromentData} {r : SetEnvironment}
    (h : dyibicc_set_environment abi data env = Except.ok r) :
    r.user_context = data ∧ r.context = data ∧ data ≠ 0 := by
  rcases dyibicc_set_environment_cases abi data env with ⟨r1, h1, hdata, hfit⟩ | ⟨_, h1 | h1⟩
  · obtain ⟨sys, outs, hsys, houts⟩ := (FormatsFit_iff env).mp hfit
    rw [dyibicc_set_environment_eq abi data env sys outs hsys houts hdata] at h
    simp only [Except.ok.injEq] at h
    subst h
    exact ⟨rfl, rfl, hdata⟩
  · rw [h1] at h
    cases h
  · rw [h1] at h
    cases h

theorem active_context_append :
    ∀ (l1 l2 : List LifeCall) (a : Option Nat),
      active_context (l1 ++ l2) a = active_context l2 (active_context l1 a) := by
  intro l1
  induction l1 with
  | nil => intro l2 a; rfl
  | cons call rest ih =>
    intro l2 a
    cases call with
    | set_environment data env => exact ih l2 (some data)
    | update context files c => exact ih l2 a
    | free context ctx ptrs => exact ih l2 none

/-- Through a run in which no call stopped, `user_context` holds the active
context, which is not null, or the null pointer when no context is active. -/
theorem life_run_active (abi : Abi) :
    ∀ (calls : List LifeCall) (u : Nat) (a : Option Nat) (uc : Nat),
      (a = none → u = 0) → (∀ p, a = some p → u = p ∧ p ≠ 0) →
      life_run abi calls u = Except.ok uc →
      (active_context calls a = none → uc = 0) ∧
        (∀ p, active_context calls a = some p → uc = p ∧ p ≠ 0) := by
  intro calls
  induction calls with
  | nil =>
    intro u a uc h1 h2 hrun
    simp only [life_run, Except.ok.injEq] at hrun
    subst hrun
    exact ⟨h1, h2⟩
  | cons call rest ih =>
    intro u a uc h1 h2 hrun
    rw [life_run] at hrun
    cases hap : call.apply abi u with
    | error e => simp [hap] at hrun
    | ok u1 =>
      simp only [hap] at hrun
      cases call with
      | set_environment data env =>
        simp only [LifeCall.apply] at hap
        cases hs : dyibicc_set_environment abi data env with
        | error e => simp [hs] at hap
        | ok r =>
          simp only [hs, Except.ok.injEq] at hap
          obtain ⟨e1, _, e3⟩ := dyibicc_set_environment_user_context hs
          have hu1 : u1 = data := by rw [← hap, e1]
          exact ih u1 (some data) uc (fun h => by cases h)
            (fun p hp => by
              simp only [Option.some.injEq] at hp
              subst hp
              exact ⟨hu1, e3⟩) hrun
      | update context files c =>
        simp only [LifeCall.apply] at hap
        have hu1 : u1 = u := by
          split at hap
          · cases hap
          · cases hap
          · simp only [Except.ok.injEq] at hap
            exact hap.symm
          · simp only [Except.ok.injEq] at hap
            exact hap.symm
        rw [hu1] at hrun
        exact ih u a uc h1 h2 hrun
      | free context ctx ptrs =>
        simp only [LifeCall.apply] at hap
        have hu1 : u1 = 0 := by
          split at hap
          · rename_i u2 hret
            simp only [Except.ok.injEq] at hap
            rw [← hap]
            exact (dyibicc_free_returned hret).1
          · cases hap
          · cases hap
        rw [hu1] at hrun
        exact ih 0 none uc (fun _ => rfl) (fun p hp => by cases hp) hrun

/-- C23 as stated fails: after `dyibicc_set_environment` and `dyibicc_free` of the
context it returned, no context is active and `user_context` is null, and the
entry assertion `ctx == user_context` of `dyibicc_update` and of `dyibicc_free`
passes for the null pointer, which is not an active context: neither call ends
with a failed assertion, both go on to the read of `ctx->num_files` through the
null pointer and stop there, before any other call. -/
theorem C23_null_context_passes :
    life_run sample_abi
        [LifeCall.set_environment 4096 sample_env,
          LifeCall.free 4096 sample_block sample_pointers] 0 = Except.ok 0 ∧
      active_context
        [LifeCall.set_environment 4096 sample_env,
          LifeCall.free 4096 sample_block sample_pointers] none = none ∧
      (dyibicc_update 0 0 sample_files (sample_collaborators [] true)).2 ≠
        Outcome.assertion_failed ∧
      dyibicc_update 0 0 sample_files (sample_collaborators [] true) =
        ([], Outcome.faulted Fault.null_pointer) ∧
      (dyibicc_free 0 0 sample_block sample_pointers).2 ≠ Teardown.assertion_failed ∧
      dyibicc_free 0 0 sample_block sample_pointers =
        ([], Teardown.faulted Fault.null_pointer) := by
  decide

/-- C23, amended: after a run of calls that starts with `dyibicc_set_environment`
and in which no call stopped, a context pointer that is not null passes the entry
assertion of `dyibicc_update`, and that of `dyibicc_free`, if and only if it is the
active context (the one returned by the latest `dyibicc_set_environment` and not
yet freed); a `dyibicc_free` that returns leaves no context active and
`user_context` null, so that an update or a free with that same context then fails
the assertion; the null pointer passes the assertion of `dyibicc_update`, and that
of `dyibicc_free`, if and only if no context is active; and while no context is
active, `dyibicc_update` and `dyibicc_free` of the null pointer make no call and
stop at the read of `ctx->num_files` through the null pointer that follows the
assertion. -/
theorem C23_active_context (abi : Abi) (u0 data : Nat) (env : DyibiccEnviromentData)
    (calls : List LifeCall) (uc : Nat)
    (hrun : life_run abi (LifeCall.set_environment data env :: calls) u0 = Except.ok uc) :
    (∀ (context : Nat) (files : List DyoLinkData) (c : Collaborators), context ≠ 0 →
        ((dyibicc_update uc context files c).2 ≠ Outcome.assertion_failed ↔
          active_context (LifeCall.set_environment data env :: calls) none = some context)) ∧
      (∀ (context : Nat) (ctx : Option UserContext) (ptrs : Nat → MapPointers), context ≠ 0 →
        ((dyibicc_free uc context ctx ptrs).2 ≠ Teardown.assertion_failed ↔
          active_context (LifeCall.set_environment data env :: calls) none = some context)) ∧
      (∀ (context : Nat) (ctx : Option UserContext) (ptrs : Nat → MapPointers) (u1 : Nat),
        (dyibicc_free uc context ctx ptrs).2 = Teardown.returned u1 →
        u1 = 0 ∧
          active_context
            (LifeCall.set_environment data env :: calls ++ [LifeCall.free context ctx ptrs])
            none = none ∧
          (∀ (files : List DyoLinkData) (c : Collaborators),
            (dyibicc_update u1 context files c).2 = Outcome.assertion_failed) ∧
          (∀ (ctx1 : Option UserContext) (ptrs1 : Nat → MapPointers),
            (dyibicc_free u1 context ctx1 ptrs1).2 = Teardown.assertion_failed)) ∧
      (∀ (files : List DyoLinkData) (c : Collaborators),
        ((dyibicc_update uc 0 files c).2 ≠ Outcome.assertion_failed ↔
          active_context (LifeCall.set_environment data env :: calls) none = none)) ∧
      (∀ (ctx : Option UserContext) (ptrs : Nat → MapPointers),
        ((dyibicc_free uc 0 ctx ptrs).2 ≠ Teardown.assertion_failed ↔
          active_context (LifeCall.set_environment data env :: calls) none = none)) ∧
      (active_context (LifeCall.set_environment data env :: calls) none = none →
        uc = 0 ∧
          (∀ (files : List DyoLinkData) (c : Collaborators),
            (dyibicc_update uc 0 files c).2 ≠ Outcome.assertion_failed ∧
              dyibicc_update uc 0 files c = ([], Outcome.faulted Fault.null_pointer)) ∧
          (∀ (ctx : Option UserContext) (ptrs : Nat → MapPointers),
            (dyibicc_free uc 0 ctx ptrs).2 ≠ Teardown.assertion_failed ∧
              dyibicc_free uc 0 ctx ptrs = ([], Teardown.faulted Fault.null_pointer))) := by
  obtain ⟨hnone, hsome⟩ := life_run_active abi (LifeCall.set_environment data env :: calls)
    0 none uc (fun _ => rfl) (fun p hp => by cases hp)
    (by
      rw [life_run] at hrun ⊢
      simpa [LifeCall.apply] using hrun)
  have hiff : ∀ context : Nat, context ≠ 0 →
      (context = uc ↔
        active_context (LifeCall.set_environment data env :: calls) none = some context) := by
    intro context hc
    constructor
    · intro he
      cases ha : active_context (LifeCall.set_environment data env :: calls) none with
      | none => exact absurd (he.trans (hnone ha)) hc
      | some p => rw [he, (hsome p ha).1]
    · intro ha
      exact (hsome context ha).1.symm
  have hnull : (0 = uc ↔
      active_context (LifeCall.set_environment data env :: calls) none = none) := by
    constructor
    · intro he
      cases ha : active_context (LifeCall.set_environment data env :: calls) none with
      | none => rfl
      | some p =>
        obtain ⟨h1, h2⟩ := hsome p ha
        exact absurd (h1.symm.trans he.symm) h2
    · intro ha
      exact (hnone ha).symm
  refine ⟨fun context files c hc => ?_, fun context ctx ptrs hc => ?_,
    fun context ctx ptrs u1 hret => ?_, fun files c => ?_, fun ctx ptrs => ?_,
    fun ha => ⟨hnone ha, fun files c => ?_, fun ctx ptrs => ?_⟩⟩
  · rw [ne_eq, dyibicc_update_assertion, not_not]
    exact hiff context hc
  · rw [ne_eq, dyibicc_free_assertion, not_not]
    exact hiff context hc
  · obtain ⟨h1, _, h3⟩ := dyibicc_free_returned hret
    subst h1
    refine ⟨rfl, ?_, fun files c => ?_, fun ctx1 ptrs1 => ?_⟩
    · rw [active_context_append]
      rfl
    · rw [dyibicc_update_assertion]
      exact h3
    · rw [dyibicc_free_assertion]
      exact h3
  · rw [ne_eq, dyibicc_update_assertion, not_not]
    exact hnull
  · rw [ne_eq, dyibicc_free_assertion, not_not]
    exact hnull
  · rw [hnone ha, dyibicc_update_null]
    exact ⟨by simp, rfl⟩
  · rw [hnone ha, dyibicc_free_null]
    exact ⟨by simp, rfl⟩

/-- C23, amended, at the run of `dyibicc_set_environment` followed by one
`dyibicc_update` of the context returned. -/
theorem C23_active_context_witness :
    life_run sample_abi
        (LifeCall.set_environment 4096 sample_env ::
          [LifeCall.update 4096 sample_files (sample_collaborators [] true)]) 0 =
        Except.ok 4096 ∧
      active_context
        (LifeCall.set_environment 4096 sample_env ::
          [LifeCall.update 4096 sample_files (sample_collaborators [] true)]) none =
        some 4096 ∧
      (dyibicc_free 4096 4096 sample_block sample_pointers).2 = Teardown.returned 0 ∧
      ((∀ (context : Nat) (files : List DyoLinkData) (c : Collaborators), context ≠ 0 →
          ((dyibicc_update 4096 context files c).2 ≠ Outcome.assertion_failed ↔
            active_context
              (LifeCall.set_environment 4096 sample_env ::
                [LifeCall.update 4096 sample_files (sample_collaborators [] true)]) none =
              some context)) ∧
        (∀ (context : Nat) (ctx : Option UserContext) (ptrs : Nat → MapPointers),
          context ≠ 0 →
          ((dyibicc_free 4096 context ctx ptrs).2 ≠ Teardown.assertion_failed ↔
            active_context
              (LifeCall.set_environment 4096 sample_env ::
                [LifeCall.update 4096 sample_files (sample_collaborators [] true)]) none =
              some context)) ∧
        (∀ (context : Nat) (ctx : Option UserContext) (ptrs : Nat → MapPointers) (u1 : Nat),
          (dyibicc_free 4096 context ctx ptrs).2 = Teardown.returned u1 →
          u1 = 0 ∧
            active_context
              (LifeCall.set_environment 4096 sample_env ::
                [LifeCall.update 4096 sample_files (sample_collaborators [] true)] ++
                  [LifeCall.free context ctx ptrs])
              none = none ∧
            (∀ (files : List DyoLinkData) (c : Collaborators),
              (dyibicc_update u1 context files c).2 = Outcome.assertion_failed) ∧
            (∀ (ctx1 : Option UserContext) (ptrs1 : Nat → MapPointers),
              (dyibicc_free u1 context ctx1 ptrs1).2 = Teardown.assertion_failed)) ∧
        (∀ (files : List DyoLinkData) (c : Collaborators),
          ((dyibicc_update 4096 0 files c).2 ≠ Outcome.assertion_failed ↔
            active_context
              (LifeCall.set_environment 4096 sample_env ::
                [LifeCall.update 4096 sample_files (sample_collaborators [] true)]) none =
              none)) ∧
        (∀ (ctx : Option UserContext) (ptrs : Nat → MapPointers),
          ((dyibicc_free 4096 0 ctx ptrs).2 ≠ Teardown.assertion_failed ↔
            active_context
              (LifeCall.set_environment 4096 sample_env ::
                [LifeCall.update 4096 sample_files (sample_collaborators [] true)]) none =
              none)) ∧
        (active_context
            (LifeCall.set_environment 4096 sample_env ::
              [LifeCall.update 4096 sample_files (sample_collaborators [] true)]) none =
            none →
          (4096 : Nat) = 0 ∧
            (∀ (files : List DyoLinkData) (c : Collaborators),
              (dyibicc_update 4096 0 files c).2 ≠ Outcome.assertion_failed ∧
                dyibicc_update 4096 0 files c = ([], Outcome.faulted Fault.null_pointer)) ∧
            (∀ (ctx : Option UserContext) (ptrs : Nat → MapPointers),
              (dyibicc_free 4096 0 ctx ptrs).2 ≠ Teardown.assertion_failed ∧
                dyibicc_free 4096 0 ctx ptrs =
                  ([], Teardown.faulted Fault.null_pointer)))) :=
  ⟨by decide, by decide, by decide,
    C23_active_context sample_abi 0 4096 sample_env
      [LifeCall.update 4096 sample_files (sample_collaborators [] true)] 4096 (by decide)⟩

/-! ## A rehash keeps the mapping -/

/-- A put of a key that a bucket of a tombstone-free map matches leaves `used` as
it is. -/
theorem put_held_used {m2 m3 : HashMap} {bs2 : List HashEntry} (hi : InvCore m2)
    (hb : m2.buckets = some bs2) (hnt : NoTomb m2)
    (hw : m2.used * 100 < HIGH_WATERMARK * m2.capacity) {key : List Byte} {val : Nat}
    (hheld : ∃ (j : Nat) (e : HashEntry), bs2[j]? = some e ∧ entry_match e key = true)
    (h : hashmap_put2_depth 1 m2 key val = Except.ok m3) : m3.used = m2.used := by
  have hc := hi.cap_ge bs2 hb
  simp only [INIT_SIZE] at hc
  rw [hashmap_put2_depth_succ] at h
  have hw2 : ¬ (m2.used * 100 / m2.capacity ≥ HIGH_WATERMARK) := by
    have := (Nat.div_lt_iff_lt_mul (show 0 < m2.capacity by omega)).mpr hw
    omega
  simp only [hb, hw2, if_false] at h
  obtain ⟨d, e0, hd, he, hp, hs, hm3⟩ := put_probe_sound hb h
  rw [hm3]
  rcases hs with hs | hs | hs
  · have hk := (live_key (entry_match_live hs)).1
    simp [put_at, hk]
  · exact absurd hs (hnt bs2 _ e0 hb he)
  · exfalso
    obtain ⟨j, e, hj, hm⟩ := hheld
    obtain ⟨hkey, _⟩ := entry_match_key hm
    obtain ⟨d1, hd1, hdj, hp1⟩ := hi.chain bs2 j e key hb hj hkey
    rcases Nat.lt_trichotomy d d1 with hlt | heq | hgt
    · obtain ⟨ej, a1, a2⟩ := hp1 d (Nat.zero_le _) hlt
      rw [he] at a1
      simp only [Option.some.injEq] at a1
      subst a1
      simp [HashEntry.nonempty, hs] at a2
    · subst heq
      rw [hdj, hj] at he
      simp only [Option.some.injEq] at he
      subst he
      rw [hkey] at hs
      cases hs
    · obtain ⟨ej, a1, _, a3⟩ := hp d1 (Nat.zero_le _) hgt
      rw [hdj, hj] at a1
      simp only [Option.some.injEq] at a1
      subst a1
      rw [hm] at a3
      cases a3

/-- When the copy loop of `rehash` leaves as many used buckets as it was given live
buckets, no two of these hold the same key and none holds a key the new map held
before. -/
theorem rehash_copy_distinct :
    ∀ (l : List HashEntry) (m2 m3 : HashMap), InvCore m2 → m2.buckets ≠ none → NoTomb m2 →
      NoDup m2 →
      (∀ e ∈ l, ∀ b, e.key = KeyPtr.ptr b → e.keylen = b.length) →
      (m2.used + l.countP HashEntry.live) * 100 < LOW_WATERMARK * m2.capacity →
      rehash_copy (hashmap_put2_depth 1) l m2 = Except.ok m3 →
      m3.used = m2.used + l.countP HashEntry.live →
      l.Pairwise (fun e1 e2 => ∀ k, entry_match e1 k = true → entry_match e2 k = false) ∧
        (∀ e ∈ l, ∀ k, entry_match e k = true → ∀ v, ¬ Holds m2 k v) := by
  intro l
  induction l with
  | nil => intro m2 m3 _ _ _ _ _ _ _ _; simp
  | cons e rest ih =>
    intro m2 m3 hi hb hnt hnd hkl hw hcopy hused
    have hskip : e.live = false → rehash_copy (hashmap_put2_depth 1) rest m2 = Except.ok m3 →
        (e :: rest).Pairwise
            (fun e1 e2 => ∀ k, entry_match e1 k = true → entry_match e2 k = false) ∧
          (∀ e1 ∈ e :: rest, ∀ k, entry_match e1 k = true → ∀ v, ¬ Holds m2 k v) := by
      intro hlive hc
      have hcnt : (e :: rest).countP HashEntry.live = rest.countP HashEntry.live := by
        simp [List.countP_cons, hlive]
      rw [hcnt] at hw hused
      obtain ⟨a1, a2⟩ := ih m2 m3 hi hb hnt hnd
        (fun e1 he1 => hkl e1 (List.mem_cons_of_mem _ he1)) hw hc hused
      refine ⟨List.pairwise_cons.mpr ⟨?_, a1⟩, ?_⟩
      · intro e2 _ k hk
        have := entry_match_live hk
        simp [hlive] at this
      · intro e1 he1 k hk v
        rcases List.mem_cons.mp he1 with rfl | he1
        · have := entry_match_live hk
          simp [hlive] at this
        · exact a2 e1 he1 k hk v
    cases hk : e.key with
    | null =>
      apply hskip (by simp [HashEntry.live, hk])
      rw [rehash_copy] at hcopy
      simpa only [hk] using hcopy
    | tombstone =>
      apply hskip (by simp [HashEntry.live, hk])
      rw [rehash_copy] at hcopy
      simpa only [hk] using hcopy
    | ptr b =>
      have hlive : e.live = true := by simp [HashEntry.live, hk]
      have hme : entry_match e b = true :=
        entry_match_of_key hk (hkl e (List.mem_cons_self _ _) b hk)
      obtain ⟨bs2, hbs2⟩ := Option.ne_none_iff_exists'.mp hb
      have hcnt : (e :: rest).countP HashEntry.live = rest.countP HashEntry.live + 1 := by
        simp [List.countP_cons, hlive]
      rw [hcnt] at hw hused
      simp only [LOW_WATERMARK] at hw
      have hw70 : m2.used * 100 < HIGH_WATERMARK * m2.capacity := by
        simp only [HIGH_WATERMARK]
        omega
      rw [rehash_copy] at hcopy
      simp only [hk] at hcopy
      by_cases hheld : ∃ (j : Nat) (e1 : HashEntry), bs2[j]? = some e1 ∧
          entry_match e1 b = true
      · exfalso
        obtain ⟨m2a, p1, p2, p3, p4, p5⟩ := put_depth_total 0 hi hbs2 hw70 b e.val
        simp only [Nat.zero_add] at p1
        rw [p1] at hcopy
        simp only [] at hcopy
        have hsame := put_held_used hi hbs2 hnt hw70 hheld p1
        obtain ⟨m3a, q1, _, _, _, q5⟩ := rehash_copy_total rest m2a p2 p3
          (by
            rw [p4, hsame]
            simp only [LOW_WATERMARK]
            omega)
        rw [q1] at hcopy
        simp only [Except.ok.injEq] at hcopy
        subst hcopy
        omega
      · have hfresh : ∀ (j : Nat) (e1 : HashEntry), bs2[j]? = some e1 →
            entry_match e1 b = false := by
          intro j e1 hj
          by_contra hc
          exact hheld ⟨j, e1, hj, by simpa using hc⟩
        obtain ⟨idx, e0, h1, h2, h3, h4, h5⟩ := put_depth_fresh 0 hi hbs2 hw70 b e.val hfresh
        simp only [Nat.zero_add] at h4
        rw [h4] at hcopy
        simp only [] at hcopy
        have hnull : e0.key = KeyPtr.null := by
          rcases h3 with h3 | h3
          · exact absurd h3 (hnt bs2 idx e0 hbs2 h1)
          · exact h3
        have hu : (put_at m2 bs2 b e.val idx e0).used = m2.used + 1 := by
          simp [put_at, hnull]
        obtain ⟨a1, a2⟩ := ih (put_at m2 bs2 b e.val idx e0) m3 h5 (by simp [put_at])
          (NoTomb_put_at hbs2 hnt) (NoDup_put_at hbs2 h1 hnd hfresh)
          (fun e1 he1 => hkl e1 (List.mem_cons_of_mem _ he1))
          (by
            rw [hu, put_at_capacity]
            simp only [LOW_WATERMARK]
            omega)
          hcopy (by rw [hu, hused]; omega)
        have hheldb : Holds (put_at m2 bs2 b e.val idx e0) b e.val :=
          (Holds_put_at hbs2 h1 h2 b e.val).mpr (Or.inl ⟨rfl, rfl⟩)
        refine ⟨List.pairwise_cons.mpr ⟨?_, a1⟩, ?_⟩
        · intro e2 he2 k hk1
          have hkb : k = b := entry_match_unique hk1 hme
          subst hkb
          by_contra hc
          exact a2 e2 he2 k (by simpa using hc) e.val hheldb
        · intro e1 he1 k hk1 v hv
          rcases List.mem_cons.mp he1 with rfl | he1
          · have hkb : k = b := entry_match_unique hk1 hme
            subst hkb
            obtain ⟨bs, j, ej, c1, c2, c3, _⟩ := hv
            rw [hbs2] at c1
            simp only [Option.some.injEq] at c1
            subst c1
            exact hheld ⟨j, ej, c2, c3⟩
          · exact a2 e1 he1 k hk1 v ((Holds_put_at hbs2 h1 h2 k v).mpr (Or.inr hv))

/-- A map on which `rehash` completes holds no key in two buckets. -/
theorem rehash_NoDup {m m0 : HashMap} {bs : List HashEntry} (hi : Inv m)
    (hb : m.buckets = some bs) (h : rehash m = Except.ok m0) : NoDup m := by
  have hl := hi.length_eq bs hb
  have hc := hi.cap_ge bs hb
  simp only [INIT_SIZE] at hc
  have hvis : rehash_visited m = bs := by simp [rehash_visited, hb, ← hl]
  have hnk : rehash_nkeys m = bs.countP HashEntry.live := rehash_nkeys_eq hb hl
  obtain ⟨cap, hle, hne, hlow, hcopy, hused⟩ := rehash_with_sound h
  have hpos : 0 < cap := by omega
  have hlow' : rehash_nkeys m * 100 < LOW_WATERMARK * cap :=
    (Nat.div_lt_iff_lt_mul hpos).mp hlow
  rw [hvis] at hcopy
  obtain ⟨hpw, _⟩ := rehash_copy_distinct bs
    ⟨some (List.replicate cap HashEntry.zero), cap, 0, m.alloc_lifetime⟩ m0
    (InvCore_fresh 0 m.alloc_lifetime (by simp only [INIT_SIZE]; omega) rfl) (by simp)
    (NoTomb_fresh _ _ _) (NoDup_of_not_Holds (not_Holds_fresh _ _ _))
    (by
      intro e he b hk
      obtain ⟨j, hj⟩ := List.getElem?_of_mem he
      exact hi.keylen_eq bs j e b hb hj hk)
    (by simpa [← hnk] using hlow') hcopy (by rw [hused, hnk]; simp)
  rw [List.pairwise_iff_getElem] at hpw
  intro bs1 i j ei ej key hb1 hi1 hj1 hmi hmj
  rw [hb] at hb1
  simp only [Option.some.injEq] at hb1
  subst hb1
  obtain ⟨hil, hie⟩ := List.getElem?_eq_some.mp hi1
  obtain ⟨hjl, hje⟩ := List.getElem?_eq_some.mp hj1
  rcases Nat.lt_trichotomy i j with hlt | heq | hgt
  · have := hpw i j hil hjl hlt key (by rw [hie]; exact hmi)
    rw [hje, hmj] at this
    cases this
  · exact heq
  · have := hpw j i hjl hil hgt key (by rw [hje]; exact hmj)
    rw [hie, hmi] at this
    cases this

/-- A map in which no key is held twice holds the entries of some reference map. -/
theorem NoDup.exists_sim {m : HashMap} (hn : NoDup m) : ∃ f, Sim m f := by
  classical
  refine ⟨fun k => if h : ∃ v, Holds m k v then some h.choose else none, hn, ?_⟩
  intro key val
  constructor
  · intro hv
    have hex : ∃ v, Holds m key v := ⟨val, hv⟩
    simp only [hex, dif_pos, Option.some.injEq]
    obtain ⟨bs, j, e, a1, a2, a3, a4⟩ := hex.choose_spec
    obtain ⟨bs1, j1, e1, c1, c2, c3, c4⟩ := hv
    rw [a1] at c1
    simp only [Option.some.injEq] at c1
    subst c1
    have hjj := hn bs j j1 e e1 key a1 a2 c2 a3 c3
    subst hjj
    rw [a2] at c2
    simp only [Option.some.injEq] at c2
    subst c2
    rw [← a4, ← c4]
  · intro hf
    by_cases hex : ∃ v, Holds m key v
    · simp only [hex, dif_pos, Option.some.injEq] at hf
      rw [← hf]
      exact hex.choose_spec
    · simp [hex] at hf

/-- C31: on a reachable map on which `rehash` completes, `hashmap_get2` of every
key returns after the rehash what it returned before, and the rehash keeps the
lifetime tag of the map. -/
theorem C31_rehash_keeps_mapping (map m0 : HashMap) (hr : Reachable map)
    (h : rehash map = Except.ok m0) :
    (∀ key, hashmap_get2 m0 key = hashmap_get2 map key) ∧
      m0.alloc_lifetime = map.alloc_lifetime := by
  have hi := hr.inv
  have hb0 := rehash_with_buckets h
  cases hb : map.buckets with
  | none =>
    exfalso
    have hcap := (hi.null_map hb).1
    obtain ⟨cap, _, hne, _, hcopy, _⟩ := rehash_with_sound h
    unfold rehash rehash_with at h
    have hrc : rehash_capacity (rehash_nkeys map) (rehash_nkeys map + 2) map.capacity =
        Except.ok 0 := by
      rw [hcap, rehash_capacity]
      simp [LOW_WATERMARK]
    simp [hrc] at h
  | some bs =>
    have hnd := rehash_NoDup hi hb h
    obtain ⟨f, hs⟩ := hnd.exists_sim
    obtain ⟨m1, a1, a2, a3, a4, a5⟩ := rehash_sim hi hb hs
    have hm : m1 = m0 := by
      have : rehash map = Except.ok m1 := a1
      rw [h] at this
      simp only [Except.ok.injEq] at this
      exact this.symm
    subst hm
    have hi1 : Inv m1 := ⟨a2, fun bs1 _ => by
      simp only [LOW_WATERMARK] at a5
      simp only [HIGH_WATERMARK]
      omega⟩
    refine ⟨fun key => ?_, ?_⟩
    · rw [get_of_sim hi1 a3 key, get_of_sim hi hs key]
    · obtain ⟨cap, _, _, _, hcopy, _⟩ := rehash_with_sound h
      exact rehash_copy_induct (fun m => m.alloc_lifetime = map.alloc_lifetime)
        (hashmap_put2_depth 1) (fun m k v m2 hp hput =>
          (put_depth_alloc_lifetime 1 m m2 k v hput).trans hp)
        _ _ m1 (by rfl) hcopy

/-- C31 at the map that twelve puts of different keys leave, which `rehash` copies
from 16 into 32 buckets. -/
theorem C31_rehash_keeps_mapping_witness :
    rehash (map_after fill_ops AllocLifetime.AL_Manual) =
        Except.ok (rehash_after fill_ops AllocLifetime.AL_Manual) ∧
      (map_after fill_ops AllocLifetime.AL_Manual).capacity = 16 ∧
      (rehash_after fill_ops AllocLifetime.AL_Manual).capacity = 32 ∧
      hashmap_get2 (rehash_after fill_ops AllocLifetime.AL_Manual) [100] = Except.ok 4 ∧
      ((∀ key, hashmap_get2 (rehash_after fill_ops AllocLifetime.AL_Manual) key =
          hashmap_get2 (map_after fill_ops AllocLifetime.AL_Manual) key) ∧
        (rehash_after fill_ops AllocLifetime.AL_Manual).alloc_lifetime =
          (map_after fill_ops AllocLifetime.AL_Manual).alloc_lifetime) :=
  ⟨by decide, by decide, by decide, by decide,
    C31_rehash_keeps_mapping (map_after fill_ops AllocLifetime.AL_Manual)
      (rehash_after fill_ops AllocLifetime.AL_Manual) (Reachable.map_after _ _) (by decide)⟩

/-! ## The size a rehash chooses -/

/-- The doubling loop returns `cap * 2^j` when `j` doublings are the first to bring
the load below the low watermark and the bound on the iterations is above `j`. -/
theorem rehash_capacity_least (nkeys : Nat) :
    ∀ (j fuel cap : Nat), j < fuel →
      (∀ i, i < j → LOW_WATERMARK ≤ nkeys * 100 / (cap * 2 ^ i)) →
      nkeys * 100 / (cap * 2 ^ j) < LOW_WATERMARK →
      rehash_capacity nkeys fuel cap = Except.ok (cap * 2 ^ j) := by
  intro j
  induction j with
  | zero =>
    intro fuel cap hf _ hlow
    cases fuel with
    | zero => omega
    | succ fuel =>
      simp only [pow_zero, Nat.mul_one] at hlow
      rw [rehash_capacity, if_neg (by omega)]
      simp
  | succ j ih =>
    intro fuel cap hf hbefore hlow
    cases fuel with
    | zero => omega
    | succ fuel =>
      have h0 := hbefore 0 (by omega)
      simp only [pow_zero, Nat.mul_one] at h0
      rw [rehash_capacity, if_pos h0, ih fuel (cap * 2) (by omega)
        (fun i hi => by
          have := hbefore (i + 1) (by omega)
          rwa [pow_succ, Nat.mul_comm (2 ^ i) 2, ← Nat.mul_assoc] at this)
        (by rwa [pow_succ, Nat.mul_comm (2 ^ j) 2, ← Nat.mul_assoc] at hlow)]
      rw [pow_succ, Nat.mul_comm (2 ^ j) 2, Nat.mul_assoc]

/-- The allocator calls of a first put, and of a put that rehashes a map of
lifetime `AL_Manual` from 16 to 32 buckets. -/
theorem hashmap_put2_calls_examples :
    hashmap_put2_calls 2 (HashMap.zero AllocLifetime.AL_Link) [97] =
        [MemCall.bumpcalloc 16 AllocLifetime.AL_Link] ∧
      hashmap_put2_calls 2 (map_after fill_ops AllocLifetime.AL_Manual) [109] =
        [MemCall.bumpcalloc 32 AllocLifetime.AL_Manual,
          MemCall.alloc_free_buckets AllocLifetime.AL_Manual] ∧
      hashmap_put2_calls 2 (map_after fill_ops AllocLifetime.AL_Link) [109] =
        [MemCall.bumpcalloc 32 AllocLifetime.AL_Link] := by
  decide

/-- On a map that satisfies the invariant, `rehash` keeps what `hashmap_get2`
returns for every key. -/
theorem Inv.rehash_get {m m0 : HashMap} {bs : List HashEntry} (hi : Inv m)
    (hb : m.buckets = some bs) (h : rehash_with (hashmap_put2_depth 1) m = Except.ok m0)
    (key : List Byte) : hashmap_get2 m0 key = hashmap_get2 m key := by
  have hnd := rehash_NoDup hi hb h
  obtain ⟨f, hs⟩ := hnd.exists_sim
  obtain ⟨m1, a1, a2, a3, a4, a5⟩ := rehash_sim hi hb hs
  rw [h] at a1
  simp only [Except.ok.injEq] at a1
  subst a1
  have hi1 : Inv m0 := ⟨a2, fun bs1 _ => by
    simp only [LOW_WATERMARK] at a5
    simp only [HIGH_WATERMARK]
    omega⟩
  rw [get_of_sim hi1 a3 key, get_of_sim hi hs key]

/-- The probe and store of a put keep what `hashmap_get2` returns for every other
key. -/
theorem put_probe_keeps_other {m0 m1 : HashMap} {bs0 : List HashEntry} {k1 k2 : List Byte}
    {v : Nat} (hi0 : InvCore m0) (hb0 : m0.buckets = some bs0)
    (hw0 : m0.used * 100 < HIGH_WATERMARK * m0.capacity)
    (hprobe : put_probe m0 bs0 k1 v = Except.ok m1) (hne : k1 ≠ k2) :
    hashmap_get2 m1 k2 = hashmap_get2 m0 k2 := by
  have hinv0 : Inv m0 := ⟨hi0, fun _ _ => by
    simp only [HIGH_WATERMARK] at *
    omega⟩
  obtain ⟨hi1, hcap1, hused1⟩ := InvCore_put_probe hi0 hb0 hprobe
  have hinv1 : Inv m1 := ⟨hi1, fun _ _ => by
    rw [hcap1]
    simp only [HIGH_WATERMARK] at *
    omega⟩
  obtain ⟨d, e0, hd, he, hp, hs, hm1⟩ := put_probe_sound hb0 hprobe
  have hnew2 : entry_match (put_entry e0 k1 v) k2 = false := by
    by_contra hc
    exact hne (entry_match_unique (entry_match_put_entry e0 k1 v) (by simpa using hc))
  have hnewk : (put_entry e0 k1 v).key ≠ KeyPtr.null :=
    (live_key (entry_match_live (entry_match_put_entry e0 k1 v))).1
  have hb1 : m1.buckets = some (bs0.set ((fnv_hash k1 + d) % m0.capacity)
      (put_entry e0 k1 v)) := by rw [hm1]; rfl
  by_cases hnull : e0.key = KeyPtr.null
  · obtain ⟨r, hr⟩ := hinv0.get_entry_total k2
    have hr' := hr
    simp only [get_entry, hb0] at hr'
    obtain ⟨d2, e2, _, hd2, he2, hp2, hcase⟩ := get_entry_loop_sound _ _ _ hr'
    rcases hcase with ⟨hm2, hrr⟩ | ⟨hm2, hk2, hrr⟩
    · have hk2 : e2.key ≠ KeyPtr.null := (live_key (entry_match_live hm2)).1
      have hne2 : (fnv_hash k1 + d) % m0.capacity ≠ (fnv_hash k2 + d2) % m0.capacity := by
        intro heq
        rw [heq, he2] at he
        simp only [Option.some.injEq] at he
        rw [he] at hk2
        exact hk2 hnull
      have hloop := @get_entry_loop_complete
        (bs0.set ((fnv_hash k1 + d) % m0.capacity) (put_entry e0 k1 v)) m0.capacity
        (fnv_hash k2) k2 m0.capacity 0 d2 e2 (Nat.zero_le _) hd2
        (by rw [List.getElem?_set_ne hne2]; exact he2)
        (by
          intro j hj1 hj2
          obtain ⟨ej, a1, a2, a3⟩ := hp2 j hj1 hj2
          refine ⟨ej, ?_, a2, a3⟩
          rw [List.getElem?_set_ne]
          · exact a1
          · intro heq
            rw [heq, a1] at he
            simp only [Option.some.injEq] at he
            rw [he] at a3
            exact a3 hnull)
        (Or.inl hm2)
      have hg1 : get_entry m1 k2 = Except.ok r := by
        simp only [get_entry, hb1, hcap1, hloop, hm2, if_true, hrr]
      simp only [hashmap_get2, hg1, hr]
    · have habs0 : ∀ (j : Nat) (e : HashEntry), bs0[j]? = some e → entry_match e k2 = false := by
        intro j e hj
        by_contra hc
        have hme : entry_match e k2 = true := by simpa using hc
        obtain ⟨hkey, _⟩ := entry_match_key hme
        obtain ⟨d3, hd3, hdj, hp3⟩ := hi0.chain bs0 j e k2 hb0 hj hkey
        rcases Nat.lt_trichotomy d3 d2 with h1 | h1 | h1
        · obtain ⟨ej, a1, a2, _⟩ := hp2 d3 (Nat.zero_le _) h1
          rw [hdj, hj] at a1
          simp only [Option.some.injEq] at a1
          rw [← a1, hme] at a2
          cases a2
        · subst h1
          rw [hdj, hj] at he2
          simp only [Option.some.injEq] at he2
          rw [he2, hm2] at hme
          cases hme
        · obtain ⟨ej, a1, a2⟩ := hp3 d2 (Nat.zero_le _) h1
          rw [he2] at a1
          simp only [Option.some.injEq] at a1
          subst a1
          simp [HashEntry.nonempty, hk2] at a2
      have hg1 : get_entry m1 k2 = Except.ok none := by
        apply hinv1.get_entry_absent
        intro bs1 j e hbs1 hj
        rw [hb1] at hbs1
        simp only [Option.some.injEq] at hbs1
        subst hbs1
        by_cases hji : j = (fnv_hash k1 + d) % m0.capacity
        · subst hji
          rw [List.getElem?_set_self (List.getElem?_eq_some.mp he).1] at hj
          simp only [Option.some.injEq] at hj
          rw [← hj]
          exact hnew2
        · rw [List.getElem?_set_ne (Ne.symm hji)] at hj
          exact habs0 j e hj
      simp only [hashmap_get2, hg1, hr, hrr]
  · have hm2 : entry_match e0 k2 = false := by
      rcases hs with hs | hs | hs
      · by_contra hc
        exact hne (entry_match_unique hs (by simpa using hc))
      · simp [entry_match, hs]
      · exact absurd hs hnull
    have hset := @get_entry_loop_set bs0 m0.capacity (fnv_hash k2)
      ((fnv_hash k1 + d) % m0.capacity) k2 e0 (put_entry e0 k1 v) he hm2 hnew2
      (by simp [hnull, hnewk]) m0.capacity 0
    simp only [hashmap_get2, get_entry, hb1, hb0, hcap1, hset]

/-- A `hashmap_put2` that returns keeps what `hashmap_get2` returns for every other
key, on a map that satisfies the invariant. -/
theorem Inv.put_keeps_other {m m1 : HashMap} {k1 k2 : List Byte} {v : Nat} (hi : Inv m)
    (h : hashmap_put2 m k1 v = Except.ok m1) (hne : k1 ≠ k2) :
    hashmap_get2 m1 k2 = hashmap_get2 m k2 := by
  obtain ⟨m0, bs0, hprep, hb0, hprobe⟩ := put_depth_cases h
  obtain ⟨hi0, _, hw0⟩ := Prepared_inv (InvCore_put_depth 1) hi.toInvCore hprep
  rw [put_probe_keeps_other hi0 hb0 hw0 hprobe hne]
  rcases hprep with ⟨hb, hm0⟩ | ⟨_, _, hm0⟩ | ⟨hb, _, hre⟩
  · have hlt : fnv_hash k2 % INIT_SIZE < (List.replicate INIT_SIZE HashEntry.zero).length := by
      simp [INIT_SIZE]
      omega
    have hz : (List.replicate INIT_SIZE HashEntry.zero)[fnv_hash k2 % INIT_SIZE]? =
        some HashEntry.zero := by
      rw [List.getElem?_eq_getElem hlt]
      simp
    rw [hm0]
    simp only [hashmap_get2, get_entry, hb]
    have : get_entry_loop (List.replicate INIT_SIZE HashEntry.zero) INIT_SIZE (fnv_hash k2) k2
        INIT_SIZE 0 = Except.ok none := by
      have h16 : INIT_SIZE = 15 + 1 := rfl
      conv_lhs => rw [h16]
      rw [get_entry_loop]
      simp only [Nat.add_zero, ← h16, hz]
      simp [entry_match, HashEntry.zero]
    rw [this]
  · rw [hm0]
  · obtain ⟨bs, hbs⟩ := Option.ne_none_iff_exists'.mp hb
    exact hi.rehash_get hbs hre k2

/-- C34: on a reachable map, for two distinct keys `k1` and `k2`, whenever
`hashmap_put2` of `k1` returns, with or without a rehash, `hashmap_get2` of `k2`
returns, and returns after the put what it returned before. -/
theorem C34_put_keeps_other_keys (map m1 : HashMap) (k1 k2 : List Byte) (v : Nat)
    (hr : Reachable map) (hne : k1 ≠ k2) (h : hashmap_put2 map k1 v = Except.ok m1) :
    ∃ r, hashmap_get2 map k2 = Except.ok r ∧ hashmap_get2 m1 k2 = Except.ok r := by
  obtain ⟨r, hg⟩ := hr.inv.get_total k2
  exact ⟨r, hg, by rw [hr.inv.put_keeps_other h hne, hg]⟩

/-- C34 at the map that twelve puts leave and the put of a thirteenth key, which
rehashes: the key `"d"` keeps its value `4`. -/
theorem C34_put_keeps_other_keys_witness :
    ([109] : List Byte) ≠ [100] ∧
      hashmap_put2 (map_after fill_ops AllocLifetime.AL_Manual) [109] 13 =
        Except.ok (map_after (fill_ops ++ [Op.put [109] 13]) AllocLifetime.AL_Manual) ∧
      (map_after fill_ops AllocLifetime.AL_Manual).capacity = 16 ∧
      (map_after (fill_ops ++ [Op.put [109] 13]) AllocLifetime.AL_Manual).capacity = 32 ∧
      hashmap_get2 (map_after fill_ops AllocLifetime.AL_Manual) [100] = Except.ok 4 ∧
      ∃ r, hashmap_get2 (map_after fill_ops AllocLifetime.AL_Manual) [100] = Except.ok r ∧
        hashmap_get2 (map_after (fill_ops ++ [Op.put [109] 13]) AllocLifetime.AL_Manual) [100] =
          Except.ok r :=
  ⟨by decide, by decide, by decide, by decide, by decide,
    C34_put_keeps_other_keys (map_after fill_ops AllocLifetime.AL_Manual)
      (map_after (fill_ops ++ [Op.put [109] 13]) AllocLifetime.AL_Manual) [109] [100] 13
      (Reachable.map_after _ _) (by decide) (by decide)⟩

/-! ## The counter `used` and its range -/

theorem countP_nonempty_eq (bs : List HashEntry) :
    bs.countP HashEntry.nonempty = bs.countP HashEntry.live + bs.countP HashEntry.tombstone := by
  induction bs with
  | nil => simp
  | cons e rest ih =>
    simp only [List.countP_cons, ih]
    cases e with
    | mk k l v => cases k <;> simp [HashEntry.nonempty, HashEntry.live, HashEntry.tombstone] <;> omega

/-- C35: in every map reachable from the zero-initialised map by put and delete
calls, `used` is the number of buckets that are not empty, which is the number of
live buckets plus the number of tombstones, and it is less than `capacity`
whenever the map has a bucket array. -/
theorem C35_used_counts_nonempty (m : HashMap) (h : Reachable m) :
    m.used = nonempty_count m ∧ m.used = live_count m + tombstone_count m ∧
      (m.buckets ≠ none → m.used < m.capacity) := by
  have hi := h.inv
  cases hb : m.buckets with
  | none => simp [nonempty_count, live_count, tombstone_count, hb, (hi.null_map hb).2]
  | some bs =>
    have hu := hi.used_eq bs hb
    have hw := hi.watermark bs hb
    have hc := hi.cap_ge bs hb
    simp only [HIGH_WATERMARK] at hw
    simp only [INIT_SIZE] at hc
    refine ⟨by simp [nonempty_count, hb, hu], ?_, fun _ => by omega⟩
    simp only [live_count, tombstone_count, hb, hu]
    exact countP_nonempty_eq bs

/-- C35 at the map left by the scenario: two live buckets, one tombstone, `used = 3`
of 16 buckets. -/
theorem C35_used_counts_nonempty_witness :
    live_count (map_after scenario_ops AllocLifetime.AL_Temp) = 2 ∧
      tombstone_count (map_after scenario_ops AllocLifetime.AL_Temp) = 1 ∧
      (map_after scenario_ops AllocLifetime.AL_Temp).used = 3 ∧
      (map_after scenario_ops AllocLifetime.AL_Temp).buckets ≠ none ∧
      ((map_after scenario_ops AllocLifetime.AL_Temp).used =
          nonempty_count (map_after scenario_ops AllocLifetime.AL_Temp) ∧
        (map_after scenario_ops AllocLifetime.AL_Temp).used =
          live_count (map_after scenario_ops AllocLifetime.AL_Temp) +
            tombstone_count (map_after scenario_ops AllocLifetime.AL_Temp) ∧
        ((map_after scenario_ops AllocLifetime.AL_Temp).buckets ≠ none →
          (map_after scenario_ops AllocLifetime.AL_Temp).used <
            (map_after scenario_ops AllocLifetime.AL_Temp).capacity)) :=
  ⟨by decide, by decide, by decide, by decide,
    C35_used_counts_nonempty _ (Reachable.map_after _ _)⟩

/-- The doubling loop in `int` arithmetic agrees with the exact one as long as the
product and the doubled capacities stay within `INT_MAX`. -/
theorem rehash_capacity_int_eq (nkeys : Nat) (hn : nkeys * 100 ≤ INT_MAX) :
    ∀ (fuel cap c : Nat), rehash_capacity nkeys fuel cap = Except.ok c → c ≤ INT_MAX →
      rehash_capacity_int nkeys fuel cap = Except.ok c := by
  intro fuel
  induction fuel with
  | zero => intro cap c h; simp [rehash_capacity] at h
  | succ fuel ih =>
    intro cap c h hc
    rw [rehash_capacity] at h
    rw [rehash_capacity_int, if_neg (by omega)]
    by_cases hw : nkeys * 100 / cap ≥ LOW_WATERMARK
    · rw [if_pos hw] at h ⊢
      have hle := (rehash_capacity_sound _ _ _ h).1
      rw [if_neg (by omega)]
      exact ih _ _ h hc
    · rw [if_neg hw] at h ⊢
      exact h

/-- C36: on a reachable map with a bucket array and a capacity of at most `2^24`,
the products `used * 100` and `nkeys * 100` are below `2^31`, the capacity the
doubling loop of `rehash` returns is the capacity or its double and so below
`2^31` and positive, and the growth check and the doubling loop computed in `int`
arithmetic give what exact arithmetic gives. -/
theorem C36_int_range (m : HashMap) (h : Reachable m) (hb : m.buckets ≠ none)
    (hcap : m.capacity ≤ 2 ^ 24) :
    m.used * 100 < 2 ^ 31 ∧ rehash_nkeys m * 100 < 2 ^ 31 ∧
      high_watermark_int m =
        Except.ok (decide (m.used * 100 / m.capacity ≥ HIGH_WATERMARK)) ∧
      ∃ cap, rehash_capacity (rehash_nkeys m) (rehash_nkeys m + 2) m.capacity = Except.ok cap ∧
        rehash_capacity_int (rehash_nkeys m) (rehash_nkeys m + 2) m.capacity = Except.ok cap ∧
        (cap = m.capacity ∨ cap = m.capacity * 2) ∧ 0 < cap ∧ cap < 2 ^ 31 := by
  have hi := h.inv
  obtain ⟨bs, hbs⟩ := Option.ne_none_iff_exists'.mp hb
  have hu := hi.used_eq bs hbs
  have hw := hi.watermark bs hbs
  have hc := hi.cap_ge bs hbs
  have hl := hi.length_eq bs hbs
  simp only [HIGH_WATERMARK] at hw
  simp only [INIT_SIZE] at hc
  have hnk : rehash_nkeys m = bs.countP HashEntry.live := rehash_nkeys_eq hbs hl
  have hnu : rehash_nkeys m ≤ m.used := by
    rw [hnk, hu]
    exact countP_live_le_nonempty bs
  have hused : m.used < m.capacity := by omega
  have h24 : (2 : Nat) ^ 24 = 16777216 := by norm_num
  have h31 : (2 : Nat) ^ 31 = 2147483648 := by norm_num
  rw [h24] at hcap
  have hmax : INT_MAX = 2147483647 := by simp [INT_MAX]
  refine ⟨by omega, by omega, ?_, ?_⟩
  · simp only [high_watermark_int, hmax]
    rw [if_neg (by omega)]
  · have hres : ∃ cap, rehash_capacity (rehash_nkeys m) (rehash_nkeys m + 2) m.capacity =
          Except.ok cap ∧ (cap = m.capacity ∨ cap = m.capacity * 2) := by
      by_cases hlow : rehash_nkeys m * 100 / m.capacity < LOW_WATERMARK
      · refine ⟨m.capacity, ?_, Or.inl rfl⟩
        have := rehash_capacity_least (rehash_nkeys m) 0 (rehash_nkeys m + 2) m.capacity
          (by omega) (fun i hi0 => absurd hi0 (by omega)) (by simpa using hlow)
        simpa using this
      · refine ⟨m.capacity * 2, ?_, Or.inr rfl⟩
        have := rehash_capacity_least (rehash_nkeys m) 1 (rehash_nkeys m + 2) m.capacity
          (by omega)
          (fun i hi0 => by
            have hi1 : i = 0 := by omega
            subst hi1
            simp only [pow_zero, Nat.mul_one]
            omega)
          (by
            simp only [pow_one, LOW_WATERMARK]
            rw [Nat.div_lt_iff_lt_mul (by omega)]
            omega)
        simpa using this
    obtain ⟨cap, hcap1, hcases⟩ := hres
    have hcle : cap ≤ INT_MAX := by
      rw [hmax]
      rcases hcases with hc1 | hc1 <;> omega
    refine ⟨cap, hcap1, rehash_capacity_int_eq _ (by rw [hmax]; omega) _ _ _ hcap1 hcle,
      hcases, ?_, by rw [hmax] at hcle; omega⟩
    rcases hcases with hc1 | hc1 <;> omega

/-- C36 at the map that twelve puts leave: `used * 100 = 1200`, the growth check is
true and the loop doubles 16 to 32. -/
theorem C36_int_range_witness :
    (map_after fill_ops AllocLifetime.AL_Temp).buckets ≠ none ∧
      (map_after fill_ops AllocLifetime.AL_Temp).capacity ≤ 2 ^ 24 ∧
      high_watermark_int (map_after fill_ops AllocLifetime.AL_Temp) = Except.ok true ∧
      rehash_capacity_int 12 14 16 = Except.ok 32 ∧
      ((map_after fill_ops AllocLifetime.AL_Temp).used * 100 < 2 ^ 31 ∧
        rehash_nkeys (map_after fill_ops AllocLifetime.AL_Temp) * 100 < 2 ^ 31 ∧
        high_watermark_int (map_after fill_ops AllocLifetime.AL_Temp) =
          Except.ok (decide ((map_after fill_ops AllocLifetime.AL_Temp).used * 100 /
            (map_after fill_ops AllocLifetime.AL_Temp).capacity ≥ HIGH_WATERMARK)) ∧
        ∃ cap, rehash_capacity (rehash_nkeys (map_after fill_ops AllocLifetime.AL_Temp))
            (rehash_nkeys (map_after fill_ops AllocLifetime.AL_Temp) + 2)
            (map_after fill_ops AllocLifetime.AL_Temp).capacity = Except.ok cap ∧
          rehash_capacity_int (rehash_nkeys (map_after fill_ops AllocLifetime.AL_Temp))
            (rehash_nkeys (map_after fill_ops AllocLifetime.AL_Temp) + 2)
            (map_after fill_ops AllocLifetime.AL_Temp).capacity = Except.ok cap ∧
          (cap = (map_after fill_ops AllocLifetime.AL_Temp).capacity ∨
            cap = (map_after fill_ops AllocLifetime.AL_Temp).capacity * 2) ∧
          0 < cap ∧ cap < 2 ^ 31) :=
  ⟨by decide, by decide, by decide, by decide,
    C36_int_range _ (Reachable.map_after _ _) (by decide) (by decide)⟩

/-! ## Two contexts, and two files with one blob -/

/-- C37: `dyibicc_set_environment` makes no check for a context that is live: when
it returned the context `a` and then, without a free of `a`, the context `b`, a
different block, `user_context` is `b`; the entry assertion of `dyibicc_update`
and of `dyibicc_free` passes for `b` and fails for `a`. What the second call
returns does not depend on `user_context`. -/
theorem C37_second_context (abi : Abi) (u0 a b uc : Nat) (env_a env_b : DyibiccEnviromentData)
    (hab : a ≠ b)
    (hrun : life_run abi
      [LifeCall.set_environment a env_a, LifeCall.set_environment b env_b] u0 = Except.ok uc) :
    uc = b ∧
      (∀ u, (LifeCall.set_environment b env_b).apply abi u = Except.ok b) ∧
      (∀ (files : List DyoLinkData) (c : Collaborators),
        (dyibicc_update uc b files c).2 ≠ Outcome.assertion_failed) ∧
      (∀ (ctx : Option UserContext) (ptrs : Nat → MapPointers),
        (dyibicc_free uc b ctx ptrs).2 ≠ Teardown.assertion_failed) ∧
      (∀ (files : List DyoLinkData) (c : Collaborators),
        (dyibicc_update uc a files c).2 = Outcome.assertion_failed) ∧
      (∀ (ctx : Option UserContext) (ptrs : Nat → MapPointers),
        (dyibicc_free uc a ctx ptrs).2 = Teardown.assertion_failed) := by
  simp only [life_run, LifeCall.apply] at hrun
  cases ha : dyibicc_set_environment abi a env_a with
  | error e => simp [ha] at hrun
  | ok ra =>
    simp only [ha] at hrun
    cases hbb : dyibicc_set_environment abi b env_b with
    | error e => simp [hbb] at hrun
    | ok rb =>
      simp only [hbb, Except.ok.injEq] at hrun
      obtain ⟨e1, _, _⟩ := dyibicc_set_environment_user_context hbb
      have huc : uc = b := by rw [← hrun, e1]
      subst huc
      refine ⟨rfl, fun u => by simp [LifeCall.apply, hbb, e1], fun files c => ?_,
        fun ctx ptrs => ?_, fun files c => ?_, fun ctx ptrs => ?_⟩
      · rw [ne_eq, dyibicc_update_assertion]
        simp
      · rw [ne_eq, dyibicc_free_assertion]
        simp
      · rw [dyibicc_update_assertion]
        exact hab
      · rw [dyibicc_free_assertion]
        exact hab

/-- C37 at two contexts built from `sample_env` at the pointers 4096 and 8192. -/
theorem C37_second_context_witness :
    (4096 : Nat) ≠ 8192 ∧
      life_run sample_abi
        [LifeCall.set_environment 4096 sample_env, LifeCall.set_environment 8192 sample_env]
        0 = Except.ok 8192 ∧
      ((8192 : Nat) = 8192 ∧
        (∀ u, (LifeCall.set_environment 8192 sample_env).apply sample_abi u =
          Except.ok 8192) ∧
        (∀ (files : List DyoLinkData) (c : Collaborators),
          (dyibicc_update 8192 8192 files c).2 ≠ Outcome.assertion_failed) ∧
        (∀ (ctx : Option UserContext) (ptrs : Nat → MapPointers),
          (dyibicc_free 8192 8192 ctx ptrs).2 ≠ Teardown.assertion_failed) ∧
        (∀ (files : List DyoLinkData) (c : Collaborators),
          (dyibicc_update 8192 4096 files c).2 = Outcome.assertion_failed) ∧
        (∀ (ctx : Option UserContext) (ptrs : Nat → MapPointers),
          (dyibicc_free 8192 4096 ctx ptrs).2 = Teardown.assertion_failed)) :=
  ⟨by decide, by decide,
    C37_second_context sample_abi 0 4096 8192 8192 sample_env sample_env (by decide)
      (by decide)⟩

/-- C38: the name of the object blob is not an injective function of the source
path: two files of one environment whose paths become equal when every byte that
is not an ASCII letter, a digit, `'-'` or `'_'` is replaced by `'@'` are recorded
with the same `output_dyo_name`. -/
theorem C38_blob_names_clash (abi : Abi) (data : Nat) (env : DyibiccEnviromentData)
    (r : SetEnvironment) (i j : Nat) (f g : List Byte)
    (hr : dyibicc_set_environment abi data env = Except.ok r)
    (hi : env.files[i]? = some f) (hj : env.files[j]? = some g)
    (hfg : f.map sanitize_char = g.map sanitize_char) :
    ∃ name, (r.ctx.files[i]?).map DyoLinkData.output_dyo_name = some name ∧
      (r.ctx.files[j]?).map DyoLinkData.output_dyo_name = some name ∧
      (r.ctx.files[i]?).map DyoLinkData.source_name = some f ∧
      (r.ctx.files[j]?).map DyoLinkData.source_name = some g := by
  rcases dyibicc_set_environment_cases abi data env with ⟨r1, h1, hdata, hfit⟩ | ⟨_, h1 | h1⟩
  · obtain ⟨sys, outs, hsys, houts⟩ := (FormatsFit_iff env).mp hfit
    rw [dyibicc_set_environment_eq abi data env sys outs hsys houts hdata] at hr
    simp only [Except.ok.injEq] at hr
    subst hr
    obtain ⟨hlen, hnames⟩ := (dyo_output_paths_ok_iff _ _ _).mp houts
    obtain ⟨dir, a1, _, a3⟩ := hnames i f hi
    obtain ⟨dir2, b1, _, b3⟩ := hnames j g hj
    rw [a1] at b1
    simp only [Option.some.injEq] at b1
    subst b1
    refine ⟨dir ++ bytes "/" ++ f.map sanitize_char ++ bytes ".dyo", ?_, ?_, ?_, ?_⟩
    · simp [List.getElem?_zipWith, hi, a3]
    · simp [List.getElem?_zipWith, hj, b3, hfg]
    · simp [List.getElem?_zipWith, hi, a3]
    · simp [List.getElem?_zipWith, hj, b3]
  · rw [h1] at hr
    cases hr
  · rw [h1] at hr
    cases hr

/-- C38 at the paths `a/b.c` and `a.b/c`: both are recorded with the blob
`cache/a@b@c.dyo`. -/
theorem C38_blob_names_clash_witness :
    bytes "a/b.c" ≠ bytes "a.b/c" ∧
      (dyibicc_set_environment sample_abi 4096 clash_env).map (fun r => r.ctx.files) =
        Except.ok [⟨bytes "a/b.c", bytes "cache/a@b@c.dyo"⟩,
          ⟨bytes "a.b/c", bytes "cache/a@b@c.dyo"⟩] ∧
      ∀ r, dyibicc_set_environment sample_abi 4096 clash_env = Except.ok r →
        ∃ name, (r.ctx.files[0]?).map DyoLinkData.output_dyo_name = some name ∧
          (r.ctx.files[1]?).map DyoLinkData.output_dyo_name = some name ∧
          (r.ctx.files[0]?).map DyoLinkData.source_name = some (bytes "a/b.c") ∧
          (r.ctx.files[1]?).map DyoLinkData.source_name = some (bytes "a.b/c") :=
  ⟨by decide, by decide, fun r hr =>
    C38_blob_names_clash sample_abi 4096 clash_env r 0 1 (bytes "a/b.c") (bytes "a.b/c") hr
      (by decide) (by decide) (by decide)⟩

/-! ## The hash records and `dirname` -/

/-- C39 fails on the code: with a first symbol in bucket 5 at offset 100 and a
second symbol in bucket 3 at offset 200, `bucket_starts[3] = 0` and
`bucket_starts[5] = 1`, and the record of bucket 3 should hold `off = 201` and that
of bucket 5 `off = 101`; `gsi_hash_builder_finish` leaves `off = 101` in both,
because the loop that replaces the indices reads `hb->sym[j]`, the symbol at the
position `j` within the bucket, not the symbol the record refers to. The order in
which `qsort` returns the records has no part in this. -/
theorem C39_records_hold_wrong_offsets :
    gsi_hash_builder_finish (fun l => l) sample_syms =
        gsi_hash_builder_finish List.reverse sample_syms ∧
      (gsi_hash_builder_finish (fun l => l) sample_syms).map
          (fun r => (r.1[3]?, r.1[5]?, r.2)) =
        Except.ok (some 0, some 1, [⟨101, 1⟩, ⟨101, 1⟩]) ∧
      sample_syms.map (fun s => (s.hash_bucket, s.offset + 1)) = [(5, 101), (3, 201)] := by
  decide!

theorem char_at_mem {s : List Byte} {i : Nat} (h : i < s.length) : char_at s i ∈ s := by
  unfold char_at
  rw [List.getD_eq_getElem _ _ h]
  exact List.getElem_mem _

/-- The second loop of `dirname` runs down to index `0` and returns `"."` when no
byte it meets is `'/'`: a `'\\'` does not stop it. -/
theorem dirname_skip_name_none (s : List Byte) :
    ∀ i, (∀ k, k ≤ i → char_at s k ≠ 47) → dirname_skip_name s i = none := by
  intro i
  induction i with
  | zero =>
    intro h
    simp [dirname_skip_name, h 0 (le_refl _)]
  | succ i ih =>
    intro h
    rw [dirname_skip_name, if_pos (Or.inl (h (i + 1) (le_refl _)))]
    exact ih (fun k hk => h k (by omega))

/-- The second loop of `dirname` stops at a `'/'` that only bytes other than `'/'`
follow. -/
theorem dirname_skip_name_some (s : List Byte) (n : Nat) (hn : char_at s n = 47) :
    ∀ k, (∀ j, n < j → j ≤ n + k → char_at s j ≠ 47) →
      dirname_skip_name s (n + k) = some n := by
  have h47 : (47 : Byte) ≠ 92 := by decide
  intro k
  induction k with
  | zero =>
    intro _
    cases n with
    | zero => simp [dirname_skip_name, hn, h47]
    | succ n => simp [dirname_skip_name, hn, h47]
  | succ k ih =>
    intro h
    rw [show n + (k + 1) = (n + k) + 1 by omega, dirname_skip_name,
      if_pos (Or.inl (h (n + k + 1) (by omega) (by omega)))]
    exact ih (fun j h1 h2 => h j h1 (by omega))

theorem dirname_skip_separators_stop (s : List Byte) (i : Nat) (h1 : char_at s i ≠ 47)
    (h2 : char_at s i ≠ 92) : dirname_skip_separators s i = some i := by
  cases i with
  | zero => simp [dirname_skip_separators, h1, h2]
  | succ i => simp [dirname_skip_separators, h1, h2]

/-- On a path without `'/'` that does not end in `'\\'`, `dirname` returns `"."`,
whether the path holds a `'\\'` or not. -/
theorem dirname_without_slash (s : List Byte) (hne : s ≠ []) (hs : ∀ c ∈ s, c ≠ 47)
    (hlast : char_at s (s.length - 1) ≠ 92) : dirname (some s) = bytes "." := by
  cases s with
  | nil => exact absurd rfl hne
  | cons c rest =>
    have hlen : (c :: rest).length - 1 < (c :: rest).length := by simp
    have h1 := dirname_skip_separators_stop (c :: rest) ((c :: rest).length - 1)
      (hs _ (char_at_mem hlen)) hlast
    have h2 := dirname_skip_name_none (c :: rest) ((c :: rest).length - 1)
      (fun k hk => hs _ (char_at_mem (by omega)))
    simp only [dirname, h1, h2]

theorem char_at_append_left (d t : List Byte) (i : Nat) (h : i < d.length) :
    char_at (d ++ t) i = char_at d i := by
  unfold char_at
  rw [List.getD_eq_getElem _ _ (by simp; omega), List.getD_eq_getElem _ _ h,
    List.getElem_append_left h]

theorem char_at_append_right (d t : List Byte) (i : Nat) :
    char_at (d ++ t) (d.length + i) = char_at t i := by
  unfold char_at
  simp [List.getD_eq_getElem?_getD, List.getElem?_append_right]

/-- On a directory name and a file name without separators joined by `'/'`,
`dirname` returns the directory name. -/
theorem dirname_slash (d f : List Byte) (hd : d ≠ []) (hf : f ≠ [])
    (hds : ∀ c ∈ d, c ≠ 47 ∧ c ≠ 92) (hfs : ∀ c ∈ f, c ≠ 47 ∧ c ≠ 92) :
    dirname (some (d ++ [47] ++ f)) = d := by
  have hdl : 0 < d.length := List.length_pos.mpr hd
  have hfl : 0 < f.length := List.length_pos.mpr hf
  have hlen : (d ++ [47] ++ f).length = d.length + 1 + f.length := by
    simp
    omega
  have hat_f : ∀ i, i < f.length → char_at (d ++ [47] ++ f) (d.length + 1 + i) = char_at f i := by
    intro i _
    have := char_at_append_right (d ++ [47]) f i
    simpa using this
  have hat_s : char_at (d ++ [47] ++ f) d.length = 47 := by
    rw [List.append_assoc]
    have := char_at_append_right d ([47] ++ f) 0
    simpa [char_at] using this
  have hat_d : ∀ i, i < d.length → char_at (d ++ [47] ++ f) i = char_at d i := by
    intro i hi
    rw [List.append_assoc]
    exact char_at_append_left d _ i hi
  have hlast : char_at (d ++ [47] ++ f) (d.length + 1 + f.length - 1) ∈ f := by
    rw [show d.length + 1 + f.length - 1 = d.length + 1 + (f.length - 1) by omega,
      hat_f _ (by omega)]
    exact char_at_mem (by omega)
  have h1 : dirname_skip_separators (d ++ [47] ++ f) (d.length + 1 + f.length - 1) =
      some (d.length + 1 + f.length - 1) :=
    dirname_skip_separators_stop _ _ (hfs _ hlast).1 (hfs _ hlast).2
  have h2 : dirname_skip_name (d ++ [47] ++ f) (d.length + 1 + f.length - 1) =
      some d.length := by
    rw [show d.length + 1 + f.length - 1 = d.length + f.length by omega]
    apply dirname_skip_name_some _ _ hat_s
    intro j hj1 hj2
    have hj : j = d.length + 1 + (j - d.length - 1) := by omega
    rw [hj, hat_f _ (by omega)]
    exact (hfs _ (char_at_mem (by omega))).1
  have hdlast : char_at (d ++ [47] ++ f) (d.length - 1) ∈ d := by
    rw [hat_d _ (by omega)]
    exact char_at_mem (by omega)
  have h3 : dirname_skip_separators (d ++ [47] ++ f) d.length = some (d.length - 1) := by
    obtain ⟨n, hn⟩ : ∃ n, d.length = n + 1 := ⟨d.length - 1, by omega⟩
    rw [hn] at hat_s hdlast ⊢
    rw [dirname_skip_separators, if_pos (Or.inl hat_s)]
    simp only [Nat.add_sub_cancel] at hdlast ⊢
    exact dirname_skip_separators_stop _ _ (hds _ hdlast).1 (hds _ hdlast).2
  cases hdf : d ++ [47] ++ f with
  | nil => simp at hdf
  | cons c rest =>
    rw [hdf] at h1 h2 h3 hlen
    simp only [List.length_cons] at hlen
    have hl2 : rest.length + 1 - 1 = d.length + 1 + f.length - 1 := by omega
    simp only [dirname, List.length_cons, hl2, h1, h2, h3]
    rw [← hdf, show d.length - 1 + 1 = d.length by omega, List.append_assoc,
      List.take_left']
    rfl

/-- C40 fails on the code: `dirname("dir\\file.c")` is `"."`, not `"dir"`, while
`dirname("dir/file.c")` is `"dir"`. The second loop goes on while
`s[i] != '/' || s[i] == '\\'`, which a `'\\'` satisfies, so it runs over the
`'\\'` down to the first byte. On a path without separator, the empty path and the
null pointer the result is `"."`. -/
theorem C40_backslash_is_no_separator :
    dirname (some (bytes "dir\\file.c")) = bytes "." ∧
      dirname (some (bytes "dir/file.c")) = bytes "dir" ∧
      dirname (some (bytes "file.c")) = bytes "." ∧ dirname (some []) = bytes "." ∧
      dirname none = bytes "." := by
  decide

/-- For every directory name and file name without separators, `dirname` of the
two joined by `'\\'` is `"."`, and of the two joined by `'/'` the directory
name. -/
theorem dirname_backslash_general (d f : List Byte) (hd : d ≠ []) (hf : f ≠ [])
    (hds : ∀ c ∈ d, c ≠ 47 ∧ c ≠ 92) (hfs : ∀ c ∈ f, c ≠ 47 ∧ c ≠ 92) :
    dirname (some (d ++ [92] ++ f)) = bytes "." ∧ dirname (some (d ++ [47] ++ f)) = d := by
  refine ⟨?_, dirname_slash d f hd hf hds hfs⟩
  have hfl : 0 < f.length := List.length_pos.mpr hf
  apply dirname_without_slash
  · simp
  · intro c hc
    simp only [List.mem_append, List.mem_singleton] at hc
    rcases hc with (hc | hc) | hc
    · exact (hds c hc).1
    · rw [hc]
      decide
    · exact (hfs c hc).1
  · have h1 : (d ++ [92] ++ f).length - 1 = (d ++ [92]).length + (f.length - 1) := by
      simp
      omega
    rw [h1, char_at_append_right]
    exact (hfs _ (char_at_mem (by omega))).2

end Chibicc

